import Mathlib

/-!
# Game-tree search with a transposition table

A shallow embedding of `transposition_table.h` and `sequential_search.h`
(and of the probe of `simple_concurrent_search.h`), followed by the
properties proved about them.

Conventions of the embedding

* `int32_t`, `int8_t` values are `Int`; `uint64_t` values are `Nat`.  The
  unsigned wrap-around that the table performs, `(key + depth) % size`, is
  written out with its `% 2 ^ 64`, the node counter with its `% 2 ^ 64`, and
  the narrowing casts `(int8_t)`, `(int16_t)`, `(uint16_t)` are the functions
  `to_int8`, `to_int16`, `to_uint16`.  Scores and window bounds are not
  wrapped: the theorems about the search assume static evaluations strictly
  between `-MAX_EVAL` and `MAX_EVAL`, under which every score is between
  `MIN_EVAL` and `-MIN_EVAL`.
* The `std::vector<Bucket>` is a function from bucket index to bucket; a
  bucket is the list of its entries (the C array `entries[4]`).
* The searcher state (`board`, `nodes`, `tt`) is passed explicitly; a method
  returns its result together with the new state.  A `for` loop with `break`
  over the move list is a recursive function over the list that carries the
  local variables of the loop.
* The recursion of the quiescence search has no explicit bound in the source;
  the embedding gives it a `fuel` and returns `none` when the fuel is used
  up.  The theorems show that a result is returned when capture sequences
  end within `fuel` plies.
* `assert` is a debug check: it is not part of the computed result, the
  asserted facts are stated and proved as properties.
* Output (`std::cout`) and the wall clock are left out; of `print_pv` the
  embedding keeps the list of the moves that it writes.
-/

namespace GametreeSearch

/-! ## transposition_table.h -/

/-- A chess move of the external library (`Chess::Move`, an integer code). -/
abbrev Move := Nat

/-- The sentinel of the external library for "no move". -/
def NO_MOVE : Move := 0

/-- The enum `Bound_Type`. -/
inductive Bound_Type where
  | UPPER_BOUND
  | LOWER_BOUND
  | EXACT
  deriving DecidableEq, Repr

open Bound_Type

/-- The struct `TT_Info`. -/
structure TT_Info where
  eval : Int
  move : Move
  depth : Int
  type : Bound_Type
  deriving DecidableEq, Repr

/-- The value-initialised `TT_Info{}`. -/
def TT_Info.zero : TT_Info := ⟨0, NO_MOVE, 0, UPPER_BOUND⟩

/-- The member `TT_Info::operator<`. -/
def TT_Info.lt (self other : TT_Info) : Bool :=
  if self.type = EXACT ∧ other.type ≠ EXACT then false
  else if self.type ≠ EXACT ∧ other.type = EXACT then true
  else decide (self.depth < other.depth)

/-- The struct `Transposition_Table::Entry`. -/
structure Entry where
  key : Nat
  value : TT_Info
  deriving DecidableEq, Repr

/-- A value-initialised entry, as the constructor of the table leaves it. -/
def Entry.zero : Entry := ⟨0, TT_Info.zero⟩

/-- The constant `entries_per_bucket`. -/
def entries_per_bucket : Nat := 4

/-- The struct `Transposition_Table::Bucket`. -/
structure Bucket where
  entries : List Entry
  deriving DecidableEq, Repr

/-- A value-initialised bucket: four zero entries. -/
def Bucket.zero : Bucket := ⟨List.replicate entries_per_bucket Entry.zero⟩

/-- The constant `size = 1 << 27`. -/
def size : Nat := 2 ^ 27

/-- The class `Transposition_Table` (the member `missed_writes` is only
touched by commented-out code and by `print_size`). -/
structure Transposition_Table where
  table : Nat → Bucket

/-- The constructor `Transposition_Table()`: `size` value-initialised buckets. -/
def Transposition_Table.new : Transposition_Table := ⟨fun _ => Bucket.zero⟩

/-- The function `pos`: `key + depth` is computed in `uint64_t`. -/
def pos (key : Nat) (depth : Int) : Nat :=
  ((((key : Int) + depth) % 2 ^ 64) % (size : Int)).toNat

/-- Assignment `table[i].entries = es`. -/
def Transposition_Table.set_entries (t : Transposition_Table) (i : Nat) (es : List Entry) :
    Transposition_Table :=
  ⟨fun j => if j = i then ⟨es⟩ else t.table j⟩

/-- First loop of `emplace`: overwrite the value of the first entry whose key
matches; `none` when the loop ends without a match. -/
def emplace_existing (key : Nat) (value : TT_Info) : List Entry → Option (List Entry)
  | [] => none
  | entry :: rest =>
    if entry.key = key then some (⟨entry.key, value⟩ :: rest)
    else (emplace_existing key value rest).map (fun r => entry :: r)

/-- Second loop of `emplace`: walk the slots, swapping the pending pair with
every slot whose value is less than the pending value. -/
def emplace_swap (key : Nat) (value : TT_Info) : List Entry → List Entry
  | [] => []
  | entry :: rest =>
    if entry.value.lt value then ⟨key, value⟩ :: emplace_swap entry.key entry.value rest
    else entry :: emplace_swap key value rest

/-- The pair left in hand after the second loop of `emplace` (it is dropped). -/
def emplace_pending (key : Nat) (value : TT_Info) : List Entry → Entry
  | [] => ⟨key, value⟩
  | entry :: rest =>
    if entry.value.lt value then emplace_pending entry.key entry.value rest
    else emplace_pending key value rest

/-- The body of `emplace` on the entries of the addressed bucket: the first
loop returns when the key is found, otherwise the second loop runs. -/
def emplace_entries (key : Nat) (value : TT_Info) (entries : List Entry) : List Entry :=
  match emplace_existing key value entries with
  | some es => es
  | none => emplace_swap key value entries

/-- The method `emplace`. -/
def Transposition_Table.emplace (t : Transposition_Table) (key : Nat) (value : TT_Info)
    (depth : Int) : Transposition_Table :=
  t.set_entries (pos key depth) (emplace_entries key value (t.table (pos key depth)).entries)

/-- The two assertions inside `emplace`, as a predicate on the call. -/
def Transposition_Table.emplace_asserts (t : Transposition_Table) (key : Nat) (value : TT_Info)
    (depth : Int) : Prop :=
  (∀ entry ∈ (t.table (pos key depth)).entries, entry.key = key → entry.value.depth = depth)
    ∧ value.depth = depth

/-- The loop of `at` over the entries of one bucket. -/
def at_entries (key : Nat) : List Entry → TT_Info
  | [] => TT_Info.zero
  | entry :: rest => if entry.key = key then entry.value else at_entries key rest

/-- The method `at`. -/
def Transposition_Table.at_ (t : Transposition_Table) (key : Nat) (depth : Int) : TT_Info :=
  at_entries key (t.table (pos key depth)).entries

/-- The loop of `contains` over the entries of one bucket. -/
def contains_entries (key : Nat) : List Entry → Bool
  | [] => false
  | entry :: rest => if entry.key = key then true else contains_entries key rest

/-- The method `contains`. -/
def Transposition_Table.contains (t : Transposition_Table) (key : Nat) (depth : Int) : Bool :=
  contains_entries key (t.table (pos key depth)).entries

/-! ## The external position facility -/

/-- The interface of the external chess library that the search uses: the
Zobrist key, the static evaluation, the two move generators
(`Movegen::legalmoves<ALL>` and `Movegen::legalmoves<CAPTURE>`) and
`makeMove` / `unmakeMove`.  The search is generic in it. -/
structure Chess (Board : Type) where
  hashKey : Board → Nat
  eval : Board → Int
  legalmoves_ALL : Board → List Move
  legalmoves_CAPTURE : Board → List Move
  makeMove : Board → Move → Board
  unmakeMove : Board → Move → Board

/-- Modelled from the spec: the method `Movelist::find` of the external move
list (the chess library is not among the sources).  The spec says "order
them by swapping the TT-hint move to the front if present", the source tests
`tt_move_index > 0`: the index of the first occurrence of the move, `-1` when
it is absent. -/
def Movelist_find : List Move → Move → Int
  | [], _ => -1
  | x :: rest, m =>
    if x = m then 0
    else if Movelist_find rest m = -1 then -1 else Movelist_find rest m + 1

/-- The statement `std::swap(moves[0], moves[i])`. -/
def Movelist_swap (moves : List Move) (i : Nat) : List Move :=
  (moves.set 0 (moves.getD i NO_MOVE)).set i (moves.getD 0 NO_MOVE)

/-- The block "search the TT move first":
`if (tt_move_index > 0) std::swap(moves[0], moves[tt_move_index])`. -/
def tt_move_first (moves : List Move) (tt_move : Move) : List Move :=
  if Movelist_find moves tt_move > 0 then Movelist_swap moves (Movelist_find moves tt_move).toNat
  else moves

/-! ## sequential_search.h -/

/-- The C constant `INT32_MIN`. -/
def INT32_MIN : Int := -2147483648

/-- The C constant `INT32_MAX`. -/
def INT32_MAX : Int := 2147483647

/-- The initial best score `INT32_MIN / 2` of the sequential searcher, also
the lower end of the window that `main` passes to `root_max`. -/
def MIN_EVAL : Int := -1073741824

/-- The upper end `INT32_MAX / 2` of the window that `main` passes. -/
def MAX_EVAL : Int := 1073741823

/-- The conversion `(int8_t) depth`. -/
def to_int8 (x : Int) : Int := (x + 128) % 256 - 128

/-- The conversion `(int16_t) alpha`. -/
def to_int16 (x : Int) : Int := (x + 32768) % 65536 - 32768

/-- The conversion `(uint16_t) depth`. -/
def to_uint16 (x : Int) : Int := x % 65536

/-- The data members of the class `Search`. -/
structure Search (Board : Type) where
  board : Board
  nodes : Nat
  tt : Transposition_Table

/-- The out-parameters and the return value of `tt_probe`. -/
structure Probe where
  cutoff : Bool
  move : Move
  alpha : Int
  beta : Int
  deriving DecidableEq, Repr

section SearchDefs

variable {Board : Type} (C : Chess Board)

/-- The statement `board.makeMove(move)`. -/
def Search.make (s : Search Board) (move : Move) : Search Board :=
  { s with board := C.makeMove s.board move }

/-- The statement `board.unmakeMove(move)`. -/
def Search.unmake (s : Search Board) (move : Move) : Search Board :=
  { s with board := C.unmakeMove s.board move }

/-- The statement `tt.emplace(board.hashKey, entry, depth)`. -/
def Search.store (s : Search Board) (entry : TT_Info) (depth : Int) : Search Board :=
  { s with tt := s.tt.emplace (C.hashKey s.board) entry depth }

/-- The fallback at the end of `tt_probe`: when no TT move was found, take
the move of the entry one depth earlier. -/
def tt_probe_hint (s : Search Board) (move : Move) (depth : Int) : Move :=
  if move = NO_MOVE then
    if s.tt.contains (C.hashKey s.board) (depth - 1) then
      (s.tt.at_ (C.hashKey s.board) (depth - 1)).move
    else move
  else move

/-- The method `Search::tt_probe`; `move`, `alpha`, `beta` are the values of
the reference parameters on entry, the result holds their values on exit. -/
def Search.tt_probe (s : Search Board) (move : Move) (alpha beta : Int) (depth : Int) : Probe :=
  if s.tt.contains (C.hashKey s.board) depth then
    let tt_entry := s.tt.at_ (C.hashKey s.board) depth
    if tt_entry.type = EXACT then
      ⟨true, move, tt_entry.eval, beta⟩
    else
      let beta1 := if tt_entry.type = UPPER_BOUND then min beta tt_entry.eval else beta
      let alpha1 := if tt_entry.type = UPPER_BOUND then alpha
        else if tt_entry.type = LOWER_BOUND then max alpha tt_entry.eval else alpha
      if alpha1 ≥ beta1 then
        ⟨true, move, tt_entry.eval, beta1⟩
      else
        ⟨false, tt_probe_hint C s tt_entry.move depth, alpha1, beta1⟩
  else
    ⟨false, tt_probe_hint C s move depth, alpha, beta⟩

/-- The capture loop of `q_search`; `child alpha beta` is the recursive call
`q_search(alpha, beta)` on the current board. -/
def q_search_loop (child : Int → Int → Search Board → Option (Int × Search Board)) (beta : Int) :
    List Move → Int → Int → Search Board → Option (Int × Search Board)
  | [], q_eval, _, s => some (q_eval, s)
  | capture :: rest, q_eval, alpha, s =>
    match child (-beta) (-alpha) (s.make C capture) with
    | none => none
    | some (r, s1) =>
      if -r > q_eval then
        if -r ≥ beta then some (-r, s1.unmake C capture)
        else q_search_loop child beta rest (-r) (if -r > alpha then -r else alpha)
          (s1.unmake C capture)
      else q_search_loop child beta rest q_eval alpha (s1.unmake C capture)

/-- The method `Search<Q_SEARCH>::q_search`.  The recursion of the source has
no explicit bound; `fuel` bounds its depth and `none` means that the bound
was hit. -/
def Search.q_search (Q_SEARCH : Bool) :
    Nat → Int → Int → Search Board → Option (Int × Search Board)
  | 0, _, _, _ => none
  | fuel + 1, alpha, beta, s =>
    let q_eval := C.eval s.board
    let s0 : Search Board := { s with nodes := (s.nodes + 1) % 2 ^ 64 }
    if !Q_SEARCH then some (q_eval, s0)
    else if q_eval ≥ beta then some (q_eval, s0)
    else
      q_search_loop C (Search.q_search Q_SEARCH fuel) beta (C.legalmoves_CAPTURE s0.board)
        q_eval (if q_eval > alpha then q_eval else alpha) s0

/-- The capture loop of `nw_q_search`; `child beta` is the recursive call
`nw_q_search(beta)` on the current board. -/
def nw_q_search_loop (child : Int → Search Board → Option (Int × Search Board)) (beta : Int) :
    List Move → Int → Search Board → Option (Int × Search Board)
  | [], q_eval, s => some (q_eval, s)
  | capture :: rest, q_eval, s =>
    match child (-beta + 1) (s.make C capture) with
    | none => none
    | some (r, s1) =>
      if -r > q_eval then
        if -r ≥ beta then some (-r, s1.unmake C capture)
        else nw_q_search_loop child beta rest (-r) (s1.unmake C capture)
      else nw_q_search_loop child beta rest q_eval (s1.unmake C capture)

/-- The method `Search<Q_SEARCH>::nw_q_search`, with the same `fuel`. -/
def Search.nw_q_search (Q_SEARCH : Bool) :
    Nat → Int → Search Board → Option (Int × Search Board)
  | 0, _, _ => none
  | fuel + 1, beta, s =>
    let q_eval := C.eval s.board
    let s0 : Search Board := { s with nodes := (s.nodes + 1) % 2 ^ 64 }
    if !Q_SEARCH then some (q_eval, s0)
    else if q_eval ≥ beta then some (q_eval, s0)
    else
      nw_q_search_loop C (Search.nw_q_search Q_SEARCH fuel) beta (C.legalmoves_CAPTURE s0.board)
        q_eval s0

/-- The move loop of `null_window_search`: `child beta` is the search of the
position after the move (`null_window_search` one depth lower, or
`nw_q_search` at depth 1).  The result is the final `eval`, the
`entry` under construction and the searcher state. -/
def null_window_search_loop (child : Int → Search Board → Option (Int × Search Board))
    (beta : Int) :
    List Move → Int → TT_Info → Search Board → Option (Int × TT_Info × Search Board)
  | [], eval, entry, s => some (eval, entry, s)
  | move :: rest, eval, entry, s =>
    match child (-beta + 1) (s.make C move) with
    | none => none
    | some (r, s1) =>
      if -r > eval then
        if -r ≥ beta then
          some (-r, { entry with move := move, type := LOWER_BOUND }, s1.unmake C move)
        else
          null_window_search_loop child beta rest (-r) { entry with move := move }
            (s1.unmake C move)
      else null_window_search_loop child beta rest eval entry (s1.unmake C move)

/-- The body of `null_window_search`, with the recursive call on the position
after a move passed as `child` (`null_window_search` one depth lower, or
`nw_q_search` when `depth > 1` fails). -/
def null_window_search_node (child : Int → Search Board → Option (Int × Search Board))
    (depth : Nat) (beta0 : Int) (s : Search Board) : Option (Int × Search Board) :=
  let p := s.tt_probe C NO_MOVE (beta0 - 1) beta0 depth
  if p.cutoff then some (p.alpha, s)
  else
    match null_window_search_loop C child p.beta
        (tt_move_first (C.legalmoves_ALL s.board) p.move) MIN_EVAL
        ⟨MIN_EVAL, NO_MOVE, to_int8 depth, UPPER_BOUND⟩ s with
    | none => none
    | some (eval, entry1, s1) => some (eval, s1.store C { entry1 with eval := eval } depth)

/-- The method `Search<Q_SEARCH>::null_window_search`; `fuel` is handed to the
quiescence search at depth 1. -/
def Search.null_window_search (Q_SEARCH : Bool) (fuel : Nat) :
    Nat → Int → Search Board → Option (Int × Search Board)
  | d + 2 =>
    null_window_search_node C (Search.null_window_search Q_SEARCH fuel (d + 1)) (d + 2)
  | depth => null_window_search_node C (Search.nw_q_search C Q_SEARCH fuel) depth

/-- The move loop of `nega_max`: `child alpha beta` is the search of the
position after the move (`nega_max` one depth lower, or `q_search`).  The
result is the final `eval`, the `entry` under construction and the searcher
state. -/
def nega_max_loop (child : Int → Int → Search Board → Option (Int × Search Board))
    (beta : Int) :
    List Move → Int → Int → TT_Info → Search Board → Option (Int × TT_Info × Search Board)
  | [], eval, _, entry, s => some (eval, entry, s)
  | move :: rest, eval, alpha, entry, s =>
    match child (-beta) (-alpha) (s.make C move) with
    | none => none
    | some (r, s1) =>
      if -r > eval then
        if -r ≥ beta then
          some (-r, { entry with move := move, type := LOWER_BOUND }, s1.unmake C move)
        else if -r > alpha then
          nega_max_loop child beta rest (-r) (-r) { entry with move := move, type := EXACT }
            (s1.unmake C move)
        else
          nega_max_loop child beta rest (-r) alpha { entry with move := move } (s1.unmake C move)
      else nega_max_loop child beta rest eval alpha entry (s1.unmake C move)

/-- The body of `nega_max`, with the recursive call on the position after a
move passed as `child` (`nega_max` one depth lower, or `q_search` when
`depth > 1` fails). -/
def nega_max_node (child : Int → Int → Search Board → Option (Int × Search Board))
    (depth : Nat) (alpha0 beta0 : Int) (s : Search Board) : Option (Int × Search Board) :=
  let p := s.tt_probe C NO_MOVE alpha0 beta0 depth
  if p.cutoff then some (p.alpha, s)
  else
    match nega_max_loop C child p.beta (C.legalmoves_ALL s.board) MIN_EVAL p.alpha
        ⟨MIN_EVAL, NO_MOVE, to_int8 depth, UPPER_BOUND⟩ s with
    | none => none
    | some (eval, entry1, s1) => some (eval, s1.store C { entry1 with eval := eval } depth)

/-- The method `Search<Q_SEARCH>::nega_max`. -/
def Search.nega_max (Q_SEARCH : Bool) (fuel : Nat) :
    Nat → Int → Int → Search Board → Option (Int × Search Board)
  | d + 2 => nega_max_node C (Search.nega_max Q_SEARCH fuel (d + 1)) (d + 2)
  | depth => nega_max_node C (Search.q_search C Q_SEARCH fuel) depth

/-- The child search of `pv_search` (and of `root_max` with `PV_Search`):
quiescence when `depth == 1`; otherwise
`search_full_window || (inner_eval = -null_window_search(-alpha, depth - 1)) > alpha`
decides whether `inner_eval = -pv_search(-beta, -alpha, depth - 1)` runs.
The result is `inner_eval`, the new `search_full_window` and the state. -/
def pv_child (quiesce : Int → Int → Search Board → Option (Int × Search Board))
    (scout : Int → Search Board → Option (Int × Search Board))
    (full : Int → Int → Search Board → Option (Int × Search Board)) (depth : Nat)
    (search_full_window : Bool) (alpha beta : Int) (s : Search Board) :
    Option (Int × Bool × Search Board) :=
  if depth = 1 then
    match quiesce (-beta) (-alpha) s with
    | none => none
    | some (r, s1) => some (-r, search_full_window, s1)
  else if search_full_window then
    match full (-beta) (-alpha) s with
    | none => none
    | some (r, s1) => some (-r, false, s1)
  else
    match scout (-alpha) s with
    | none => none
    | some (r0, s0) =>
      if -r0 > alpha then
        match full (-beta) (-alpha) s0 with
        | none => none
        | some (r, s1) => some (-r, false, s1)
      else some (-r0, search_full_window, s0)

/-- The move loop of `pv_search`; `child` is the search of the position
after the move, with `search_full_window` threaded through. -/
def pv_search_loop
    (child : Bool → Int → Int → Search Board → Option (Int × Bool × Search Board))
    (beta : Int) :
    List Move → Int → Int → Bool → TT_Info → Search Board →
      Option (Int × TT_Info × Search Board)
  | [], eval, _, _, entry, s => some (eval, entry, s)
  | move :: rest, eval, alpha, search_full_window, entry, s =>
    match child search_full_window alpha beta (s.make C move) with
    | none => none
    | some (inner_eval, sfw, s1) =>
      if inner_eval > eval then
        if inner_eval ≥ beta then
          some (inner_eval, { entry with move := move, type := LOWER_BOUND }, s1.unmake C move)
        else if inner_eval > alpha then
          pv_search_loop child beta rest inner_eval inner_eval sfw
            { entry with move := move, type := EXACT } (s1.unmake C move)
        else
          pv_search_loop child beta rest inner_eval alpha sfw { entry with move := move }
            (s1.unmake C move)
      else pv_search_loop child beta rest eval alpha sfw entry (s1.unmake C move)

/-- The body of `pv_search`, with the three searches of the position after a
move passed as `quiesce`, `scout` and `full`. -/
def pv_search_node (quiesce : Int → Int → Search Board → Option (Int × Search Board))
    (scout : Int → Search Board → Option (Int × Search Board))
    (full : Int → Int → Search Board → Option (Int × Search Board))
    (depth : Nat) (alpha0 beta0 : Int) (s : Search Board) : Option (Int × Search Board) :=
  let p := s.tt_probe C NO_MOVE alpha0 beta0 depth
  if p.cutoff then some (p.alpha, s)
  else
    match pv_search_loop C (pv_child quiesce scout full depth) p.beta
        (tt_move_first (C.legalmoves_ALL s.board) p.move) MIN_EVAL p.alpha true
        ⟨MIN_EVAL, NO_MOVE, to_int8 depth, UPPER_BOUND⟩ s with
    | none => none
    | some (eval, entry1, s1) => some (eval, s1.store C { entry1 with eval := eval } depth)

/-- The method `Search<Q_SEARCH>::pv_search`.  At depth 0 the source probes
the table and then searches every move with depth -1 (neither `depth == 1`
nor a base case applies); depths below 0 are outside the embedding, the
search of a move at depth 0 has no result, `none`. -/
def Search.pv_search (Q_SEARCH : Bool) (fuel : Nat) :
    Nat → Int → Int → Search Board → Option (Int × Search Board)
  | 0 => pv_search_node C (Search.q_search C Q_SEARCH fuel) (fun _ _ => none)
      (fun _ _ _ => none) 0
  | depth + 1 =>
    pv_search_node C (Search.q_search C Q_SEARCH fuel)
      (Search.null_window_search C Q_SEARCH fuel depth) (Search.pv_search Q_SEARCH fuel depth)
      (depth + 1)

/-- Modelled from the spec: the result record `Search_Result` (a template
parameter of `root_max`, declared outside the given sources); the spec gives
`{ move, eval: i32, depth: u16, nodes: u64, duration_seconds: f64 }`.  The
wall-clock `duration` is left out. -/
structure Search_Result where
  nodes : Nat
  move : Move
  eval : Int
  depth : Int
  deriving DecidableEq, Repr

/-- The move loop of `root_max`; `child` is the search of the position after
the move, with `search_full_window` threaded through.  The output statements
(`std::cout`, `tt.print_pv`) do not change the state.  The result is the
final `eval`, `best_move` and the state. -/
def root_max_loop
    (child : Bool → Int → Int → Search Board → Option (Int × Bool × Search Board))
    (beta : Int) :
    List Move → Int → Int → Bool → Move → Search Board → Option (Int × Move × Search Board)
  | [], eval, _, _, best_move, s => some (eval, best_move, s)
  | move :: rest, eval, alpha, search_full_window, best_move, s =>
    match child search_full_window alpha beta (s.make C move) with
    | none => none
    | some (inner_eval, sfw, s1) =>
      if inner_eval > eval then
        if inner_eval ≥ beta then some (inner_eval, move, s1.unmake C move)
        else
          root_max_loop child beta rest inner_eval
            (if inner_eval > alpha then inner_eval else alpha) sfw move (s1.unmake C move)
      else root_max_loop child beta rest eval alpha sfw best_move (s1.unmake C move)

/-- The child search of `root_max`: quiescence when `depth == 1`, `nega_max`
when `PV_Search` is off, the scout / full-window scheme of `pv_search`
otherwise. -/
def root_max_child (Q_SEARCH PV_Search : Bool) (fuel : Nat) (depth : Nat)
    (search_full_window : Bool) (alpha beta : Int) (s : Search Board) :
    Option (Int × Bool × Search Board) :=
  if depth = 1 then
    match Search.q_search C Q_SEARCH fuel (-beta) (-alpha) s with
    | none => none
    | some (r, s1) => some (-r, search_full_window, s1)
  else if !PV_Search then
    match Search.nega_max C Q_SEARCH fuel (depth - 1) (-beta) (-alpha) s with
    | none => none
    | some (r, s1) => some (-r, search_full_window, s1)
  else
    pv_child (Search.q_search C Q_SEARCH fuel) (Search.null_window_search C Q_SEARCH fuel (depth - 1))
      (Search.pv_search C Q_SEARCH fuel (depth - 1)) depth search_full_window alpha beta s

/-- The method `Search<Q_SEARCH>::root_max<Search_Result, PV_Search>`, for
`depth > 0` (the source asserts it).  The result is the returned record, the
value of the reference parameter `result` on exit, and the searcher state. -/
def Search.root_max (Q_SEARCH PV_Search : Bool) (fuel : Nat) (alpha0 beta0 : Int) (depth : Nat)
    (result : Search_Result) (s : Search Board) :
    Option (Search_Result × Search_Result × Search Board) :=
  let s0 : Search Board := { s with nodes := 0 }
  let p := s0.tt_probe C NO_MOVE alpha0 beta0 depth
  if p.cutoff then
    some (⟨0, p.move, to_int16 p.alpha, to_uint16 depth⟩, result, s0)
  else
    let moves := tt_move_first (C.legalmoves_ALL s0.board) p.move
    match root_max_loop C (root_max_child C Q_SEARCH PV_Search fuel depth) p.beta moves
        MIN_EVAL p.alpha true NO_MOVE s0 with
    | none => none
    | some (eval, best_move, s1) =>
      let s2 := s1.store C ⟨eval, best_move, to_int8 depth, EXACT⟩ depth
      let r : Search_Result := ⟨s2.nodes, best_move, eval, to_uint16 depth⟩
      some (r, r, s2)

end SearchDefs

/-! ## simple_concurrent_search.h -/

/-- Modelled from the spec: the class `Locking_TT` of `locking_tt.h`, which is
not among the given sources.  The spec describes one table, "a contiguous
array of buckets" with the operations `probe` and `store`; the model is the
table of `transposition_table.h`. -/
abbrev Locking_TT := Transposition_Table

/-- Modelled from the spec: the method `Locking_TT::get_if_exists` of
`locking_tt.h`, which is not among the given sources.  The spec words:
"`probe(key, depth)`: scan the 4 entries of `bucket[pos(key, depth)]`; return
the info of the entry whose key matches, else none".  The result is the
returned flag and the value of the out-parameter on exit. -/
def Locking_TT_get_if_exists (t : Locking_TT) (key : Nat) (depth : Int) (out : TT_Info) :
    Bool × TT_Info :=
  if t.contains key depth then (true, t.at_ key depth) else (false, out)

/-- The data members of the class `Search_Thread`; `finished` is the value
of the shared atomic flag. -/
structure Search_Thread (Board : Type) where
  board : Board
  nodes : Nat
  tt : Locking_TT
  finished : Bool

/-- The method `Search_Thread::tt_probe`. -/
def Search_Thread.tt_probe {Board : Type} (C : Chess Board) (s : Search_Thread Board)
    (move : Move) (alpha beta : Int) (depth : Int) : Probe :=
  let r := Locking_TT_get_if_exists s.tt (C.hashKey s.board) depth TT_Info.zero
  let tt_entry := r.2
  let hint (move : Move) : Move :=
    if move = NO_MOVE then
      let r1 := Locking_TT_get_if_exists s.tt (C.hashKey s.board) (depth - 1) tt_entry
      if r1.1 then r1.2.move else move
    else move
  if r.1 then
    if tt_entry.type = EXACT then
      ⟨true, move, tt_entry.eval, beta⟩
    else
      let beta1 := if tt_entry.type = UPPER_BOUND then min beta tt_entry.eval else beta
      let alpha1 := if tt_entry.type = UPPER_BOUND then alpha
        else if tt_entry.type = LOWER_BOUND then max alpha tt_entry.eval else alpha
      if alpha1 ≥ beta1 then
        ⟨true, move, tt_entry.eval, beta1⟩
      else
        ⟨false, hint tt_entry.move, alpha1, beta1⟩
  else
    ⟨false, hint move, alpha, beta⟩


/-! ### The searches of `Search_Thread` -/

/-- Modelled from the spec: the constant `MAX_EVAL` of the concurrent
searcher, declared outside the given sources (`locking_tt.h` is not among
them).  The spec says "recommended: `MAX_EVAL = i32::MAX / 2`". -/
def Search_Thread.MAX_EVAL : Int := 1073741823

/-- Modelled from the spec: the constant `MIN_EVAL` of the concurrent
searcher, declared outside the given sources.  The spec says
"`MIN_EVAL = -MAX_EVAL`". -/
def Search_Thread.MIN_EVAL : Int := -1073741823

/-- Why a search of the model has no result: the quiescence `fuel` ran out,
or an `Eval_Type` operation left the range of its type. -/
inductive Fault
  | out_of_fuel
  | overflow
  deriving DecidableEq, Repr

/-- Modelled from the spec: the type `Eval_Type` of the concurrent searcher,
declared outside the given sources; the spec gives evals as `i32`.  The
result of an arithmetic operation is `x` when `x` is a signed 32-bit value,
and the fault `overflow` otherwise. -/
def Eval_Type (x : Int) : Except Fault Int :=
  if INT32_MIN ≤ x ∧ x ≤ INT32_MAX then .ok x else .error .overflow

/-- Modelled from the spec: the method `Locking_TT::emplace` of
`locking_tt.h`, which is not among the given sources.  The spec describes one
`store(key, info, depth)` for the table; the model is `emplace` of
`transposition_table.h`. -/
def Locking_TT_emplace (t : Locking_TT) (key : Nat) (value : TT_Info) (depth : Int) :
    Locking_TT :=
  t.emplace key value depth

/-- The state on which the searches of one `Search_Thread` run: its data
members and, as `mt`, the outputs that the thread-local generator `mt` of
`generate_shuffled_moves` has still to give (`mt 0` is the next one). -/
structure Thread (Board : Type) extends Search_Thread Board where
  mt : Nat → Nat

section ThreadDefs

variable {Board : Type} (C : Chess Board)

/-- The statement `board.makeMove(move)`. -/
def Thread.make (s : Thread Board) (move : Move) : Thread Board :=
  { s with board := C.makeMove s.board move }

/-- The statement `board.unmakeMove(move)`. -/
def Thread.unmake (s : Thread Board) (move : Move) : Thread Board :=
  { s with board := C.unmakeMove s.board move }

/-- The statement `tt.emplace(board.hashKey, entry, depth)`. -/
def Thread.store (s : Thread Board) (entry : TT_Info) (depth : Int) : Thread Board :=
  { s with tt := Locking_TT_emplace s.tt (C.hashKey s.board) entry depth }

/-- The loop of `generate_shuffled_moves` from index `i` on, with `n` rounds
to go: `randomValue = i + (mt() % (moves.size - i))`, then `moves[randomValue]`
and `moves[i]` change places. -/
def shuffle_from : Nat → Nat → List Move → (Nat → Nat) → List Move × (Nat → Nat)
  | 0, _, moves, mt => (moves, mt)
  | n + 1, i, moves, mt =>
    let randomValue := i + mt 0 % (moves.length - i)
    let randomElement := moves.getD randomValue NO_MOVE
    shuffle_from n (i + 1)
      ((moves.set randomValue (moves.getD i NO_MOVE)).set i randomElement)
      (fun k => mt (k + 1))

/-- The method `Search_Thread::generate_shuffled_moves<ALL>`: the legal moves
in the order that the loop leaves, and the state with the generator
advanced. -/
def Thread.generate_shuffled_moves (s : Thread Board) : List Move × Thread Board :=
  let r := shuffle_from (C.legalmoves_ALL s.board).length 0 (C.legalmoves_ALL s.board) s.mt
  (r.1, { s with mt := r.2 })

/-- The capture loop of `Search_Thread::q_search`; `child alpha beta` is the
recursive call on the current board. -/
def Search_Thread.q_search_loop
    (child : Int → Int → Thread Board → Except Fault (Int × Thread Board)) (beta : Int) :
    List Move → Int → Int → Thread Board → Except Fault (Int × Thread Board)
  | [], q_eval, _, s => .ok (q_eval, s)
  | capture :: rest, q_eval, alpha, s => do
    let nbeta ← Eval_Type (-beta)
    let nalpha ← Eval_Type (-alpha)
    let r ← child nbeta nalpha (s.make C capture)
    let inner_eval ← Eval_Type (-r.1)
    let s2 := r.2.unmake C capture
    if inner_eval > q_eval then
      if inner_eval ≥ beta then .ok (inner_eval, s2)
      else if s2.finished then .ok (inner_eval, s2)
      else
        Search_Thread.q_search_loop child beta rest inner_eval
          (if inner_eval > alpha then inner_eval else alpha) s2
    else if s2.finished then .ok (q_eval, s2)
    else Search_Thread.q_search_loop child beta rest q_eval alpha s2

/-- The method `Search_Thread<Q_SEARCH, strategy>::q_search`; `fuel` bounds
the depth of the recursion as in `Search.q_search`. -/
def Search_Thread.q_search (Q_SEARCH : Bool) :
    Nat → Int → Int → Thread Board → Except Fault (Int × Thread Board)
  | 0, _, _, _ => .error .out_of_fuel
  | fuel + 1, alpha, beta, s =>
    let q_eval :=
      if C.eval s.board < Search_Thread.MIN_EVAL then Search_Thread.MIN_EVAL else C.eval s.board
    let s0 : Thread Board := { s with nodes := (s.nodes + 1) % 2 ^ 64 }
    if !Q_SEARCH then .ok (q_eval, s0)
    else if q_eval ≥ beta then .ok (q_eval, s0)
    else
      Search_Thread.q_search_loop C (Search_Thread.q_search Q_SEARCH fuel) beta
        (C.legalmoves_CAPTURE s0.board) q_eval (if q_eval > alpha then q_eval else alpha) s0

/-- The capture loop of `Search_Thread::nw_q_search`. -/
def Search_Thread.nw_q_search_loop
    (child : Int → Thread Board → Except Fault (Int × Thread Board)) (beta : Int) :
    List Move → Int → Thread Board → Except Fault (Int × Thread Board)
  | [], q_eval, s => .ok (q_eval, s)
  | capture :: rest, q_eval, s => do
    let nbeta ← Eval_Type (-beta)
    let nbeta1 ← Eval_Type (nbeta + 1)
    let r ← child nbeta1 (s.make C capture)
    let inner_eval ← Eval_Type (-r.1)
    let s2 := r.2.unmake C capture
    if inner_eval > q_eval then
      if inner_eval ≥ beta then .ok (inner_eval, s2)
      else if s2.finished then .ok (inner_eval, s2)
      else Search_Thread.nw_q_search_loop child beta rest inner_eval s2
    else if s2.finished then .ok (q_eval, s2)
    else Search_Thread.nw_q_search_loop child beta rest q_eval s2

/-- The method `Search_Thread<Q_SEARCH, strategy>::nw_q_search`. -/
def Search_Thread.nw_q_search (Q_SEARCH : Bool) :
    Nat → Int → Thread Board → Except Fault (Int × Thread Board)
  | 0, _, _ => .error .out_of_fuel
  | fuel + 1, beta, s =>
    let q_eval :=
      if C.eval s.board < Search_Thread.MIN_EVAL then Search_Thread.MIN_EVAL else C.eval s.board
    let s0 : Thread Board := { s with nodes := (s.nodes + 1) % 2 ^ 64 }
    if !Q_SEARCH then .ok (q_eval, s0)
    else if q_eval ≥ beta then .ok (q_eval, s0)
    else
      Search_Thread.nw_q_search_loop C (Search_Thread.nw_q_search Q_SEARCH fuel) beta
        (C.legalmoves_CAPTURE s0.board) q_eval s0

/-- What a move loop of `Search_Thread` leaves: `stopped` tells that the loop
was left by `if (finished) return eval;`, before the `emplace` that follows
the loop. -/
structure Loop_Exit (Board : Type) where
  stopped : Bool
  eval : Int
  entry : TT_Info
  state : Thread Board

/-- The move loop of `Search_Thread::null_window_search`. -/
def Search_Thread.null_window_search_loop
    (child : Int → Thread Board → Except Fault (Int × Thread Board)) (beta : Int) :
    List Move → Int → TT_Info → Thread Board → Except Fault (Loop_Exit Board)
  | [], eval, entry, s => .ok ⟨false, eval, entry, s⟩
  | move :: rest, eval, entry, s => do
    let nbeta ← Eval_Type (-beta)
    let nbeta1 ← Eval_Type (nbeta + 1)
    let r ← child nbeta1 (s.make C move)
    let inner_eval ← Eval_Type (-r.1)
    let s2 := r.2.unmake C move
    if inner_eval > eval then
      if inner_eval ≥ beta then
        .ok ⟨false, inner_eval, { entry with move := move, type := LOWER_BOUND }, s2⟩
      else if s2.finished then .ok ⟨true, inner_eval, { entry with move := move }, s2⟩
      else
        Search_Thread.null_window_search_loop child beta rest inner_eval
          { entry with move := move } s2
    else if s2.finished then .ok ⟨true, eval, entry, s2⟩
    else Search_Thread.null_window_search_loop child beta rest eval entry s2

/-- The body of `Search_Thread::null_window_search`, with the recursive call
on the position after a move passed as `child`. -/
def Search_Thread.null_window_search_node
    (child : Int → Thread Board → Except Fault (Int × Thread Board))
    (depth : Nat) (beta0 : Int) (s : Thread Board) : Except Fault (Int × Thread Board) := do
  let alpha0 ← Eval_Type (beta0 - 1)
  let p := s.toSearch_Thread.tt_probe C NO_MOVE alpha0 beta0 depth
  if p.cutoff then .ok (p.alpha, s)
  else
    let g := s.generate_shuffled_moves C
    let x ← Search_Thread.null_window_search_loop C child p.beta (tt_move_first g.1 p.move)
      Search_Thread.MIN_EVAL ⟨Search_Thread.MIN_EVAL, p.move, to_int8 depth, UPPER_BOUND⟩ g.2
    if x.stopped then .ok (x.eval, x.state)
    else .ok (x.eval, x.state.store C { x.entry with eval := x.eval } depth)

/-- The method `Search_Thread<Q_SEARCH, strategy>::null_window_search`. -/
def Search_Thread.null_window_search (Q_SEARCH : Bool) (fuel : Nat) :
    Nat → Int → Thread Board → Except Fault (Int × Thread Board)
  | d + 2 =>
    Search_Thread.null_window_search_node C
      (Search_Thread.null_window_search Q_SEARCH fuel (d + 1)) (d + 2)
  | depth =>
    Search_Thread.null_window_search_node C (Search_Thread.nw_q_search C Q_SEARCH fuel) depth

/-- The move loop of `Search_Thread::nega_max`. -/
def Search_Thread.nega_max_loop
    (child : Int → Int → Thread Board → Except Fault (Int × Thread Board)) (beta : Int) :
    List Move → Int → Int → TT_Info → Thread Board → Except Fault (Loop_Exit Board)
  | [], eval, _, entry, s => .ok ⟨false, eval, entry, s⟩
  | move :: rest, eval, alpha, entry, s => do
    let nbeta ← Eval_Type (-beta)
    let nalpha ← Eval_Type (-alpha)
    let r ← child nbeta nalpha (s.make C move)
    let inner_eval ← Eval_Type (-r.1)
    let s2 := r.2.unmake C move
    if inner_eval > eval then
      if inner_eval ≥ beta then
        .ok ⟨false, inner_eval, { entry with move := move, type := LOWER_BOUND }, s2⟩
      else if inner_eval > alpha then
        if s2.finished then
          .ok ⟨true, inner_eval, { entry with move := move, type := EXACT }, s2⟩
        else
          Search_Thread.nega_max_loop child beta rest inner_eval inner_eval
            { entry with move := move, type := EXACT } s2
      else if s2.finished then .ok ⟨true, inner_eval, { entry with move := move }, s2⟩
      else
        Search_Thread.nega_max_loop child beta rest inner_eval alpha { entry with move := move }
          s2
    else if s2.finished then .ok ⟨true, eval, entry, s2⟩
    else Search_Thread.nega_max_loop child beta rest eval alpha entry s2

/-- The body of `Search_Thread::nega_max` (no "TT move first" here). -/
def Search_Thread.nega_max_node
    (child : Int → Int → Thread Board → Except Fault (Int × Thread Board))
    (depth : Nat) (alpha0 beta0 : Int) (s : Thread Board) :
    Except Fault (Int × Thread Board) := do
  let p := s.toSearch_Thread.tt_probe C NO_MOVE alpha0 beta0 depth
  if p.cutoff then .ok (p.alpha, s)
  else
    let g := s.generate_shuffled_moves C
    let x ← Search_Thread.nega_max_loop C child p.beta g.1 Search_Thread.MIN_EVAL p.alpha
      ⟨Search_Thread.MIN_EVAL, p.move, to_int8 depth, UPPER_BOUND⟩ g.2
    if x.stopped then .ok (x.eval, x.state)
    else .ok (x.eval, x.state.store C { x.entry with eval := x.eval } depth)

/-- The method `Search_Thread<Q_SEARCH, strategy>::nega_max`. -/
def Search_Thread.nega_max (Q_SEARCH : Bool) (fuel : Nat) :
    Nat → Int → Int → Thread Board → Except Fault (Int × Thread Board)
  | d + 2 => Search_Thread.nega_max_node C (Search_Thread.nega_max Q_SEARCH fuel (d + 1)) (d + 2)
  | depth => Search_Thread.nega_max_node C (Search_Thread.q_search C Q_SEARCH fuel) depth

/-- The child search of `Search_Thread::pv_search` (and of `root_max` with
`PV_Search`): quiescence when `depth == 1`; otherwise
`search_full_window || (inner_eval = -null_window_search(-alpha, depth - 1)) > alpha`
decides whether `inner_eval = -pv_search(-beta, -alpha, depth - 1)` runs.
The result is `inner_eval`, the new `search_full_window` and the state. -/
def Search_Thread.pv_child
    (quiesce : Int → Int → Thread Board → Except Fault (Int × Thread Board))
    (scout : Int → Thread Board → Except Fault (Int × Thread Board))
    (full : Int → Int → Thread Board → Except Fault (Int × Thread Board)) (depth : Nat)
    (search_full_window : Bool) (alpha beta : Int) (s : Thread Board) :
    Except Fault (Int × Bool × Thread Board) :=
  if depth = 1 then do
    let nbeta ← Eval_Type (-beta)
    let nalpha ← Eval_Type (-alpha)
    let r ← quiesce nbeta nalpha s
    let inner_eval ← Eval_Type (-r.1)
    .ok (inner_eval, search_full_window, r.2)
  else if search_full_window then do
    let nbeta ← Eval_Type (-beta)
    let nalpha ← Eval_Type (-alpha)
    let r ← full nbeta nalpha s
    let inner_eval ← Eval_Type (-r.1)
    .ok (inner_eval, false, r.2)
  else do
    let nalpha ← Eval_Type (-alpha)
    let r0 ← scout nalpha s
    let inner_eval0 ← Eval_Type (-r0.1)
    if inner_eval0 > alpha then do
      let nbeta ← Eval_Type (-beta)
      let nalpha ← Eval_Type (-alpha)
      let r ← full nbeta nalpha r0.2
      let inner_eval ← Eval_Type (-r.1)
      .ok (inner_eval, false, r.2)
    else .ok (inner_eval0, search_full_window, r0.2)

/-- The move loop of `Search_Thread::pv_search`. -/
def Search_Thread.pv_search_loop
    (child : Bool → Int → Int → Thread Board → Except Fault (Int × Bool × Thread Board))
    (beta : Int) :
    List Move → Int → Int → Bool → TT_Info → Thread Board → Except Fault (Loop_Exit Board)
  | [], eval, _, _, entry, s => .ok ⟨false, eval, entry, s⟩
  | move :: rest, eval, alpha, search_full_window, entry, s => do
    let r ← child search_full_window alpha beta (s.make C move)
    let inner_eval := r.1
    let s2 := r.2.2.unmake C move
    if inner_eval > eval then
      if inner_eval ≥ beta then
        .ok ⟨false, inner_eval, { entry with move := move, type := LOWER_BOUND }, s2⟩
      else if inner_eval > alpha then
        if s2.finished then
          .ok ⟨true, inner_eval, { entry with move := move, type := EXACT }, s2⟩
        else
          Search_Thread.pv_search_loop child beta rest inner_eval inner_eval r.2.1
            { entry with move := move, type := EXACT } s2
      else if s2.finished then .ok ⟨true, inner_eval, { entry with move := move }, s2⟩
      else
        Search_Thread.pv_search_loop child beta rest inner_eval alpha r.2.1
          { entry with move := move } s2
    else if s2.finished then .ok ⟨true, eval, entry, s2⟩
    else Search_Thread.pv_search_loop child beta rest eval alpha r.2.1 entry s2

/-- The body of `Search_Thread::pv_search`. -/
def Search_Thread.pv_search_node
    (quiesce : Int → Int → Thread Board → Except Fault (Int × Thread Board))
    (scout : Int → Thread Board → Except Fault (Int × Thread Board))
    (full : Int → Int → Thread Board → Except Fault (Int × Thread Board))
    (depth : Nat) (alpha0 beta0 : Int) (s : Thread Board) :
    Except Fault (Int × Thread Board) := do
  let p := s.toSearch_Thread.tt_probe C NO_MOVE alpha0 beta0 depth
  if p.cutoff then .ok (p.alpha, s)
  else
    let g := s.generate_shuffled_moves C
    let x ← Search_Thread.pv_search_loop C (Search_Thread.pv_child quiesce scout full depth)
      p.beta (tt_move_first g.1 p.move) Search_Thread.MIN_EVAL p.alpha true
      ⟨Search_Thread.MIN_EVAL, p.move, to_int8 depth, UPPER_BOUND⟩ g.2
    if x.stopped then .ok (x.eval, x.state)
    else .ok (x.eval, x.state.store C { x.entry with eval := x.eval } depth)

/-- The method `Search_Thread<Q_SEARCH, strategy>::pv_search`; as for
`Search.pv_search`, the search of a move at depth 0 has no result. -/
def Search_Thread.pv_search (Q_SEARCH : Bool) (fuel : Nat) :
    Nat → Int → Int → Thread Board → Except Fault (Int × Thread Board)
  | 0 =>
    Search_Thread.pv_search_node C (Search_Thread.q_search C Q_SEARCH fuel)
      (fun _ _ => .error .out_of_fuel) (fun _ _ _ => .error .out_of_fuel) 0
  | depth + 1 =>
    Search_Thread.pv_search_node C (Search_Thread.q_search C Q_SEARCH fuel)
      (Search_Thread.null_window_search C Q_SEARCH fuel depth)
      (Search_Thread.pv_search Q_SEARCH fuel depth) (depth + 1)

/-- What the move loop of `Search_Thread::root_max` leaves; `stopped` tells
that the loop was left by the `return` under `if (finished)`. -/
structure Root_Exit (Board : Type) where
  stopped : Bool
  eval : Int
  best_move : Move
  state : Thread Board

/-- The move loop of `Search_Thread::root_max` (the debug output does not
change the state). -/
def Search_Thread.root_max_loop
    (child : Bool → Int → Int → Thread Board → Except Fault (Int × Bool × Thread Board))
    (beta : Int) :
    List Move → Int → Int → Bool → Move → Thread Board → Except Fault (Root_Exit Board)
  | [], eval, _, _, best_move, s => .ok ⟨false, eval, best_move, s⟩
  | move :: rest, eval, alpha, search_full_window, best_move, s => do
    let r ← child search_full_window alpha beta (s.make C move)
    let inner_eval := r.1
    let s2 := r.2.2.unmake C move
    if inner_eval > eval then
      if inner_eval ≥ beta then .ok ⟨false, inner_eval, move, s2⟩
      else if s2.finished then .ok ⟨true, inner_eval, move, s2⟩
      else
        Search_Thread.root_max_loop child beta rest inner_eval
          (if inner_eval > alpha then inner_eval else alpha) r.2.1 move s2
    else if s2.finished then .ok ⟨true, eval, best_move, s2⟩
    else Search_Thread.root_max_loop child beta rest eval alpha r.2.1 best_move s2

/-- The child search of `Search_Thread::root_max`. -/
def Search_Thread.root_max_child (Q_SEARCH PV_Search : Bool) (fuel : Nat) (depth : Nat)
    (search_full_window : Bool) (alpha beta : Int) (s : Thread Board) :
    Except Fault (Int × Bool × Thread Board) :=
  if depth = 1 then do
    let nbeta ← Eval_Type (-beta)
    let nalpha ← Eval_Type (-alpha)
    let r ← Search_Thread.q_search C Q_SEARCH fuel nbeta nalpha s
    let inner_eval ← Eval_Type (-r.1)
    .ok (inner_eval, search_full_window, r.2)
  else if !PV_Search then do
    let nbeta ← Eval_Type (-beta)
    let nalpha ← Eval_Type (-alpha)
    let r ← Search_Thread.nega_max C Q_SEARCH fuel (depth - 1) nbeta nalpha s
    let inner_eval ← Eval_Type (-r.1)
    .ok (inner_eval, search_full_window, r.2)
  else
    Search_Thread.pv_child (Search_Thread.q_search C Q_SEARCH fuel)
      (Search_Thread.null_window_search C Q_SEARCH fuel (depth - 1))
      (Search_Thread.pv_search C Q_SEARCH fuel (depth - 1)) depth search_full_window alpha beta s

/-- The method `Search_Thread<Q_SEARCH, strategy>::root_max<Search_Result,
PV_Search>`, for `depth > 0` (the source asserts it), run with no other
thread at work.  The result is the value of the reference parameters
`result` and `total_node_count` on exit and the state; the field `finished`
of the state is the shared flag, which `finished.exchange(true)` sets. -/
def Search_Thread.root_max (Q_SEARCH PV_Search : Bool) (fuel : Nat) (alpha0 beta0 : Int)
    (depth : Nat) (result : Search_Result) (total_node_count : Nat) (s : Thread Board) :
    Except Fault (Search_Result × Nat × Thread Board) := do
  let s0 : Thread Board := { s with nodes := 0 }
  let p := s0.toSearch_Thread.tt_probe C NO_MOVE alpha0 beta0 depth
  if p.cutoff then .ok (result, total_node_count, s0)
  else
    let g := s0.generate_shuffled_moves C
    let x ← Search_Thread.root_max_loop C
      (Search_Thread.root_max_child C Q_SEARCH PV_Search fuel depth) p.beta
      (tt_move_first g.1 p.move) Search_Thread.MIN_EVAL p.alpha true NO_MOVE g.2
    if x.stopped then .ok (result, (total_node_count + x.state.nodes) % 2 ^ 64, x.state)
    else
      let s3 := x.state.store C ⟨x.eval, x.best_move, to_int8 depth, EXACT⟩ depth
      let i_am_first := !s3.finished
      let s4 : Thread Board := { s3 with finished := true }
      let result1 : Search_Result :=
        if i_am_first then
          { result with move := x.best_move, eval := x.eval, depth := to_uint16 depth }
        else result
      .ok (result1, (total_node_count + s4.nodes) % 2 ^ 64, s4)

end ThreadDefs
/-! ## transposition_table.h: `print_pv` -/

/-- The method `print_pv`: the moves that its loop writes to `std::cout`, in
the order in which they are written (the conversion `convertMoveToUci` of a
move to text, the separating blanks and the final line end are left out).
The loop works on `copy`, a copy of the board that is passed in.  `fuel`
bounds the number of times that the loop condition `depth > 0` is evaluated;
`none` means that the bound was hit. -/
def Transposition_Table.print_pv {Board : Type} (t : Transposition_Table) (C : Chess Board) :
    Nat → Board → Int → Option (List Move)
  | 0, _, _ => none
  | fuel + 1, copy, depth =>
    if depth > 0 then
      if t.contains (C.hashKey copy) depth then
        let move := (t.at_ (C.hashKey copy) depth).move
        (Transposition_Table.print_pv t C fuel (C.makeMove copy move) (depth - 1)).map
          (fun written => move :: written)
      else some []
    else some []
/-! ## Reference definitions and example inputs -/

/-- One call `emplace(key, value, depth)`. -/
structure Emplace_Call where
  key : Nat
  value : TT_Info
  depth : Int
  deriving DecidableEq, Repr

/-- The table after a sequence of `emplace` calls. -/
def run_emplace (t : Transposition_Table) : List Emplace_Call → Transposition_Table
  | [] => t
  | c :: rest => run_emplace (t.emplace c.key c.value c.depth) rest

/-- Example: four stores of EXACT depth-1 results whose keys all fall into
bucket 6 at depth 1, filling that bucket. -/
def full_bucket_calls : List Emplace_Call :=
  [⟨134217733, ⟨10, 1, 1, EXACT⟩, 1⟩, ⟨268435461, ⟨20, 2, 1, EXACT⟩, 1⟩,
    ⟨402653189, ⟨30, 3, 1, EXACT⟩, 1⟩, ⟨536870917, ⟨40, 4, 1, EXACT⟩, 1⟩]

/-- Example: the table reached from the empty one by `full_bucket_calls`. -/
def full_bucket_table : Transposition_Table :=
  run_emplace Transposition_Table.new full_bucket_calls

/-- Example: the four stores of `full_bucket_calls` followed by a store for a
fifth key of the same bucket. -/
def overfull_bucket_calls : List Emplace_Call :=
  full_bucket_calls ++ [⟨5, ⟨7, 9, 1, UPPER_BOUND⟩, 1⟩]

/-- Example: the four stores of `full_bucket_calls`, then a store of an
UPPER_BOUND depth-9 result for a new key of the same bucket (it is dropped),
then a store for the first key again that turns its EXACT depth-1 entry into
an UPPER_BOUND depth-1 entry. -/
def downgrade_calls : List Emplace_Call :=
  full_bucket_calls ++
    [⟨671088637, ⟨7, 9, 9, UPPER_BOUND⟩, 9⟩, ⟨134217733, ⟨-3, 0, 1, UPPER_BOUND⟩, 1⟩]

/-- The invariant behind the depth property of the table: every non-empty entry sits in the bucket that
`pos` assigns to its key and its stored depth, and that depth is in
`0 .. 127`. -/
def depth_invariant (t : Transposition_Table) : Prop :=
  ∀ i, ∀ e ∈ (t.table i).entries, e.key ≠ 0 →
    (0 ≤ e.value.depth ∧ e.value.depth ≤ 127) ∧ pos e.key e.value.depth = i

/-- The pair `(key, info)` that a call stores. -/
def Emplace_Call.entry (c : Emplace_Call) : Entry := ⟨c.key, c.value⟩

/-- Reading of "the bucket holds the four highest items stored so far, ties
allowed, padded with empty slots": the bucket together with some list `rest`
of dropped items is a rearrangement of the stored items plus the four initial
empty slots, and no dropped item is strictly above an item of the bucket. -/
def holds_highest (bucket stored : List Entry) : Prop :=
  ∃ rest : List Entry,
    List.Perm (bucket ++ rest) (stored ++ List.replicate entries_per_bucket Entry.zero) ∧
      ∀ x ∈ rest, ∀ y ∈ bucket, y.value.lt x.value = false

/-- The window bound `beta` after the adjustment of a probe hit:
`beta := min(beta, entry.eval)` for an UPPER_BOUND entry. -/
def adjusted_beta (entry : TT_Info) (beta : Int) : Int :=
  if entry.type = UPPER_BOUND then min beta entry.eval else beta

/-- The window bound `alpha` after the adjustment of a probe hit:
`alpha := max(alpha, entry.eval)` for a LOWER_BOUND entry. -/
def adjusted_alpha (entry : TT_Info) (alpha : Int) : Int :=
  if entry.type = LOWER_BOUND then max alpha entry.eval else alpha

/-- The move hint taken from the entry one depth earlier, `fallback` when
there is none. -/
def shallower_hint (t : Transposition_Table) (key : Nat) (depth : Int) (fallback : Move) : Move :=
  if t.contains key (depth - 1) then (t.at_ key (depth - 1)).move else fallback

/-- What C10 says about a probe result `p` for the table `t`, the position
key `key`, the inputs `move`, `alpha`, `beta`, `depth`; `hit_move` is the
value that the claim gives to the move out-parameter on a hit without
cutoff. -/
def probe_rule (t : Transposition_Table) (key : Nat) (move : Move) (alpha beta : Int)
    (depth : Int) (hit_move : Move) (p : Probe) : Prop :=
  (p.cutoff = true ↔
      t.contains key depth = true ∧
        ((t.at_ key depth).type = EXACT ∨
          adjusted_alpha (t.at_ key depth) alpha ≥ adjusted_beta (t.at_ key depth) beta)) ∧
    (p.cutoff = true → p.alpha = (t.at_ key depth).eval ∧ p.move = move) ∧
    (p.cutoff = false → t.contains key depth = true →
      p.alpha = adjusted_alpha (t.at_ key depth) alpha ∧
        p.beta = adjusted_beta (t.at_ key depth) beta ∧ p.alpha < p.beta ∧ p.move = hit_move)

/-- Example: a position facility with a single board of hash key 5. -/
def one_board : Chess Unit where
  hashKey := fun _ => 5
  eval := fun _ => 0
  legalmoves_ALL := fun _ => []
  legalmoves_CAPTURE := fun _ => []
  makeMove := fun b _ => b
  unmakeMove := fun b _ => b

/-- Example: a table holding, for key 5, an UPPER_BOUND entry without move at
depth 2 and an entry with move 7 at depth 1. -/
def hint_table : Transposition_Table :=
  (Transposition_Table.new.emplace 5 ⟨100, NO_MOVE, 2, UPPER_BOUND⟩ 2).emplace 5
    ⟨3, 7, 1, EXACT⟩ 1

section SearchSpec

variable {Board : Type} (C : Chess Board)

/-- The quiescence value of a board: the static evaluation, or (with
`Q_SEARCH`) the best of the static evaluation and the negated quiescence
values after each capture.  `fuel` bounds the capture depth as in
`Search.q_search`. -/
def quiescence_value (Q_SEARCH : Bool) : Nat → Board → Int
  | 0, b => C.eval b
  | fuel + 1, b =>
    if !Q_SEARCH then C.eval b
    else (C.legalmoves_CAPTURE b).foldl
      (fun acc m => max acc (-quiescence_value Q_SEARCH fuel (C.makeMove b m))) (C.eval b)

/-- The full-window quiescence value `M_0`: what `q_search(MIN_EVAL, MAX_EVAL)`
returns on the board (0 when the fuel does not suffice). -/
def full_window_quiescence (Q_SEARCH : Bool) (fuel : Nat) (b : Board) : Int :=
  match Search.q_search C Q_SEARCH fuel MIN_EVAL MAX_EVAL ⟨b, 0, Transposition_Table.new⟩ with
  | some (v, _) => v
  | none => 0

/-- The depth-`d` negamax value `M_d`: `M_0` is the full-window quiescence
value; `M_{d+1}(P)` is the maximum over the legal moves `m` of
`-M_d(P.m)`, and the minimum score `MIN_EVAL` when `P` has no legal move. -/
def negamax_value (Q_SEARCH : Bool) (fuel : Nat) : Nat → Board → Int
  | 0, b => full_window_quiescence C Q_SEARCH fuel b
  | d + 1, b =>
    match C.legalmoves_ALL b with
    | [] => MIN_EVAL
    | m :: rest =>
      rest.foldl (fun acc m1 => max acc (-negamax_value Q_SEARCH fuel d (C.makeMove b m1)))
        (-negamax_value Q_SEARCH fuel d (C.makeMove b m))

/-- Soundness of a table entry with respect to the value of its node: EXACT
means equal, UPPER_BOUND means the value is at most `eval`, LOWER_BOUND means
the value is at least `eval`. -/
def sound_entry (info : TT_Info) (value : Int) : Prop :=
  (info.type = EXACT → info.eval = value) ∧
    (info.type = UPPER_BOUND → value ≤ info.eval) ∧
    (info.type = LOWER_BOUND → info.eval ≤ value)

/-- The scores that the search can produce when static evaluations lie
strictly between `-MAX_EVAL` and `MAX_EVAL`: the two mate scores
`MIN_EVAL`, `-MIN_EVAL` and everything strictly between `-MAX_EVAL` and
`MAX_EVAL`. -/
def in_range (v : Int) : Prop :=
  MIN_EVAL ≤ v ∧ v ≤ -MIN_EVAL ∧ v ≠ MAX_EVAL ∧ v ≠ -MAX_EVAL

/-- A returned score `v` of a search with window `(alpha, beta)` is a
fail-soft bound of the node value: an upper bound when `v ≤ alpha`, a lower
bound when `v ≥ beta`, exact in between, and exact when it is a mate score. -/
def result_ok (v alpha beta value : Int) : Prop :=
  in_range v ∧ (v ≤ alpha → value ≤ v) ∧ (beta ≤ v → v ≤ value) ∧
    (alpha < v → v < beta → value = v) ∧ (v = MIN_EVAL ∨ v = -MIN_EVAL → value = v)

/-- The invariant of a table entry: it is sound, its score is in range, and
a mate score is exact. -/
def entry_ok (info : TT_Info) (value : Int) : Prop :=
  sound_entry info value ∧ in_range info.eval ∧
    (info.eval = MIN_EVAL ∨ info.eval = -MIN_EVAL → value = info.eval)

/-- The invariant of the table during a search of depth at most `D`: every
non-empty entry has a stored depth in `1 .. D`, lies in the bucket that `pos`
gives for its key and stored depth, and satisfies `entry_ok` for the
position with that key at that depth. -/
def table_ok (Q_SEARCH : Bool) (fuel : Nat) (D : Nat) (t : Transposition_Table) : Prop :=
  ∀ i, ∀ e ∈ (t.table i).entries, e.key ≠ 0 →
    (1 ≤ e.value.depth ∧ e.value.depth ≤ D) ∧ pos e.key e.value.depth = i ∧
      ∀ b, e.key = C.hashKey b →
        entry_ok e.value (negamax_value C Q_SEARCH fuel e.value.depth.toNat b)

/-- TT soundness as C1 states it: every non-empty entry of the table is
sound for the position with its key, at its stored depth; and what a probe
for a position at a depth `d ≤ 127` finds is an entry of stored depth `d`
that is sound for `M_d` of that position. -/
def table_sound (Q_SEARCH : Bool) (fuel : Nat) (t : Transposition_Table) : Prop :=
  (∀ i, ∀ e ∈ (t.table i).entries, e.key ≠ 0 → ∀ b, e.key = C.hashKey b →
      sound_entry e.value (negamax_value C Q_SEARCH fuel e.value.depth.toNat b)) ∧
    ∀ (b : Board) (d : Nat), d ≤ 127 → t.contains (C.hashKey b) d = true →
      (t.at_ (C.hashKey b) d).depth = d ∧
        sound_entry (t.at_ (C.hashKey b) d) (negamax_value C Q_SEARCH fuel d b)

/-- The assumptions on the external position facility: distinct boards have
distinct keys, no key is 0 (the mark of an empty slot), static evaluations
lie strictly between `-MAX_EVAL` and `MAX_EVAL`, `unmakeMove` undoes
`makeMove`, and capture sequences end within `fuel` plies. -/
structure Well_Formed (fuel : Nat) : Prop where
  key_injective : ∀ b b1, C.hashKey b = C.hashKey b1 → b = b1
  key_nonzero : ∀ b, C.hashKey b ≠ 0
  eval_bound : ∀ b, -MAX_EVAL < C.eval b ∧ C.eval b < MAX_EVAL
  unmake_all : ∀ b, ∀ m ∈ C.legalmoves_ALL b, C.unmakeMove (C.makeMove b m) m = b
  unmake_capture : ∀ b, ∀ m ∈ C.legalmoves_CAPTURE b, C.unmakeMove (C.makeMove b m) m = b
  captures_end : ∃ rank : Board → Nat, (∀ b, rank b < fuel) ∧
    ∀ b, ∀ m ∈ C.legalmoves_CAPTURE b, rank (C.makeMove b m) < rank b

/-- The number `M` is the maximum of `start` and the values `t m` of the
moves in `moves`. -/
def is_max_of (M start : Int) (moves : List Move) (t : Move → Int) : Prop :=
  start ≤ M ∧ (∀ m ∈ moves, t m ≤ M) ∧ (M = start ∨ ∃ m ∈ moves, t m = M)

/-- The invariant of the move loops: `eval`, `alpha` and the entry type `ty`
after some moves, where `Mp` is the maximum of the start value and the true
values of the moves done, and `(alpha1, beta)` is the window at loop entry. -/
def loop_inv (alpha1 beta eval alpha : Int) (ty : Bound_Type) (Mp : Int) : Prop :=
  in_range eval ∧ MIN_EVAL ≤ Mp ∧ ty ≠ LOWER_BOUND ∧ (ty = UPPER_BOUND → Mp ≤ eval) ∧
    (ty = EXACT → Mp = eval ∧ alpha1 < eval) ∧ (eval ≤ alpha1 → Mp ≤ eval) ∧
    (alpha1 < eval → Mp = eval) ∧ (eval < beta ∨ eval = MIN_EVAL) ∧
    (alpha1 ≤ alpha ∧ alpha < beta ∧ (alpha = alpha1 ∨ alpha = eval) ∧
      (MIN_EVAL < eval → eval ≤ alpha)) ∧
    (eval = MIN_EVAL ∨ eval = -MIN_EVAL → Mp = eval)

end SearchSpec

/-- A search taking the window `(alpha, beta)`, seen as a child step of
`pv_search_loop`: it is called with the negated window and its result is
negated; `search_full_window` is passed through. -/
def window_child {Board : Type} (child : Int → Int → Search Board → Option (Int × Search Board))
    (sfw : Bool) (alpha beta : Int) (s : Search Board) : Option (Int × Bool × Search Board) :=
  match child (-beta) (-alpha) s with
  | none => none
  | some (r, s1) => some (-r, sfw, s1)

/-- A null-window search taking `beta`, seen as a child step of
`pv_search_loop`: it is called with `-beta + 1` and its result is negated. -/
def scout_child {Board : Type} (child : Int → Search Board → Option (Int × Search Board))
    (sfw : Bool) (_alpha beta : Int) (s : Search Board) : Option (Int × Bool × Search Board) :=
  match child (-beta + 1) s with
  | none => none
  | some (r, s1) => some (-r, sfw, s1)

section SearchContracts

variable {Board : Type} (C : Chess Board) (Q_SEARCH : Bool) (fuel : Nat)

/-- Contract of a search with window `(alpha, beta)` on nodes of depth `d`,
for tables of depth at most `D`: it returns, restores the board, keeps the
table invariant, and its result is a fail-soft bound of `M_d`. -/
def window_search_ok (D d : Nat)
    (f : Int → Int → Search Board → Option (Int × Search Board)) : Prop :=
  ∀ (alpha beta : Int) (s : Search Board), alpha < beta → table_ok C Q_SEARCH fuel D s.tt →
    ∃ v s1, f alpha beta s = some (v, s1) ∧ s1.board = s.board ∧
      table_ok C Q_SEARCH fuel D s1.tt ∧
      result_ok v alpha beta (negamax_value C Q_SEARCH fuel d s.board)

/-- Contract of a null-window search with bound `beta` on nodes of depth `d`:
the same for the window `(beta - 1, beta)`. -/
def scout_search_ok (D d : Nat)
    (f : Int → Search Board → Option (Int × Search Board)) : Prop :=
  ∀ (beta : Int) (s : Search Board), table_ok C Q_SEARCH fuel D s.tt →
    ∃ v s1, f beta s = some (v, s1) ∧ s1.board = s.board ∧
      table_ok C Q_SEARCH fuel D s1.tt ∧
      result_ok v (beta - 1) beta (negamax_value C Q_SEARCH fuel d s.board)

/-- Contract of the child step of a move loop at board `b`, whose children
have depth `d`: for every move of the list and every `alpha` between the
entry value `alpha1` and `beta`, the step returns a fail-soft bound of the
negated child value and keeps the child board and the table invariant. -/
def child_ok (D d : Nat) (b : Board) (alpha1 beta : Int) (moves : List Move)
    (child : Bool → Int → Int → Search Board → Option (Int × Bool × Search Board)) : Prop :=
  ∀ m ∈ moves, ∀ (sfw : Bool) (alpha : Int) (s1 : Search Board),
    s1.board = C.makeMove b m → table_ok C Q_SEARCH fuel D s1.tt → alpha1 ≤ alpha →
    alpha < beta →
    ∃ inner sfw1 s2, child sfw alpha beta s1 = some (inner, sfw1, s2) ∧
      s2.board = s1.board ∧ table_ok C Q_SEARCH fuel D s2.tt ∧
      result_ok inner alpha beta (-negamax_value C Q_SEARCH fuel d (C.makeMove b m))

end SearchContracts

section Scenarios

variable {Board : Type} (C : Chess Board)

/-- The loop of `main`: `root_max` with the full window at depths
`1, 2, ..., n` on the same searcher, hence on the same table. -/
def iterative_deepening (Q_SEARCH PV_Search : Bool) (fuel : Nat) :
    Nat → Search Board → Option (Search Board)
  | 0, s => some s
  | n + 1, s =>
    match iterative_deepening Q_SEARCH PV_Search fuel n s with
    | none => none
    | some s1 =>
      match Search.root_max C Q_SEARCH PV_Search fuel MIN_EVAL MAX_EVAL (n + 1)
          ⟨0, NO_MOVE, 0, 0⟩ s1 with
      | none => none
      | some (_, _, s2) => some s2

/-- The eval of the record that `root_max` returns. -/
def published_eval (r : Option (Search_Result × Search_Result × Search Board)) : Option Int :=
  match r with
  | none => none
  | some (res, _, _) => some res.eval

/-- The eval that `root_max(MIN_EVAL, MAX_EVAL, d)` publishes for the board
`b` when the table was populated by `root_max` at depths `1 .. d - 1`. -/
def root_eval_populated (Q_SEARCH PV_Search : Bool) (fuel d : Nat) (b : Board) : Option Int :=
  match iterative_deepening C Q_SEARCH PV_Search fuel (d - 1)
      ⟨b, 0, Transposition_Table.new⟩ with
  | none => none
  | some s =>
    published_eval
      (Search.root_max C Q_SEARCH PV_Search fuel MIN_EVAL MAX_EVAL d ⟨0, NO_MOVE, 0, 0⟩ s)

/-- The eval that `root_max(MIN_EVAL, MAX_EVAL, d)` publishes for the board
`b` on an empty table. -/
def root_eval_empty (Q_SEARCH PV_Search : Bool) (fuel d : Nat) (b : Board) : Option Int :=
  published_eval
    (Search.root_max C Q_SEARCH PV_Search fuel MIN_EVAL MAX_EVAL d ⟨0, NO_MOVE, 0, 0⟩
      ⟨b, 0, Transposition_Table.new⟩)

/-- The value that a search returns, if it returns. -/
def returned_eval (r : Option (Int × Search Board)) : Option Int :=
  match r with
  | none => none
  | some (v, _) => some v

/-- The table that a search leaves, the empty table if it does not return. -/
def table_after (r : Option (Int × Search Board)) : Transposition_Table :=
  match r with
  | none => Transposition_Table.new
  | some (_, s) => s.tt

/-- The table that `root_max` leaves, the empty table if it does not return. -/
def root_table_after (r : Option (Search_Result × Search_Result × Search Board)) :
    Transposition_Table :=
  match r with
  | none => Transposition_Table.new
  | some (_, _, s) => s.tt

/-- The statement of TT soundness for searches of depth `d` with tables of
depth at most `D`: the empty table satisfies the table invariant, and from
every searcher state whose table satisfies it, each of the four searches
returns and leaves a table that satisfies the invariant again and in which
every entry is sound. -/
def tt_soundness_statement (Q_SEARCH PV_Search : Bool) (fuel D d : Nat) : Prop :=
  table_ok C Q_SEARCH fuel D Transposition_Table.new ∧
    ∀ s : Search Board, table_ok C Q_SEARCH fuel D s.tt →
      (∀ beta, ∃ v s1, Search.null_window_search C Q_SEARCH fuel d beta s = some (v, s1) ∧
        table_ok C Q_SEARCH fuel D s1.tt ∧ table_sound C Q_SEARCH fuel s1.tt) ∧
      (∀ alpha beta, alpha < beta →
        ∃ v s1, Search.pv_search C Q_SEARCH fuel d alpha beta s = some (v, s1) ∧
          table_ok C Q_SEARCH fuel D s1.tt ∧ table_sound C Q_SEARCH fuel s1.tt) ∧
      (∀ alpha beta, alpha < beta →
        ∃ v s1, Search.nega_max C Q_SEARCH fuel d alpha beta s = some (v, s1) ∧
          table_ok C Q_SEARCH fuel D s1.tt ∧ table_sound C Q_SEARCH fuel s1.tt) ∧
      (∀ result, ∃ r r1 s1,
        Search.root_max C Q_SEARCH PV_Search fuel MIN_EVAL MAX_EVAL d result s
          = some (r, r1, s1) ∧
        table_ok C Q_SEARCH fuel D s1.tt ∧ table_sound C Q_SEARCH fuel s1.tt)

end Scenarios

/-- Example games on the boards `0 .. n`, given by tables: `kids` lists the
boards reached by the legal moves of each board, `caps` the indices of the
legal moves that are captures, `ev` the static evaluations.  The `i`-th move
of board `b` has the code `16 * b + i + 1`; the key of board `b` is `b + 1`. -/
def table_game (n : Nat) (kids caps : List (List Nat)) (ev : List Int) : Chess (Fin (n + 1)) where
  hashKey := fun b => b.val + 1
  eval := fun b => ev.getD b.val 0
  legalmoves_ALL := fun b =>
    (List.range (kids.getD b.val []).length).map (fun i => b.val * 16 + i + 1)
  legalmoves_CAPTURE := fun b => (caps.getD b.val []).map (fun i => b.val * 16 + i + 1)
  makeMove := fun b m => Fin.ofNat ((kids.getD b.val []).getD ((m - 1) % 16) 0)
  unmakeMove := fun _ m => Fin.ofNat ((m - 1) / 16)

/-- Example: board 0 has the moves to boards 1 and 2, board 1 the capture of
board 3; all static evaluations are small. -/
def small_game : Chess (Fin 4) :=
  table_game 3 [[1, 2], [3], [], []] [[], [0], [], []] [0, 5, -3, 7]

/-- Example: the tree of `small_game` without captures, where board 3 has the
static evaluation `MAX_EVAL` and board 2 (without legal move) `-10`. -/
def edge_eval_game : Chess (Fin 4) :=
  table_game 3 [[1, 2], [3], [], []] [] [0, 0, -10, 1073741823]

/-- Example: a game with evaluations `MAX_EVAL` and `-MAX_EVAL` in which board
4 is reached both two and three plies below board 0. -/
def transposition_game : Chess (Fin 5) :=
  table_game 4 [[4, 1, 1], [4], [], [], [1, 2]] []
    [-1073741823, 1073741823, 0, 5, 1073741823]


/-! ## Definitions for the claims on probe misses, cutoffs and bound kinds -/

/-- Example: a table holding for key 5 only an entry with move 7 at depth 1. -/
def shallow_table : Transposition_Table :=
  Transposition_Table.new.emplace 5 ⟨3, 7, 1, EXACT⟩ 1

/-- Example: a table holding for key 5 an EXACT entry with eval 42 at depth 3. -/
def exact_table : Transposition_Table :=
  Transposition_Table.new.emplace 5 ⟨42, 7, 3, EXACT⟩ 3

/-- What C13 says about the entry `entry` passed to `emplace` by a node of
depth `depth` that returns `v`, for the window `(alpha, beta)` after the
probe. -/
def classified (entry : TT_Info) (v alpha beta : Int) (depth : Int) : Prop :=
  entry.depth = depth ∧ entry.eval = v ∧
    (entry.type = LOWER_BOUND ↔ v ≥ beta) ∧
    (entry.type = EXACT ↔ alpha < v ∧ v < beta) ∧
    (entry.type = UPPER_BOUND ↔ v ≤ alpha)

section Classification

variable {Board : Type} (C : Chess Board)

/-- The search that `nega_max` at depth `d` runs on the position after a
move: `nega_max` one depth lower when `d > 1`, else `q_search`. -/
def nega_max_child (Q_SEARCH : Bool) (fuel : Nat) :
    Nat → Int → Int → Search Board → Option (Int × Search Board)
  | d + 2 => Search.nega_max C Q_SEARCH fuel (d + 1)
  | _ => Search.q_search C Q_SEARCH fuel

/-- The search that `null_window_search` at depth `d` runs on the position
after a move: `null_window_search` one depth lower when `d > 1`, else
`nw_q_search`. -/
def null_window_search_child (Q_SEARCH : Bool) (fuel : Nat) :
    Nat → Int → Search Board → Option (Int × Search Board)
  | d + 2 => Search.null_window_search C Q_SEARCH fuel (d + 1)
  | _ => Search.nw_q_search C Q_SEARCH fuel

/-- For a node of depth `depth` whose probe gave `p`, whose move loop gave
`loop_result` and which returned `result`: when the loop ends with `v`, the
entry under construction `entry1` and the state `s1`, the node returns `v`
after `emplace` of `entry1` with `eval := v`, and that entry is classified as
C13 says. -/
def node_classifies (p : Probe) (loop_result : Option (Int × TT_Info × Search Board))
    (result : Option (Int × Search Board)) (depth : Nat) : Prop :=
  ∀ v entry1 s1, loop_result = some (v, entry1, s1) →
    result = some (v, s1.store C { entry1 with eval := v } depth) ∧
      classified { entry1 with eval := v } v p.alpha p.beta depth

/-- The move loop of `pv_search(alpha, beta, d + 1)` as the method runs it. -/
def pv_search_moves (Q_SEARCH : Bool) (fuel d : Nat) (alpha beta : Int) (s : Search Board) :
    Option (Int × TT_Info × Search Board) :=
  pv_search_loop C
    (pv_child (Search.q_search C Q_SEARCH fuel) (Search.null_window_search C Q_SEARCH fuel d)
      (Search.pv_search C Q_SEARCH fuel d) (d + 1))
    (s.tt_probe C NO_MOVE alpha beta (d + 1 : Nat)).beta
    (tt_move_first (C.legalmoves_ALL s.board) (s.tt_probe C NO_MOVE alpha beta (d + 1 : Nat)).move)
    MIN_EVAL (s.tt_probe C NO_MOVE alpha beta (d + 1 : Nat)).alpha true
    ⟨MIN_EVAL, NO_MOVE, to_int8 (d + 1 : Nat), UPPER_BOUND⟩ s

/-- The move loop of `nega_max(alpha, beta, d)` as the method runs it. -/
def nega_max_moves (Q_SEARCH : Bool) (fuel d : Nat) (alpha beta : Int) (s : Search Board) :
    Option (Int × TT_Info × Search Board) :=
  nega_max_loop C (nega_max_child C Q_SEARCH fuel d) (s.tt_probe C NO_MOVE alpha beta d).beta
    (C.legalmoves_ALL s.board) MIN_EVAL (s.tt_probe C NO_MOVE alpha beta d).alpha
    ⟨MIN_EVAL, NO_MOVE, to_int8 d, UPPER_BOUND⟩ s

/-- The move loop of `null_window_search(beta, d)` as the method runs it. -/
def null_window_search_moves (Q_SEARCH : Bool) (fuel d : Nat) (beta : Int) (s : Search Board) :
    Option (Int × TT_Info × Search Board) :=
  null_window_search_loop C (null_window_search_child C Q_SEARCH fuel d)
    (s.tt_probe C NO_MOVE (beta - 1) beta d).beta
    (tt_move_first (C.legalmoves_ALL s.board) (s.tt_probe C NO_MOVE (beta - 1) beta d).move)
    MIN_EVAL ⟨MIN_EVAL, NO_MOVE, to_int8 d, UPPER_BOUND⟩ s

end Classification


/-! ## Definitions for the claims on `Search_Thread` -/

/-- A search of `Search_Thread` taking the window `(alpha, beta)`, seen as a
child step of `Search_Thread.pv_search_loop`: it is called with the negated
window and its result is negated; `search_full_window` is passed through. -/
def thread_window_child {Board : Type}
    (child : Int → Int → Thread Board → Except Fault (Int × Thread Board))
    (sfw : Bool) (alpha beta : Int) (s : Thread Board) :
    Except Fault (Int × Bool × Thread Board) := do
  let nbeta ← Eval_Type (-beta)
  let nalpha ← Eval_Type (-alpha)
  let r ← child nbeta nalpha s
  let inner_eval ← Eval_Type (-r.1)
  .ok (inner_eval, sfw, r.2)

/-- A null-window search of `Search_Thread` taking `beta`, seen as a child
step of `Search_Thread.pv_search_loop`: it is called with `-beta + 1` and its
result is negated. -/
def thread_scout_child {Board : Type}
    (child : Int → Thread Board → Except Fault (Int × Thread Board))
    (sfw : Bool) (_alpha beta : Int) (s : Thread Board) :
    Except Fault (Int × Bool × Thread Board) := do
  let nbeta ← Eval_Type (-beta)
  let nbeta1 ← Eval_Type (nbeta + 1)
  let r ← child nbeta1 s
  let inner_eval ← Eval_Type (-r.1)
  .ok (inner_eval, sfw, r.2)

/-- The range of the scores of `Search_Thread`: `[MIN_EVAL, MAX_EVAL]`. -/
def thread_in_range (v : Int) : Prop :=
  Search_Thread.MIN_EVAL ≤ v ∧ v ≤ Search_Thread.MAX_EVAL

instance (v : Int) : Decidable (thread_in_range v) := by
  unfold thread_in_range
  infer_instance

/-- Every entry of the table has its eval in `[MIN_EVAL, MAX_EVAL]`. -/
def table_in_range (t : Transposition_Table) : Prop :=
  ∀ i, ∀ e ∈ (t.table i).entries, thread_in_range e.value.eval

/-- A state invariant `I` and a score predicate `V` that the statements of
the searches of `Search_Thread` keep: the board moves, the node counter, the
generator, the store of a score that satisfies `V`; the evals that a probe
reads, the clamped static evaluation and `MIN_EVAL` satisfy `V`, and `V` is
kept by negation. -/
structure Stable {Board : Type} (C : Chess Board) (I : Thread Board → Prop) (V : Int → Prop) :
    Prop where
  make : ∀ s m, I s → I (s.make C m)
  unmake : ∀ s m, I s → I (s.unmake C m)
  nodes : ∀ (s : Thread Board) n, I s → I { s with nodes := n }
  mt : ∀ (s : Thread Board) g, I s → I { s with mt := g }
  store : ∀ s entry depth, I s → V entry.eval → I (s.store C entry depth)
  probe : ∀ (s : Thread Board) depth, I s → s.tt.contains (C.hashKey s.board) depth = true →
    V (s.tt.at_ (C.hashKey s.board) depth).eval
  neg : ∀ v, V v → V (-v)
  static : ∀ b, V (if C.eval b < Search_Thread.MIN_EVAL then Search_Thread.MIN_EVAL else C.eval b)
  least : V Search_Thread.MIN_EVAL

/-- What a search of `Search_Thread` taking a window keeps. -/
def window_post {Board : Type} (I : Thread Board → Prop) (V : Int → Prop)
    (f : Int → Int → Thread Board → Except Fault (Int × Thread Board)) : Prop :=
  ∀ alpha beta s r, I s → f alpha beta s = .ok r → V r.1 ∧ I r.2

/-- What a null-window search of `Search_Thread` keeps. -/
def scout_post {Board : Type} (I : Thread Board → Prop) (V : Int → Prop)
    (f : Int → Thread Board → Except Fault (Int × Thread Board)) : Prop :=
  ∀ beta s r, I s → f beta s = .ok r → V r.1 ∧ I r.2

/-- The range of the bound of a null-window search of `Search_Thread`:
`[MIN_EVAL, MAX_EVAL + 1]` (the bound `-beta + 1` of a child reaches
`MAX_EVAL + 1`). -/
def scout_range (beta : Int) : Prop :=
  Search_Thread.MIN_EVAL ≤ beta ∧ beta ≤ Search_Thread.MAX_EVAL + 1

/-- A search of `Search_Thread` taking a window has no overflow for windows
in `[MIN_EVAL, MAX_EVAL]` on tables with evals in that range. -/
def window_safe {Board : Type}
    (f : Int → Int → Thread Board → Except Fault (Int × Thread Board)) : Prop :=
  ∀ alpha beta s, thread_in_range alpha → thread_in_range beta → table_in_range s.tt →
    f alpha beta s ≠ .error .overflow

/-- A null-window search of `Search_Thread` has no overflow for bounds in
`[MIN_EVAL, MAX_EVAL + 1]` on tables with evals in `[MIN_EVAL, MAX_EVAL]`. -/
def scout_safe {Board : Type}
    (f : Int → Thread Board → Except Fault (Int × Thread Board)) : Prop :=
  ∀ beta s, scout_range beta → table_in_range s.tt → f beta s ≠ .error .overflow

/-- What C19 says about the outcome of a search: no `Eval_Type` operation
overflowed, and a returned value lies in `[MIN_EVAL, MAX_EVAL]` (with the
evals of the table still in that range). -/
def in_range_outcome {Board : Type} (x : Except Fault (Int × Thread Board)) : Prop :=
  x ≠ .error .overflow ∧ ∀ r, x = .ok r → thread_in_range r.1 ∧ table_in_range r.2.tt
/-- The value that a search of `Search_Thread` returns, if it returns. -/
def thread_value {Board : Type} (r : Except Fault (Int × Thread Board)) : Option Int :=
  match r with
  | .ok x => some x.1
  | .error _ => none

/-- The table that a search of `Search_Thread` leaves (the empty table when
it does not return). -/
def thread_table {Board : Type} (r : Except Fault (Int × Thread Board)) : Transposition_Table :=
  match r with
  | .ok x => x.2.tt
  | .error _ => Transposition_Table.new

/-- The move loop of `Search_Thread::root_max` as the method runs it when the
probe does not cut off. -/
def thread_root_moves {Board : Type} (C : Chess Board) (Q_SEARCH PV_Search : Bool) (fuel : Nat)
    (alpha0 beta0 : Int) (depth : Nat) (s : Thread Board) : Except Fault (Root_Exit Board) :=
  Search_Thread.root_max_loop C (Search_Thread.root_max_child C Q_SEARCH PV_Search fuel depth)
    (({ s with nodes := 0 } : Thread Board).toSearch_Thread.tt_probe C NO_MOVE alpha0 beta0
      depth).beta
    (tt_move_first (({ s with nodes := 0 } : Thread Board).generate_shuffled_moves C).1
      (({ s with nodes := 0 } : Thread Board).toSearch_Thread.tt_probe C NO_MOVE alpha0 beta0
        depth).move)
    Search_Thread.MIN_EVAL
    (({ s with nodes := 0 } : Thread Board).toSearch_Thread.tt_probe C NO_MOVE alpha0 beta0
      depth).alpha
    true NO_MOVE (({ s with nodes := 0 } : Thread Board).generate_shuffled_moves C).2

/-- The record, the node total and the flag that `Search_Thread::root_max`
leaves, if it returns. -/
def thread_root_outcome {Board : Type}
    (r : Except Fault (Search_Result × Nat × Thread Board)) : Option (Search_Result × Nat × Bool) :=
  match r with
  | .ok x => some (x.1, x.2.1, x.2.2.finished)
  | .error _ => none

/-- A property of what a model run returns, when it returns. -/
def on_return {α : Type} (x : Except Fault α) (P : α → Prop) : Prop :=
  match x with
  | .ok a => P a
  | .error _ => True


/-! ## Definitions for the claims on the root and on cancellation -/

/-- A property of what a run of the sequential model returns, when it
returns. -/
def on_some {α : Type} (x : Option α) (P : α → Prop) : Prop :=
  match x with
  | some a => P a
  | none => True

instance {α : Type} (x : Option α) (P : α → Prop) [DecidablePred P] : Decidable (on_some x P) :=
  match x with
  | some a => inferInstanceAs (Decidable (P a))
  | none => isTrue trivial

/-- The bucket of `key` at `depth` has room for `value`: it holds the key, or
it holds a slot whose value is less than `value`. -/
def has_room (t : Transposition_Table) (key : Nat) (value : TT_Info) (depth : Int) : Prop :=
  t.contains key depth = true ∨ ∃ e ∈ (t.table (pos key depth)).entries, e.value.lt value = true

/-- Example: four stores of EXACT depth-1 results whose keys all fall into
bucket 2 at depth 1, the bucket of key 1 (board 0 of a `table_game`). -/
def crowded_calls : List Emplace_Call :=
  [⟨134217729, ⟨10, 1, 1, EXACT⟩, 1⟩, ⟨268435457, ⟨20, 2, 1, EXACT⟩, 1⟩,
    ⟨402653185, ⟨30, 3, 1, EXACT⟩, 1⟩, ⟨536870913, ⟨40, 4, 1, EXACT⟩, 1⟩]

/-- Example: the table reached from the empty one by `crowded_calls`. -/
def crowded_table : Transposition_Table :=
  run_emplace Transposition_Table.new crowded_calls

/-- The table that `Search_Thread::root_max` leaves, the empty table if it
does not return. -/
def thread_root_table {Board : Type}
    (r : Except Fault (Search_Result × Nat × Thread Board)) : Transposition_Table :=
  match r with
  | .ok x => x.2.2.tt
  | .error _ => Transposition_Table.new

/-- What C14 says of a record `r`, a board and a table left by `root_max` at
depth `d`: a probe of the board at depth `d` returns an EXACT entry with the
eval and the move of the record. -/
def root_entry_found {Board : Type} (C : Chess Board) (d : Nat) (r : Search_Result) (b : Board)
    (t : Transposition_Table) : Prop :=
  t.contains (C.hashKey b) d = true ∧ t.at_ (C.hashKey b) d = ⟨r.eval, r.move, to_int8 d, EXACT⟩

instance {Board : Type} (C : Chess Board) (d : Nat) (r : Search_Result) (b : Board)
    (t : Transposition_Table) : Decidable (root_entry_found C d r b t) := by
  unfold root_entry_found
  infer_instance

/-- Example: board 0 has one move, to board 1; board 1 has one move, to board
2; board 2 has no legal move.  All static evaluations are 0. -/
def mated_game : Chess (Fin 3) :=
  table_game 2 [[1], [2], []] [] [0, 0, 0]

/-- The record that `Search::root_max` publishes, if it returns. -/
def published {Board : Type} (r : Option (Search_Result × Search_Result × Search Board)) :
    Option Search_Result :=
  match r with
  | none => none
  | some (_, res, _) => some res

/-- Example: board 0 has one move, to board 1; board 1 has the moves to
boards 2 and 3, which are evaluated 0 and -50 for the side to move there. -/
def cancel_game : Chess (Fin 4) :=
  table_game 3 [[1], [2, 3], [], []] [] [0, 0, 0, -50]

/-- Example: a board with the five legal moves 1 .. 5. -/
def five_moves : Chess Unit where
  hashKey := fun _ => 5
  eval := fun _ => 0
  legalmoves_ALL := fun _ => [1, 2, 3, 4, 5]
  legalmoves_CAPTURE := fun _ => []
  makeMove := fun b _ => b
  unmakeMove := fun b _ => b

/-- The assumption that `unmakeMove` undoes `makeMove`, for the legal moves
and for the legal captures of every board. -/
structure Reversible {Board : Type} (C : Chess Board) : Prop where
  unmake_all : ∀ b, ∀ m ∈ C.legalmoves_ALL b, C.unmakeMove (C.makeMove b m) m = b
  unmake_capture : ∀ b, ∀ m ∈ C.legalmoves_CAPTURE b, C.unmakeMove (C.makeMove b m) m = b

/-- A search of the sequential searcher taking a window leaves the board as
it was. -/
def window_frame {Board : Type} (f : Int → Int → Search Board → Option (Int × Search Board)) :
    Prop :=
  ∀ alpha beta s r, f alpha beta s = some r → r.2.board = s.board

/-- A null-window search of the sequential searcher leaves the board as it
was. -/
def scout_frame {Board : Type} (f : Int → Search Board → Option (Int × Search Board)) : Prop :=
  ∀ beta s r, f beta s = some r → r.2.board = s.board

/-- A search of `Search_Thread` taking a window leaves the board as it was. -/
def thread_window_frame {Board : Type}
    (f : Int → Int → Thread Board → Except Fault (Int × Thread Board)) : Prop :=
  ∀ alpha beta s r, f alpha beta s = .ok r → r.2.board = s.board

/-- A null-window search of `Search_Thread` leaves the board as it was. -/
def thread_scout_frame {Board : Type}
    (f : Int → Thread Board → Except Fault (Int × Thread Board)) : Prop :=
  ∀ beta s r, f beta s = .ok r → r.2.board = s.board


/-! ## Definitions for the claims on the bucket keys and on the written line -/

/-- No two slots of a bucket hold the same non-zero key. -/
def distinct_keys (es : List Entry) : Prop :=
  List.Pairwise (fun a b : Entry => a.key = b.key → a.key = 0) es

/-- The number of slots of a bucket that the loops of `at` and `contains`
match against `key` (the slots with `entry.key == key`). -/
def matching_slots (key : Nat) (es : List Entry) : Nat :=
  es.countP (fun entry => decide (entry.key = key))

/-- The position reached from `board` by the first `i` moves of `moves`. -/
def pv_position {Board : Type} (C : Chess Board) (board : Board) (moves : List Move) (i : Nat) :
    Board :=
  (moves.take i).foldl C.makeMove board

/-- Example: a table for `small_game` that holds the move 1 for board 0 at
depth 3 and the move 17 for board 1 at depth 2, and nothing for board 3. -/
def pv_table : Transposition_Table :=
  (Transposition_Table.new.emplace 1 ⟨5, 1, 3, EXACT⟩ 3).emplace 2 ⟨-5, 17, 2, EXACT⟩ 2

/-! ## Properties of the transposition table -/

theorem pos_lt_size (key : Nat) (depth : Int) : pos key depth < size := by
  unfold pos size
  omega

theorem pos_eq_emod (key : Nat) (depth : Int) :
    ((pos key depth : Nat) : Int) = ((key : Int) + depth) % 134217728 := by
  unfold pos size
  omega

theorem pos_depth_injective (key : Nat) (d d' : Int) (hd : 0 ≤ d ∧ d ≤ 127)
    (hd' : 0 ≤ d' ∧ d' ≤ 127) (h : pos key d = pos key d') : d = d' := by
  have h1 := pos_eq_emod key d
  have h2 := pos_eq_emod key d'
  rw [h] at h1
  omega

theorem set_entries_same (t : Transposition_Table) (i : Nat) (es : List Entry) :
    ((t.set_entries i es).table i).entries = es := by
  simp [Transposition_Table.set_entries]

theorem set_entries_other (t : Transposition_Table) (i j : Nat) (es : List Entry) (h : j ≠ i) :
    (t.set_entries i es).table j = t.table j := by
  simp [Transposition_Table.set_entries, h]

theorem emplace_other (t : Transposition_Table) (key : Nat) (value : TT_Info) (depth : Int)
    (j : Nat) (h : j ≠ pos key depth) : (t.emplace key value depth).table j = t.table j := by
  exact set_entries_other _ _ _ _ h

theorem emplace_same (t : Transposition_Table) (key : Nat) (value : TT_Info) (depth : Int) :
    ((t.emplace key value depth).table (pos key depth)).entries =
      emplace_entries key value (t.table (pos key depth)).entries :=
  set_entries_same _ _ _

theorem contains_entries_iff (key : Nat) (es : List Entry) :
    contains_entries key es = true ↔ ∃ e ∈ es, e.key = key := by
  induction es with
  | nil => simp [contains_entries]
  | cons e rest ih =>
    unfold contains_entries
    by_cases h : e.key = key
    · simp [h]
    · simp [h, ih]

theorem at_entries_mem (key : Nat) (es : List Entry) (h : contains_entries key es = true) :
    (⟨key, at_entries key es⟩ : Entry) ∈ es := by
  induction es with
  | nil => simp [contains_entries] at h
  | cons e rest ih =>
    unfold at_entries
    unfold contains_entries at h
    by_cases hk : e.key = key
    · simp only [hk, if_true]
      have : (⟨key, e.value⟩ : Entry) = e := by cases e; simp_all
      rw [this]
      exact List.mem_cons_self _ _
    · simp only [hk, if_false] at h ⊢
      exact List.mem_cons_of_mem _ (ih h)

theorem emplace_existing_none (key : Nat) (value : TT_Info) (es : List Entry) :
    emplace_existing key value es = none ↔ contains_entries key es = false := by
  induction es with
  | nil => simp [emplace_existing, contains_entries]
  | cons e rest ih =>
    unfold emplace_existing contains_entries
    by_cases h : e.key = key
    · simp [h]
    · simp [h, ih]

/-- Shape of the bucket after the first loop of `emplace` found the key. -/
theorem emplace_existing_some (key : Nat) (value : TT_Info) (es : List Entry)
    (h : contains_entries key es = true) :
    ∃ pre e post, es = pre ++ e :: post ∧ (∀ x ∈ pre, x.key ≠ key) ∧ e.key = key ∧
      emplace_existing key value es = some (pre ++ ⟨e.key, value⟩ :: post) := by
  induction es with
  | nil => simp [contains_entries] at h
  | cons e rest ih =>
    unfold contains_entries at h
    by_cases hk : e.key = key
    · exact ⟨[], e, rest, rfl, by simp, hk, by simp [emplace_existing, hk]⟩
    · simp only [hk, if_false] at h
      obtain ⟨pre, e1, post, h1, h2, h3, h4⟩ := ih h
      refine ⟨e :: pre, e1, post, by simp [h1], ?_, h3, ?_⟩
      · intro x hx
        rcases List.mem_cons.mp hx with rfl | hx
        · exact hk
        · exact h2 x hx
      · simp [emplace_existing, hk, h4]

theorem at_entries_append (key : Nat) (pre post : List Entry) (e : Entry)
    (hpre : ∀ x ∈ pre, x.key ≠ key) (he : e.key = key) :
    at_entries key (pre ++ e :: post) = e.value ∧
      contains_entries key (pre ++ e :: post) = true := by
  induction pre with
  | nil => simp [at_entries, contains_entries, he]
  | cons x rest ih =>
    have hx : x.key ≠ key := hpre x (List.mem_cons_self _ _)
    have := ih (fun y hy => hpre y (List.mem_cons_of_mem _ hy))
    simp [at_entries, contains_entries, hx, this]

theorem emplace_swap_at (key : Nat) (value : TT_Info) (es : List Entry)
    (hno : contains_entries key es = false) (hlt : ∃ e ∈ es, e.value.lt value = true) :
    at_entries key (emplace_swap key value es) = value ∧
      contains_entries key (emplace_swap key value es) = true := by
  induction es with
  | nil => simp at hlt
  | cons e rest ih =>
    unfold contains_entries at hno
    by_cases hk : e.key = key
    · simp [hk] at hno
    · simp only [hk, if_false] at hno
      unfold emplace_swap
      by_cases hl : e.value.lt value = true
      · simp [hl, at_entries, contains_entries]
      · have hrest : ∃ e1 ∈ rest, e1.value.lt value = true := by
          obtain ⟨e1, he1, h1⟩ := hlt
          rcases List.mem_cons.mp he1 with rfl | he1
          · exact absurd h1 hl
          · exact ⟨e1, he1, h1⟩
        have := ih hno hrest
        simp [hl, at_entries, contains_entries, hk, this]


/-- C5 (as stated) fails: in the table `full_bucket_table`, whose bucket 6 is
full of EXACT entries, storing an UPPER_BOUND result for the new key 5 at
depth 1 stores nothing, so the probe that follows does not return it. -/
theorem emplace_round_trip_counterexample :
    ¬ (∀ (t : Transposition_Table) (k : Nat) (d : Int) (info : TT_Info), info.depth = d →
      (t.emplace k info d).at_ k d = info ∧ (t.emplace k info d).contains k d = true) := by
  intro h
  have h1 := (h full_bucket_table 5 1 ⟨7, 9, 1, UPPER_BOUND⟩ rfl).2
  revert h1
  decide

/-- C5 (amended): for every table state, key `k`, depth `d` and info, if the
bucket `pos(k, d)` already holds the key `k`, or holds a slot whose info is
strictly less than `info` in the `TT_Info` ordering, then after
`emplace(k, info, d)` the probe `at(k, d)` returns `info` and
`contains(k, d)` is true. -/
theorem emplace_round_trip (t : Transposition_Table) (k : Nat) (d : Int) (info : TT_Info)
    (h : t.contains k d = true ∨ ∃ e ∈ (t.table (pos k d)).entries, e.value.lt info = true) :
    (t.emplace k info d).at_ k d = info ∧ (t.emplace k info d).contains k d = true := by
  unfold Transposition_Table.at_ Transposition_Table.contains
  rw [emplace_same]
  unfold emplace_entries
  by_cases hc : contains_entries k (t.table (pos k d)).entries = true
  · obtain ⟨pre, e, post, _, h2, h3, h4⟩ := emplace_existing_some k info _ hc
    rw [h4]
    exact at_entries_append k pre post ⟨e.key, info⟩ h2 h3
  · have hc1 : contains_entries k (t.table (pos k d)).entries = false := by
      simpa using hc
    rw [(emplace_existing_none k info _).mpr hc1]
    rcases h with h | h
    · exact absurd h hc
    · exact emplace_swap_at k info _ hc1 h

/-- Witness for `emplace_round_trip`: storing an EXACT depth-3 result for
key 77 into the empty table. -/
theorem emplace_round_trip_witness :
    (Transposition_Table.new.emplace 77 ⟨12, 3, 3, EXACT⟩ 3).at_ 77 3 = ⟨12, 3, 3, EXACT⟩ ∧
      (Transposition_Table.new.emplace 77 ⟨12, 3, 3, EXACT⟩ 3).contains 77 3 = true :=
  emplace_round_trip Transposition_Table.new 77 3 ⟨12, 3, 3, EXACT⟩
    (Or.inr ⟨Entry.zero, by decide, by decide⟩)

theorem emplace_swap_mem (key : Nat) (value : TT_Info) (es : List Entry) :
    ∀ x ∈ emplace_swap key value es, x ∈ es ∨ x = ⟨key, value⟩ := by
  induction es generalizing key value with
  | nil => simp [emplace_swap]
  | cons e rest ih =>
    intro x hx
    unfold emplace_swap at hx
    by_cases hl : e.value.lt value = true
    · simp only [hl, if_true] at hx
      rcases List.mem_cons.mp hx with rfl | hx
      · exact Or.inr rfl
      · rcases ih e.key e.value x hx with h | h
        · exact Or.inl (List.mem_cons_of_mem _ h)
        · exact Or.inl (by rw [h]; exact List.mem_cons_self _ _)
    · simp only [hl] at hx
      rcases List.mem_cons.mp hx with rfl | hx
      · exact Or.inl (List.mem_cons_self _ _)
      · rcases ih key value x hx with h | h
        · exact Or.inl (List.mem_cons_of_mem _ h)
        · exact Or.inr h

/-- Every entry of a bucket after `emplace` was there before, or is the new
pair. -/
theorem emplace_entries_mem (key : Nat) (value : TT_Info) (es : List Entry) :
    ∀ x ∈ emplace_entries key value es, x ∈ es ∨ x = ⟨key, value⟩ := by
  intro x hx
  unfold emplace_entries at hx
  by_cases hc : contains_entries key es = true
  · obtain ⟨pre, e, post, h1, _, h3, h4⟩ := emplace_existing_some key value es hc
    rw [h4] at hx
    simp only [List.mem_append, List.mem_cons] at hx
    rcases hx with hx | hx | hx
    · exact Or.inl (by rw [h1]; simp [hx])
    · exact Or.inr (by rw [hx, h3])
    · exact Or.inl (by rw [h1]; simp [hx])
  · have hc1 : contains_entries key es = false := by simpa using hc
    rw [(emplace_existing_none key value es).mpr hc1] at hx
    exact emplace_swap_mem key value es x hx

theorem depth_invariant_new : depth_invariant Transposition_Table.new := by
  intro i e he hk
  simp [Transposition_Table.new, Bucket.zero, Entry.zero] at he
  rw [he.2] at hk
  exact absurd rfl hk

theorem depth_invariant_emplace (t : Transposition_Table) (c : Emplace_Call)
    (hc : c.value.depth = c.depth ∧ 0 ≤ c.depth ∧ c.depth ≤ 127) (h : depth_invariant t) :
    depth_invariant (t.emplace c.key c.value c.depth) := by
  intro i e he hk
  by_cases hi : i = pos c.key c.depth
  · subst hi
    rw [emplace_same] at he
    rcases emplace_entries_mem _ _ _ e he with h1 | h1
    · exact h _ e h1 hk
    · subst h1
      simp only
      rw [hc.1]
      exact ⟨⟨hc.2.1, hc.2.2⟩, rfl⟩
  · rw [emplace_other _ _ _ _ _ hi] at he
    exact h i e he hk

theorem depth_invariant_run (calls : List Emplace_Call) :
    ∀ t, depth_invariant t →
      (∀ c ∈ calls, c.value.depth = c.depth ∧ 0 ≤ c.depth ∧ c.depth ≤ 127) →
      depth_invariant (run_emplace t calls) := by
  induction calls with
  | nil => intro t h _; exact h
  | cons c rest ih =>
    intro t h hc
    exact ih _ (depth_invariant_emplace t c (hc c (List.mem_cons_self _ _)) h)
      (fun c1 h1 => hc c1 (List.mem_cons_of_mem _ h1))

/-- The assertions of `emplace` hold for every call with a non-zero key,
`value.depth = depth` and `0 ≤ depth ≤ 127` on a table that satisfies the
depth invariant. -/
theorem emplace_asserts_hold (t : Transposition_Table) (c : Emplace_Call) (hk : c.key ≠ 0)
    (hc : c.value.depth = c.depth ∧ 0 ≤ c.depth ∧ c.depth ≤ 127) (h : depth_invariant t) :
    t.emplace_asserts c.key c.value c.depth := by
  refine ⟨?_, hc.1⟩
  intro e he hek
  have h1 := h _ e he (by rw [hek]; exact hk)
  rw [hek] at h1
  exact pos_depth_injective c.key _ _ h1.1 ⟨hc.2.1, hc.2.2⟩ h1.2

/-- C7: if every `emplace(key, value, depth)` is called with
`value.depth = depth` and `0 ≤ depth ≤ 127`, then in every table reached from
the empty table, for every non-zero key `k` and depth `d` in `0 .. 127`,
whenever `contains(k, d)` holds the info returned by `at(k, d)` has depth
`d`: the assertion `tt_entry.depth == depth` of `tt_probe` holds. -/
theorem tt_depth_invariant (calls : List Emplace_Call)
    (hcalls : ∀ c ∈ calls, c.value.depth = c.depth ∧ 0 ≤ c.depth ∧ c.depth ≤ 127)
    (k : Nat) (hk : k ≠ 0) (d : Int) (hd : 0 ≤ d ∧ d ≤ 127)
    (hcontains : (run_emplace Transposition_Table.new calls).contains k d = true) :
    ((run_emplace Transposition_Table.new calls).at_ k d).depth = d := by
  have hinv := depth_invariant_run calls _ depth_invariant_new hcalls
  have hmem := at_entries_mem k _ hcontains
  have h1 := hinv _ _ hmem hk
  exact pos_depth_injective k _ _ h1.1 hd h1.2

/-- Witness for `tt_depth_invariant`: after the four stores of
`full_bucket_calls`, the probe of key `134217733` at depth 1 has depth 1. -/
theorem tt_depth_invariant_witness :
    ((run_emplace Transposition_Table.new full_bucket_calls).at_ 134217733 1).depth = 1 :=
  tt_depth_invariant full_bucket_calls (by decide) 134217733 (by decide) 1 (by decide)
    (by decide)

/-- C8: when some slot of bucket `pos(k, d)` holds key `k`, `emplace(k, info, d)`
sets the info of the first such slot to `info` and leaves that slot's key,
the other slots of the bucket and every other bucket unchanged, whatever
`info` is. -/
theorem emplace_same_key_in_place (t : Transposition_Table) (k : Nat) (d : Int)
    (info : TT_Info) (h : ∃ e ∈ (t.table (pos k d)).entries, e.key = k) :
    (∃ pre e post, (t.table (pos k d)).entries = pre ++ e :: post ∧
        (∀ x ∈ pre, x.key ≠ k) ∧ e.key = k ∧
        ((t.emplace k info d).table (pos k d)).entries = pre ++ ⟨e.key, info⟩ :: post) ∧
      ∀ j, j ≠ pos k d → (t.emplace k info d).table j = t.table j := by
  refine ⟨?_, fun j hj => emplace_other t k info d j hj⟩
  obtain ⟨pre, e, post, h1, h2, h3, h4⟩ :=
    emplace_existing_some k info _ ((contains_entries_iff k _).mpr h)
  refine ⟨pre, e, post, h1, h2, h3, ?_⟩
  rw [emplace_same]
  unfold emplace_entries
  rw [h4]

/-- Witness for `emplace_same_key_in_place`: overwriting the EXACT entry of
key `268435461` (second slot of the full bucket) by an UPPER_BOUND one. -/
theorem emplace_same_key_in_place_witness :
    (∃ pre e post, (full_bucket_table.table (pos 268435461 1)).entries = pre ++ e :: post ∧
        (∀ x ∈ pre, x.key ≠ 268435461) ∧ e.key = 268435461 ∧
        ((full_bucket_table.emplace 268435461 ⟨-3, 0, 1, UPPER_BOUND⟩ 1).table
          (pos 268435461 1)).entries = pre ++ ⟨e.key, ⟨-3, 0, 1, UPPER_BOUND⟩⟩ :: post) ∧
      ∀ j, j ≠ pos 268435461 1 →
        (full_bucket_table.emplace 268435461 ⟨-3, 0, 1, UPPER_BOUND⟩ 1).table j =
          full_bucket_table.table j :=
  emplace_same_key_in_place full_bucket_table 268435461 1 ⟨-3, 0, 1, UPPER_BOUND⟩
    ⟨⟨268435461, ⟨20, 2, 1, EXACT⟩⟩, by decide, rfl⟩

/-- C9: for every key and depths `d ≠ d'` in `0 .. 127`, the buckets
`pos(k, d)` and `pos(k, d')` are below `2 ^ 27` and differ, so
`emplace(k, info, d)` leaves `at(k, d')` and `contains(k, d')` unchanged. -/
theorem depth_separation (t : Transposition_Table) (k : Nat) (d d' : Int) (info : TT_Info)
    (hd : 0 ≤ d ∧ d ≤ 127) (hd' : 0 ≤ d' ∧ d' ≤ 127) (hne : d ≠ d') :
    pos k d < 2 ^ 27 ∧ pos k d' < 2 ^ 27 ∧ pos k d ≠ pos k d' ∧
      (t.emplace k info d).at_ k d' = t.at_ k d' ∧
      (t.emplace k info d).contains k d' = t.contains k d' := by
  have hpos : pos k d' ≠ pos k d := fun h => hne (pos_depth_injective k d d' hd hd' h.symm)
  refine ⟨pos_lt_size k d, pos_lt_size k d', fun h => hpos h.symm, ?_, ?_⟩
  · unfold Transposition_Table.at_
    rw [emplace_other t k info d _ hpos]
  · unfold Transposition_Table.contains
    rw [emplace_other t k info d _ hpos]

/-- Witness for `depth_separation`: key 5 stored at depth 2 in the full-bucket
table, probed at depth 1. -/
theorem depth_separation_witness :
    pos 5 2 < 2 ^ 27 ∧ pos 5 1 < 2 ^ 27 ∧ pos 5 2 ≠ pos 5 1 ∧
      (full_bucket_table.emplace 5 ⟨0, 0, 2, EXACT⟩ 2).at_ 5 1 = full_bucket_table.at_ 5 1 ∧
      (full_bucket_table.emplace 5 ⟨0, 0, 2, EXACT⟩ 2).contains 5 1 =
        full_bucket_table.contains 5 1 :=
  depth_separation full_bucket_table 5 2 1 ⟨0, 0, 2, EXACT⟩ (by decide) (by decide) (by decide)

theorem lt_false_trans (a b c : TT_Info) (h1 : a.lt b = false) (h2 : b.lt c = false) :
    a.lt c = false := by
  unfold TT_Info.lt at *
  rcases ha : a.type <;> rcases hb : b.type <;> rcases hc : c.type <;>
    simp_all <;> omega

theorem lt_false_of_lt (e v p : TT_Info) (h1 : e.lt v = true) (h2 : e.lt p = false) :
    v.lt p = false := by
  unfold TT_Info.lt at *
  rcases he : e.type <;> rcases hv : v.type <;> rcases hp : p.type <;>
    simp_all <;> omega

theorem lt_irrefl (a : TT_Info) : a.lt a = false := by
  unfold TT_Info.lt
  rcases ha : a.type <;> simp_all

/-- The second loop of `emplace` rearranges the old slots and the new pair:
the new slots plus the discarded pair are the old slots plus the new pair. -/
theorem emplace_swap_perm (key : Nat) (value : TT_Info) (es : List Entry) :
    List.Perm (emplace_swap key value es ++ [emplace_pending key value es])
      (⟨key, value⟩ :: es) := by
  induction es generalizing key value with
  | nil => simp [emplace_swap, emplace_pending]
  | cons e rest ih =>
    unfold emplace_swap emplace_pending
    by_cases hl : e.value.lt value = true
    · simp only [hl, if_true, List.cons_append]
      exact List.Perm.cons _ (ih e.key e.value)
    · simp only [hl, List.cons_append]
      exact (List.Perm.cons e (ih key value)).trans (List.Perm.swap _ _ _)

theorem emplace_pending_le (key : Nat) (value : TT_Info) (es : List Entry) :
    value.lt (emplace_pending key value es).value = false := by
  induction es generalizing key value with
  | nil => simpa [emplace_pending] using lt_irrefl value
  | cons e rest ih =>
    unfold emplace_pending
    by_cases hl : e.value.lt value = true
    · simp only [hl, if_true]
      exact lt_false_of_lt _ _ _ hl (ih e.key e.value)
    · simp only [hl]
      exact ih key value

theorem emplace_pending_mem (key : Nat) (value : TT_Info) (es : List Entry) :
    emplace_pending key value es = ⟨key, value⟩ ∨ emplace_pending key value es ∈ es := by
  induction es generalizing key value with
  | nil => simp [emplace_pending]
  | cons e rest ih =>
    unfold emplace_pending
    by_cases hl : e.value.lt value = true
    · simp only [hl, if_true]
      rcases ih e.key e.value with h | h
      · exact Or.inr (by rw [h]; exact List.mem_cons_self _ _)
      · exact Or.inr (List.mem_cons_of_mem _ h)
    · simp only [hl]
      rcases ih key value with h | h
      · exact Or.inl h
      · exact Or.inr (List.mem_cons_of_mem _ h)

/-- The discarded pair is minimal: no new slot is strictly below it. -/
theorem emplace_swap_minimal (key : Nat) (value : TT_Info) (es : List Entry) :
    ∀ y ∈ emplace_swap key value es, y.value.lt (emplace_pending key value es).value = false := by
  induction es generalizing key value with
  | nil => simp [emplace_swap]
  | cons e rest ih =>
    intro y hy
    unfold emplace_swap at hy
    unfold emplace_pending
    by_cases hl : e.value.lt value = true
    · simp only [hl, if_true] at hy ⊢
      rcases List.mem_cons.mp hy with rfl | hy
      · exact lt_false_of_lt _ _ _ hl (emplace_pending_le e.key e.value rest)
      · exact ih e.key e.value y hy
    · simp only [hl] at hy ⊢
      rcases List.mem_cons.mp hy with rfl | hy
      · have h1 : y.value.lt value = false := by simpa using hl
        exact lt_false_trans _ _ _ h1 (emplace_pending_le key value rest)
      · exact ih key value y hy

/-- One cross-key store keeps `holds_highest`. -/
theorem holds_highest_step (key : Nat) (value : TT_Info) (bucket stored : List Entry)
    (hno : contains_entries key bucket = false) (h : holds_highest bucket stored) :
    holds_highest (emplace_entries key value bucket) (stored ++ [⟨key, value⟩]) := by
  obtain ⟨rest, hperm, hdom⟩ := h
  unfold emplace_entries
  rw [(emplace_existing_none key value bucket).mpr hno]
  have hp := emplace_swap_perm key value bucket
  refine ⟨emplace_pending key value bucket :: rest, ?_, ?_⟩
  · have h1 : List.Perm (emplace_swap key value bucket ++ emplace_pending key value bucket :: rest)
        (⟨key, value⟩ :: (bucket ++ rest)) := by
      have := List.Perm.append_right rest hp
      simpa using this
    have h2 : List.Perm (⟨key, value⟩ :: (bucket ++ rest))
        (⟨key, value⟩ :: (stored ++ List.replicate entries_per_bucket Entry.zero)) :=
      List.Perm.cons _ hperm
    have h3 : List.Perm (⟨key, value⟩ :: (stored ++ List.replicate entries_per_bucket Entry.zero))
        (stored ++ [⟨key, value⟩] ++ List.replicate entries_per_bucket Entry.zero) := by
      rw [List.append_assoc]
      exact (List.perm_middle).symm
    exact (h1.trans h2).trans h3
  · intro x hx y hy
    rcases List.mem_cons.mp hx with rfl | hx
    · exact emplace_swap_minimal key value bucket y hy
    · have hy1 : y ∈ (⟨key, value⟩ : Entry) :: bucket :=
        hp.subset (List.mem_append_left _ hy)
      rcases List.mem_cons.mp hy1 with rfl | hy1
      · rcases emplace_pending_mem key value bucket with hpd | hpd
        · have hno1 : ¬ ∃ e ∈ bucket, e.key = key := by
            rw [← contains_entries_iff]; simp [hno]
          have hsub : List.Perm (emplace_swap key value bucket ++ [⟨key, value⟩])
              (⟨key, value⟩ :: bucket) := by rw [hpd] at hp; exact hp
          have hsub2 : List.Perm (emplace_swap key value bucket) bucket := by
            have h5 : List.Perm (emplace_swap key value bucket ++ [⟨key, value⟩])
                (bucket ++ [⟨key, value⟩]) :=
              hsub.trans (List.perm_append_singleton _ _).symm
            exact (List.perm_append_right_iff _).mp h5
          exact absurd ⟨_, hsub2.subset hy, rfl⟩ hno1
        · exact lt_false_trans _ _ _ (emplace_pending_le key value bucket) (hdom x hx _ hpd)
      · exact hdom x hx y hy1

theorem holds_highest_zero : holds_highest Bucket.zero.entries [] :=
  ⟨[], by simp [Bucket.zero], by simp⟩

theorem holds_highest_no_key (bucket stored : List Entry) (key : Nat) (hk : key ≠ 0)
    (hfresh : ∀ e ∈ stored, e.key ≠ key) (h : holds_highest bucket stored) :
    contains_entries key bucket = false := by
  obtain ⟨rest, hperm, _⟩ := h
  by_contra hc
  have hc1 : contains_entries key bucket = true := by simpa using hc
  obtain ⟨e, he, hek⟩ := (contains_entries_iff key bucket).mp hc1
  have he1 := hperm.subset (List.mem_append_left rest he)
  rcases List.mem_append.mp he1 with h1 | h1
  · exact hfresh e h1 hek
  · have := List.eq_of_mem_replicate h1
    rw [this] at hek
    exact hk hek.symm

theorem holds_highest_run (i : Nat) (calls : List Emplace_Call) :
    ∀ (t : Transposition_Table) (stored : List Entry),
      holds_highest (t.table i).entries stored →
      (∀ c ∈ calls, pos c.key c.depth = i ∧ c.key ≠ 0 ∧ ∀ e ∈ stored, e.key ≠ c.key) →
      (calls.map Emplace_Call.key).Nodup →
      holds_highest ((run_emplace t calls).table i).entries
        (stored ++ calls.map Emplace_Call.entry) := by
  induction calls with
  | nil => intro t stored h _ _; simpa [run_emplace] using h
  | cons c rest ih =>
    intro t stored h hc hnd
    obtain ⟨hpos, hnz, hfresh⟩ := hc c (List.mem_cons_self _ _)
    have hno := holds_highest_no_key _ _ c.key hnz hfresh h
    have hstep := holds_highest_step c.key c.value _ _ hno h
    rw [List.map_cons, List.nodup_cons] at hnd
    have := ih (t.emplace c.key c.value c.depth) (stored ++ [c.entry])
      (by
        have hs := emplace_same t c.key c.value c.depth
        rw [hpos] at hs
        rw [hs]
        exact hstep)
      (by
        intro c1 hc1
        obtain ⟨h1, h2, h3⟩ := hc c1 (List.mem_cons_of_mem _ hc1)
        refine ⟨h1, h2, ?_⟩
        intro e he
        rcases List.mem_append.mp he with he | he
        · exact h3 e he
        · have he1 : e = c.entry := by simpa using he
          rw [he1]
          intro hk
          exact hnd.1 (List.mem_map.mpr ⟨c1, hc1, hk.symm⟩))
      hnd.2
    simpa [run_emplace, List.append_assoc] using this

/-- C6 (as stated) fails: after the stores of `downgrade_calls`, which all
address bucket 6, the bucket holds the UPPER_BOUND depth-1 entry that
replaced the EXACT entry of key `134217733` in place, but not the
UPPER_BOUND depth-9 item of key `671088637`, which was stored (and dropped)
before and is strictly higher.  This holds whether or not the replaced EXACT
item is counted among the items stored so far. -/
theorem replacement_monotonicity_counterexample :
    ¬ (∀ (calls : List Emplace_Call) (i : Nat), (∀ c ∈ calls, pos c.key c.depth = i) →
      holds_highest ((run_emplace Transposition_Table.new calls).table i).entries
        (calls.map Emplace_Call.entry)) := by
  intro h
  obtain ⟨rest, hperm, hdom⟩ := h downgrade_calls 6 (by decide)
  have hmem : (⟨671088637, ⟨7, 9, 9, UPPER_BOUND⟩⟩ : Entry) ∈
      ((run_emplace Transposition_Table.new downgrade_calls).table 6).entries ++ rest :=
    hperm.symm.subset (by decide)
  rcases List.mem_append.mp hmem with h1 | h1
  · revert h1
    decide
  · have := hdom _ h1 (⟨134217733, ⟨-3, 0, 1, UPPER_BOUND⟩⟩ : Entry) (by decide)
    revert this
    decide

/-- C6 (amended): after any sequence of `emplace` calls with pairwise
distinct non-zero keys that all address one bucket, starting from the empty
table, the bucket holds the four highest items stored so far (ties allowed),
padded with empty slots. -/
theorem replacement_monotonicity (calls : List Emplace_Call) (i : Nat)
    (haddr : ∀ c ∈ calls, pos c.key c.depth = i) (hnz : ∀ c ∈ calls, c.key ≠ 0)
    (hdistinct : (calls.map Emplace_Call.key).Nodup) :
    holds_highest ((run_emplace Transposition_Table.new calls).table i).entries
      (calls.map Emplace_Call.entry) := by
  have := holds_highest_run i calls Transposition_Table.new [] holds_highest_zero
    (fun c hc => ⟨haddr c hc, hnz c hc, by simp⟩) hdistinct
  simpa using this

/-- Witness for `replacement_monotonicity`: the four stores of
`full_bucket_calls` followed by a fifth key of the same bucket. -/
theorem replacement_monotonicity_witness :
    holds_highest ((run_emplace Transposition_Table.new overfull_bucket_calls).table 6).entries
      (overfull_bucket_calls.map Emplace_Call.entry) :=
  replacement_monotonicity overfull_bucket_calls 6 (by decide) (by decide) (by decide)

/-! ## The probe -/

theorem search_thread_tt_probe_eq {Board : Type} (C : Chess Board) (s : Search_Thread Board)
    (move : Move) (alpha beta : Int) (depth : Int) :
    s.tt_probe C move alpha beta depth =
      (⟨s.board, s.nodes, s.tt⟩ : Search Board).tt_probe C move alpha beta depth := by
  unfold Search_Thread.tt_probe Search.tt_probe tt_probe_hint Locking_TT_get_if_exists
  by_cases h1 : s.tt.contains (C.hashKey s.board) depth = true
  · by_cases h2 : s.tt.contains (C.hashKey s.board) (depth - 1) = true <;> simp [h1, h2]
  · by_cases h2 : s.tt.contains (C.hashKey s.board) (depth - 1) = true <;> simp [h1, h2]

theorem tt_probe_rule {Board : Type} (C : Chess Board) (s : Search Board)
    (move : Move) (alpha beta : Int) (depth : Int) :
    probe_rule s.tt (C.hashKey s.board) move alpha beta depth
      (if (s.tt.at_ (C.hashKey s.board) depth).move = NO_MOVE then
        shallower_hint s.tt (C.hashKey s.board) depth NO_MOVE
      else (s.tt.at_ (C.hashKey s.board) depth).move)
      (s.tt_probe C move alpha beta depth) := by
  unfold probe_rule Search.tt_probe tt_probe_hint shallower_hint adjusted_alpha adjusted_beta
  generalize s.tt.at_ (C.hashKey s.board) depth = entry
  by_cases h1 : s.tt.contains (C.hashKey s.board) depth = true
  · rcases ht : entry.type
    · rcases le_total beta entry.eval with hle | hle
      · by_cases h3 : alpha ≥ beta
        · simp [h1, ht, h3, min_eq_left hle]
        · by_cases h4 : entry.move = NO_MOVE
          · simp [h1, ht, h3, h4, min_eq_left hle]
            omega
          · simp [h1, ht, h3, h4, min_eq_left hle]
            omega
      · by_cases h3 : alpha ≥ entry.eval
        · simp [h1, ht, h3, min_eq_right hle]
        · by_cases h4 : entry.move = NO_MOVE
          · simp [h1, ht, h3, h4, min_eq_right hle]
            omega
          · simp [h1, ht, h3, h4, min_eq_right hle]
            omega
    · rcases le_total alpha entry.eval with hle | hle
      · by_cases h3 : entry.eval ≥ beta
        · simp [h1, ht, h3, max_eq_right hle]
        · by_cases h4 : entry.move = NO_MOVE
          · simp [h1, ht, h3, h4, max_eq_right hle]
            omega
          · simp [h1, ht, h3, h4, max_eq_right hle]
            omega
      · by_cases h3 : alpha ≥ beta
        · simp [h1, ht, h3, max_eq_left hle]
        · by_cases h4 : entry.move = NO_MOVE
          · simp [h1, ht, h3, h4, max_eq_left hle]
            omega
          · simp [h1, ht, h3, h4, max_eq_left hle]
            omega
    · simp [h1, ht]
  · simp [h1]

/-- C10 (as stated) fails in its last part: with the table `hint_table`, the
probe of key 5 at depth 2 with window (0, 50) hits an UPPER_BOUND entry
without move, causes no cutoff, and then takes the move 7 of the depth-1
entry, which is not the move of the entry that was hit. -/
theorem tt_probe_cutoff_rule_counterexample :
    ¬ (∀ (s : Search Unit) (move : Move) (alpha beta : Int) (depth : Int),
      probe_rule s.tt (one_board.hashKey s.board) move alpha beta depth
        (s.tt.at_ (one_board.hashKey s.board) depth).move
        (s.tt_probe one_board move alpha beta depth)) := by
  intro h
  have h1 := (h ⟨(), 0, hint_table⟩ NO_MOVE 0 50 2).2.2 (by decide) (by decide)
  have h2 := h1.2.2.2
  revert h2
  decide

/-- C10 (amended): `tt_probe` (of `Search` and of `Search_Thread`) returns
true exactly when the table holds an entry for the current position at the
given depth and either the entry is EXACT or the adjusted window is empty
(`alpha >= beta` after `beta := min(beta, entry.eval)` for UPPER_BOUND,
`alpha := max(alpha, entry.eval)` for LOWER_BOUND); when it returns true the
output alpha is `entry.eval` and the move out-parameter is as passed in; when
it returns false with an entry present, the outputs are the adjusted
`alpha < beta`, and the move out-parameter is `entry.move` when that is a
move, and otherwise the move of the entry one depth earlier (`NO_MOVE` when
there is none). -/
theorem tt_probe_cutoff_rule {Board : Type} (C : Chess Board) (tt : Transposition_Table)
    (board : Board) (nodes : Nat) (finished : Bool) (move : Move) (alpha beta : Int)
    (depth : Int) :
    probe_rule tt (C.hashKey board) move alpha beta depth
        (if (tt.at_ (C.hashKey board) depth).move = NO_MOVE then
          shallower_hint tt (C.hashKey board) depth NO_MOVE
        else (tt.at_ (C.hashKey board) depth).move)
        ((⟨board, nodes, tt⟩ : Search Board).tt_probe C move alpha beta depth) ∧
      probe_rule tt (C.hashKey board) move alpha beta depth
        (if (tt.at_ (C.hashKey board) depth).move = NO_MOVE then
          shallower_hint tt (C.hashKey board) depth NO_MOVE
        else (tt.at_ (C.hashKey board) depth).move)
        ((⟨board, nodes, tt, finished⟩ : Search_Thread Board).tt_probe C move alpha beta
          depth) := by
  refine ⟨tt_probe_rule C ⟨board, nodes, tt⟩ move alpha beta depth, ?_⟩
  rw [search_thread_tt_probe_eq]
  exact tt_probe_rule C ⟨board, nodes, tt⟩ move alpha beta depth

/-! ## Arithmetic of fail-soft bounds -/

theorem MIN_EVAL_eq : MIN_EVAL = INT32_MIN / 2 := by decide

theorem MAX_EVAL_eq : MAX_EVAL = INT32_MAX / 2 := by decide

theorem in_range_neg (v : Int) (h : in_range v) : in_range (-v) := by
  unfold in_range MIN_EVAL MAX_EVAL at *
  omega

theorem in_range_max (a b : Int) (ha : in_range a) (hb : in_range b) : in_range (max a b) := by
  rcases le_total a b with h | h
  · rw [max_eq_right h]; exact hb
  · rw [max_eq_left h]; exact ha

theorem in_range_of_bound (v : Int) (h : -MAX_EVAL < v ∧ v < MAX_EVAL) : in_range v := by
  unfold in_range MIN_EVAL MAX_EVAL at *
  omega

theorem result_ok_neg (v alpha beta value : Int) (h : result_ok v alpha beta value) :
    result_ok (-v) (-beta) (-alpha) (-value) := by
  unfold result_ok in_range MIN_EVAL MAX_EVAL at *
  omega

/-- A result for the window narrowed by a table hit is a result for the
window passed in. -/
theorem result_ok_widen (v alpha beta alpha1 beta1 value : Int)
    (h : result_ok v alpha1 beta1 value) (ha : alpha ≤ alpha1) (hb : beta1 ≤ beta)
    (hab : alpha1 < beta1) (hlow : alpha1 = alpha ∨ alpha1 ≤ value)
    (hhigh : beta1 = beta ∨ value ≤ beta1) : result_ok v alpha beta value := by
  unfold result_ok in_range MIN_EVAL MAX_EVAL at *
  omega

theorem loop_inv_start (alpha1 beta : Int) (h : alpha1 < beta) :
    loop_inv alpha1 beta MIN_EVAL alpha1 UPPER_BOUND MIN_EVAL := by
  unfold loop_inv in_range MIN_EVAL MAX_EVAL
  simp
  omega

theorem loop_inv_exact (alpha1 beta eval alpha : Int) (ty : Bound_Type) (Mp inner t : Int)
    (h : loop_inv alpha1 beta eval alpha ty Mp) (hr : result_ok inner alpha beta t)
    (h1 : inner > eval) (h2 : ¬ inner ≥ beta) (h3 : inner > alpha) :
    loop_inv alpha1 beta inner inner EXACT (max Mp t) := by
  have hm : max Mp t = inner := by
    unfold loop_inv result_ok in_range MIN_EVAL MAX_EVAL at *
    rcases le_total Mp t with hle | hle
    · rw [max_eq_right hle]; omega
    · rw [max_eq_left hle]; omega
  rw [hm]
  unfold loop_inv result_ok in_range MIN_EVAL MAX_EVAL at *
  simp
  omega

theorem loop_inv_low (alpha1 beta eval alpha : Int) (ty : Bound_Type) (Mp inner t : Int)
    (h : loop_inv alpha1 beta eval alpha ty Mp) (hr : result_ok inner alpha beta t)
    (ht : in_range t) (h1 : inner > eval) (h2 : ¬ inner ≥ beta) (h3 : ¬ inner > alpha) :
    loop_inv alpha1 beta inner alpha ty (max Mp t) := by
  rcases le_total Mp t with hle | hle
  · rw [max_eq_right hle]
    unfold loop_inv result_ok in_range MIN_EVAL MAX_EVAL at *
    rcases ty <;> simp at * <;> omega
  · rw [max_eq_left hle]
    unfold loop_inv result_ok in_range MIN_EVAL MAX_EVAL at *
    rcases ty <;> simp at * <;> omega

theorem loop_inv_keep (alpha1 beta eval alpha : Int) (ty : Bound_Type) (Mp inner t : Int)
    (h : loop_inv alpha1 beta eval alpha ty Mp) (hr : result_ok inner alpha beta t)
    (ht : in_range t) (h1 : ¬ inner > eval) :
    loop_inv alpha1 beta eval alpha ty (max Mp t) := by
  rcases le_total Mp t with hle | hle
  · rw [max_eq_right hle]
    unfold loop_inv result_ok in_range MIN_EVAL MAX_EVAL at *
    rcases ty <;> simp at * <;> omega
  · rw [max_eq_left hle]
    exact h

theorem loop_break (alpha1 beta eval alpha : Int) (ty : Bound_Type) (Mp inner t M : Int)
    (move : Move) (dp : Int) (h : loop_inv alpha1 beta eval alpha ty Mp)
    (hr : result_ok inner alpha beta t) (hM : in_range M) (htM : t ≤ M)
    (h1 : inner > eval) (h2 : inner ≥ beta) :
    result_ok inner alpha1 beta M ∧ entry_ok ⟨inner, move, dp, LOWER_BOUND⟩ M := by
  unfold loop_inv result_ok entry_ok sound_entry in_range MIN_EVAL MAX_EVAL at *
  simp
  omega

theorem loop_end (alpha1 beta eval alpha : Int) (ty : Bound_Type) (Mp : Int)
    (move : Move) (dp : Int) (h : loop_inv alpha1 beta eval alpha ty Mp) :
    result_ok eval alpha1 beta Mp ∧ entry_ok ⟨eval, move, dp, ty⟩ Mp := by
  unfold loop_inv result_ok entry_ok sound_entry in_range MIN_EVAL MAX_EVAL at *
  rcases ty <;> simp at * <;> omega

/-! ## The move loops -/

theorem is_max_of_nil (M start : Int) (t : Move → Int) (h : is_max_of M start [] t) :
    M = start := by
  rcases h.2.2 with h1 | ⟨m, hm, _⟩
  · exact h1
  · simp at hm

theorem is_max_of_cons (M start : Int) (m : Move) (rest : List Move) (t : Move → Int)
    (h : is_max_of M start (m :: rest) t) : t m ≤ M ∧ is_max_of M (max start (t m)) rest t := by
  obtain ⟨h1, h2, h3⟩ := h
  have htm : t m ≤ M := h2 m (List.mem_cons_self _ _)
  refine ⟨htm, max_le h1 htm, fun x hx => h2 x (List.mem_cons_of_mem _ hx), ?_⟩
  rcases h3 with h3 | ⟨x, hx, hxM⟩
  · left
    rw [h3] at htm ⊢
    exact (max_eq_left htm).symm
  · rcases List.mem_cons.mp hx with rfl | hx
    · left
      rw [← hxM] at h1 ⊢
      exact (max_eq_right h1).symm
    · exact Or.inr ⟨x, hx, hxM⟩

/-- The generic move loop: when every child search returns a fail-soft bound
of the child value and keeps the board and the table invariant `P`, the loop
returns a fail-soft bound of the maximum, restores the board, keeps `P`, and
leaves an entry that is sound for the maximum. -/
theorem pv_search_loop_ok {Board : Type} (C : Chess Board) (P : Transposition_Table → Prop)
    (b : Board) (t : Move → Int) (alpha1 beta : Int)
    (child : Bool → Int → Int → Search Board → Option (Int × Bool × Search Board))
    (ht : ∀ m, in_range (t m)) (rest : List Move) :
    (∀ m ∈ rest, C.unmakeMove (C.makeMove b m) m = b) →
    (∀ m ∈ rest, ∀ (sfw : Bool) (alpha : Int) (s1 : Search Board),
      s1.board = C.makeMove b m → P s1.tt → alpha1 ≤ alpha → alpha < beta →
      ∃ inner sfw1 s2, child sfw alpha beta s1 = some (inner, sfw1, s2) ∧
        s2.board = s1.board ∧ P s2.tt ∧ result_ok inner alpha beta (t m)) →
    ∀ (eval alpha : Int) (sfw : Bool) (entry : TT_Info) (s : Search Board) (Mp : Int),
      s.board = b → P s.tt → loop_inv alpha1 beta eval alpha entry.type Mp →
      ∃ v entry1 s1,
        pv_search_loop C child beta rest eval alpha sfw entry s = some (v, entry1, s1) ∧
        s1.board = b ∧ P s1.tt ∧ entry1.depth = entry.depth ∧
        ∀ M, in_range M → is_max_of M Mp rest t →
          result_ok v alpha1 beta M ∧ entry_ok { entry1 with eval := v } M := by
  induction rest with
  | nil =>
    intro _ _ eval alpha sfw entry s Mp hb hP hinv
    refine ⟨eval, entry, s, rfl, hb, hP, rfl, ?_⟩
    intro M _ hM
    rw [is_max_of_nil M Mp t hM]
    exact loop_end alpha1 beta eval alpha entry.type Mp entry.move entry.depth hinv
  | cons m rest ih =>
    intro hun hchild eval alpha sfw entry s Mp hb hP hinv
    have ih1 := ih (fun x hx => hun x (List.mem_cons_of_mem _ hx))
      (fun x hx => hchild x (List.mem_cons_of_mem _ hx))
    have hab : alpha < beta := hinv.2.2.2.2.2.2.2.2.1.2.1
    obtain ⟨inner, sfw1, s2, hc, hb2, hP2, hr⟩ :=
      hchild m (List.mem_cons_self _ _) sfw alpha (s.make C m)
        (by simp [Search.make, hb]) (by simpa [Search.make] using hP)
        hinv.2.2.2.2.2.2.2.2.1.1 hab
    have hb3 : (s2.unmake C m).board = b := by
      simp only [Search.unmake]
      rw [hb2]
      simp only [Search.make]
      rw [hb]
      exact hun m (List.mem_cons_self _ _)
    have hP3 : P (s2.unmake C m).tt := by simpa [Search.unmake] using hP2
    unfold pv_search_loop
    rw [hc]
    simp only []
    by_cases h1 : inner > eval
    · by_cases h2 : inner ≥ beta
      · simp only [h1, h2, if_true]
        refine ⟨inner, _, _, rfl, hb3, hP3, rfl, ?_⟩
        intro M hMr hM
        exact loop_break alpha1 beta eval alpha entry.type Mp inner (t m) M m entry.depth hinv
          hr hMr (is_max_of_cons M Mp m rest t hM).1 h1 h2
      · by_cases h3 : inner > alpha
        · simp only [h1, h2, h3, if_true, if_false]
          obtain ⟨v, e1, s1, hl, hbl, hPl, hdl, hres⟩ :=
            ih1 inner inner sfw1 { entry with move := m, type := EXACT } (s2.unmake C m)
              (max Mp (t m)) hb3 hP3
              (loop_inv_exact alpha1 beta eval alpha entry.type Mp inner (t m) hinv hr h1 h2 h3)
          exact ⟨v, e1, s1, hl, hbl, hPl, hdl,
            fun M hMr hM => hres M hMr (is_max_of_cons M Mp m rest t hM).2⟩
        · simp only [h1, h2, h3, if_true, if_false]
          obtain ⟨v, e1, s1, hl, hbl, hPl, hdl, hres⟩ :=
            ih1 inner alpha sfw1 { entry with move := m } (s2.unmake C m)
              (max Mp (t m)) hb3 hP3
              (loop_inv_low alpha1 beta eval alpha entry.type Mp inner (t m) hinv hr (ht m)
                h1 h2 h3)
          exact ⟨v, e1, s1, hl, hbl, hPl, hdl,
            fun M hMr hM => hres M hMr (is_max_of_cons M Mp m rest t hM).2⟩
    · simp only [h1, if_false]
      obtain ⟨v, e1, s1, hl, hbl, hPl, hdl, hres⟩ :=
        ih1 eval alpha sfw1 entry (s2.unmake C m) (max Mp (t m)) hb3 hP3
          (loop_inv_keep alpha1 beta eval alpha entry.type Mp inner (t m) hinv hr (ht m) h1)
      exact ⟨v, e1, s1, hl, hbl, hPl, hdl,
        fun M hMr hM => hres M hMr (is_max_of_cons M Mp m rest t hM).2⟩

/-! ### The other loops are instances of the generic loop -/

theorem nega_max_loop_eq {Board : Type} (C : Chess Board)
    (child : Int → Int → Search Board → Option (Int × Search Board)) (beta : Int)
    (sfw : Bool) (rest : List Move) :
    ∀ (eval alpha : Int) (entry : TT_Info) (s : Search Board),
      nega_max_loop C child beta rest eval alpha entry s =
        pv_search_loop C (window_child child) beta rest eval alpha sfw entry s := by
  induction rest with
  | nil => intro eval alpha entry s; rfl
  | cons m rest ih =>
    intro eval alpha entry s
    unfold nega_max_loop pv_search_loop window_child
    cases child (-beta) (-alpha) (s.make C m) with
    | none => rfl
    | some r =>
      obtain ⟨r, s1⟩ := r
      simp only []
      by_cases h1 : -r > eval
      · by_cases h2 : -r ≥ beta
        · simp only [h1, h2, if_true]
        · by_cases h3 : -r > alpha
          · simp only [h1, h2, h3, if_true, if_false]; exact ih _ _ _ _
          · simp only [h1, h2, h3, if_true, if_false]; exact ih _ _ _ _
      · simp only [h1, if_false]; exact ih _ _ _ _

theorem null_window_search_loop_eq {Board : Type} (C : Chess Board)
    (child : Int → Search Board → Option (Int × Search Board)) (beta : Int)
    (sfw : Bool) (rest : List Move) :
    ∀ (eval : Int) (entry : TT_Info) (s : Search Board),
      null_window_search_loop C child beta rest eval entry s =
        pv_search_loop C (scout_child child) beta rest eval (beta - 1) sfw entry s := by
  induction rest with
  | nil => intro eval entry s; rfl
  | cons m rest ih =>
    intro eval entry s
    unfold null_window_search_loop pv_search_loop scout_child
    cases child (-beta + 1) (s.make C m) with
    | none => rfl
    | some r =>
      obtain ⟨r, s1⟩ := r
      simp only []
      by_cases h1 : -r > eval
      · by_cases h2 : -r ≥ beta
        · simp only [h1, h2, if_true]
        · have h3 : ¬ -r > beta - 1 := by omega
          simp only [h1, h2, h3, if_true, if_false]; exact ih _ _ _
      · simp only [h1, if_false]; exact ih _ _ _

theorem root_max_loop_eq {Board : Type} (C : Chess Board)
    (child : Bool → Int → Int → Search Board → Option (Int × Bool × Search Board))
    (beta : Int) (rest : List Move) :
    ∀ (eval alpha : Int) (sfw : Bool) (best_move : Move) (entry : TT_Info) (s : Search Board),
      entry.move = best_move →
      root_max_loop C child beta rest eval alpha sfw best_move s =
        (pv_search_loop C child beta rest eval alpha sfw entry s).map
          (fun r => (r.1, r.2.1.move, r.2.2)) := by
  induction rest with
  | nil => intro eval alpha sfw best_move entry s h; simp [root_max_loop, pv_search_loop, h]
  | cons m rest ih =>
    intro eval alpha sfw best_move entry s h
    unfold root_max_loop pv_search_loop
    cases child sfw alpha beta (s.make C m) with
    | none => rfl
    | some r =>
      obtain ⟨inner, sfw1, s1⟩ := r
      simp only []
      by_cases h1 : inner > eval
      · by_cases h2 : inner ≥ beta
        · simp only [h1, h2, if_true, Option.map_some']
        · by_cases h3 : inner > alpha
          · simp only [h1, h2, h3, if_true, if_false]; exact ih _ _ _ _ _ _ rfl
          · simp only [h1, h2, h3, if_true, if_false]; exact ih _ _ _ _ _ _ rfl
      · simp only [h1, if_false]; exact ih _ _ _ _ _ _ h

theorem q_search_loop_eq {Board : Type} (C : Chess Board)
    (child : Int → Int → Search Board → Option (Int × Search Board)) (beta : Int)
    (sfw : Bool) (rest : List Move) :
    ∀ (q_eval alpha : Int) (entry : TT_Info) (s : Search Board),
      q_search_loop C child beta rest q_eval alpha s =
        (pv_search_loop C (window_child child) beta rest q_eval alpha sfw entry s).map
          (fun r => (r.1, r.2.2)) := by
  induction rest with
  | nil => intro q_eval alpha entry s; rfl
  | cons m rest ih =>
    intro q_eval alpha entry s
    unfold q_search_loop pv_search_loop window_child
    cases child (-beta) (-alpha) (s.make C m) with
    | none => rfl
    | some r =>
      obtain ⟨r, s1⟩ := r
      simp only []
      by_cases h1 : -r > q_eval
      · by_cases h2 : -r ≥ beta
        · simp only [h1, h2, if_true, Option.map_some']
        · by_cases h3 : -r > alpha
          · simp only [h1, h2, h3, if_true, if_false]; exact ih _ _ _ _
          · simp only [h1, h2, h3, if_true, if_false]; exact ih _ _ _ _
      · simp only [h1, if_false]; exact ih _ _ _ _

theorem nw_q_search_loop_eq {Board : Type} (C : Chess Board)
    (child : Int → Search Board → Option (Int × Search Board)) (beta : Int)
    (sfw : Bool) (rest : List Move) :
    ∀ (q_eval : Int) (entry : TT_Info) (s : Search Board),
      nw_q_search_loop C child beta rest q_eval s =
        (pv_search_loop C (scout_child child) beta rest q_eval (beta - 1) sfw entry s).map
          (fun r => (r.1, r.2.2)) := by
  induction rest with
  | nil => intro q_eval entry s; rfl
  | cons m rest ih =>
    intro q_eval entry s
    unfold nw_q_search_loop pv_search_loop scout_child
    cases child (-beta + 1) (s.make C m) with
    | none => rfl
    | some r =>
      obtain ⟨r, s1⟩ := r
      simp only []
      by_cases h1 : -r > q_eval
      · by_cases h2 : -r ≥ beta
        · simp only [h1, h2, if_true, Option.map_some']
        · have h3 : ¬ -r > beta - 1 := by omega
          simp only [h1, h2, h3, if_true, if_false]; exact ih _ _ _
      · simp only [h1, if_false]; exact ih _ _ _

/-! ## Quiescence search -/

theorem foldl_max_is_max_of (f : Move → Int) (l : List Move) :
    ∀ init : Int, is_max_of (l.foldl (fun acc m => max acc (f m)) init) init l f := by
  induction l with
  | nil => intro init; exact ⟨le_refl _, by simp, Or.inl rfl⟩
  | cons m rest ih =>
    intro init
    obtain ⟨h1, h2, h3⟩ := ih (max init (f m))
    simp only [List.foldl_cons]
    refine ⟨le_trans (le_max_left _ _) h1, ?_, ?_⟩
    · intro x hx
      rcases List.mem_cons.mp hx with rfl | hx
      · exact le_trans (le_max_right _ _) h1
      · exact h2 x hx
    · rcases h3 with h3 | ⟨x, hx, hxM⟩
      · rcases le_total init (f m) with hle | hle
        · exact Or.inr ⟨m, List.mem_cons_self _ _, (h3.trans (max_eq_right hle)).symm⟩
        · exact Or.inl (h3.trans (max_eq_left hle))
      · exact Or.inr ⟨x, List.mem_cons_of_mem _ hx, hxM⟩

theorem is_max_of_bound (M start : Int) (l : List Move) (f : Move → Int) (lo hi : Int)
    (h : is_max_of M start l f) (hs : lo < start ∧ start < hi)
    (hf : ∀ m, lo < f m ∧ f m < hi) : lo < M ∧ M < hi := by
  obtain ⟨h1, _, h3⟩ := h
  rcases h3 with h3 | ⟨x, _, hxM⟩
  · rw [h3]; exact hs
  · rw [← hxM]; exact hf x

theorem quiescence_value_bound {Board : Type} (C : Chess Board) (Q_SEARCH : Bool)
    (hev : ∀ b, -MAX_EVAL < C.eval b ∧ C.eval b < MAX_EVAL) (fuel : Nat) :
    ∀ b, -MAX_EVAL < quiescence_value C Q_SEARCH fuel b ∧
      quiescence_value C Q_SEARCH fuel b < MAX_EVAL := by
  induction fuel with
  | zero => intro b; exact hev b
  | succ k ih =>
    intro b
    unfold quiescence_value
    cases Q_SEARCH with
    | true =>
      simp only [Bool.not_true, Bool.false_eq_true, if_false]
      exact is_max_of_bound _ _ _ _ _ _ (foldl_max_is_max_of _ _ _) (hev b)
        (fun m => by have := ih (C.makeMove b m); omega)
    | false =>
      simp only [Bool.not_false, if_true]
      exact hev b

theorem loop_inv_start_q (alpha beta q_eval : Int) (h : alpha < beta)
    (hq : -MAX_EVAL < q_eval ∧ q_eval < MAX_EVAL) (hb : ¬ q_eval ≥ beta) :
    loop_inv alpha beta q_eval (if q_eval > alpha then q_eval else alpha) UPPER_BOUND q_eval := by
  unfold loop_inv in_range MIN_EVAL MAX_EVAL at *
  by_cases h1 : q_eval > alpha
  · simp [h1]; omega
  · simp [h1]; omega

theorem result_ok_stand_pat (alpha beta q_eval value : Int) (h : alpha < beta)
    (hq : -MAX_EVAL < q_eval ∧ q_eval < MAX_EVAL) (hb : q_eval ≥ beta) (hv : q_eval ≤ value) :
    result_ok q_eval alpha beta value := by
  unfold result_ok in_range MIN_EVAL MAX_EVAL at *
  omega

theorem result_ok_refl (alpha beta value : Int)
    (hq : -MAX_EVAL < value ∧ value < MAX_EVAL) : result_ok value alpha beta value := by
  unfold result_ok in_range MIN_EVAL MAX_EVAL at *
  omega

/-- The search `q_search` returns, restores the board, leaves the table
alone, and its result is a fail-soft bound of the quiescence value. -/
theorem q_search_ok {Board : Type} (C : Chess Board) (Q_SEARCH : Bool)
    (hev : ∀ b, -MAX_EVAL < C.eval b ∧ C.eval b < MAX_EVAL)
    (hun : ∀ b, ∀ m ∈ C.legalmoves_CAPTURE b, C.unmakeMove (C.makeMove b m) m = b)
    (rank : Board → Nat)
    (hrank : ∀ b, ∀ m ∈ C.legalmoves_CAPTURE b, rank (C.makeMove b m) < rank b) (fuel : Nat) :
    ∀ (alpha beta : Int) (s : Search Board), rank s.board < fuel → alpha < beta →
      ∃ v s1, Search.q_search C Q_SEARCH fuel alpha beta s = some (v, s1) ∧
        s1.board = s.board ∧ s1.tt = s.tt ∧
        result_ok v alpha beta (quiescence_value C Q_SEARCH fuel s.board) := by
  induction fuel with
  | zero => intro alpha beta s h; omega
  | succ k ih =>
    intro alpha beta s hr hab
    unfold Search.q_search quiescence_value
    cases Q_SEARCH with
    | false =>
      simp only [Bool.not_false, if_true]
      exact ⟨_, _, rfl, rfl, rfl, result_ok_refl _ _ _ (hev _)⟩
    | true =>
      simp only [Bool.not_true, Bool.false_eq_true, if_false]
      have hmax := foldl_max_is_max_of
        (fun m => -quiescence_value C true k (C.makeMove s.board m))
        (C.legalmoves_CAPTURE s.board) (C.eval s.board)
      have hbound : ∀ m, -MAX_EVAL < -quiescence_value C true k (C.makeMove s.board m) ∧
          -quiescence_value C true k (C.makeMove s.board m) < MAX_EVAL := by
        intro m
        have := quiescence_value_bound C true hev k (C.makeMove s.board m)
        omega
      by_cases h1 : C.eval s.board ≥ beta
      · simp only [h1, if_true]
        exact ⟨_, _, rfl, rfl, rfl, result_ok_stand_pat _ _ _ _ hab (hev _) h1 hmax.1⟩
      · simp only [h1, if_false]
        rw [q_search_loop_eq C _ beta true _ _ _ TT_Info.zero]
        obtain ⟨v, e1, s1, hl, hb1, hP1, _, hres⟩ :=
          pv_search_loop_ok C (fun t => t = s.tt) s.board
            (fun m => -quiescence_value C true k (C.makeMove s.board m)) alpha beta
            (window_child (Search.q_search C true k))
            (fun m => in_range_of_bound _ (hbound m))
            (C.legalmoves_CAPTURE s.board) (hun s.board)
            (by
              intro m hm sfw a s1 hs1 hP _ hab1
              have hr1 : rank s1.board < k := by
                rw [hs1]
                have := hrank s.board m hm
                omega
              obtain ⟨r, s2, hc, hb2, ht2, hres⟩ :=
                ih (-beta) (-a) s1 hr1 (by omega)
              refine ⟨-r, sfw, s2, ?_, hb2, by rw [ht2]; exact hP, ?_⟩
              · simp [window_child, hc]
              · have := result_ok_neg _ _ _ _ hres
                rw [hs1] at this
                simpa using this)
            (C.eval s.board) (if C.eval s.board > alpha then C.eval s.board else alpha) true
            TT_Info.zero { s with nodes := (s.nodes + 1) % 2 ^ 64 }
            (C.eval s.board) rfl rfl
            (loop_inv_start_q alpha beta _ hab (hev _) h1)
        rw [hl]
        refine ⟨v, s1, rfl, hb1, hP1, ?_⟩
        exact (hres _ (in_range_of_bound _ (is_max_of_bound _ _ _ _ _ _ hmax (hev _) hbound))
          hmax).1

theorem loop_inv_start_nwq (beta q_eval : Int)
    (hq : -MAX_EVAL < q_eval ∧ q_eval < MAX_EVAL) (hb : ¬ q_eval ≥ beta) :
    loop_inv (beta - 1) beta q_eval (beta - 1) UPPER_BOUND q_eval := by
  unfold loop_inv in_range MIN_EVAL MAX_EVAL at *
  simp
  omega

/-- The search `nw_q_search(beta)` returns, restores the board, leaves the
table alone, and its result is a fail-soft bound of the quiescence value for
the window `(beta - 1, beta)`. -/
theorem nw_q_search_ok {Board : Type} (C : Chess Board) (Q_SEARCH : Bool)
    (hev : ∀ b, -MAX_EVAL < C.eval b ∧ C.eval b < MAX_EVAL)
    (hun : ∀ b, ∀ m ∈ C.legalmoves_CAPTURE b, C.unmakeMove (C.makeMove b m) m = b)
    (rank : Board → Nat)
    (hrank : ∀ b, ∀ m ∈ C.legalmoves_CAPTURE b, rank (C.makeMove b m) < rank b) (fuel : Nat) :
    ∀ (beta : Int) (s : Search Board), rank s.board < fuel →
      ∃ v s1, Search.nw_q_search C Q_SEARCH fuel beta s = some (v, s1) ∧
        s1.board = s.board ∧ s1.tt = s.tt ∧
        result_ok v (beta - 1) beta (quiescence_value C Q_SEARCH fuel s.board) := by
  induction fuel with
  | zero => intro beta s h; omega
  | succ k ih =>
    intro beta s hr
    unfold Search.nw_q_search quiescence_value
    cases Q_SEARCH with
    | false =>
      simp only [Bool.not_false, if_true]
      exact ⟨_, _, rfl, rfl, rfl, result_ok_refl _ _ _ (hev _)⟩
    | true =>
      simp only [Bool.not_true, Bool.false_eq_true, if_false]
      have hmax := foldl_max_is_max_of
        (fun m => -quiescence_value C true k (C.makeMove s.board m))
        (C.legalmoves_CAPTURE s.board) (C.eval s.board)
      have hbound : ∀ m, -MAX_EVAL < -quiescence_value C true k (C.makeMove s.board m) ∧
          -quiescence_value C true k (C.makeMove s.board m) < MAX_EVAL := by
        intro m
        have := quiescence_value_bound C true hev k (C.makeMove s.board m)
        omega
      by_cases h1 : C.eval s.board ≥ beta
      · simp only [h1, if_true]
        exact ⟨_, _, rfl, rfl, rfl,
          result_ok_stand_pat _ _ _ _ (by omega) (hev _) h1 hmax.1⟩
      · simp only [h1, if_false]
        rw [nw_q_search_loop_eq C _ beta true _ _ TT_Info.zero]
        obtain ⟨v, e1, s1, hl, hb1, hP1, _, hres⟩ :=
          pv_search_loop_ok C (fun t => t = s.tt) s.board
            (fun m => -quiescence_value C true k (C.makeMove s.board m)) (beta - 1) beta
            (scout_child (Search.nw_q_search C true k))
            (fun m => in_range_of_bound _ (hbound m))
            (C.legalmoves_CAPTURE s.board) (hun s.board)
            (by
              intro m hm sfw a s1 hs1 hP ha1 hab1
              have ha : a = beta - 1 := by omega
              subst ha
              have hr1 : rank s1.board < k := by
                rw [hs1]
                have := hrank s.board m hm
                omega
              obtain ⟨r, s2, hc, hb2, ht2, hres⟩ := ih (-beta + 1) s1 hr1
              refine ⟨-r, sfw, s2, ?_, hb2, by rw [ht2]; exact hP, ?_⟩
              · simp [scout_child, hc]
              · have := result_ok_neg _ _ _ _ hres
                rw [hs1] at this
                have h2 : -(-beta + 1 - 1) = beta := by omega
                have h3 : -(-beta + 1) = beta - 1 := by omega
                rw [h2, h3] at this
                exact this)
            (C.eval s.board) (beta - 1) true
            TT_Info.zero { s with nodes := (s.nodes + 1) % 2 ^ 64 }
            (C.eval s.board) rfl rfl
            (loop_inv_start_nwq beta _ (hev _) h1)
        rw [hl]
        refine ⟨v, s1, rfl, hb1, hP1, ?_⟩
        exact (hres _ (in_range_of_bound _ (is_max_of_bound _ _ _ _ _ _ hmax (hev _) hbound))
          hmax).1

/-! ## The negamax value -/

theorem result_ok_full_window (v value : Int) (h : result_ok v MIN_EVAL MAX_EVAL value)
    (hv : in_range value) : v = value := by
  unfold result_ok in_range MIN_EVAL MAX_EVAL at *
  omega

theorem full_window_quiescence_eq {Board : Type} (C : Chess Board) (Q_SEARCH : Bool)
    (fuel : Nat) (hw : Well_Formed C fuel) (b : Board) :
    full_window_quiescence C Q_SEARCH fuel b = quiescence_value C Q_SEARCH fuel b := by
  obtain ⟨rank, hr1, hr2⟩ := hw.captures_end
  obtain ⟨v, s1, hq, _, _, hres⟩ :=
    q_search_ok C Q_SEARCH hw.eval_bound hw.unmake_capture rank hr2 fuel MIN_EVAL MAX_EVAL
      ⟨b, 0, Transposition_Table.new⟩ (hr1 b) (by decide)
  unfold full_window_quiescence
  rw [hq]
  exact result_ok_full_window v _ hres
    (in_range_of_bound _ (quiescence_value_bound C Q_SEARCH hw.eval_bound fuel b))

theorem negamax_value_in_range {Board : Type} (C : Chess Board) (Q_SEARCH : Bool)
    (fuel : Nat) (hw : Well_Formed C fuel) (d : Nat) :
    ∀ b, in_range (negamax_value C Q_SEARCH fuel d b) := by
  induction d with
  | zero =>
    intro b
    unfold negamax_value
    rw [full_window_quiescence_eq C Q_SEARCH fuel hw b]
    exact in_range_of_bound _ (quiescence_value_bound C Q_SEARCH hw.eval_bound fuel b)
  | succ d ih =>
    intro b
    rw [negamax_value]
    cases C.legalmoves_ALL b with
    | nil => simp only []; unfold in_range MIN_EVAL MAX_EVAL; omega
    | cons m rest =>
      simp only []
      have hmax := foldl_max_is_max_of
        (fun m1 => -negamax_value C Q_SEARCH fuel d (C.makeMove b m1)) rest
        (-negamax_value C Q_SEARCH fuel d (C.makeMove b m))
      rcases hmax.2.2 with h | ⟨x, _, hx⟩
      · rw [h]; exact in_range_neg _ (ih _)
      · rw [← hx]; exact in_range_neg _ (ih _)

theorem negamax_value_succ {Board : Type} (C : Chess Board) (Q_SEARCH : Bool)
    (fuel : Nat) (d : Nat) (b : Board) :
    negamax_value C Q_SEARCH fuel (d + 1) b =
      match C.legalmoves_ALL b with
      | [] => MIN_EVAL
      | m :: rest =>
        rest.foldl (fun acc m1 => max acc (-negamax_value C Q_SEARCH fuel d (C.makeMove b m1)))
          (-negamax_value C Q_SEARCH fuel d (C.makeMove b m)) := by
  rw [negamax_value]

/-- The value `M_{d+1}` of a board is the maximum of `MIN_EVAL` and the
negated values `M_d` after each legal move. -/
theorem negamax_value_is_max {Board : Type} (C : Chess Board) (Q_SEARCH : Bool)
    (fuel : Nat) (hw : Well_Formed C fuel) (d : Nat) (b : Board) :
    is_max_of (negamax_value C Q_SEARCH fuel (d + 1) b) MIN_EVAL (C.legalmoves_ALL b)
      (fun m => -negamax_value C Q_SEARCH fuel d (C.makeMove b m)) := by
  have hr := negamax_value_in_range C Q_SEARCH fuel hw (d + 1) b
  rw [negamax_value_succ] at hr ⊢
  generalize C.legalmoves_ALL b = moves at hr ⊢
  cases moves with
  | nil => exact ⟨le_refl _, by simp, Or.inl rfl⟩
  | cons m rest =>
    simp only [] at hr ⊢
    have hmax := foldl_max_is_max_of
      (fun m1 => -negamax_value C Q_SEARCH fuel d (C.makeMove b m1)) rest
      (-negamax_value C Q_SEARCH fuel d (C.makeMove b m))
    refine ⟨hr.1, ?_, ?_⟩
    · intro x hx
      rcases List.mem_cons.mp hx with rfl | hx
      · exact hmax.1
      · exact hmax.2.1 x hx
    · rcases hmax.2.2 with h | ⟨x, hx, hxM⟩
      · exact Or.inr ⟨m, List.mem_cons_self _ _, h.symm⟩
      · exact Or.inr ⟨x, List.mem_cons_of_mem _ hx, hxM⟩

theorem is_max_of_subset (M start : Int) (l1 l2 : List Move) (t : Move → Int)
    (h : is_max_of M start l1 t) (h12 : ∀ m, m ∈ l1 ↔ m ∈ l2) : is_max_of M start l2 t := by
  obtain ⟨h1, h2, h3⟩ := h
  refine ⟨h1, fun m hm => h2 m ((h12 m).mpr hm), ?_⟩
  rcases h3 with h3 | ⟨x, hx, hxM⟩
  · exact Or.inl h3
  · exact Or.inr ⟨x, (h12 x).mp hx, hxM⟩

/-! ## Move ordering -/

theorem Movelist_find_range (moves : List Move) (m : Move) :
    Movelist_find moves m = -1 ∨
      (0 ≤ Movelist_find moves m ∧ Movelist_find moves m < moves.length) := by
  induction moves with
  | nil => left; rfl
  | cons x rest ih =>
    unfold Movelist_find
    by_cases h : x = m
    · right; simp [h]
    · by_cases h1 : Movelist_find rest m = -1
      · left; simp [h, h1]
      · right
        simp only [h, h1, if_false, List.length_cons]
        rcases ih with ih | ih
        · exact absurd ih h1
        · push_cast; omega

theorem perm_set_getD (rest : List Move) :
    ∀ (j : Nat) (a d : Move), j < rest.length →
      List.Perm (rest.getD j d :: rest.set j a) (a :: rest) := by
  induction rest with
  | nil => intro j a d h; simp at h
  | cons y ys ih =>
    intro j a d h
    cases j with
    | zero => simp only [List.getD_cons_zero, List.set_cons_zero]; exact List.Perm.swap _ _ _
    | succ j =>
      simp only [List.getD_cons_succ, List.set_cons_succ]
      have h1 : j < ys.length := by simpa using h
      exact (List.Perm.swap _ _ _).trans
        ((List.Perm.cons y (ih j a d h1)).trans (List.Perm.swap _ _ _))

theorem Movelist_swap_perm (moves : List Move) (i : Nat) (h0 : 0 < i) (h : i < moves.length) :
    List.Perm (Movelist_swap moves i) moves := by
  cases moves with
  | nil => simp at h
  | cons a rest =>
    cases i with
    | zero => omega
    | succ j =>
      unfold Movelist_swap
      simp only [List.getD_cons_succ, List.set_cons_zero, List.set_cons_succ,
        List.getD_cons_zero]
      exact perm_set_getD rest j a NO_MOVE (by simpa using h)

theorem tt_move_first_perm (moves : List Move) (tt_move : Move) :
    List.Perm (tt_move_first moves tt_move) moves := by
  unfold tt_move_first
  by_cases h : Movelist_find moves tt_move > 0
  · simp only [h, if_true]
    rcases Movelist_find_range moves tt_move with h1 | h1
    · omega
    · exact Movelist_swap_perm moves _ (by omega) (by omega)
  · simp only [h, if_false]
    exact List.Perm.refl _

theorem tt_move_first_mem (moves : List Move) (tt_move : Move) (m : Move) :
    m ∈ tt_move_first moves tt_move ↔ m ∈ moves :=
  (tt_move_first_perm moves tt_move).mem_iff

/-! ## The table invariant -/

theorem table_ok_new {Board : Type} (C : Chess Board) (Q_SEARCH : Bool) (fuel D : Nat) :
    table_ok C Q_SEARCH fuel D Transposition_Table.new := by
  intro i e he hk
  simp [Transposition_Table.new, Bucket.zero, Entry.zero] at he
  rw [he.2] at hk
  exact absurd rfl hk

theorem table_ok_mono {Board : Type} (C : Chess Board) (Q_SEARCH : Bool) (fuel D D1 : Nat)
    (t : Transposition_Table) (hD : D ≤ D1) (h : table_ok C Q_SEARCH fuel D t) :
    table_ok C Q_SEARCH fuel D1 t := by
  intro i e he hk
  obtain ⟨h1, h2, h3⟩ := h i e he hk
  exact ⟨⟨h1.1, by have := h1.2; omega⟩, h2, h3⟩

/-- A probe hit returns an entry that satisfies the invariant for the
probed position and depth. -/
theorem table_ok_probe {Board : Type} (C : Chess Board) (Q_SEARCH : Bool) (fuel D : Nat)
    (hw : Well_Formed C fuel) (t : Transposition_Table) (h : table_ok C Q_SEARCH fuel D t)
    (hD : D ≤ 127) (b : Board) (d : Nat) (hd : d ≤ 127)
    (hc : t.contains (C.hashKey b) d = true) :
    entry_ok (t.at_ (C.hashKey b) d) (negamax_value C Q_SEARCH fuel d b) ∧ 1 ≤ d ∧ d ≤ D ∧
      (t.at_ (C.hashKey b) d).depth = d := by
  have hmem := at_entries_mem (C.hashKey b) _ hc
  obtain ⟨h1, h2, h3⟩ := h _ _ hmem (hw.key_nonzero b)
  simp only at h1 h2 h3
  have hdep : (at_entries (C.hashKey b) (t.table (pos (C.hashKey b) d)).entries).depth
      = (d : Int) :=
    pos_depth_injective (C.hashKey b) _ _ ⟨by omega, by omega⟩ ⟨by omega, by omega⟩ h2
  have h4 := h3 b rfl
  rw [hdep] at h4 h1
  unfold Transposition_Table.at_
  simp only [Int.toNat_ofNat] at h4
  exact ⟨h4, by omega, by omega, hdep⟩

theorem table_ok_sound {Board : Type} (C : Chess Board) (Q_SEARCH : Bool) (fuel D : Nat)
    (hw : Well_Formed C fuel) (hD : D ≤ 127) (t : Transposition_Table)
    (h : table_ok C Q_SEARCH fuel D t) : table_sound C Q_SEARCH fuel t := by
  refine ⟨?_, ?_⟩
  · intro i e he hk b hb
    exact ((h i e he hk).2.2 b hb).1
  · intro b d hd hc
    have := table_ok_probe C Q_SEARCH fuel D hw t h hD b d hd hc
    exact ⟨this.2.2.2, this.1.1⟩

theorem table_ok_absent {Board : Type} (C : Chess Board) (Q_SEARCH : Bool) (fuel D : Nat)
    (hw : Well_Formed C fuel) (t : Transposition_Table) (h : table_ok C Q_SEARCH fuel D t)
    (hD : D ≤ 127) (b : Board) (d : Nat) (hd : d ≤ 127) (hDd : D < d) :
    t.contains (C.hashKey b) d = false := by
  by_contra hc
  have hc1 : t.contains (C.hashKey b) d = true := by simpa using hc
  have := (table_ok_probe C Q_SEARCH fuel D hw t h hD b d hd hc1).2.2.1
  omega

/-- Storing an entry that satisfies the invariant keeps the table invariant. -/
theorem table_ok_store {Board : Type} (C : Chess Board) (Q_SEARCH : Bool) (fuel D : Nat)
    (hw : Well_Formed C fuel) (t : Transposition_Table) (h : table_ok C Q_SEARCH fuel D t)
    (b : Board) (d : Nat) (hd1 : 1 ≤ d) (hdD : d ≤ D) (info : TT_Info)
    (hdepth : info.depth = (d : Int))
    (hinfo : entry_ok info (negamax_value C Q_SEARCH fuel d b)) :
    table_ok C Q_SEARCH fuel D (t.emplace (C.hashKey b) info d) := by
  intro i e he hk
  by_cases hi : i = pos (C.hashKey b) d
  · subst hi
    rw [emplace_same] at he
    rcases emplace_entries_mem _ _ _ e he with h1 | h1
    · exact h _ e h1 hk
    · subst h1
      simp only
      rw [hdepth]
      refine ⟨⟨by omega, by omega⟩, rfl, ?_⟩
      intro b1 hb1
      rw [← hw.key_injective b b1 hb1]
      simpa using hinfo
  · rw [emplace_other _ _ _ _ _ hi] at he
    exact h i e he hk

theorem to_int8_small (d : Nat) (h : d ≤ 127) : to_int8 (d : Int) = (d : Int) := by
  unfold to_int8
  omega

/-- What the probe at the start of a search gives: on a cutoff, a fail-soft
bound for the window passed in; otherwise a narrowed non-empty window whose
new bounds are bounds of the node value. -/
theorem tt_probe_ok {Board : Type} (C : Chess Board) (Q_SEARCH : Bool) (fuel D : Nat)
    (hw : Well_Formed C fuel) (s : Search Board) (h : table_ok C Q_SEARCH fuel D s.tt)
    (hD : D ≤ 127) (d : Nat) (hd : d ≤ 127) (move : Move) (alpha beta : Int)
    (hab : alpha < beta) :
    ((s.tt_probe C move alpha beta d).cutoff = true →
        result_ok (s.tt_probe C move alpha beta d).alpha alpha beta
          (negamax_value C Q_SEARCH fuel d s.board)) ∧
      ((s.tt_probe C move alpha beta d).cutoff = false →
        alpha ≤ (s.tt_probe C move alpha beta d).alpha ∧
        (s.tt_probe C move alpha beta d).alpha < (s.tt_probe C move alpha beta d).beta ∧
        (s.tt_probe C move alpha beta d).beta ≤ beta ∧
        ((s.tt_probe C move alpha beta d).alpha = alpha ∨
          (s.tt_probe C move alpha beta d).alpha ≤ negamax_value C Q_SEARCH fuel d s.board) ∧
        ((s.tt_probe C move alpha beta d).beta = beta ∨
          negamax_value C Q_SEARCH fuel d s.board ≤ (s.tt_probe C move alpha beta d).beta)) := by
  unfold Search.tt_probe
  by_cases h1 : s.tt.contains (C.hashKey s.board) d = true
  · have hok := (table_ok_probe C Q_SEARCH fuel D hw s.tt h hD s.board d hd h1).1
    generalize s.tt.at_ (C.hashKey s.board) d = entry at hok
    generalize negamax_value C Q_SEARCH fuel d s.board = M at hok
    unfold entry_ok sound_entry at hok
    rcases ht : entry.type
    · rcases le_total beta entry.eval with hle | hle
      · by_cases h3 : alpha ≥ beta
        · omega
        · simp [h1, ht, h3, min_eq_left hle]
          omega
      · by_cases h3 : alpha ≥ entry.eval
        · simp [h1, ht, h3, min_eq_right hle]
          simp [ht] at hok
          unfold result_ok
          unfold in_range MIN_EVAL MAX_EVAL at *
          omega
        · simp [h1, ht, h3, min_eq_right hle]
          simp [ht] at hok
          omega
    · rcases le_total alpha entry.eval with hle | hle
      · by_cases h3 : entry.eval ≥ beta
        · simp [h1, ht, h3, max_eq_right hle]
          simp [ht] at hok
          unfold result_ok
          unfold in_range MIN_EVAL MAX_EVAL at *
          omega
        · simp [h1, ht, h3, max_eq_right hle]
          simp [ht] at hok
          omega
      · by_cases h3 : alpha ≥ beta
        · omega
        · simp [h1, ht, h3, max_eq_left hle]
          omega
    · simp [h1, ht]
      simp [ht] at hok
      unfold result_ok
      unfold in_range MIN_EVAL MAX_EVAL at *
      omega
  · simp [h1]
    omega

/-! ## One node of the search -/

theorem q_search_window_ok {Board : Type} (C : Chess Board) (Q_SEARCH : Bool) (fuel : Nat)
    (hw : Well_Formed C fuel) (D : Nat) :
    window_search_ok C Q_SEARCH fuel D 0 (Search.q_search C Q_SEARCH fuel) := by
  intro alpha beta s hab ht
  obtain ⟨rank, hr1, hr2⟩ := hw.captures_end
  obtain ⟨v, s1, hq, hb, htt, hres⟩ :=
    q_search_ok C Q_SEARCH hw.eval_bound hw.unmake_capture rank hr2 fuel alpha beta s
      (hr1 _) hab
  refine ⟨v, s1, hq, hb, by rw [htt]; exact ht, ?_⟩
  unfold negamax_value
  rw [full_window_quiescence_eq C Q_SEARCH fuel hw]
  exact hres

theorem nw_q_search_scout_ok {Board : Type} (C : Chess Board) (Q_SEARCH : Bool) (fuel : Nat)
    (hw : Well_Formed C fuel) (D : Nat) :
    scout_search_ok C Q_SEARCH fuel D 0 (Search.nw_q_search C Q_SEARCH fuel) := by
  intro beta s ht
  obtain ⟨rank, hr1, hr2⟩ := hw.captures_end
  obtain ⟨v, s1, hq, hb, htt, hres⟩ :=
    nw_q_search_ok C Q_SEARCH hw.eval_bound hw.unmake_capture rank hr2 fuel beta s (hr1 _)
  refine ⟨v, s1, hq, hb, by rw [htt]; exact ht, ?_⟩
  unfold negamax_value
  rw [full_window_quiescence_eq C Q_SEARCH fuel hw]
  exact hres

theorem window_child_ok {Board : Type} (C : Chess Board) (Q_SEARCH : Bool) (fuel : Nat)
    (D d : Nat) (b : Board) (alpha1 beta : Int) (moves : List Move)
    (f : Int → Int → Search Board → Option (Int × Search Board))
    (hf : window_search_ok C Q_SEARCH fuel D d f) :
    child_ok C Q_SEARCH fuel D d b alpha1 beta moves (window_child f) := by
  intro m _ sfw alpha s1 hs1 ht _ hab
  obtain ⟨r, s2, hc, hb2, ht2, hres⟩ := hf (-beta) (-alpha) s1 (by omega) ht
  refine ⟨-r, sfw, s2, by simp [window_child, hc], hb2, ht2, ?_⟩
  have := result_ok_neg _ _ _ _ hres
  rw [hs1] at this
  simpa using this

theorem scout_child_ok {Board : Type} (C : Chess Board) (Q_SEARCH : Bool) (fuel : Nat)
    (D d : Nat) (b : Board) (beta : Int) (moves : List Move)
    (f : Int → Search Board → Option (Int × Search Board))
    (hf : scout_search_ok C Q_SEARCH fuel D d f) :
    child_ok C Q_SEARCH fuel D d b (beta - 1) beta moves (scout_child f) := by
  intro m _ sfw alpha s1 hs1 ht ha1 hab
  have ha : alpha = beta - 1 := by omega
  subst ha
  obtain ⟨r, s2, hc, hb2, ht2, hres⟩ := hf (-beta + 1) s1 ht
  refine ⟨-r, sfw, s2, by simp [scout_child, hc], hb2, ht2, ?_⟩
  have := result_ok_neg _ _ _ _ hres
  rw [hs1] at this
  have h2 : -(-beta + 1 - 1) = beta := by omega
  have h3 : -(-beta + 1) = beta - 1 := by omega
  rw [h2, h3] at this
  exact this

theorem result_ok_scout_low (inner alpha beta t : Int) (h : result_ok inner alpha (alpha + 1) t)
    (hlow : ¬ inner > alpha) (hab : alpha < beta) : result_ok inner alpha beta t := by
  unfold result_ok in_range MIN_EVAL MAX_EVAL at *
  omega

theorem pv_child_ok {Board : Type} (C : Chess Board) (Q_SEARCH : Bool) (fuel : Nat)
    (D d : Nat) (b : Board) (alpha1 beta : Int) (moves : List Move)
    (quiesce : Int → Int → Search Board → Option (Int × Search Board))
    (scout : Int → Search Board → Option (Int × Search Board))
    (full : Int → Int → Search Board → Option (Int × Search Board))
    (hq : d = 0 → window_search_ok C Q_SEARCH fuel D 0 quiesce)
    (hs : 1 ≤ d → scout_search_ok C Q_SEARCH fuel D d scout)
    (hf : 1 ≤ d → window_search_ok C Q_SEARCH fuel D d full) :
    child_ok C Q_SEARCH fuel D d b alpha1 beta moves (pv_child quiesce scout full (d + 1)) := by
  intro m hm sfw alpha s1 hs1 ht ha1 hab
  unfold pv_child
  by_cases hd : d = 0
  · subst hd
    simp only [Nat.zero_add, if_true]
    obtain ⟨inner, sfw1, s2, hc, hrest⟩ :=
      window_child_ok C Q_SEARCH fuel D 0 b alpha1 beta moves quiesce (hq rfl) m hm sfw alpha
        s1 hs1 ht ha1 hab
    unfold window_child at hc
    exact ⟨inner, sfw1, s2, hc, hrest⟩
  · have hd1 : ¬ d + 1 = 1 := by omega
    have hd2 : 1 ≤ d := by omega
    simp only [hd1, if_false]
    cases sfw with
    | true =>
      simp only [if_true]
      obtain ⟨r, s2, hc, hb2, ht2, hres⟩ := hf hd2 (-beta) (-alpha) s1 (by omega) ht
      rw [hc]
      refine ⟨-r, false, s2, rfl, hb2, ht2, ?_⟩
      have := result_ok_neg _ _ _ _ hres
      rw [hs1] at this
      simpa using this
    | false =>
      simp only [Bool.false_eq_true, if_false]
      obtain ⟨r0, s0, hc0, hb0, ht0, hres0⟩ := hs hd2 (-alpha) s1 ht
      rw [hc0]
      simp only []
      have hn := result_ok_neg _ _ _ _ hres0
      rw [hs1] at hn
      have h2 : -(-alpha - 1) = alpha + 1 := by omega
      rw [h2, neg_neg] at hn
      by_cases h1 : -r0 > alpha
      · simp only [h1, if_true]
        obtain ⟨r, s2, hc, hb2, ht2, hres⟩ := hf hd2 (-beta) (-alpha) s0 (by omega) ht0
        rw [hc]
        refine ⟨-r, false, s2, rfl, by rw [hb2, hb0], ht2, ?_⟩
        have := result_ok_neg _ _ _ _ hres
        rw [hb0, hs1] at this
        simpa using this
      · simp only [h1, if_false]
        exact ⟨-r0, false, s0, rfl, hb0, ht0, result_ok_scout_low _ _ _ _ hn h1 hab⟩

/-- One node: the move loop from the start values returns a fail-soft bound
of `M_{d+1}` for the window at loop entry, restores the board, keeps the
table invariant, and leaves an entry that satisfies the entry invariant. -/
theorem node_ok {Board : Type} (C : Chess Board) (Q_SEARCH : Bool) (fuel : Nat)
    (hw : Well_Formed C fuel) (D d : Nat) (s : Search Board)
    (ht : table_ok C Q_SEARCH fuel D s.tt) (alpha1 beta : Int) (hab : alpha1 < beta)
    (moves : List Move) (hmoves : ∀ m, m ∈ moves ↔ m ∈ C.legalmoves_ALL s.board)
    (child : Bool → Int → Int → Search Board → Option (Int × Bool × Search Board))
    (hchild : child_ok C Q_SEARCH fuel D d s.board alpha1 beta moves child)
    (sfw : Bool) (mv : Move) (dp : Int) :
    ∃ v entry1 s1,
      pv_search_loop C child beta moves MIN_EVAL alpha1 sfw ⟨MIN_EVAL, mv, dp, UPPER_BOUND⟩ s
        = some (v, entry1, s1) ∧
      s1.board = s.board ∧ table_ok C Q_SEARCH fuel D s1.tt ∧ entry1.depth = dp ∧
      result_ok v alpha1 beta (negamax_value C Q_SEARCH fuel (d + 1) s.board) ∧
      entry_ok { entry1 with eval := v } (negamax_value C Q_SEARCH fuel (d + 1) s.board) := by
  obtain ⟨v, entry1, s1, hl, hb, ht1, hd, hres⟩ :=
    pv_search_loop_ok C (table_ok C Q_SEARCH fuel D) s.board
      (fun m => -negamax_value C Q_SEARCH fuel d (C.makeMove s.board m)) alpha1 beta child
      (fun m => in_range_neg _ (negamax_value_in_range C Q_SEARCH fuel hw d _)) moves
      (fun m hm => hw.unmake_all s.board m ((hmoves m).mp hm)) hchild
      MIN_EVAL alpha1 sfw ⟨MIN_EVAL, mv, dp, UPPER_BOUND⟩ s MIN_EVAL rfl ht
      (loop_inv_start alpha1 beta hab)
  have hM := hres _ (negamax_value_in_range C Q_SEARCH fuel hw (d + 1) s.board)
    (is_max_of_subset _ _ _ _ _ (negamax_value_is_max C Q_SEARCH fuel hw d s.board)
      (fun m => (hmoves m).symm))
  exact ⟨v, entry1, s1, hl, hb, ht1, hd, hM.1, hM.2⟩

/-! ## The searches -/

theorem nega_max_one {Board : Type} (C : Chess Board) (Q_SEARCH : Bool) (fuel : Nat) :
    Search.nega_max C Q_SEARCH fuel 1 = nega_max_node C (Search.q_search C Q_SEARCH fuel) 1 := by
  rfl

theorem nega_max_succ {Board : Type} (C : Chess Board) (Q_SEARCH : Bool) (fuel d : Nat) :
    Search.nega_max C Q_SEARCH fuel (d + 2) =
      nega_max_node C (Search.nega_max C Q_SEARCH fuel (d + 1)) (d + 2) := by
  rfl

theorem null_window_search_one {Board : Type} (C : Chess Board) (Q_SEARCH : Bool)
    (fuel : Nat) :
    Search.null_window_search C Q_SEARCH fuel 1 =
      null_window_search_node C (Search.nw_q_search C Q_SEARCH fuel) 1 := by
  rfl

theorem null_window_search_succ {Board : Type} (C : Chess Board) (Q_SEARCH : Bool)
    (fuel d : Nat) :
    Search.null_window_search C Q_SEARCH fuel (d + 2) =
      null_window_search_node C (Search.null_window_search C Q_SEARCH fuel (d + 1)) (d + 2) := by
  rfl

theorem pv_search_succ {Board : Type} (C : Chess Board) (Q_SEARCH : Bool) (fuel d : Nat) :
    Search.pv_search C Q_SEARCH fuel (d + 1) =
      pv_search_node C (Search.q_search C Q_SEARCH fuel)
        (Search.null_window_search C Q_SEARCH fuel d) (Search.pv_search C Q_SEARCH fuel d)
        (d + 1) := by
  rfl

/-- Storing the entry that a node loop leaves keeps the table invariant. -/
theorem store_ok {Board : Type} (C : Chess Board) (Q_SEARCH : Bool) (fuel : Nat)
    (hw : Well_Formed C fuel) (D d : Nat) (hD : D ≤ 127) (hd : d + 1 ≤ D)
    (s s1 : Search Board) (hb : s1.board = s.board)
    (ht1 : table_ok C Q_SEARCH fuel D s1.tt) (info : TT_Info)
    (hdepth : info.depth = to_int8 ((d + 1 : Nat) : Int))
    (hent : entry_ok info (negamax_value C Q_SEARCH fuel (d + 1) s.board)) :
    (s1.store C info ((d + 1 : Nat) : Int)).board = s.board ∧
      table_ok C Q_SEARCH fuel D (s1.store C info ((d + 1 : Nat) : Int)).tt := by
  refine ⟨hb, ?_⟩
  simp only [Search.store]
  rw [hb]
  exact table_ok_store C Q_SEARCH fuel D hw s1.tt ht1 s.board (d + 1) (by omega) hd info
    (by rw [hdepth]; exact to_int8_small _ (by omega)) hent

theorem nega_max_node_ok {Board : Type} (C : Chess Board) (Q_SEARCH : Bool) (fuel : Nat)
    (hw : Well_Formed C fuel) (D d : Nat) (hD : D ≤ 127) (hd : d + 1 ≤ D)
    (child : Int → Int → Search Board → Option (Int × Search Board))
    (hchild : window_search_ok C Q_SEARCH fuel D d child) :
    window_search_ok C Q_SEARCH fuel D (d + 1) (nega_max_node C child (d + 1)) := by
  intro alpha beta s hab ht
  unfold nega_max_node
  have hp := tt_probe_ok C Q_SEARCH fuel D hw s ht hD (d + 1) (by omega) NO_MOVE alpha beta hab
  generalize s.tt_probe C NO_MOVE alpha beta ((d + 1 : Nat) : Int) = p at hp ⊢
  simp only []
  by_cases hc : p.cutoff = true
  · simp only [hc, if_true]
    exact ⟨p.alpha, s, rfl, rfl, ht, hp.1 hc⟩
  · have hc1 : p.cutoff = false := by simpa using hc
    obtain ⟨h1, h2, h3, h4, h5⟩ := hp.2 hc1
    simp only [hc, if_false]
    rw [nega_max_loop_eq C child p.beta true]
    obtain ⟨v, entry1, s1, hl, hb, ht1, hd1, hres, hent⟩ :=
      node_ok C Q_SEARCH fuel hw D d s ht p.alpha p.beta h2 (C.legalmoves_ALL s.board)
        (fun m => Iff.rfl) (window_child child)
        (window_child_ok C Q_SEARCH fuel D d s.board p.alpha p.beta _ child hchild) true
        NO_MOVE (to_int8 ((d + 1 : Nat) : Int))
    rw [hl]
    simp only []
    have hst := store_ok C Q_SEARCH fuel hw D d hD hd s s1 hb ht1 { entry1 with eval := v }
      hd1 hent
    exact ⟨v, _, rfl, hst.1, hst.2, result_ok_widen _ _ _ _ _ _ hres h1 h3 h2 h4 h5⟩

theorem null_window_search_node_ok {Board : Type} (C : Chess Board) (Q_SEARCH : Bool)
    (fuel : Nat) (hw : Well_Formed C fuel) (D d : Nat) (hD : D ≤ 127) (hd : d + 1 ≤ D)
    (child : Int → Search Board → Option (Int × Search Board))
    (hchild : scout_search_ok C Q_SEARCH fuel D d child) :
    scout_search_ok C Q_SEARCH fuel D (d + 1) (null_window_search_node C child (d + 1)) := by
  intro beta s ht
  unfold null_window_search_node
  have hp := tt_probe_ok C Q_SEARCH fuel D hw s ht hD (d + 1) (by omega) NO_MOVE (beta - 1)
    beta (by omega)
  generalize s.tt_probe C NO_MOVE (beta - 1) beta ((d + 1 : Nat) : Int) = p at hp ⊢
  simp only []
  by_cases hc : p.cutoff = true
  · simp only [hc, if_true]
    exact ⟨p.alpha, s, rfl, rfl, ht, hp.1 hc⟩
  · have hc1 : p.cutoff = false := by simpa using hc
    obtain ⟨h1, h2, h3, h4, h5⟩ := hp.2 hc1
    have hpa : p.alpha = p.beta - 1 := by omega
    simp only [hc, if_false]
    rw [null_window_search_loop_eq C child p.beta true]
    obtain ⟨v, entry1, s1, hl, hb, ht1, hd1, hres, hent⟩ :=
      node_ok C Q_SEARCH fuel hw D d s ht (p.beta - 1) p.beta (by omega)
        (tt_move_first (C.legalmoves_ALL s.board) p.move)
        (fun m => tt_move_first_mem _ _ m) (scout_child child)
        (scout_child_ok C Q_SEARCH fuel D d s.board p.beta _ child hchild) true
        NO_MOVE (to_int8 ((d + 1 : Nat) : Int))
    rw [hl]
    simp only []
    have hst := store_ok C Q_SEARCH fuel hw D d hD hd s s1 hb ht1 { entry1 with eval := v }
      hd1 hent
    rw [← hpa] at hres
    exact ⟨v, _, rfl, hst.1, hst.2, result_ok_widen _ _ _ _ _ _ hres h1 h3 h2 h4 h5⟩

theorem pv_search_node_ok {Board : Type} (C : Chess Board) (Q_SEARCH : Bool) (fuel : Nat)
    (hw : Well_Formed C fuel) (D d : Nat) (hD : D ≤ 127) (hd : d + 1 ≤ D)
    (quiesce : Int → Int → Search Board → Option (Int × Search Board))
    (scout : Int → Search Board → Option (Int × Search Board))
    (full : Int → Int → Search Board → Option (Int × Search Board))
    (hq : d = 0 → window_search_ok C Q_SEARCH fuel D 0 quiesce)
    (hs : 1 ≤ d → scout_search_ok C Q_SEARCH fuel D d scout)
    (hf : 1 ≤ d → window_search_ok C Q_SEARCH fuel D d full) :
    window_search_ok C Q_SEARCH fuel D (d + 1) (pv_search_node C quiesce scout full (d + 1)) := by
  intro alpha beta s hab ht
  unfold pv_search_node
  have hp := tt_probe_ok C Q_SEARCH fuel D hw s ht hD (d + 1) (by omega) NO_MOVE alpha beta hab
  generalize s.tt_probe C NO_MOVE alpha beta ((d + 1 : Nat) : Int) = p at hp ⊢
  simp only []
  by_cases hc : p.cutoff = true
  · simp only [hc, if_true]
    exact ⟨p.alpha, s, rfl, rfl, ht, hp.1 hc⟩
  · have hc1 : p.cutoff = false := by simpa using hc
    obtain ⟨h1, h2, h3, h4, h5⟩ := hp.2 hc1
    simp only [hc, if_false]
    obtain ⟨v, entry1, s1, hl, hb, ht1, hd1, hres, hent⟩ :=
      node_ok C Q_SEARCH fuel hw D d s ht p.alpha p.beta h2
        (tt_move_first (C.legalmoves_ALL s.board) p.move)
        (fun m => tt_move_first_mem _ _ m) (pv_child quiesce scout full (d + 1))
        (pv_child_ok C Q_SEARCH fuel D d s.board p.alpha p.beta _ quiesce scout full hq hs hf)
        true NO_MOVE (to_int8 ((d + 1 : Nat) : Int))
    rw [hl]
    simp only []
    have hst := store_ok C Q_SEARCH fuel hw D d hD hd s s1 hb ht1 { entry1 with eval := v }
      hd1 hent
    exact ⟨v, _, rfl, hst.1, hst.2, result_ok_widen _ _ _ _ _ _ hres h1 h3 h2 h4 h5⟩

/-- The search `nega_max` at every depth `1 .. D`. -/
theorem nega_max_ok {Board : Type} (C : Chess Board) (Q_SEARCH : Bool) (fuel : Nat)
    (hw : Well_Formed C fuel) (D : Nat) (hD : D ≤ 127) (d : Nat) :
    d + 1 ≤ D → window_search_ok C Q_SEARCH fuel D (d + 1)
      (Search.nega_max C Q_SEARCH fuel (d + 1)) := by
  induction d with
  | zero =>
    intro hd
    rw [nega_max_one]
    exact nega_max_node_ok C Q_SEARCH fuel hw D 0 hD hd _
      (q_search_window_ok C Q_SEARCH fuel hw D)
  | succ d ih =>
    intro hd
    rw [nega_max_succ]
    exact nega_max_node_ok C Q_SEARCH fuel hw D (d + 1) hD hd _ (ih (by omega))

/-- The search `null_window_search` at every depth `1 .. D`. -/
theorem null_window_search_ok {Board : Type} (C : Chess Board) (Q_SEARCH : Bool) (fuel : Nat)
    (hw : Well_Formed C fuel) (D : Nat) (hD : D ≤ 127) (d : Nat) :
    d + 1 ≤ D → scout_search_ok C Q_SEARCH fuel D (d + 1)
      (Search.null_window_search C Q_SEARCH fuel (d + 1)) := by
  induction d with
  | zero =>
    intro hd
    rw [null_window_search_one]
    exact null_window_search_node_ok C Q_SEARCH fuel hw D 0 hD hd _
      (nw_q_search_scout_ok C Q_SEARCH fuel hw D)
  | succ d ih =>
    intro hd
    rw [null_window_search_succ]
    exact null_window_search_node_ok C Q_SEARCH fuel hw D (d + 1) hD hd _ (ih (by omega))

/-- The search `pv_search` at every depth `1 .. D`. -/
theorem pv_search_ok {Board : Type} (C : Chess Board) (Q_SEARCH : Bool) (fuel : Nat)
    (hw : Well_Formed C fuel) (D : Nat) (hD : D ≤ 127) (d : Nat) :
    d + 1 ≤ D → window_search_ok C Q_SEARCH fuel D (d + 1)
      (Search.pv_search C Q_SEARCH fuel (d + 1)) := by
  induction d with
  | zero =>
    intro hd
    rw [pv_search_succ]
    exact pv_search_node_ok C Q_SEARCH fuel hw D 0 hD hd _ _ _
      (fun _ => q_search_window_ok C Q_SEARCH fuel hw D) (fun h => by omega)
      (fun h => by omega)
  | succ d ih =>
    intro hd
    rw [pv_search_succ]
    exact pv_search_node_ok C Q_SEARCH fuel hw D (d + 1) hD hd _ _ _ (fun h => by omega)
      (fun _ => null_window_search_ok C Q_SEARCH fuel hw D hD d (by omega))
      (fun _ => ih (by omega))

theorem tt_probe_absent {Board : Type} (C : Chess Board) (s : Search Board) (move : Move)
    (alpha beta : Int) (depth : Int) (h : s.tt.contains (C.hashKey s.board) depth = false) :
    (s.tt_probe C move alpha beta depth).cutoff = false ∧
      (s.tt_probe C move alpha beta depth).alpha = alpha ∧
      (s.tt_probe C move alpha beta depth).beta = beta := by
  unfold Search.tt_probe
  simp [h]

theorem root_max_child_ok {Board : Type} (C : Chess Board) (Q_SEARCH PV_Search : Bool)
    (fuel : Nat) (hw : Well_Formed C fuel) (D d : Nat) (hD : D ≤ 127) (hd : d + 1 ≤ D)
    (b : Board) (alpha1 beta : Int) (moves : List Move) :
    child_ok C Q_SEARCH fuel D d b alpha1 beta moves
      (root_max_child C Q_SEARCH PV_Search fuel (d + 1)) := by
  intro m hm sfw alpha s1 hs1 ht ha1 hab
  unfold root_max_child
  by_cases h0 : d + 1 = 1
  · have hd0 : d = 0 := by omega
    subst hd0
    rw [if_pos h0]
    obtain ⟨inner, sfw1, s2, hc, hrest⟩ :=
      window_child_ok C Q_SEARCH fuel D 0 b alpha1 beta moves (Search.q_search C Q_SEARCH fuel)
        (q_search_window_ok C Q_SEARCH fuel hw D) m hm sfw alpha s1 hs1 ht ha1 hab
    exact ⟨inner, sfw1, s2, hc, hrest⟩
  · have hd1 : 1 ≤ d := by omega
    rw [if_neg h0]
    by_cases h : (!PV_Search) = true
    · rw [if_pos h]
      simp only [Nat.add_sub_cancel]
      obtain ⟨inner, sfw1, s2, hc, hrest⟩ :=
        window_child_ok C Q_SEARCH fuel D d b alpha1 beta moves
          (Search.nega_max C Q_SEARCH fuel d)
          (by
            have := nega_max_ok C Q_SEARCH fuel hw D hD (d - 1) (by omega)
            rw [Nat.sub_add_cancel hd1] at this
            exact this)
          m hm sfw alpha s1 hs1 ht ha1 hab
      exact ⟨inner, sfw1, s2, hc, hrest⟩
    · rw [if_neg h]
      simp only [Nat.add_sub_cancel]
      exact pv_child_ok C Q_SEARCH fuel D d b alpha1 beta moves
        (Search.q_search C Q_SEARCH fuel) (Search.null_window_search C Q_SEARCH fuel d)
        (Search.pv_search C Q_SEARCH fuel d)
        (fun _ => q_search_window_ok C Q_SEARCH fuel hw D)
        (fun hd1 => by
          have := null_window_search_ok C Q_SEARCH fuel hw D hD (d - 1) (by omega)
          rw [Nat.sub_add_cancel hd1] at this
          exact this)
        (fun hd1 => by
          have := pv_search_ok C Q_SEARCH fuel hw D hD (d - 1) (by omega)
          rw [Nat.sub_add_cancel hd1] at this
          exact this)
        m hm sfw alpha s1 hs1 ht ha1 hab

theorem entry_ok_exact (v M : Int) (move : Move) (dp : Int)
    (h : result_ok v MIN_EVAL MAX_EVAL M) (hM : in_range M) :
    v = M ∧ entry_ok ⟨v, move, dp, EXACT⟩ M := by
  have hv := result_ok_full_window v M h hM
  subst hv
  unfold entry_ok sound_entry
  simp
  exact hM

/-- The search `root_max` with the full window: it returns and restores the
board, the table invariant is kept, and when the table holds no entry of
depth `d + 1` or more the published eval is `M_{d+1}` of the root. -/
theorem root_max_ok {Board : Type} (C : Chess Board) (Q_SEARCH PV_Search : Bool) (fuel : Nat)
    (hw : Well_Formed C fuel) (D0 D d : Nat) (hD : D ≤ 127) (hD0 : D0 ≤ D) (hd : d + 1 ≤ D)
    (result : Search_Result) (s : Search Board) (ht0 : table_ok C Q_SEARCH fuel D0 s.tt) :
    ∃ r r1 s1,
      Search.root_max C Q_SEARCH PV_Search fuel MIN_EVAL MAX_EVAL (d + 1) result s
        = some (r, r1, s1) ∧
      s1.board = s.board ∧ table_ok C Q_SEARCH fuel D s1.tt ∧
      (D0 < d + 1 → r.eval = negamax_value C Q_SEARCH fuel (d + 1) s.board ∧ r1 = r) := by
  have ht : table_ok C Q_SEARCH fuel D ({ s with nodes := 0 } : Search Board).tt :=
    table_ok_mono C Q_SEARCH fuel D0 D _ hD0 ht0
  unfold Search.root_max
  simp only []
  have hp := tt_probe_ok C Q_SEARCH fuel D hw { s with nodes := 0 } ht hD (d + 1) (by omega)
    NO_MOVE MIN_EVAL MAX_EVAL (by decide)
  have hab := fun h : D0 < d + 1 =>
    tt_probe_absent C { s with nodes := 0 } NO_MOVE MIN_EVAL MAX_EVAL ((d + 1 : Nat) : Int)
      (table_ok_absent C Q_SEARCH fuel D0 hw s.tt ht0 (by omega) s.board (d + 1) (by omega) h)
  generalize ({ s with nodes := 0 } : Search Board).tt_probe C NO_MOVE MIN_EVAL MAX_EVAL
    ((d + 1 : Nat) : Int) = p at hp hab ⊢
  by_cases hc : p.cutoff = true
  · simp only [hc, if_true]
    refine ⟨_, _, _, rfl, rfl, ht, ?_⟩
    intro h
    have := (hab h).1
    rw [hc] at this
    exact absurd this (by decide)
  · have hc1 : p.cutoff = false := by simpa using hc
    obtain ⟨h1, h2, h3, h4, h5⟩ := hp.2 hc1
    simp only [hc, if_false]
    rw [root_max_loop_eq C _ p.beta _ MIN_EVAL p.alpha true NO_MOVE
      ⟨MIN_EVAL, NO_MOVE, 0, UPPER_BOUND⟩ { s with nodes := 0 } rfl]
    obtain ⟨v, entry1, s1, hl, hb, ht1, _, hres, _⟩ :=
      node_ok C Q_SEARCH fuel hw D d { s with nodes := 0 } ht p.alpha p.beta h2
        (tt_move_first (C.legalmoves_ALL s.board) p.move)
        (fun m => tt_move_first_mem _ _ m) (root_max_child C Q_SEARCH PV_Search fuel (d + 1))
        (root_max_child_ok C Q_SEARCH PV_Search fuel hw D d hD hd s.board p.alpha p.beta _)
        true NO_MOVE 0
    rw [hl]
    simp only [Option.map_some']
    have hfull := result_ok_widen _ _ _ _ _ _ hres h1 h3 h2 h4 h5
    have hex := entry_ok_exact v _ entry1.move (to_int8 ((d + 1 : Nat) : Int)) hfull
      (negamax_value_in_range C Q_SEARCH fuel hw (d + 1) s.board)
    have hst := store_ok C Q_SEARCH fuel hw D d hD hd s s1 hb ht1
      ⟨v, entry1.move, to_int8 ((d + 1 : Nat) : Int), EXACT⟩ rfl hex.2
    exact ⟨_, _, _, rfl, hst.1, hst.2, fun _ => ⟨hex.1, rfl⟩⟩

/-! ## The search claims -/

theorem small_game_well_formed : Well_Formed small_game 4 where
  key_injective := by decide
  key_nonzero := by decide
  eval_bound := by decide
  unmake_all := by decide
  unmake_capture := by decide
  captures_end := ⟨fun b => 3 - b.val, by decide, by decide⟩

/-- C1 (as stated) fails: in `edge_eval_game` (distinct keys), `root_max` with
the full window at depth 2 on the empty table writes for board 0 an EXACT
entry with eval `MAX_EVAL = 1073741823`, while `M_2` of board 0 is
`1073741824`.  The first move leads to board 1, whose only move leads to
board 3 with static evaluation `MAX_EVAL`: the child returns `-MAX_EVAL`, the
root reaches `eval = MAX_EVAL >= beta` and leaves the loop; the second move
leads to board 2, which has no legal move and is worth `-MIN_EVAL` to the
root. -/
theorem tt_soundness_counterexample :
    (∀ b b1, edge_eval_game.hashKey b = edge_eval_game.hashKey b1 → b = b1) ∧
      ¬ table_sound edge_eval_game true 1
        (root_table_after (Search.root_max edge_eval_game true true 1 MIN_EVAL MAX_EVAL 2
          ⟨0, NO_MOVE, 0, 0⟩ ⟨0, 0, Transposition_Table.new⟩)) := by
  refine ⟨by decide, ?_⟩
  intro h
  have h1 := (h.1 3 ⟨1, ⟨1073741823, 1, 2, EXACT⟩⟩ (by decide) (by decide) 0 rfl).1 rfl
  revert h1
  decide

/-- C1 (amended): assume that distinct positions have distinct non-zero hash
keys, that static evaluations lie strictly between `-MAX_EVAL` and
`MAX_EVAL`, that `unmakeMove` undoes `makeMove` and that capture sequences
end within `fuel` plies.  Then for depths `1 ≤ d ≤ D ≤ 127` the empty table
satisfies the table invariant, and from every searcher state whose table
satisfies it, `null_window_search(beta, d)`, `pv_search(alpha, beta, d)` and
`nega_max(alpha, beta, d)` with `alpha < beta`, and `root_max` with the full
window, return and leave a table that satisfies the invariant and in which
every entry is sound for the depth-`d` negamax value of its position at its
depth: EXACT implies `eval = M_d(P)`, UPPER_BOUND implies `M_d(P) <= eval`,
LOWER_BOUND implies `M_d(P) >= eval`. -/
theorem tt_soundness {Board : Type} (C : Chess Board) (Q_SEARCH PV_Search : Bool) (fuel : Nat)
    (hw : Well_Formed C fuel) (D d : Nat) (hD : D ≤ 127) (hd1 : 1 ≤ d) (hdD : d ≤ D) :
    tt_soundness_statement C Q_SEARCH PV_Search fuel D d := by
  obtain ⟨k, rfl⟩ : ∃ k, d = k + 1 := ⟨d - 1, by omega⟩
  refine ⟨table_ok_new C Q_SEARCH fuel D, ?_⟩
  intro s ht
  refine ⟨?_, ?_, ?_, ?_⟩
  · intro beta
    obtain ⟨v, s1, h1, _, h3, _⟩ :=
      null_window_search_ok C Q_SEARCH fuel hw D hD k hdD beta s ht
    exact ⟨v, s1, h1, h3, table_ok_sound C Q_SEARCH fuel D hw hD _ h3⟩
  · intro alpha beta hab
    obtain ⟨v, s1, h1, _, h3, _⟩ := pv_search_ok C Q_SEARCH fuel hw D hD k hdD alpha beta s hab ht
    exact ⟨v, s1, h1, h3, table_ok_sound C Q_SEARCH fuel D hw hD _ h3⟩
  · intro alpha beta hab
    obtain ⟨v, s1, h1, _, h3, _⟩ := nega_max_ok C Q_SEARCH fuel hw D hD k hdD alpha beta s hab ht
    exact ⟨v, s1, h1, h3, table_ok_sound C Q_SEARCH fuel D hw hD _ h3⟩
  · intro result
    obtain ⟨r, r1, s1, h1, _, h3, _⟩ :=
      root_max_ok C Q_SEARCH PV_Search fuel hw D D k hD (le_refl _) hdD result s ht
    exact ⟨r, r1, s1, h1, h3, table_ok_sound C Q_SEARCH fuel D hw hD _ h3⟩

/-- Witness for `tt_soundness`: `small_game` with quiescence search, depth 2. -/
theorem tt_soundness_witness : tt_soundness_statement small_game true true 4 2 2 :=
  tt_soundness small_game true true 4 small_game_well_formed 2 2 (by decide) (by decide)
    (by decide)

theorem iterative_deepening_ok {Board : Type} (C : Chess Board) (Q_SEARCH PV_Search : Bool)
    (fuel : Nat) (hw : Well_Formed C fuel) (b : Board) (n : Nat) :
    n ≤ 127 → ∃ s, iterative_deepening C Q_SEARCH PV_Search fuel n
        ⟨b, 0, Transposition_Table.new⟩ = some s ∧
      s.board = b ∧ table_ok C Q_SEARCH fuel n s.tt := by
  induction n with
  | zero => intro _; exact ⟨_, rfl, rfl, table_ok_new C Q_SEARCH fuel 0⟩
  | succ n ih =>
    intro hn
    obtain ⟨s, hs, hb, ht⟩ := ih (by omega)
    obtain ⟨r, r1, s1, h1, h2, h3, _⟩ :=
      root_max_ok C Q_SEARCH PV_Search fuel hw n (n + 1) n hn (by omega) (le_refl _)
        ⟨0, NO_MOVE, 0, 0⟩ s ht
    refine ⟨s1, ?_, by rw [h2, hb], h3⟩
    unfold iterative_deepening
    rw [hs]
    simp only []
    rw [h1]

/-- C2 (as stated) fails: in `edge_eval_game` (distinct keys), `root_max`
with the full window at depth 2 publishes `MAX_EVAL = 1073741823` on the
empty table, and `1073741824` when the table was populated by `root_max` at
depth 1 (the depth-1 entry of the root reorders the moves, and the first
move that reaches `beta` ends the loop). -/
theorem tt_transparency_counterexample :
    (∀ b b1, edge_eval_game.hashKey b = edge_eval_game.hashKey b1 → b = b1) ∧
      root_eval_empty edge_eval_game true true 1 2 0 = some 1073741823 ∧
      root_eval_populated edge_eval_game true true 1 2 0 = some 1073741824 := by
  decide

/-- C2 (amended): assume that distinct positions have distinct non-zero hash
keys, that static evaluations lie strictly between `-MAX_EVAL` and
`MAX_EVAL`, that `unmakeMove` undoes `makeMove` and that capture sequences
end within `fuel` plies.  Then for every position and every depth
`1 ≤ d ≤ 127`, the eval that `root_max(MIN_EVAL, MAX_EVAL, d)` publishes when
the table was populated by `root_max` at depths `1 .. d - 1` equals the eval
it publishes at depth `d` on an empty table; both are the negamax value
`M_d` of the position. -/
theorem tt_transparency {Board : Type} (C : Chess Board) (Q_SEARCH PV_Search : Bool)
    (fuel : Nat) (hw : Well_Formed C fuel) (d : Nat) (hd1 : 1 ≤ d) (hd : d ≤ 127) (b : Board) :
    ∃ e, root_eval_populated C Q_SEARCH PV_Search fuel d b = some e ∧
      root_eval_empty C Q_SEARCH PV_Search fuel d b = some e ∧
      e = negamax_value C Q_SEARCH fuel d b := by
  obtain ⟨k, rfl⟩ : ∃ k, d = k + 1 := ⟨d - 1, by omega⟩
  refine ⟨negamax_value C Q_SEARCH fuel (k + 1) b, ?_, ?_, rfl⟩
  · obtain ⟨s, hs, hb, ht⟩ :=
      iterative_deepening_ok C Q_SEARCH PV_Search fuel hw b k (by omega)
    obtain ⟨r, r1, s1, h1, _, _, h4⟩ :=
      root_max_ok C Q_SEARCH PV_Search fuel hw k (k + 1) k hd (by omega) (le_refl _)
        ⟨0, NO_MOVE, 0, 0⟩ s ht
    unfold root_eval_populated
    simp only [Nat.add_sub_cancel]
    rw [hs]
    simp only []
    rw [h1]
    simp only [published_eval]
    rw [(h4 (by omega)).1, hb]
  · obtain ⟨r, r1, s1, h1, _, _, h4⟩ :=
      root_max_ok C Q_SEARCH PV_Search fuel hw 0 (k + 1) k hd (by omega) (le_refl _)
        ⟨0, NO_MOVE, 0, 0⟩ ⟨b, 0, Transposition_Table.new⟩ (table_ok_new C Q_SEARCH fuel 0)
    unfold root_eval_empty
    rw [h1]
    simp only [published_eval]
    rw [(h4 (by omega)).1]

/-- Witness for `tt_transparency`: `small_game` with quiescence search and
PV search, depth 3, root board 0. -/
theorem tt_transparency_witness :
    ∃ e, root_eval_populated small_game true true 4 3 0 = some e ∧
      root_eval_empty small_game true true 4 3 0 = some e ∧
      e = negamax_value small_game true 4 3 0 :=
  tt_transparency small_game true true 4 small_game_well_formed 3 (by decide) (by decide) 0

/-- C3 (as stated) fails: in `transposition_game`, from the empty table at
depth 4 with the full window, `pv_search` returns `1073741824` and `nega_max`
returns `1073741823`.  In both searches the first move of board 0 (to board 4,
depth 3) brings no improvement and the second (to board 1, then to board 4 at
depth 2) decides.  There `nega_max` tries the move to board 1 first, gets
`MAX_EVAL >= beta` and cuts with that bound; `pv_search` finds the depth-1
entry of board 4 written under the first move, tries its move to board 2
first, which has no legal move, and gets the mate score `1073741824`. -/
theorem pv_nega_max_equivalence_counterexample :
    returned_eval (Search.pv_search transposition_game true 1 4 MIN_EVAL MAX_EVAL
        ⟨0, 0, Transposition_Table.new⟩) = some 1073741824 ∧
      returned_eval (Search.nega_max transposition_game true 1 4 MIN_EVAL MAX_EVAL
        ⟨0, 0, Transposition_Table.new⟩) = some 1073741823 := by
  decide

/-- C3 (amended): assume that distinct positions have distinct non-zero hash
keys, that static evaluations lie strictly between `-MAX_EVAL` and
`MAX_EVAL`, that `unmakeMove` undoes `makeMove` and that capture sequences
end within `fuel` plies.  Then for every position and every depth
`1 ≤ d ≤ 127`, starting from the same empty table,
`pv_search(MIN_EVAL, MAX_EVAL, d)` and `nega_max(MIN_EVAL, MAX_EVAL, d)`
return the same eval, the negamax value `M_d` of the position. -/
theorem pv_nega_max_equivalence {Board : Type} (C : Chess Board) (Q_SEARCH : Bool)
    (fuel : Nat) (hw : Well_Formed C fuel) (d : Nat) (hd1 : 1 ≤ d) (hd : d ≤ 127) (b : Board)
    (nodes : Nat) :
    ∃ e, returned_eval (Search.pv_search C Q_SEARCH fuel d MIN_EVAL MAX_EVAL
          ⟨b, nodes, Transposition_Table.new⟩) = some e ∧
      returned_eval (Search.nega_max C Q_SEARCH fuel d MIN_EVAL MAX_EVAL
          ⟨b, nodes, Transposition_Table.new⟩) = some e ∧
      e = negamax_value C Q_SEARCH fuel d b := by
  obtain ⟨k, rfl⟩ : ∃ k, d = k + 1 := ⟨d - 1, by omega⟩
  have hM := negamax_value_in_range C Q_SEARCH fuel hw (k + 1) b
  obtain ⟨v, s1, h1, _, _, h4⟩ :=
    pv_search_ok C Q_SEARCH fuel hw (k + 1) hd k (le_refl _) MIN_EVAL MAX_EVAL
      ⟨b, nodes, Transposition_Table.new⟩ (by decide) (table_ok_new C Q_SEARCH fuel _)
  obtain ⟨w, s2, h5, _, _, h8⟩ :=
    nega_max_ok C Q_SEARCH fuel hw (k + 1) hd k (le_refl _) MIN_EVAL MAX_EVAL
      ⟨b, nodes, Transposition_Table.new⟩ (by decide) (table_ok_new C Q_SEARCH fuel _)
  refine ⟨negamax_value C Q_SEARCH fuel (k + 1) b, ?_, ?_, rfl⟩
  · rw [h1]
    simp only [returned_eval]
    rw [result_ok_full_window v _ h4 hM]
  · rw [h5]
    simp only [returned_eval]
    rw [result_ok_full_window w _ h8 hM]

/-- Witness for `pv_nega_max_equivalence`: `small_game` with quiescence
search, depth 3, root board 0. -/
theorem pv_nega_max_equivalence_witness :
    ∃ e, returned_eval (Search.pv_search small_game true 4 3 MIN_EVAL MAX_EVAL
          ⟨0, 0, Transposition_Table.new⟩) = some e ∧
      returned_eval (Search.nega_max small_game true 4 3 MIN_EVAL MAX_EVAL
          ⟨0, 0, Transposition_Table.new⟩) = some e ∧
      e = negamax_value small_game true 4 3 0 :=
  pv_nega_max_equivalence small_game true 4 small_game_well_formed 3 (by decide) (by decide)
    0 0

theorem result_ok_null_window (v beta M : Int) (h : result_ok v (beta - 1) beta M) :
    (v < beta → M ≤ v) ∧ (v ≥ beta → M ≥ v) := by
  unfold result_ok at h
  omega

/-- C4 (as stated) fails: in `edge_eval_game`, from the empty table at depth
2, `null_window_search(1073741824, 2)` returns `v = 1073741824 >= beta`, while
the full-window `nega_max` returns `1073741823 < v`. -/
theorem null_window_soundness_counterexample :
    returned_eval (Search.null_window_search edge_eval_game true 1 2 1073741824
        ⟨0, 0, Transposition_Table.new⟩) = some 1073741824 ∧
      returned_eval (Search.nega_max edge_eval_game true 1 2 MIN_EVAL MAX_EVAL
        ⟨0, 0, Transposition_Table.new⟩) = some 1073741823 := by
  decide

/-- C4 (amended): assume that distinct positions have distinct non-zero hash
keys, that static evaluations lie strictly between `-MAX_EVAL` and
`MAX_EVAL`, that `unmakeMove` undoes `makeMove` and that capture sequences
end within `fuel` plies.  Then for every position, depth `1 ≤ d ≤ 127` and
bound `beta`, starting from an empty table, `null_window_search(beta, d)`
returns a value `v`, and the value `w` that a full-window
`nega_max(MIN_EVAL, MAX_EVAL, d)` returns (on the empty table, and also on
the table that the null-window search left) satisfies `w <= v` when
`v < beta` and `w >= v` when `v >= beta`. -/
theorem null_window_soundness {Board : Type} (C : Chess Board) (Q_SEARCH : Bool)
    (fuel : Nat) (hw : Well_Formed C fuel) (d : Nat) (hd1 : 1 ≤ d) (hd : d ≤ 127) (b : Board)
    (nodes : Nat) (beta : Int) :
    ∃ v s1 w, Search.null_window_search C Q_SEARCH fuel d beta
          ⟨b, nodes, Transposition_Table.new⟩ = some (v, s1) ∧
      returned_eval (Search.nega_max C Q_SEARCH fuel d MIN_EVAL MAX_EVAL
          ⟨b, nodes, Transposition_Table.new⟩) = some w ∧
      returned_eval (Search.nega_max C Q_SEARCH fuel d MIN_EVAL MAX_EVAL s1) = some w ∧
      (v < beta → w ≤ v) ∧ (v ≥ beta → w ≥ v) := by
  obtain ⟨k, rfl⟩ : ∃ k, d = k + 1 := ⟨d - 1, by omega⟩
  have hM := negamax_value_in_range C Q_SEARCH fuel hw (k + 1) b
  obtain ⟨v, s1, h1, h2, h3, h4⟩ :=
    null_window_search_ok C Q_SEARCH fuel hw (k + 1) hd k (le_refl _) beta
      ⟨b, nodes, Transposition_Table.new⟩ (table_ok_new C Q_SEARCH fuel _)
  obtain ⟨w, s2, h5, _, _, h8⟩ :=
    nega_max_ok C Q_SEARCH fuel hw (k + 1) hd k (le_refl _) MIN_EVAL MAX_EVAL
      ⟨b, nodes, Transposition_Table.new⟩ (by decide) (table_ok_new C Q_SEARCH fuel _)
  obtain ⟨w1, s3, h9, _, _, h12⟩ :=
    nega_max_ok C Q_SEARCH fuel hw (k + 1) hd k (le_refl _) MIN_EVAL MAX_EVAL s1 (by decide) h3
  have hb : s1.board = b := h2
  rw [hb] at h12
  have hw0 := result_ok_full_window w _ h8 hM
  have hw1 := result_ok_full_window w1 _ h12 hM
  have hnw := result_ok_null_window v beta _ h4
  refine ⟨v, s1, negamax_value C Q_SEARCH fuel (k + 1) b, h1, ?_, ?_, hnw.1, hnw.2⟩
  · rw [h5]; simp only [returned_eval]; rw [hw0]
  · rw [h9]; simp only [returned_eval]; rw [hw1]

/-- Witness for `null_window_soundness`: `small_game` with quiescence search,
depth 2, root board 0, `beta = 1`. -/
theorem null_window_soundness_witness :
    ∃ v s1 w, Search.null_window_search small_game true 4 2 1
          ⟨0, 0, Transposition_Table.new⟩ = some (v, s1) ∧
      returned_eval (Search.nega_max small_game true 4 2 MIN_EVAL MAX_EVAL
          ⟨0, 0, Transposition_Table.new⟩) = some w ∧
      returned_eval (Search.nega_max small_game true 4 2 MIN_EVAL MAX_EVAL s1) = some w ∧
      (v < 1 → w ≤ v) ∧ (v ≥ 1 → w ≥ v) :=
  null_window_soundness small_game true 4 small_game_well_formed 2 (by decide) (by decide) 0 0 1

/-! ## Probe misses, table cutoffs and bound kinds -/

theorem tt_probe_miss {Board : Type} (C : Chess Board) (s : Search Board) (move : Move)
    (alpha beta : Int) (depth : Int) (h : s.tt.contains (C.hashKey s.board) depth = false) :
    s.tt_probe C move alpha beta depth =
      ⟨false, if move = NO_MOVE then shallower_hint s.tt (C.hashKey s.board) depth NO_MOVE
        else move, alpha, beta⟩ := by
  unfold Search.tt_probe tt_probe_hint shallower_hint
  by_cases hm : move = NO_MOVE
  · by_cases h2 : s.tt.contains (C.hashKey s.board) (depth - 1) = true <;> simp [h, hm, h2]
  · simp [h, hm]

/-- C11: when the table holds no entry for the current position at depth `d`,
`tt_probe` (of `Search` and of `Search_Thread`), called with the move
out-parameter `NO_MOVE` as its callers do, returns false and leaves `alpha`
and `beta` as passed in, whatever the table holds at depth `d - 1`; the move
out-parameter becomes the move of the entry at depth `d - 1` when there is
one and stays `NO_MOVE` otherwise.  (A move other than `NO_MOVE` that is
passed in is left as it is.) -/
theorem tt_probe_shallower_hint_only {Board : Type} (C : Chess Board) (tt : Transposition_Table)
    (board : Board) (nodes : Nat) (finished : Bool) (alpha beta : Int) (d : Int)
    (h : tt.contains (C.hashKey board) d = false) :
    ((⟨board, nodes, tt⟩ : Search Board).tt_probe C NO_MOVE alpha beta d =
        ⟨false, if tt.contains (C.hashKey board) (d - 1) then (tt.at_ (C.hashKey board) (d - 1)).move
          else NO_MOVE, alpha, beta⟩ ∧
      (⟨board, nodes, tt, finished⟩ : Search_Thread Board).tt_probe C NO_MOVE alpha beta d =
        ⟨false, if tt.contains (C.hashKey board) (d - 1) then (tt.at_ (C.hashKey board) (d - 1)).move
          else NO_MOVE, alpha, beta⟩) ∧
      ∀ move, move ≠ NO_MOVE →
        (⟨board, nodes, tt⟩ : Search Board).tt_probe C move alpha beta d =
            ⟨false, move, alpha, beta⟩ ∧
          (⟨board, nodes, tt, finished⟩ : Search_Thread Board).tt_probe C move alpha beta d =
            ⟨false, move, alpha, beta⟩ := by
  have key : ∀ move, (⟨board, nodes, tt⟩ : Search Board).tt_probe C move alpha beta d =
      ⟨false, if move = NO_MOVE then shallower_hint tt (C.hashKey board) d NO_MOVE
        else move, alpha, beta⟩ := fun move => tt_probe_miss C ⟨board, nodes, tt⟩ move alpha beta d h
  refine ⟨⟨?_, ?_⟩, ?_⟩
  · rw [key]; simp [shallower_hint]
  · rw [search_thread_tt_probe_eq, key]; simp [shallower_hint]
  · intro move hm
    refine ⟨?_, ?_⟩
    · rw [key, if_neg hm]
    · rw [search_thread_tt_probe_eq, key, if_neg hm]

/-- Witness for C11: `shallow_table` holds for key 5 only an entry with move 7
at depth 1; the probe at depth 2 takes that move when it is called with
`NO_MOVE`, and keeps the move 3 when it is called with it. -/
theorem tt_probe_shallower_hint_only_witness :
    shallow_table.contains (one_board.hashKey ()) 2 = false ∧
      (⟨(), 0, shallow_table⟩ : Search Unit).tt_probe one_board NO_MOVE (-4) 9 2 =
        ⟨false, 7, -4, 9⟩ ∧
      (3 : Move) ≠ NO_MOVE ∧
      (⟨(), 0, shallow_table, true⟩ : Search_Thread Unit).tt_probe one_board 3 (-4) 9 2 =
        ⟨false, 3, -4, 9⟩ :=
  ⟨by decide, by
    have h := (tt_probe_shallower_hint_only one_board shallow_table () 0 false (-4) 9 2
      (by decide)).1.1
    rw [h]; decide, by decide,
    ((tt_probe_shallower_hint_only one_board shallow_table () 0 true (-4) 9 2
      (by decide)).2 3 (by decide)).2⟩

/-- At every depth `nega_max` is the node body applied to some child search. -/
theorem nega_max_shape {Board : Type} (C : Chess Board) (Q_SEARCH : Bool) (fuel : Nat) (d : Nat) :
    ∃ child, Search.nega_max C Q_SEARCH fuel d = nega_max_node C child d := by
  rcases d with _ | _ | d
  · exact ⟨_, rfl⟩
  · exact ⟨_, rfl⟩
  · exact ⟨_, rfl⟩

theorem null_window_search_shape {Board : Type} (C : Chess Board) (Q_SEARCH : Bool) (fuel : Nat)
    (d : Nat) :
    ∃ child, Search.null_window_search C Q_SEARCH fuel d = null_window_search_node C child d := by
  rcases d with _ | _ | d
  · exact ⟨_, rfl⟩
  · exact ⟨_, rfl⟩
  · exact ⟨_, rfl⟩

theorem pv_search_shape {Board : Type} (C : Chess Board) (Q_SEARCH : Bool) (fuel : Nat)
    (d : Nat) :
    ∃ quiesce scout full,
      Search.pv_search C Q_SEARCH fuel d = pv_search_node C quiesce scout full d := by
  rcases d with _ | d
  · exact ⟨_, _, _, rfl⟩
  · exact ⟨_, _, _, rfl⟩

/-- The probe of a position whose entry at the probed depth is EXACT. -/
theorem tt_probe_exact {Board : Type} (C : Chess Board) (s : Search Board) (move : Move)
    (alpha beta : Int) (depth : Int) (h1 : s.tt.contains (C.hashKey s.board) depth = true)
    (h2 : (s.tt.at_ (C.hashKey s.board) depth).type = EXACT) :
    s.tt_probe C move alpha beta depth =
      ⟨true, move, (s.tt.at_ (C.hashKey s.board) depth).eval, beta⟩ := by
  unfold Search.tt_probe
  simp [h1, h2]

/-- C12: if the table holds an EXACT entry for the current position at depth
`d`, then for every window `null_window_search(beta, d)`,
`pv_search(alpha, beta, d)` and `nega_max(alpha, beta, d)` return the eval of
that entry and leave the searcher state (table, node counter, board) as it
was. -/
theorem tt_cutoff_returns_entry {Board : Type} (C : Chess Board) (Q_SEARCH : Bool) (fuel : Nat)
    (d : Nat) (s : Search Board) (alpha beta : Int)
    (h1 : s.tt.contains (C.hashKey s.board) d = true)
    (h2 : (s.tt.at_ (C.hashKey s.board) d).type = EXACT) :
    Search.null_window_search C Q_SEARCH fuel d beta s =
        some ((s.tt.at_ (C.hashKey s.board) d).eval, s) ∧
      Search.pv_search C Q_SEARCH fuel d alpha beta s =
        some ((s.tt.at_ (C.hashKey s.board) d).eval, s) ∧
      Search.nega_max C Q_SEARCH fuel d alpha beta s =
        some ((s.tt.at_ (C.hashKey s.board) d).eval, s) := by
  refine ⟨?_, ?_, ?_⟩
  · obtain ⟨child, hc⟩ := null_window_search_shape C Q_SEARCH fuel d
    rw [hc]
    unfold null_window_search_node
    simp only [tt_probe_exact C s NO_MOVE _ _ d h1 h2, if_true]
  · obtain ⟨q, sc, f, hc⟩ := pv_search_shape C Q_SEARCH fuel d
    rw [hc]
    unfold pv_search_node
    simp only [tt_probe_exact C s NO_MOVE _ _ d h1 h2, if_true]
  · obtain ⟨child, hc⟩ := nega_max_shape C Q_SEARCH fuel d
    rw [hc]
    unfold nega_max_node
    simp only [tt_probe_exact C s NO_MOVE _ _ d h1 h2, if_true]

/-- Witness for C12: on `exact_table`, `pv_search` of the board of key 5 at
depth 3 returns 42 and leaves the state as it was. -/
theorem tt_cutoff_returns_entry_witness :
    exact_table.contains (one_board.hashKey ()) 3 = true ∧
      (exact_table.at_ (one_board.hashKey ()) 3).type = EXACT ∧
      (exact_table.at_ (one_board.hashKey ()) 3).eval = 42 ∧
      Search.pv_search one_board true 0 3 (-10) 10 ⟨(), 17, exact_table⟩ =
        some ((exact_table.at_ (one_board.hashKey ()) 3).eval, ⟨(), 17, exact_table⟩) :=
  ⟨by decide, by decide, by decide,
    (tt_cutoff_returns_entry one_board true 0 3 ⟨(), 17, exact_table⟩ (-10) 10 (by decide)
      (by decide)).2.1⟩

theorem nega_max_eq_node {Board : Type} (C : Chess Board) (Q_SEARCH : Bool) (fuel : Nat) (d : Nat) :
    Search.nega_max C Q_SEARCH fuel d = nega_max_node C (nega_max_child C Q_SEARCH fuel d) d := by
  rcases d with _ | _ | d <;> rfl

theorem null_window_search_eq_node {Board : Type} (C : Chess Board) (Q_SEARCH : Bool)
    (fuel : Nat) (d : Nat) :
    Search.null_window_search C Q_SEARCH fuel d =
      null_window_search_node C (null_window_search_child C Q_SEARCH fuel d) d := by
  rcases d with _ | _ | d <;> rfl

/-- The kinds that the generic move loop leaves: LOWER_BOUND exactly after a
beta cutoff, EXACT exactly when `eval` rose above the initial `alpha`,
UPPER_BOUND exactly when it did not. -/
theorem pv_search_loop_classified {Board : Type} (C : Chess Board)
    (child : Bool → Int → Int → Search Board → Option (Int × Bool × Search Board))
    (beta alpha0 : Int) (rest : List Move) :
    ∀ (eval alpha : Int) (sfw : Bool) (entry : TT_Info) (s : Search Board) (v : Int)
      (entry1 : TT_Info) (s1 : Search Board),
      pv_search_loop C child beta rest eval alpha sfw entry s = some (v, entry1, s1) →
      eval < beta →
      ((entry.type = UPPER_BOUND ∧ eval ≤ alpha0 ∧ alpha = alpha0) ∨
        (entry.type = EXACT ∧ alpha0 < eval ∧ alpha = eval)) →
      entry1.depth = entry.depth ∧
        ((entry1.type = LOWER_BOUND ∧ v ≥ beta) ∨
          (entry1.type = UPPER_BOUND ∧ v ≤ alpha0 ∧ v < beta) ∨
          (entry1.type = EXACT ∧ alpha0 < v ∧ v < beta)) := by
  induction rest with
  | nil =>
    intro eval alpha sfw entry s v entry1 s1 h hb hi
    simp only [pv_search_loop, Option.some.injEq, Prod.mk.injEq] at h
    obtain ⟨rfl, rfl, _⟩ := h
    refine ⟨rfl, ?_⟩
    rcases hi with ⟨h1, h2, _⟩ | ⟨h1, h2, _⟩
    · exact Or.inr (Or.inl ⟨h1, h2, hb⟩)
    · exact Or.inr (Or.inr ⟨h1, h2, hb⟩)
  | cons m rest ih =>
    intro eval alpha sfw entry s v entry1 s1 h hb hi
    unfold pv_search_loop at h
    cases hc : child sfw alpha beta (s.make C m) with
    | none => rw [hc] at h; exact absurd h (by simp)
    | some r =>
      obtain ⟨inner, sfw1, s2⟩ := r
      rw [hc] at h
      simp only [] at h
      by_cases h1 : inner > eval
      · by_cases h2 : inner ≥ beta
        · simp only [h1, h2, if_true, Option.some.injEq, Prod.mk.injEq] at h
          obtain ⟨rfl, rfl, _⟩ := h
          exact ⟨rfl, Or.inl ⟨rfl, h2⟩⟩
        · by_cases h3 : inner > alpha
          · simp only [h1, h2, h3, if_true, if_false] at h
            have := ih _ _ _ _ _ _ _ _ h (by omega)
              (Or.inr ⟨rfl, by rcases hi with ⟨_, _, e⟩ | ⟨_, _, e⟩ <;> omega, rfl⟩)
            exact this
          · simp only [h1, h2, h3, if_true, if_false] at h
            have := ih _ _ _ _ _ _ _ _ h (by omega)
              (by
                rcases hi with ⟨e1, e2, e3⟩ | ⟨e1, e2, e3⟩
                · exact Or.inl ⟨e1, by omega, e3⟩
                · omega)
            exact this
      · simp only [h1, if_false] at h
        exact ih _ _ _ _ _ _ _ _ h hb hi

/-- The move loop of `null_window_search` never makes the entry EXACT. -/
theorem null_window_search_loop_not_exact {Board : Type} (C : Chess Board)
    (child : Int → Search Board → Option (Int × Search Board)) (beta : Int) (rest : List Move) :
    ∀ (eval : Int) (entry : TT_Info) (s : Search Board) (v : Int) (entry1 : TT_Info)
      (s1 : Search Board),
      null_window_search_loop C child beta rest eval entry s = some (v, entry1, s1) →
      entry.type ≠ EXACT → entry1.type ≠ EXACT := by
  induction rest with
  | nil =>
    intro eval entry s v entry1 s1 h he
    simp only [null_window_search_loop, Option.some.injEq, Prod.mk.injEq] at h
    obtain ⟨_, rfl, _⟩ := h
    exact he
  | cons m rest ih =>
    intro eval entry s v entry1 s1 h he
    unfold null_window_search_loop at h
    cases hc : child (-beta + 1) (s.make C m) with
    | none => rw [hc] at h; exact absurd h (by simp)
    | some r =>
      obtain ⟨r, s2⟩ := r
      rw [hc] at h
      simp only [] at h
      by_cases h1 : -r > eval
      · by_cases h2 : -r ≥ beta
        · simp only [h1, h2, if_true, Option.some.injEq, Prod.mk.injEq] at h
          obtain ⟨_, rfl, _⟩ := h
          simp
        · simp only [h1, h2, if_true, if_false] at h
          exact ih _ _ _ _ _ _ h he
      · simp only [h1, if_false] at h
        exact ih _ _ _ _ _ _ h he

/-- From the outcome of the generic loop to the classification of C13. -/
theorem classified_of_loop (entry1 : TT_Info) (v alpha beta : Int) (d : Nat) (hd : d ≤ 127)
    (hab : alpha < beta) (h1 : entry1.depth = to_int8 d)
    (h2 : (entry1.type = LOWER_BOUND ∧ v ≥ beta) ∨
      (entry1.type = UPPER_BOUND ∧ v ≤ alpha ∧ v < beta) ∨
      (entry1.type = EXACT ∧ alpha < v ∧ v < beta)) :
    classified { entry1 with eval := v } v alpha beta d := by
  have h8 : to_int8 (d : Int) = d := by unfold to_int8; omega
  refine ⟨by simp [h1, h8], rfl, ?_, ?_, ?_⟩
  · rcases h2 with ⟨e, h⟩ | ⟨e, h⟩ | ⟨e, h⟩ <;> simp [e] <;> omega
  · rcases h2 with ⟨e, h⟩ | ⟨e, h⟩ | ⟨e, h⟩ <;> simp [e] <;> omega
  · rcases h2 with ⟨e, h⟩ | ⟨e, h⟩ | ⟨e, h⟩ <;> simp [e] <;> omega

/-- Without cutoff the probe of `null_window_search` leaves the window
`(beta - 1, beta)` one wide. -/
theorem tt_probe_null_window {Board : Type} (C : Chess Board) (s : Search Board) (move : Move)
    (beta : Int) (depth : Int)
    (h : (s.tt_probe C move (beta - 1) beta depth).cutoff = false) :
    (s.tt_probe C move (beta - 1) beta depth).alpha =
      (s.tt_probe C move (beta - 1) beta depth).beta - 1 := by
  by_cases hc : s.tt.contains (C.hashKey s.board) depth = true
  · have hr := (tt_probe_rule C s move (beta - 1) beta depth).2.2 h hc
    obtain ⟨ha, hb, hlt, _⟩ := hr
    unfold adjusted_alpha at ha
    unfold adjusted_beta at hb
    rw [ha, hb] at hlt ⊢
    by_cases h1 : (s.tt.at_ (C.hashKey s.board) depth).type = UPPER_BOUND
    · have h2 : ¬ (s.tt.at_ (C.hashKey s.board) depth).type = LOWER_BOUND := by rw [h1]; decide
      rw [if_pos h1, if_neg h2] at hlt ⊢
      rcases le_total beta (s.tt.at_ (C.hashKey s.board) depth).eval with hle | hle
      · rw [min_eq_left hle]
      · rw [min_eq_right hle] at hlt ⊢; omega
    · rw [if_neg h1] at hlt ⊢
      by_cases h2 : (s.tt.at_ (C.hashKey s.board) depth).type = LOWER_BOUND
      · rw [if_pos h2] at hlt ⊢
        rcases le_total (beta - 1) (s.tt.at_ (C.hashKey s.board) depth).eval with hle | hle
        · rw [max_eq_right hle] at hlt ⊢; omega
        · rw [max_eq_left hle]
      · rw [if_neg h2]
  · have hc1 : s.tt.contains (C.hashKey s.board) depth = false := by
      cases hx : s.tt.contains (C.hashKey s.board) depth
      · rfl
      · exact absurd hx hc
    obtain ⟨_, ha, hb⟩ := tt_probe_absent C s move (beta - 1) beta depth hc1
    rw [ha, hb]

theorem pv_search_classifies {Board : Type} (C : Chess Board) (Q_SEARCH : Bool) (fuel d : Nat)
    (hd : d + 1 ≤ 127) (alpha beta : Int) (s : Search Board)
    (hc : (s.tt_probe C NO_MOVE alpha beta (d + 1 : Nat)).cutoff = false)
    (hmin : MIN_EVAL ≤ (s.tt_probe C NO_MOVE alpha beta (d + 1 : Nat)).alpha)
    (hab : (s.tt_probe C NO_MOVE alpha beta (d + 1 : Nat)).alpha <
      (s.tt_probe C NO_MOVE alpha beta (d + 1 : Nat)).beta) :
    node_classifies C (s.tt_probe C NO_MOVE alpha beta (d + 1 : Nat))
      (pv_search_moves C Q_SEARCH fuel d alpha beta s)
      (Search.pv_search C Q_SEARCH fuel (d + 1) alpha beta s) (d + 1) := by
  intro v entry1 s1 hl
  unfold pv_search_moves at hl
  refine ⟨?_, ?_⟩
  · rw [pv_search_succ]
    unfold pv_search_node
    simp only [hc, Bool.false_eq_true, if_false, hl]
  · have h := pv_search_loop_classified C _ _
      (s.tt_probe C NO_MOVE alpha beta (d + 1 : Nat)).alpha _ _ _ _ _ _ _ _ _ hl
      (by unfold MIN_EVAL at hmin ⊢; omega) (Or.inl ⟨rfl, hmin, rfl⟩)
    exact classified_of_loop entry1 v _ _ (d + 1) hd hab h.1 h.2

theorem nega_max_classifies {Board : Type} (C : Chess Board) (Q_SEARCH : Bool) (fuel d : Nat)
    (hd : d ≤ 127) (alpha beta : Int) (s : Search Board)
    (hc : (s.tt_probe C NO_MOVE alpha beta d).cutoff = false)
    (hmin : MIN_EVAL ≤ (s.tt_probe C NO_MOVE alpha beta d).alpha)
    (hab : (s.tt_probe C NO_MOVE alpha beta d).alpha < (s.tt_probe C NO_MOVE alpha beta d).beta) :
    node_classifies C (s.tt_probe C NO_MOVE alpha beta d)
      (nega_max_moves C Q_SEARCH fuel d alpha beta s)
      (Search.nega_max C Q_SEARCH fuel d alpha beta s) d := by
  intro v entry1 s1 hl
  unfold nega_max_moves at hl
  refine ⟨?_, ?_⟩
  · rw [nega_max_eq_node]
    unfold nega_max_node
    simp only [hc, Bool.false_eq_true, if_false, hl]
  · rw [nega_max_loop_eq C _ _ true] at hl
    have h := pv_search_loop_classified C _ _
      (s.tt_probe C NO_MOVE alpha beta d).alpha _ _ _ _ _ _ _ _ _ hl
      (by unfold MIN_EVAL at hmin ⊢; omega) (Or.inl ⟨rfl, hmin, rfl⟩)
    exact classified_of_loop entry1 v _ _ d hd hab h.1 h.2

theorem null_window_search_classifies {Board : Type} (C : Chess Board) (Q_SEARCH : Bool)
    (fuel d : Nat) (hd : d ≤ 127) (beta : Int) (s : Search Board)
    (hc : (s.tt_probe C NO_MOVE (beta - 1) beta d).cutoff = false)
    (hmin : MIN_EVAL ≤ (s.tt_probe C NO_MOVE (beta - 1) beta d).alpha) :
    node_classifies C (s.tt_probe C NO_MOVE (beta - 1) beta d)
      (null_window_search_moves C Q_SEARCH fuel d beta s)
      (Search.null_window_search C Q_SEARCH fuel d beta s) d := by
  intro v entry1 s1 hl
  unfold null_window_search_moves at hl
  have hw := tt_probe_null_window C s NO_MOVE beta d hc
  refine ⟨?_, ?_⟩
  · rw [null_window_search_eq_node]
    unfold null_window_search_node
    simp only [hc, Bool.false_eq_true, if_false, hl]
  · rw [null_window_search_loop_eq C _ _ true] at hl
    have h := pv_search_loop_classified C _ _
      (s.tt_probe C NO_MOVE (beta - 1) beta d).alpha _ _ _ _ _ _ _ _ _ hl
      (by unfold MIN_EVAL at hmin ⊢; omega) (Or.inl ⟨rfl, hmin, by omega⟩)
    exact classified_of_loop entry1 v _ _ d hd (by omega) h.1 h.2

/-- C13 (as stated) fails: `pv_search(alpha, beta, 1)` with the window
`alpha = MIN_EVAL - 5`, `beta = 0` on the empty table, at a position without
legal move, completes its (empty) move loop and returns `v = MIN_EVAL`; the
entry it passes to `emplace` has kind UPPER_BOUND although `v <= alpha` is
false (`alpha < v < beta` holds, and the kind is not EXACT). -/
theorem bound_classification_counterexample :
    ¬ (∀ (d : Nat) (alpha beta : Int) (s : Search Unit),
      (s.tt_probe one_board NO_MOVE alpha beta (d + 1 : Nat)).cutoff = false →
      node_classifies one_board (s.tt_probe one_board NO_MOVE alpha beta (d + 1 : Nat))
        (pv_search_moves one_board true 0 d alpha beta s)
        (Search.pv_search one_board true 0 (d + 1) alpha beta s) (d + 1)) := by
  intro h
  have h1 := (h 0 (MIN_EVAL - 5) 0 ⟨(), 0, Transposition_Table.new⟩ (by decide)
    MIN_EVAL ⟨MIN_EVAL, NO_MOVE, 1, UPPER_BOUND⟩ ⟨(), 0, Transposition_Table.new⟩ rfl).2
  have h2 := h1.2.2.2.2
  revert h2
  decide

/-- C13 (amended): let `(alpha, beta)` be the window after the TT probe of a
node of depth `1 <= d <= 127` that is not cut off by the probe, with
`MIN_EVAL <= alpha < beta`.  Whenever the move loop of `pv_search`,
`nega_max` or `null_window_search` completes with `v`, the method returns `v`
after passing to `emplace` an entry with depth `d`, eval `v` and kind
LOWER_BOUND if and only if `v >= beta`, EXACT if and only if
`alpha < v < beta`, UPPER_BOUND if and only if `v <= alpha`; the entry that
`null_window_search` passes is never EXACT, for every window. -/
theorem bound_classification {Board : Type} (C : Chess Board) (Q_SEARCH : Bool) (fuel d : Nat)
    (hd : d + 1 ≤ 127) (s : Search Board) :
    (∀ alpha beta, (s.tt_probe C NO_MOVE alpha beta (d + 1 : Nat)).cutoff = false →
      MIN_EVAL ≤ (s.tt_probe C NO_MOVE alpha beta (d + 1 : Nat)).alpha →
      (s.tt_probe C NO_MOVE alpha beta (d + 1 : Nat)).alpha <
        (s.tt_probe C NO_MOVE alpha beta (d + 1 : Nat)).beta →
      node_classifies C (s.tt_probe C NO_MOVE alpha beta (d + 1 : Nat))
          (pv_search_moves C Q_SEARCH fuel d alpha beta s)
          (Search.pv_search C Q_SEARCH fuel (d + 1) alpha beta s) (d + 1) ∧
        node_classifies C (s.tt_probe C NO_MOVE alpha beta (d + 1 : Nat))
          (nega_max_moves C Q_SEARCH fuel (d + 1) alpha beta s)
          (Search.nega_max C Q_SEARCH fuel (d + 1) alpha beta s) (d + 1)) ∧
      (∀ beta, (s.tt_probe C NO_MOVE (beta - 1) beta (d + 1 : Nat)).cutoff = false →
        MIN_EVAL ≤ (s.tt_probe C NO_MOVE (beta - 1) beta (d + 1 : Nat)).alpha →
        node_classifies C (s.tt_probe C NO_MOVE (beta - 1) beta (d + 1 : Nat))
          (null_window_search_moves C Q_SEARCH fuel (d + 1) beta s)
          (Search.null_window_search C Q_SEARCH fuel (d + 1) beta s) (d + 1)) ∧
      ∀ beta v entry1 s1,
        null_window_search_moves C Q_SEARCH fuel (d + 1) beta s = some (v, entry1, s1) →
        ({ entry1 with eval := v } : TT_Info).type ≠ EXACT := by
  refine ⟨?_, ?_, ?_⟩
  · intro alpha beta hc hmin hab
    exact ⟨pv_search_classifies C Q_SEARCH fuel d hd alpha beta s hc hmin hab,
      nega_max_classifies C Q_SEARCH fuel (d + 1) hd alpha beta s hc hmin hab⟩
  · intro beta hc hmin
    exact null_window_search_classifies C Q_SEARCH fuel (d + 1) hd beta s hc hmin
  · intro beta v entry1 s1 hl
    unfold null_window_search_moves at hl
    show entry1.type ≠ EXACT
    exact null_window_search_loop_not_exact C _ _ _ _ _ _ v entry1 s1 hl (by simp)

/-- Witness for C13: at board 0 of `small_game` on the empty table,
`pv_search(-100, 100, 1)` completes its loop with `v = 3` and passes an EXACT
entry of depth 1 and eval 3 to `emplace`, and `null_window_search(0, 1)`
completes its loop with `v = 3 >= beta` and passes a LOWER_BOUND entry. -/
theorem bound_classification_witness :
    (0 : Nat) + 1 ≤ 127 ∧
      ((⟨0, 0, Transposition_Table.new⟩ : Search (Fin 4)).tt_probe small_game NO_MOVE (-100) 100
        ((0 + 1 : Nat) : Nat)).cutoff = false ∧
      (pv_search_moves small_game true 4 0 (-100) 100 ⟨0, 0, Transposition_Table.new⟩).map
          (fun r => (r.1, r.2.1.type)) = some (3, EXACT) ∧
      node_classifies small_game
        ((⟨0, 0, Transposition_Table.new⟩ : Search (Fin 4)).tt_probe small_game NO_MOVE (-100) 100
          ((0 + 1 : Nat) : Nat))
        (pv_search_moves small_game true 4 0 (-100) 100 ⟨0, 0, Transposition_Table.new⟩)
        (Search.pv_search small_game true 4 (0 + 1) (-100) 100 ⟨0, 0, Transposition_Table.new⟩)
        (0 + 1) ∧
      (null_window_search_moves small_game true 4 (0 + 1) 0
          ⟨0, 0, Transposition_Table.new⟩).map (fun r => (r.1, r.2.1.type)) =
        some (3, LOWER_BOUND) ∧
      node_classifies small_game
        ((⟨0, 0, Transposition_Table.new⟩ : Search (Fin 4)).tt_probe small_game NO_MOVE (0 - 1) 0
          ((0 + 1 : Nat) : Nat))
        (null_window_search_moves small_game true 4 (0 + 1) 0 ⟨0, 0, Transposition_Table.new⟩)
        (Search.null_window_search small_game true 4 (0 + 1) 0 ⟨0, 0, Transposition_Table.new⟩)
        (0 + 1) :=
  ⟨by decide, by decide, by decide,
    ((bound_classification small_game true 4 0 (by decide) ⟨0, 0, Transposition_Table.new⟩).1
      (-100) 100 (by decide) (by decide) (by decide)).1,
    by decide,
    (bound_classification small_game true 4 0 (by decide) ⟨0, 0, Transposition_Table.new⟩).2.1
      0 (by decide) (by decide)⟩


/-! ## The searches of `Search_Thread` -/

theorem except_bind_ok {ε α β : Type} (a : α) (f : α → Except ε β) :
    (Except.ok a : Except ε α) >>= f = f a := rfl

theorem except_bind_error {ε α β : Type} (e : ε) (f : α → Except ε β) :
    (Except.error e : Except ε α) >>= f = Except.error e := rfl

theorem thread_nega_max_loop_eq {Board : Type} (C : Chess Board)
    (child : Int → Int → Thread Board → Except Fault (Int × Thread Board)) (beta : Int)
    (sfw : Bool) (rest : List Move) :
    ∀ (eval alpha : Int) (entry : TT_Info) (s : Thread Board),
      Search_Thread.nega_max_loop C child beta rest eval alpha entry s =
        Search_Thread.pv_search_loop C (thread_window_child child) beta rest eval alpha sfw
          entry s := by
  induction rest with
  | nil => intro eval alpha entry s; rfl
  | cons m rest ih =>
    intro eval alpha entry s
    unfold Search_Thread.nega_max_loop Search_Thread.pv_search_loop thread_window_child
    cases Eval_Type (-beta) with
    | error e => rfl
    | ok nb =>
      simp only [except_bind_ok]
      cases Eval_Type (-alpha) with
      | error e => rfl
      | ok na =>
        simp only [except_bind_ok]
        cases child nb na (s.make C m) with
        | error e => rfl
        | ok r =>
          simp only [except_bind_ok]
          cases Eval_Type (-r.1) with
          | error e => rfl
          | ok inner =>
            simp only [except_bind_ok]
            by_cases h1 : inner > eval
            · by_cases h2 : inner ≥ beta
              · simp only [h1, h2, if_true]
              · by_cases h3 : inner > alpha
                · by_cases h4 : (r.2.unmake C m).finished = true
                  · simp only [h1, h2, h3, h4, if_true, if_false]
                  · simp only [h1, h2, h3, h4, if_true, if_false]; exact ih _ _ _ _
                · by_cases h4 : (r.2.unmake C m).finished = true
                  · simp only [h1, h2, h3, h4, if_true, if_false]
                  · simp only [h1, h2, h3, h4, if_true, if_false]; exact ih _ _ _ _
            · by_cases h4 : (r.2.unmake C m).finished = true
              · simp only [h1, h4, if_true, if_false]
              · simp only [h1, h4, if_true, if_false]; exact ih _ _ _ _

theorem thread_null_window_search_loop_eq {Board : Type} (C : Chess Board)
    (child : Int → Thread Board → Except Fault (Int × Thread Board)) (beta : Int)
    (sfw : Bool) (rest : List Move) :
    ∀ (eval : Int) (entry : TT_Info) (s : Thread Board),
      Search_Thread.null_window_search_loop C child beta rest eval entry s =
        Search_Thread.pv_search_loop C (thread_scout_child child) beta rest eval (beta - 1) sfw
          entry s := by
  induction rest with
  | nil => intro eval entry s; rfl
  | cons m rest ih =>
    intro eval entry s
    unfold Search_Thread.null_window_search_loop Search_Thread.pv_search_loop thread_scout_child
    cases Eval_Type (-beta) with
    | error e => rfl
    | ok nb =>
      simp only [except_bind_ok]
      cases Eval_Type (nb + 1) with
      | error e => rfl
      | ok nb1 =>
        simp only [except_bind_ok]
        cases child nb1 (s.make C m) with
        | error e => rfl
        | ok r =>
          simp only [except_bind_ok]
          cases Eval_Type (-r.1) with
          | error e => rfl
          | ok inner =>
            simp only [except_bind_ok]
            by_cases h1 : inner > eval
            · by_cases h2 : inner ≥ beta
              · simp only [h1, h2, if_true]
              · have h3 : ¬ inner > beta - 1 := by omega
                by_cases h4 : (r.2.unmake C m).finished = true
                · simp only [h1, h2, h3, h4, if_true, if_false]
                · simp only [h1, h2, h3, h4, if_true, if_false]; exact ih _ _ _
            · by_cases h4 : (r.2.unmake C m).finished = true
              · simp only [h1, h4, if_true, if_false]
              · simp only [h1, h4, if_true, if_false]; exact ih _ _ _

theorem thread_q_search_loop_eq {Board : Type} (C : Chess Board)
    (child : Int → Int → Thread Board → Except Fault (Int × Thread Board)) (beta : Int)
    (sfw : Bool) (rest : List Move) :
    ∀ (q_eval alpha : Int) (entry : TT_Info) (s : Thread Board),
      Search_Thread.q_search_loop C child beta rest q_eval alpha s =
        (Search_Thread.pv_search_loop C (thread_window_child child) beta rest q_eval alpha sfw
          entry s).map (fun x => (x.eval, x.state)) := by
  induction rest with
  | nil => intro q_eval alpha entry s; rfl
  | cons m rest ih =>
    intro q_eval alpha entry s
    unfold Search_Thread.q_search_loop Search_Thread.pv_search_loop thread_window_child
    cases Eval_Type (-beta) with
    | error e => rfl
    | ok nb =>
      simp only [except_bind_ok]
      cases Eval_Type (-alpha) with
      | error e => rfl
      | ok na =>
        simp only [except_bind_ok]
        cases child nb na (s.make C m) with
        | error e => rfl
        | ok r =>
          simp only [except_bind_ok]
          cases Eval_Type (-r.1) with
          | error e => rfl
          | ok inner =>
            simp only [except_bind_ok]
            by_cases h1 : inner > q_eval
            · by_cases h2 : inner ≥ beta
              · simp only [h1, h2, if_true]; rfl
              · by_cases h3 : inner > alpha
                · by_cases h4 : (r.2.unmake C m).finished = true
                  · simp only [h1, h2, h3, h4, if_true, if_false]; rfl
                  · simp only [h1, h2, h3, h4, if_true, if_false]; exact ih _ _ _ _
                · by_cases h4 : (r.2.unmake C m).finished = true
                  · simp only [h1, h2, h3, h4, if_true, if_false]; rfl
                  · simp only [h1, h2, h3, h4, if_true, if_false]; exact ih _ _ _ _
            · by_cases h4 : (r.2.unmake C m).finished = true
              · simp only [h1, h4, if_true, if_false]; rfl
              · simp only [h1, h4, if_true, if_false]; exact ih _ _ _ _

theorem thread_nw_q_search_loop_eq {Board : Type} (C : Chess Board)
    (child : Int → Thread Board → Except Fault (Int × Thread Board)) (beta : Int)
    (sfw : Bool) (rest : List Move) :
    ∀ (q_eval : Int) (entry : TT_Info) (s : Thread Board),
      Search_Thread.nw_q_search_loop C child beta rest q_eval s =
        (Search_Thread.pv_search_loop C (thread_scout_child child) beta rest q_eval (beta - 1)
          sfw entry s).map (fun x => (x.eval, x.state)) := by
  induction rest with
  | nil => intro q_eval entry s; rfl
  | cons m rest ih =>
    intro q_eval entry s
    unfold Search_Thread.nw_q_search_loop Search_Thread.pv_search_loop thread_scout_child
    cases Eval_Type (-beta) with
    | error e => rfl
    | ok nb =>
      simp only [except_bind_ok]
      cases Eval_Type (nb + 1) with
      | error e => rfl
      | ok nb1 =>
        simp only [except_bind_ok]
        cases child nb1 (s.make C m) with
        | error e => rfl
        | ok r =>
          simp only [except_bind_ok]
          cases Eval_Type (-r.1) with
          | error e => rfl
          | ok inner =>
            simp only [except_bind_ok]
            by_cases h1 : inner > q_eval
            · by_cases h2 : inner ≥ beta
              · simp only [h1, h2, if_true]; rfl
              · have h3 : ¬ inner > beta - 1 := by omega
                by_cases h4 : (r.2.unmake C m).finished = true
                · simp only [h1, h2, h3, h4, if_true, if_false]; rfl
                · simp only [h1, h2, h3, h4, if_true, if_false]; exact ih _ _ _
            · by_cases h4 : (r.2.unmake C m).finished = true
              · simp only [h1, h4, if_true, if_false]; rfl
              · simp only [h1, h4, if_true, if_false]; exact ih _ _ _

theorem thread_root_max_loop_eq {Board : Type} (C : Chess Board)
    (child : Bool → Int → Int → Thread Board → Except Fault (Int × Bool × Thread Board))
    (beta : Int) (rest : List Move) :
    ∀ (eval alpha : Int) (sfw : Bool) (best_move : Move) (entry : TT_Info) (s : Thread Board),
      entry.move = best_move →
      Search_Thread.root_max_loop C child beta rest eval alpha sfw best_move s =
        (Search_Thread.pv_search_loop C child beta rest eval alpha sfw entry s).map
          (fun x => ⟨x.stopped, x.eval, x.entry.move, x.state⟩) := by
  induction rest with
  | nil =>
    intro eval alpha sfw best_move entry s h
    subst h; rfl
  | cons m rest ih =>
    intro eval alpha sfw best_move entry s h
    unfold Search_Thread.root_max_loop Search_Thread.pv_search_loop
    cases child sfw alpha beta (s.make C m) with
    | error e => rfl
    | ok r =>
      simp only [except_bind_ok]
      by_cases h1 : r.1 > eval
      · by_cases h2 : r.1 ≥ beta
        · simp only [h1, h2, if_true]; rfl
        · by_cases h3 : r.1 > alpha
          · by_cases h4 : (r.2.2.unmake C m).finished = true
            · simp only [h1, h2, h3, h4, if_true, if_false]; rfl
            · simp only [h1, h2, h3, h4, if_true, if_false]; exact ih _ _ _ _ _ _ rfl
          · by_cases h4 : (r.2.2.unmake C m).finished = true
            · simp only [h1, h2, h3, h4, if_true, if_false]; rfl
            · simp only [h1, h2, h3, h4, if_true, if_false]; exact ih _ _ _ _ _ _ rfl
      · by_cases h4 : (r.2.2.unmake C m).finished = true
        · simp only [h1, h4, if_true, if_false]; subst h; rfl
        · simp only [h1, h4, if_true, if_false]; exact ih _ _ _ _ _ _ h

/-! ### The generic loop of `Search_Thread` -/

/-- A loop that was left by `if (finished) return` saw the flag set. -/
theorem thread_loop_stopped {Board : Type} (C : Chess Board)
    (child : Bool → Int → Int → Thread Board → Except Fault (Int × Bool × Thread Board))
    (beta : Int) (rest : List Move) :
    ∀ (eval alpha : Int) (sfw : Bool) (entry : TT_Info) (s : Thread Board) (x : Loop_Exit Board),
      Search_Thread.pv_search_loop C child beta rest eval alpha sfw entry s = .ok x →
      x.stopped = true → x.state.finished = true := by
  induction rest with
  | nil =>
    intro eval alpha sfw entry s x h hs
    simp only [Search_Thread.pv_search_loop, Except.ok.injEq] at h
    subst h
    exact absurd hs (by simp)
  | cons m rest ih =>
    intro eval alpha sfw entry s x h hs
    unfold Search_Thread.pv_search_loop at h
    cases hc : child sfw alpha beta (s.make C m) with
    | error e => rw [hc] at h; exact absurd h (by simp [except_bind_error])
    | ok r =>
      rw [hc] at h
      simp only [except_bind_ok] at h
      by_cases h4 : (r.2.2.unmake C m).finished = true
      · by_cases h1 : r.1 > eval
        · by_cases h2 : r.1 ≥ beta
          · simp only [h1, h2, if_true, Except.ok.injEq] at h
            subst h; exact h4
          · by_cases h3 : r.1 > alpha
            · simp only [h1, h2, h3, h4, if_true, if_false, Except.ok.injEq] at h
              subst h; exact h4
            · simp only [h1, h2, h3, h4, if_true, if_false, Except.ok.injEq] at h
              subst h; exact h4
        · simp only [h1, h4, if_true, if_false, Except.ok.injEq] at h
          subst h; exact h4
      · by_cases h1 : r.1 > eval
        · by_cases h2 : r.1 ≥ beta
          · simp only [h1, h2, if_true, Except.ok.injEq] at h
            subst h; exact absurd hs (by simp)
          · by_cases h3 : r.1 > alpha
            · simp only [h1, h2, h3, h4, if_true, if_false] at h
              exact ih _ _ _ _ _ _ h hs
            · simp only [h1, h2, h3, h4, if_true, if_false] at h
              exact ih _ _ _ _ _ _ h hs
        · simp only [h1, h4, if_true, if_false] at h
          exact ih _ _ _ _ _ _ h hs

/-- The generic loop keeps a state invariant `I` and a value predicate `V`
that every child step keeps. -/
theorem thread_loop_post {Board : Type} (C : Chess Board)
    (child : Bool → Int → Int → Thread Board → Except Fault (Int × Bool × Thread Board))
    (beta : Int) (I : Thread Board → Prop) (V : Int → Prop)
    (hchild : ∀ sfw alpha m s r, I s → child sfw alpha beta (s.make C m) = .ok r →
      V r.1 ∧ I (r.2.2.unmake C m))
    (rest : List Move) :
    ∀ (eval alpha : Int) (sfw : Bool) (entry : TT_Info) (s : Thread Board) (x : Loop_Exit Board),
      I s → V eval →
      Search_Thread.pv_search_loop C child beta rest eval alpha sfw entry s = .ok x →
      V x.eval ∧ I x.state := by
  induction rest with
  | nil =>
    intro eval alpha sfw entry s x hI hV h
    simp only [Search_Thread.pv_search_loop, Except.ok.injEq] at h
    subst h
    exact ⟨hV, hI⟩
  | cons m rest ih =>
    intro eval alpha sfw entry s x hI hV h
    unfold Search_Thread.pv_search_loop at h
    cases hc : child sfw alpha beta (s.make C m) with
    | error e => rw [hc] at h; exact absurd h (by simp [except_bind_error])
    | ok r =>
      obtain ⟨hv1, hi1⟩ := hchild sfw alpha m s r hI hc
      rw [hc] at h
      simp only [except_bind_ok] at h
      by_cases h4 : (r.2.2.unmake C m).finished = true
      · by_cases h1 : r.1 > eval
        · by_cases h2 : r.1 ≥ beta
          · simp only [h1, h2, if_true, Except.ok.injEq] at h
            subst h; exact ⟨hv1, hi1⟩
          · by_cases h3 : r.1 > alpha
            · simp only [h1, h2, h3, h4, if_true, if_false, Except.ok.injEq] at h
              subst h; exact ⟨hv1, hi1⟩
            · simp only [h1, h2, h3, h4, if_true, if_false, Except.ok.injEq] at h
              subst h; exact ⟨hv1, hi1⟩
        · simp only [h1, h4, if_true, if_false, Except.ok.injEq] at h
          subst h; exact ⟨hV, hi1⟩
      · by_cases h1 : r.1 > eval
        · by_cases h2 : r.1 ≥ beta
          · simp only [h1, h2, if_true, Except.ok.injEq] at h
            subst h; exact ⟨hv1, hi1⟩
          · by_cases h3 : r.1 > alpha
            · simp only [h1, h2, h3, h4, if_true, if_false] at h
              exact ih _ _ _ _ _ _ hi1 hv1 h
            · simp only [h1, h2, h3, h4, if_true, if_false] at h
              exact ih _ _ _ _ _ _ hi1 hv1 h
        · simp only [h1, h4, if_true, if_false] at h
          exact ih _ _ _ _ _ _ hi1 hV h

/-- The generic loop has no overflow when no child step has one, for the
bounds `alpha` that the loop can reach (`P`). -/
theorem thread_loop_safe {Board : Type} (C : Chess Board)
    (child : Bool → Int → Int → Thread Board → Except Fault (Int × Bool × Thread Board))
    (beta : Int) (I : Thread Board → Prop) (V P : Int → Prop)
    (hchild : ∀ sfw alpha m s r, I s → child sfw alpha beta (s.make C m) = .ok r →
      V r.1 ∧ I (r.2.2.unmake C m))
    (hsafe : ∀ sfw alpha m s, P alpha → I s →
      child sfw alpha beta (s.make C m) ≠ .error .overflow)
    (hVP : ∀ alpha v, P alpha → V v → alpha < v → v < beta → P v)
    (rest : List Move) :
    ∀ (eval alpha : Int) (sfw : Bool) (entry : TT_Info) (s : Thread Board),
      P alpha → I s →
      Search_Thread.pv_search_loop C child beta rest eval alpha sfw entry s ≠
        .error .overflow := by
  induction rest with
  | nil =>
    intro eval alpha sfw entry s _ _
    simp [Search_Thread.pv_search_loop]
  | cons m rest ih =>
    intro eval alpha sfw entry s hP hI
    unfold Search_Thread.pv_search_loop
    cases hc : child sfw alpha beta (s.make C m) with
    | error e =>
      have := hsafe sfw alpha m s hP hI
      rw [hc] at this
      simp only [except_bind_error]
      intro h
      apply this
      cases h
      rfl
    | ok r =>
      obtain ⟨hv1, hi1⟩ := hchild sfw alpha m s r hI hc
      simp only [except_bind_ok]
      by_cases h4 : (r.2.2.unmake C m).finished = true
      · by_cases h1 : r.1 > eval
        · by_cases h2 : r.1 ≥ beta
          · simp [h1, h2]
          · by_cases h3 : r.1 > alpha
            · simp [h1, h2, h3, h4]
            · simp [h1, h2, h3, h4]
        · simp [h1, h4]
      · by_cases h1 : r.1 > eval
        · by_cases h2 : r.1 ≥ beta
          · simp [h1, h2]
          · by_cases h3 : r.1 > alpha
            · simp only [h1, h2, h3, h4, if_true, if_false]
              exact ih _ _ _ _ _ (hVP alpha r.1 hP hv1 h3 (by omega)) hi1
            · simp only [h1, h2, h3, h4, if_true, if_false]
              exact ih _ _ _ _ _ hP hi1
        · simp only [h1, h4, if_true, if_false]
          exact ih _ _ _ _ _ hP hi1

/-! ### What the searches of `Search_Thread` keep -/

theorem Eval_Type_ok (x y : Int) (h : Eval_Type x = .ok y) : y = x := by
  unfold Eval_Type at h
  split at h
  · simp only [Except.ok.injEq] at h; exact h.symm
  · exact absurd h (by simp)

theorem thread_window_child_post {Board : Type} (C : Chess Board) (I : Thread Board → Prop)
    (V : Int → Prop) (hst : Stable C I V)
    (child : Int → Int → Thread Board → Except Fault (Int × Thread Board))
    (hc : window_post I V child) (sfw : Bool) (alpha beta : Int) (m : Move) (s : Thread Board)
    (r : Int × Bool × Thread Board) (hI : I s)
    (h : thread_window_child child sfw alpha beta (s.make C m) = .ok r) :
    V r.1 ∧ I (r.2.2.unmake C m) := by
  unfold thread_window_child at h
  cases h1 : Eval_Type (-beta) with
  | error e => rw [h1] at h; exact absurd h (by simp [except_bind_error])
  | ok nb =>
    rw [h1] at h
    simp only [except_bind_ok] at h
    cases h2 : Eval_Type (-alpha) with
    | error e => rw [h2] at h; exact absurd h (by simp [except_bind_error])
    | ok na =>
      rw [h2] at h
      simp only [except_bind_ok] at h
      cases h3 : child nb na (s.make C m) with
      | error e => rw [h3] at h; exact absurd h (by simp [except_bind_error])
      | ok r1 =>
        rw [h3] at h
        simp only [except_bind_ok] at h
        obtain ⟨hv, hi⟩ := hc nb na _ r1 (hst.make s m hI) h3
        cases h4 : Eval_Type (-r1.1) with
        | error e => rw [h4] at h; exact absurd h (by simp [except_bind_error])
        | ok inner =>
          rw [h4] at h
          simp only [except_bind_ok, Except.ok.injEq] at h
          subst h
          have := Eval_Type_ok _ _ h4
          subst this
          exact ⟨hst.neg _ hv, hst.unmake _ m hi⟩

theorem thread_scout_child_post {Board : Type} (C : Chess Board) (I : Thread Board → Prop)
    (V : Int → Prop) (hst : Stable C I V)
    (child : Int → Thread Board → Except Fault (Int × Thread Board))
    (hc : scout_post I V child) (sfw : Bool) (alpha beta : Int) (m : Move) (s : Thread Board)
    (r : Int × Bool × Thread Board) (hI : I s)
    (h : thread_scout_child child sfw alpha beta (s.make C m) = .ok r) :
    V r.1 ∧ I (r.2.2.unmake C m) := by
  unfold thread_scout_child at h
  cases h1 : Eval_Type (-beta) with
  | error e => rw [h1] at h; exact absurd h (by simp [except_bind_error])
  | ok nb =>
    rw [h1] at h
    simp only [except_bind_ok] at h
    cases h2 : Eval_Type (nb + 1) with
    | error e => rw [h2] at h; exact absurd h (by simp [except_bind_error])
    | ok nb1 =>
      rw [h2] at h
      simp only [except_bind_ok] at h
      cases h3 : child nb1 (s.make C m) with
      | error e => rw [h3] at h; exact absurd h (by simp [except_bind_error])
      | ok r1 =>
        rw [h3] at h
        simp only [except_bind_ok] at h
        obtain ⟨hv, hi⟩ := hc nb1 _ r1 (hst.make s m hI) h3
        cases h4 : Eval_Type (-r1.1) with
        | error e => rw [h4] at h; exact absurd h (by simp [except_bind_error])
        | ok inner =>
          rw [h4] at h
          simp only [except_bind_ok, Except.ok.injEq] at h
          subst h
          have := Eval_Type_ok _ _ h4
          subst this
          exact ⟨hst.neg _ hv, hst.unmake _ m hi⟩

theorem thread_q_search_post {Board : Type} (C : Chess Board) (I : Thread Board → Prop)
    (V : Int → Prop) (hst : Stable C I V) (Q_SEARCH : Bool) (fuel : Nat) :
    window_post I V (Search_Thread.q_search C Q_SEARCH fuel) := by
  induction fuel with
  | zero => intro alpha beta s r _ h; exact absurd h (by simp [Search_Thread.q_search])
  | succ fuel ih =>
    intro alpha beta s r hI h
    unfold Search_Thread.q_search at h
    simp only [] at h
    have hI0 := hst.nodes s ((s.nodes + 1) % 2 ^ 64) hI
    have hV0 := hst.static s.board
    generalize (if C.eval s.board < Search_Thread.MIN_EVAL then Search_Thread.MIN_EVAL
      else C.eval s.board) = q at h hV0
    cases Q_SEARCH with
    | false =>
      simp only [Bool.not_false, if_true, Except.ok.injEq] at h
      subst h
      exact ⟨hV0, hI0⟩
    | true =>
      simp only [Bool.not_true, Bool.false_eq_true, if_false] at h
      by_cases hb : q ≥ beta
      · simp only [hb, if_true, Except.ok.injEq] at h
        subst h
        exact ⟨hV0, hI0⟩
      · simp only [hb, if_false] at h
        rw [thread_q_search_loop_eq C _ _ true _ _ _ TT_Info.zero] at h
        cases hl : Search_Thread.pv_search_loop C
            (thread_window_child (Search_Thread.q_search C true fuel)) beta
            (C.legalmoves_CAPTURE s.board) q (if q > alpha then q else alpha) true TT_Info.zero
            { s with nodes := (s.nodes + 1) % 2 ^ 64 } with
        | error e => rw [hl] at h; exact absurd h (by simp [Except.map])
        | ok x =>
          rw [hl] at h
          simp only [Except.map, Except.ok.injEq] at h
          subst h
          exact thread_loop_post C _ beta I V
            (fun sfw a m s1 r1 hi hc =>
              thread_window_child_post C I V hst _ ih sfw a beta m s1 r1 hi hc)
            _ _ _ _ _ _ x hI0 hV0 hl

theorem thread_nw_q_search_post {Board : Type} (C : Chess Board) (I : Thread Board → Prop)
    (V : Int → Prop) (hst : Stable C I V) (Q_SEARCH : Bool) (fuel : Nat) :
    scout_post I V (Search_Thread.nw_q_search C Q_SEARCH fuel) := by
  induction fuel with
  | zero => intro beta s r _ h; exact absurd h (by simp [Search_Thread.nw_q_search])
  | succ fuel ih =>
    intro beta s r hI h
    unfold Search_Thread.nw_q_search at h
    simp only [] at h
    have hI0 := hst.nodes s ((s.nodes + 1) % 2 ^ 64) hI
    have hV0 := hst.static s.board
    generalize (if C.eval s.board < Search_Thread.MIN_EVAL then Search_Thread.MIN_EVAL
      else C.eval s.board) = q at h hV0
    cases Q_SEARCH with
    | false =>
      simp only [Bool.not_false, if_true, Except.ok.injEq] at h
      subst h
      exact ⟨hV0, hI0⟩
    | true =>
      simp only [Bool.not_true, Bool.false_eq_true, if_false] at h
      by_cases hb : q ≥ beta
      · simp only [hb, if_true, Except.ok.injEq] at h
        subst h
        exact ⟨hV0, hI0⟩
      · simp only [hb, if_false] at h
        rw [thread_nw_q_search_loop_eq C _ _ true _ _ TT_Info.zero] at h
        cases hl : Search_Thread.pv_search_loop C
            (thread_scout_child (Search_Thread.nw_q_search C true fuel)) beta
            (C.legalmoves_CAPTURE s.board) q (beta - 1) true TT_Info.zero
            { s with nodes := (s.nodes + 1) % 2 ^ 64 } with
        | error e => rw [hl] at h; exact absurd h (by simp [Except.map])
        | ok x =>
          rw [hl] at h
          simp only [Except.map, Except.ok.injEq] at h
          subst h
          exact thread_loop_post C _ beta I V
            (fun sfw a m s1 r1 hi hc =>
              thread_scout_child_post C I V hst _ ih sfw a beta m s1 r1 hi hc)
            _ _ _ _ _ _ x hI0 hV0 hl

theorem thread_tt_probe_cutoff {Board : Type} (C : Chess Board) (s : Search_Thread Board)
    (move : Move) (alpha beta : Int) (depth : Int)
    (h : (s.tt_probe C move alpha beta depth).cutoff = true) :
    s.tt.contains (C.hashKey s.board) depth = true ∧
      (s.tt_probe C move alpha beta depth).alpha = (s.tt.at_ (C.hashKey s.board) depth).eval := by
  rw [search_thread_tt_probe_eq] at h ⊢
  have hr := tt_probe_rule C ⟨s.board, s.nodes, s.tt⟩ move alpha beta depth
  exact ⟨(hr.1.mp h).1, (hr.2.1 h).1⟩

theorem thread_pv_child_post {Board : Type} (C : Chess Board) (I : Thread Board → Prop)
    (V : Int → Prop) (hst : Stable C I V)
    (quiesce : Int → Int → Thread Board → Except Fault (Int × Thread Board))
    (scout : Int → Thread Board → Except Fault (Int × Thread Board))
    (full : Int → Int → Thread Board → Except Fault (Int × Thread Board))
    (hq : window_post I V quiesce) (hs : scout_post I V scout) (hf : window_post I V full)
    (depth : Nat) (sfw : Bool) (alpha beta : Int) (m : Move) (s : Thread Board)
    (r : Int × Bool × Thread Board) (hI : I s)
    (h : Search_Thread.pv_child quiesce scout full depth sfw alpha beta (s.make C m) = .ok r) :
    V r.1 ∧ I (r.2.2.unmake C m) := by
  unfold Search_Thread.pv_child at h
  by_cases hd : depth = 1
  · rw [if_pos hd] at h
    exact thread_window_child_post C I V hst quiesce hq sfw alpha beta m s r hI h
  · rw [if_neg hd] at h
    by_cases hw : sfw = true
    · rw [if_pos hw] at h
      have h' : thread_window_child full false alpha beta (s.make C m) = .ok r := h
      exact thread_window_child_post C I V hst full hf false alpha beta m s r hI h'
    · rw [if_neg hw] at h
      cases h1 : Eval_Type (-alpha) with
      | error e => rw [h1] at h; exact absurd h (by simp [except_bind_error])
      | ok na =>
        rw [h1] at h
        simp only [except_bind_ok] at h
        cases h2 : scout na (s.make C m) with
        | error e => rw [h2] at h; exact absurd h (by simp [except_bind_error])
        | ok r0 =>
          rw [h2] at h
          simp only [except_bind_ok] at h
          obtain ⟨hv0, hi0⟩ := hs na _ r0 (hst.make s m hI) h2
          cases h3 : Eval_Type (-r0.1) with
          | error e => rw [h3] at h; exact absurd h (by simp [except_bind_error])
          | ok inner0 =>
            rw [h3] at h
            simp only [except_bind_ok] at h
            have e3 := Eval_Type_ok _ _ h3
            by_cases hgt : inner0 > alpha
            · rw [if_pos hgt] at h
              cases h4 : Eval_Type (-beta) with
              | error e => rw [h4] at h; exact absurd h (by simp [except_bind_error])
              | ok nb =>
                rw [h4] at h
                simp only [except_bind_ok, h1] at h
                cases h5 : full nb na r0.2 with
                | error e => rw [h5] at h; exact absurd h (by simp [except_bind_error])
                | ok r1 =>
                  rw [h5] at h
                  simp only [except_bind_ok] at h
                  obtain ⟨hv1, hi1⟩ := hf nb na _ r1 hi0 h5
                  cases h6 : Eval_Type (-r1.1) with
                  | error e => rw [h6] at h; exact absurd h (by simp [except_bind_error])
                  | ok inner =>
                    rw [h6] at h
                    simp only [except_bind_ok, Except.ok.injEq] at h
                    subst h
                    have e6 := Eval_Type_ok _ _ h6
                    subst e6
                    exact ⟨hst.neg _ hv1, hst.unmake _ m hi1⟩
            · rw [if_neg hgt] at h
              simp only [Except.ok.injEq] at h
              subst h
              subst e3
              exact ⟨hst.neg _ hv0, hst.unmake _ m hi0⟩

/-- What follows the move loop of a node keeps the invariants. -/
theorem thread_node_exit_post {Board : Type} (C : Chess Board) (I : Thread Board → Prop)
    (V : Int → Prop) (hst : Stable C I V) (depth : Nat) (x : Loop_Exit Board)
    (r : Int × Thread Board) (hv : V x.eval) (hi : I x.state)
    (h : (if x.stopped = true then (Except.ok (x.eval, x.state) : Except Fault _)
      else .ok (x.eval, x.state.store C { x.entry with eval := x.eval } depth)) = .ok r) :
    V r.1 ∧ I r.2 := by
  by_cases hs : x.stopped = true
  · rw [if_pos hs] at h
    simp only [Except.ok.injEq] at h
    subst h
    exact ⟨hv, hi⟩
  · rw [if_neg hs] at h
    simp only [Except.ok.injEq] at h
    subst h
    exact ⟨hv, hst.store _ _ _ hi hv⟩

theorem thread_generate_post {Board : Type} (C : Chess Board) (I : Thread Board → Prop)
    (V : Int → Prop) (hst : Stable C I V) (s : Thread Board) (hI : I s) :
    I (s.generate_shuffled_moves C).2 := by
  unfold Thread.generate_shuffled_moves
  exact hst.mt s _ hI

theorem thread_nega_max_node_post {Board : Type} (C : Chess Board) (I : Thread Board → Prop)
    (V : Int → Prop) (hst : Stable C I V)
    (child : Int → Int → Thread Board → Except Fault (Int × Thread Board))
    (hc : window_post I V child) (depth : Nat) :
    window_post I V (Search_Thread.nega_max_node C child depth) := by
  intro alpha beta s r hI h
  unfold Search_Thread.nega_max_node at h
  simp only [] at h
  by_cases hcut : (s.toSearch_Thread.tt_probe C NO_MOVE alpha beta depth).cutoff = true
  · rw [if_pos hcut] at h
    simp only [Except.ok.injEq] at h
    subst h
    obtain ⟨h1, h2⟩ := thread_tt_probe_cutoff C s.toSearch_Thread NO_MOVE alpha beta depth hcut
    refine ⟨?_, hI⟩
    show V (s.toSearch_Thread.tt_probe C NO_MOVE alpha beta depth).alpha
    rw [h2]
    exact hst.probe s depth hI h1
  · rw [if_neg hcut, thread_nega_max_loop_eq C _ _ true] at h
    cases hl : Search_Thread.pv_search_loop C (thread_window_child child)
        (s.toSearch_Thread.tt_probe C NO_MOVE alpha beta depth).beta
        (s.generate_shuffled_moves C).1 Search_Thread.MIN_EVAL
        (s.toSearch_Thread.tt_probe C NO_MOVE alpha beta depth).alpha true
        ⟨Search_Thread.MIN_EVAL, (s.toSearch_Thread.tt_probe C NO_MOVE alpha beta depth).move,
          to_int8 depth, UPPER_BOUND⟩ (s.generate_shuffled_moves C).2 with
    | error e => rw [hl] at h; exact absurd h (by simp [except_bind_error])
    | ok x =>
      rw [hl] at h
      simp only [except_bind_ok] at h
      obtain ⟨hv, hi⟩ := thread_loop_post C _ _ I V
        (fun sfw a m s1 r1 hi hc1 =>
          thread_window_child_post C I V hst _ hc sfw a _ m s1 r1 hi hc1)
        _ _ _ _ _ _ x (thread_generate_post C I V hst s hI) hst.least hl
      exact thread_node_exit_post C I V hst depth x r hv hi h

theorem thread_null_window_search_node_post {Board : Type} (C : Chess Board)
    (I : Thread Board → Prop) (V : Int → Prop) (hst : Stable C I V)
    (child : Int → Thread Board → Except Fault (Int × Thread Board))
    (hc : scout_post I V child) (depth : Nat) :
    scout_post I V (Search_Thread.null_window_search_node C child depth) := by
  intro beta s r hI h
  unfold Search_Thread.null_window_search_node at h
  cases h0 : Eval_Type (beta - 1) with
  | error e => rw [h0] at h; exact absurd h (by simp [except_bind_error])
  | ok alpha =>
    rw [h0] at h
    simp only [except_bind_ok] at h
    by_cases hcut : (s.toSearch_Thread.tt_probe C NO_MOVE alpha beta depth).cutoff = true
    · rw [if_pos hcut] at h
      simp only [Except.ok.injEq] at h
      subst h
      obtain ⟨h1, h2⟩ := thread_tt_probe_cutoff C s.toSearch_Thread NO_MOVE alpha beta depth hcut
      refine ⟨?_, hI⟩
      show V (s.toSearch_Thread.tt_probe C NO_MOVE alpha beta depth).alpha
      rw [h2]
      exact hst.probe s depth hI h1
    · rw [if_neg hcut, thread_null_window_search_loop_eq C _ _ true] at h
      cases hl : Search_Thread.pv_search_loop C (thread_scout_child child)
          (s.toSearch_Thread.tt_probe C NO_MOVE alpha beta depth).beta
          (tt_move_first (s.generate_shuffled_moves C).1
            (s.toSearch_Thread.tt_probe C NO_MOVE alpha beta depth).move)
          Search_Thread.MIN_EVAL
          ((s.toSearch_Thread.tt_probe C NO_MOVE alpha beta depth).beta - 1) true
          ⟨Search_Thread.MIN_EVAL, (s.toSearch_Thread.tt_probe C NO_MOVE alpha beta depth).move,
            to_int8 depth, UPPER_BOUND⟩ (s.generate_shuffled_moves C).2 with
      | error e => rw [hl] at h; exact absurd h (by simp [except_bind_error])
      | ok x =>
        rw [hl] at h
        simp only [except_bind_ok] at h
        obtain ⟨hv, hi⟩ := thread_loop_post C _ _ I V
          (fun sfw a m s1 r1 hi hc1 =>
            thread_scout_child_post C I V hst _ hc sfw a _ m s1 r1 hi hc1)
          _ _ _ _ _ _ x (thread_generate_post C I V hst s hI) hst.least hl
        exact thread_node_exit_post C I V hst depth x r hv hi h

theorem thread_pv_search_node_post {Board : Type} (C : Chess Board) (I : Thread Board → Prop)
    (V : Int → Prop) (hst : Stable C I V)
    (quiesce : Int → Int → Thread Board → Except Fault (Int × Thread Board))
    (scout : Int → Thread Board → Except Fault (Int × Thread Board))
    (full : Int → Int → Thread Board → Except Fault (Int × Thread Board))
    (hq : window_post I V quiesce) (hs : scout_post I V scout) (hf : window_post I V full)
    (depth : Nat) :
    window_post I V (Search_Thread.pv_search_node C quiesce scout full depth) := by
  intro alpha beta s r hI h
  unfold Search_Thread.pv_search_node at h
  simp only [] at h
  by_cases hcut : (s.toSearch_Thread.tt_probe C NO_MOVE alpha beta depth).cutoff = true
  · rw [if_pos hcut] at h
    simp only [Except.ok.injEq] at h
    subst h
    obtain ⟨h1, h2⟩ := thread_tt_probe_cutoff C s.toSearch_Thread NO_MOVE alpha beta depth hcut
    refine ⟨?_, hI⟩
    show V (s.toSearch_Thread.tt_probe C NO_MOVE alpha beta depth).alpha
    rw [h2]
    exact hst.probe s depth hI h1
  · rw [if_neg hcut] at h
    cases hl : Search_Thread.pv_search_loop C (Search_Thread.pv_child quiesce scout full depth)
        (s.toSearch_Thread.tt_probe C NO_MOVE alpha beta depth).beta
        (tt_move_first (s.generate_shuffled_moves C).1
          (s.toSearch_Thread.tt_probe C NO_MOVE alpha beta depth).move)
        Search_Thread.MIN_EVAL
        (s.toSearch_Thread.tt_probe C NO_MOVE alpha beta depth).alpha true
        ⟨Search_Thread.MIN_EVAL, (s.toSearch_Thread.tt_probe C NO_MOVE alpha beta depth).move,
          to_int8 depth, UPPER_BOUND⟩ (s.generate_shuffled_moves C).2 with
    | error e => rw [hl] at h; exact absurd h (by simp [except_bind_error])
    | ok x =>
      rw [hl] at h
      simp only [except_bind_ok] at h
      obtain ⟨hv, hi⟩ := thread_loop_post C _ _ I V
        (fun sfw a m s1 r1 hi hc1 =>
          thread_pv_child_post C I V hst _ _ _ hq hs hf depth sfw a _ m s1 r1 hi hc1)
        _ _ _ _ _ _ x (thread_generate_post C I V hst s hI) hst.least hl
      exact thread_node_exit_post C I V hst depth x r hv hi h

theorem thread_nega_max_post {Board : Type} (C : Chess Board) (I : Thread Board → Prop)
    (V : Int → Prop) (hst : Stable C I V) (Q_SEARCH : Bool) (fuel : Nat) (d : Nat) :
    window_post I V (Search_Thread.nega_max C Q_SEARCH fuel d) := by
  have hq := thread_q_search_post C I V hst Q_SEARCH fuel
  rcases d with _ | d
  · exact thread_nega_max_node_post C I V hst _ hq 0
  · induction d with
    | zero => exact thread_nega_max_node_post C I V hst _ hq 1
    | succ d ih => exact thread_nega_max_node_post C I V hst _ ih (d + 2)

theorem thread_null_window_search_post {Board : Type} (C : Chess Board)
    (I : Thread Board → Prop) (V : Int → Prop) (hst : Stable C I V) (Q_SEARCH : Bool)
    (fuel : Nat) (d : Nat) :
    scout_post I V (Search_Thread.null_window_search C Q_SEARCH fuel d) := by
  have hq := thread_nw_q_search_post C I V hst Q_SEARCH fuel
  rcases d with _ | d
  · exact thread_null_window_search_node_post C I V hst _ hq 0
  · induction d with
    | zero => exact thread_null_window_search_node_post C I V hst _ hq 1
    | succ d ih => exact thread_null_window_search_node_post C I V hst _ ih (d + 2)

theorem thread_pv_search_post {Board : Type} (C : Chess Board) (I : Thread Board → Prop)
    (V : Int → Prop) (hst : Stable C I V) (Q_SEARCH : Bool) (fuel : Nat) (d : Nat) :
    window_post I V (Search_Thread.pv_search C Q_SEARCH fuel d) := by
  have hq := thread_q_search_post C I V hst Q_SEARCH fuel
  induction d with
  | zero =>
    exact thread_pv_search_node_post C I V hst _ _ _ hq
      (fun _ _ _ _ h => absurd h (by simp)) (fun _ _ _ _ _ h => absurd h (by simp)) 0
  | succ d ih =>
    exact thread_pv_search_node_post C I V hst _ _ _ hq
      (thread_null_window_search_post C I V hst Q_SEARCH fuel d) ih (d + 1)

/-! ### Two invariants of the searches of `Search_Thread` -/

/-- The searches other than `root_max` leave the flag `finished` as it is. -/
theorem stable_finished {Board : Type} (C : Chess Board) (f : Bool) :
    Stable C (fun s : Thread Board => s.finished = f) (fun _ => True) where
  make := fun _ _ h => h
  unmake := fun _ _ h => h
  nodes := fun _ _ h => h
  mt := fun _ _ h => h
  store := fun _ _ _ h _ => h
  probe := fun _ _ _ _ => trivial
  neg := fun _ _ => trivial
  static := fun _ => trivial
  least := trivial

theorem thread_in_range_zero : thread_in_range 0 := by
  unfold thread_in_range Search_Thread.MIN_EVAL Search_Thread.MAX_EVAL; omega

theorem table_in_range_at (t : Transposition_Table) (h : table_in_range t) (key : Nat)
    (depth : Int) : thread_in_range (t.at_ key depth).eval := by
  unfold Transposition_Table.at_
  by_cases hc : contains_entries key (t.table (pos key depth)).entries = true
  · exact h _ _ (at_entries_mem key _ hc)
  · have : ∀ es : List Entry, contains_entries key es ≠ true → at_entries key es = TT_Info.zero := by
      intro es
      induction es with
      | nil => intro _; rfl
      | cons e rest ih =>
        intro hn
        unfold contains_entries at hn
        unfold at_entries
        by_cases hk : e.key = key
        · simp [hk] at hn
        · simp only [hk, if_false] at hn ⊢
          exact ih hn
    rw [this _ hc]
    exact thread_in_range_zero

theorem table_in_range_emplace (t : Transposition_Table) (h : table_in_range t) (key : Nat)
    (value : TT_Info) (depth : Int) (hv : thread_in_range value.eval) :
    table_in_range (t.emplace key value depth) := by
  intro i e he
  by_cases hi : i = pos key depth
  · subst hi
    rw [emplace_same] at he
    rcases emplace_entries_mem key value _ e he with h1 | h1
    · exact h _ _ h1
    · rw [h1]; exact hv
  · rw [emplace_other t key value depth i hi] at he
    exact h _ _ he

theorem table_in_range_new : table_in_range Transposition_Table.new := by
  intro i e he
  have : e = Entry.zero := by
    simp only [Transposition_Table.new, Bucket.zero, List.mem_replicate] at he
    exact he.2
  rw [this]
  exact thread_in_range_zero

/-- With a static evaluator that never exceeds `MAX_EVAL`, the searches keep
the evals of the table and their results in `[MIN_EVAL, MAX_EVAL]`. -/
theorem stable_in_range {Board : Type} (C : Chess Board)
    (hev : ∀ b, C.eval b ≤ Search_Thread.MAX_EVAL) :
    Stable C (fun s : Thread Board => table_in_range s.tt) thread_in_range where
  make := fun _ _ h => h
  unmake := fun _ _ h => h
  nodes := fun _ _ h => h
  mt := fun _ _ h => h
  store := fun s entry depth h hv => table_in_range_emplace s.tt h _ entry depth hv
  probe := fun s depth h _ => table_in_range_at s.tt h _ depth
  neg := fun v hv => by
    unfold thread_in_range Search_Thread.MIN_EVAL Search_Thread.MAX_EVAL at hv ⊢; omega
  static := fun b => by
    have := hev b
    unfold thread_in_range
    split
    · unfold Search_Thread.MIN_EVAL Search_Thread.MAX_EVAL; omega
    · omega
  least := by unfold thread_in_range Search_Thread.MIN_EVAL Search_Thread.MAX_EVAL; omega

/-! ### No overflow in the searches of `Search_Thread` -/

theorem Eval_Type_in (x : Int) (h : INT32_MIN ≤ x ∧ x ≤ INT32_MAX) : Eval_Type x = .ok x := by
  unfold Eval_Type
  rw [if_pos h]

theorem except_map_ne {ε α β : Type} (x : Except ε α) (f : α → β) (e : ε)
    (h : x ≠ .error e) : x.map f ≠ .error e := by
  cases x with
  | error e1 =>
    intro h1
    apply h
    simp only [Except.map, Except.error.injEq] at h1
    rw [h1]
  | ok a => simp [Except.map]

theorem except_bind_ne {ε α β : Type} (x : Except ε α) (f : α → Except ε β) (e : ε)
    (h : x ≠ .error e) (hf : ∀ a, x = .ok a → f a ≠ .error e) : (x >>= f) ≠ .error e := by
  cases x with
  | error e1 =>
    intro h1
    apply h
    have : (Except.error e1 : Except ε β) = .error e := h1
    simp only [Except.error.injEq] at this
    rw [this]
  | ok a => exact hf a rfl

theorem tt_probe_bounds {Board : Type} (C : Chess Board) (s : Search Board) (move : Move)
    (alpha beta : Int) (depth : Int)
    (hc : (s.tt_probe C move alpha beta depth).cutoff = false) :
    ((s.tt_probe C move alpha beta depth).beta = beta ∨
        (s.tt_probe C move alpha beta depth).beta =
          min beta (s.tt.at_ (C.hashKey s.board) depth).eval) ∧
      ((s.tt_probe C move alpha beta depth).alpha = alpha ∨
        (s.tt_probe C move alpha beta depth).alpha =
          max alpha (s.tt.at_ (C.hashKey s.board) depth).eval) := by
  by_cases h1 : s.tt.contains (C.hashKey s.board) depth = true
  · obtain ⟨ha, hb, _, _⟩ := (tt_probe_rule C s move alpha beta depth).2.2 hc h1
    rw [ha, hb]
    unfold adjusted_alpha adjusted_beta
    refine ⟨?_, ?_⟩
    · split
      · exact Or.inr rfl
      · exact Or.inl rfl
    · split
      · exact Or.inr rfl
      · exact Or.inl rfl
  · have h2 : s.tt.contains (C.hashKey s.board) depth = false := by
      cases hx : s.tt.contains (C.hashKey s.board) depth
      · rfl
      · exact absurd hx h1
    obtain ⟨_, ha, hb⟩ := tt_probe_absent C s move alpha beta depth h2
    exact ⟨Or.inl hb, Or.inl ha⟩

theorem thread_probe_in_range {Board : Type} (C : Chess Board) (s : Search_Thread Board)
    (move : Move) (alpha beta : Int) (depth : Int) (ht : table_in_range s.tt)
    (ha : thread_in_range alpha) (hb : thread_in_range beta)
    (hc : (s.tt_probe C move alpha beta depth).cutoff = false) :
    thread_in_range (s.tt_probe C move alpha beta depth).alpha ∧
      thread_in_range (s.tt_probe C move alpha beta depth).beta := by
  rw [search_thread_tt_probe_eq] at hc ⊢
  have h := tt_probe_bounds C ⟨s.board, s.nodes, s.tt⟩ move alpha beta depth hc
  have he := table_in_range_at s.tt ht (C.hashKey s.board) depth
  simp only [] at h
  unfold thread_in_range at *
  refine ⟨?_, ?_⟩
  · rcases h.2 with h2 | h2
    · rw [h2]; exact ha
    · rw [h2]
      rcases le_total alpha (s.tt.at_ (C.hashKey s.board) depth).eval with hl | hl
      · rw [max_eq_right hl]; exact he
      · rw [max_eq_left hl]; exact ha
  · rcases h.1 with h1 | h1
    · rw [h1]; exact hb
    · rw [h1]
      rcases le_total beta (s.tt.at_ (C.hashKey s.board) depth).eval with hl | hl
      · rw [min_eq_left hl]; exact hb
      · rw [min_eq_right hl]; exact he

theorem thread_probe_scout_range {Board : Type} (C : Chess Board) (s : Search_Thread Board)
    (move : Move) (alpha beta : Int) (depth : Int) (ht : table_in_range s.tt)
    (hb : scout_range beta) (hc : (s.tt_probe C move alpha beta depth).cutoff = false) :
    scout_range (s.tt_probe C move alpha beta depth).beta := by
  rw [search_thread_tt_probe_eq] at hc ⊢
  have h := tt_probe_bounds C ⟨s.board, s.nodes, s.tt⟩ move alpha beta depth hc
  have he := table_in_range_at s.tt ht (C.hashKey s.board) depth
  simp only [] at h
  unfold thread_in_range at he
  unfold scout_range at *
  rcases h.1 with h1 | h1
  · rw [h1]; exact hb
  · rw [h1]
    rcases le_total beta (s.tt.at_ (C.hashKey s.board) depth).eval with hl | hl
    · rw [min_eq_left hl]; exact hb
    · rw [min_eq_right hl]; omega

theorem thread_window_child_safe {Board : Type} (C : Chess Board)
    (hev : ∀ b, C.eval b ≤ Search_Thread.MAX_EVAL)
    (child : Int → Int → Thread Board → Except Fault (Int × Thread Board))
    (hp : window_post (fun s : Thread Board => table_in_range s.tt) thread_in_range child)
    (hs : window_safe child) (sfw : Bool) (alpha beta : Int) (s : Thread Board)
    (ha : thread_in_range alpha) (hb : thread_in_range beta) (ht : table_in_range s.tt) :
    thread_window_child child sfw alpha beta s ≠ .error .overflow := by
  have _ := hev
  unfold thread_window_child
  unfold thread_in_range Search_Thread.MIN_EVAL Search_Thread.MAX_EVAL at ha hb
  rw [Eval_Type_in (-beta) (by unfold INT32_MIN INT32_MAX; omega),
    Eval_Type_in (-alpha) (by unfold INT32_MIN INT32_MAX; omega)]
  simp only [except_bind_ok]
  apply except_bind_ne
  · exact hs _ _ _ (by unfold thread_in_range Search_Thread.MIN_EVAL Search_Thread.MAX_EVAL; omega)
      (by unfold thread_in_range Search_Thread.MIN_EVAL Search_Thread.MAX_EVAL; omega) ht
  · intro r hr
    have hv := (hp _ _ _ r ht hr).1
    unfold thread_in_range Search_Thread.MIN_EVAL Search_Thread.MAX_EVAL at hv
    rw [Eval_Type_in (-r.1) (by unfold INT32_MIN INT32_MAX; omega)]
    simp [except_bind_ok]

theorem thread_scout_child_safe {Board : Type} (C : Chess Board)
    (hev : ∀ b, C.eval b ≤ Search_Thread.MAX_EVAL)
    (child : Int → Thread Board → Except Fault (Int × Thread Board))
    (hp : scout_post (fun s : Thread Board => table_in_range s.tt) thread_in_range child)
    (hs : scout_safe child) (sfw : Bool) (alpha beta : Int) (s : Thread Board)
    (hb : scout_range beta) (ht : table_in_range s.tt) :
    thread_scout_child child sfw alpha beta s ≠ .error .overflow := by
  have _ := hev
  unfold thread_scout_child
  unfold scout_range Search_Thread.MIN_EVAL Search_Thread.MAX_EVAL at hb
  rw [Eval_Type_in (-beta) (by unfold INT32_MIN INT32_MAX; omega)]
  simp only [except_bind_ok]
  rw [Eval_Type_in (-beta + 1) (by unfold INT32_MIN INT32_MAX; omega)]
  simp only [except_bind_ok]
  apply except_bind_ne
  · exact hs _ _ (by unfold scout_range Search_Thread.MIN_EVAL Search_Thread.MAX_EVAL; omega) ht
  · intro r hr
    have hv := (hp _ _ r ht hr).1
    unfold thread_in_range Search_Thread.MIN_EVAL Search_Thread.MAX_EVAL at hv
    rw [Eval_Type_in (-r.1) (by unfold INT32_MIN INT32_MAX; omega)]
    simp [except_bind_ok]

theorem thread_q_search_safe {Board : Type} (C : Chess Board)
    (hev : ∀ b, C.eval b ≤ Search_Thread.MAX_EVAL) (Q_SEARCH : Bool) (fuel : Nat) :
    window_safe (Search_Thread.q_search C Q_SEARCH fuel) := by
  induction fuel with
  | zero => intro alpha beta s _ _ _; simp [Search_Thread.q_search]
  | succ fuel ih =>
    intro alpha beta s ha hb ht
    unfold Search_Thread.q_search
    simp only []
    have hV0 := (stable_in_range C hev).static s.board
    generalize (if C.eval s.board < Search_Thread.MIN_EVAL then Search_Thread.MIN_EVAL
      else C.eval s.board) = q at hV0
    cases Q_SEARCH with
    | false => simp
    | true =>
      simp only [Bool.not_true, Bool.false_eq_true, if_false]
      by_cases hq : q ≥ beta
      · simp [hq]
      · simp only [hq, if_false]
        rw [thread_q_search_loop_eq C _ _ true _ _ _ TT_Info.zero]
        apply except_map_ne
        exact thread_loop_safe C _ beta (fun s : Thread Board => table_in_range s.tt)
          thread_in_range thread_in_range
          (fun sfw a m s1 r1 hi hc =>
            thread_window_child_post C _ _ (stable_in_range C hev) _
              (thread_q_search_post C _ _ (stable_in_range C hev) true fuel) sfw a beta m s1 r1
              hi hc)
          (fun sfw a m s1 hp hi =>
            thread_window_child_safe C hev _
              (thread_q_search_post C _ _ (stable_in_range C hev) true fuel) ih sfw a beta _ hp
              hb hi)
          (fun _ v _ hv _ _ => hv) _ _ _ _ _ _
          (by split
              · exact hV0
              · exact ha) ht

theorem thread_nw_q_search_safe {Board : Type} (C : Chess Board)
    (hev : ∀ b, C.eval b ≤ Search_Thread.MAX_EVAL) (Q_SEARCH : Bool) (fuel : Nat) :
    scout_safe (Search_Thread.nw_q_search C Q_SEARCH fuel) := by
  induction fuel with
  | zero => intro beta s _ _; simp [Search_Thread.nw_q_search]
  | succ fuel ih =>
    intro beta s hb ht
    unfold Search_Thread.nw_q_search
    simp only []
    generalize (if C.eval s.board < Search_Thread.MIN_EVAL then Search_Thread.MIN_EVAL
      else C.eval s.board) = q
    cases Q_SEARCH with
    | false => simp
    | true =>
      simp only [Bool.not_true, Bool.false_eq_true, if_false]
      by_cases hq : q ≥ beta
      · simp [hq]
      · simp only [hq, if_false]
        rw [thread_nw_q_search_loop_eq C _ _ true _ _ TT_Info.zero]
        apply except_map_ne
        exact thread_loop_safe C _ beta (fun s : Thread Board => table_in_range s.tt)
          thread_in_range (fun _ => True)
          (fun sfw a m s1 r1 hi hc =>
            thread_scout_child_post C _ _ (stable_in_range C hev) _
              (thread_nw_q_search_post C _ _ (stable_in_range C hev) true fuel) sfw a beta m s1
              r1 hi hc)
          (fun sfw a m s1 _ hi =>
            thread_scout_child_safe C hev _
              (thread_nw_q_search_post C _ _ (stable_in_range C hev) true fuel) ih sfw a beta _
              hb hi)
          (fun _ _ _ _ _ _ => trivial) _ _ _ _ _ _ trivial ht

theorem thread_node_exit_safe {Board : Type} (C : Chess Board) (depth : Nat)
    (l : Except Fault (Loop_Exit Board)) (h : l ≠ .error .overflow) :
    (l >>= fun x =>
      if x.stopped = true then (Except.ok (x.eval, x.state) : Except Fault _)
      else .ok (x.eval, x.state.store C { x.entry with eval := x.eval } depth)) ≠
      .error .overflow := by
  apply except_bind_ne _ _ _ h
  intro x _
  split <;> simp

theorem thread_nega_max_node_safe {Board : Type} (C : Chess Board)
    (hev : ∀ b, C.eval b ≤ Search_Thread.MAX_EVAL)
    (child : Int → Int → Thread Board → Except Fault (Int × Thread Board))
    (hp : window_post (fun s : Thread Board => table_in_range s.tt) thread_in_range child)
    (hs : window_safe child) (depth : Nat) :
    window_safe (Search_Thread.nega_max_node C child depth) := by
  intro alpha beta s ha hb ht
  unfold Search_Thread.nega_max_node
  simp only []
  by_cases hcut : (s.toSearch_Thread.tt_probe C NO_MOVE alpha beta depth).cutoff = true
  · rw [if_pos hcut]; simp
  · rw [if_neg hcut, thread_nega_max_loop_eq C _ _ true]
    have hcut1 : (s.toSearch_Thread.tt_probe C NO_MOVE alpha beta depth).cutoff = false := by
      simpa using hcut
    obtain ⟨hpa, hpb⟩ :=
      thread_probe_in_range C s.toSearch_Thread NO_MOVE alpha beta depth ht ha hb hcut1
    apply thread_node_exit_safe
    exact thread_loop_safe C _ _ (fun s : Thread Board => table_in_range s.tt)
      thread_in_range thread_in_range
      (fun sfw a m s1 r1 hi hc =>
        thread_window_child_post C _ _ (stable_in_range C hev) _ hp sfw a _ m s1 r1 hi hc)
      (fun sfw a m s1 hpa1 hi => thread_window_child_safe C hev _ hp hs sfw a _ _ hpa1 hpb hi)
      (fun _ v _ hv _ _ => hv) _ _ _ _ _ _ hpa ht

theorem thread_null_window_search_node_safe {Board : Type} (C : Chess Board)
    (hev : ∀ b, C.eval b ≤ Search_Thread.MAX_EVAL)
    (child : Int → Thread Board → Except Fault (Int × Thread Board))
    (hp : scout_post (fun s : Thread Board => table_in_range s.tt) thread_in_range child)
    (hs : scout_safe child) (depth : Nat) :
    scout_safe (Search_Thread.null_window_search_node C child depth) := by
  intro beta s hb ht
  unfold Search_Thread.null_window_search_node
  have hb' := hb
  unfold scout_range Search_Thread.MIN_EVAL Search_Thread.MAX_EVAL at hb'
  rw [Eval_Type_in (beta - 1) (by unfold INT32_MIN INT32_MAX; omega)]
  simp only [except_bind_ok]
  by_cases hcut : (s.toSearch_Thread.tt_probe C NO_MOVE (beta - 1) beta depth).cutoff = true
  · rw [if_pos hcut]; simp
  · rw [if_neg hcut, thread_null_window_search_loop_eq C _ _ true]
    have hcut1 :
        (s.toSearch_Thread.tt_probe C NO_MOVE (beta - 1) beta depth).cutoff = false := by
      simpa using hcut
    have hpb :=
      thread_probe_scout_range C s.toSearch_Thread NO_MOVE (beta - 1) beta depth ht hb hcut1
    apply thread_node_exit_safe
    exact thread_loop_safe C _ _ (fun s : Thread Board => table_in_range s.tt)
      thread_in_range (fun _ => True)
      (fun sfw a m s1 r1 hi hc =>
        thread_scout_child_post C _ _ (stable_in_range C hev) _ hp sfw a _ m s1 r1 hi hc)
      (fun sfw a m s1 _ hi => thread_scout_child_safe C hev _ hp hs sfw a _ _ hpb hi)
      (fun _ _ _ _ _ _ => trivial) _ _ _ _ _ _ trivial ht

theorem thread_pv_child_safe {Board : Type} (C : Chess Board)
    (hev : ∀ b, C.eval b ≤ Search_Thread.MAX_EVAL)
    (quiesce : Int → Int → Thread Board → Except Fault (Int × Thread Board))
    (scout : Int → Thread Board → Except Fault (Int × Thread Board))
    (full : Int → Int → Thread Board → Except Fault (Int × Thread Board))
    (hq : window_post (fun s : Thread Board => table_in_range s.tt) thread_in_range quiesce)
    (hs : scout_post (fun s : Thread Board => table_in_range s.tt) thread_in_range scout)
    (hf : window_post (fun s : Thread Board => table_in_range s.tt) thread_in_range full)
    (hqs : window_safe quiesce) (hss : scout_safe scout) (hfs : window_safe full)
    (depth : Nat) (sfw : Bool) (alpha beta : Int) (s : Thread Board)
    (ha : thread_in_range alpha) (hb : thread_in_range beta) (ht : table_in_range s.tt) :
    Search_Thread.pv_child quiesce scout full depth sfw alpha beta s ≠ .error .overflow := by
  unfold Search_Thread.pv_child
  by_cases hd : depth = 1
  · rw [if_pos hd]
    exact thread_window_child_safe C hev quiesce hq hqs sfw alpha beta s ha hb ht
  · rw [if_neg hd]
    by_cases hw : sfw = true
    · rw [if_pos hw]
      exact thread_window_child_safe C hev full hf hfs false alpha beta s ha hb ht
    · rw [if_neg hw]
      have ha' := ha
      have hb' := hb
      unfold thread_in_range Search_Thread.MIN_EVAL Search_Thread.MAX_EVAL at ha' hb'
      rw [Eval_Type_in (-alpha) (by unfold INT32_MIN INT32_MAX; omega)]
      simp only [except_bind_ok]
      apply except_bind_ne
      · exact hss _ _
          (by unfold scout_range Search_Thread.MIN_EVAL Search_Thread.MAX_EVAL; omega) ht
      · intro r0 hr0
        obtain ⟨hv0, hi0⟩ := hs _ _ r0 ht hr0
        have hv0' := hv0
        unfold thread_in_range Search_Thread.MIN_EVAL Search_Thread.MAX_EVAL at hv0'
        rw [Eval_Type_in (-r0.1) (by unfold INT32_MIN INT32_MAX; omega)]
        simp only [except_bind_ok]
        by_cases hgt : -r0.1 > alpha
        · rw [if_pos hgt]
          have h := thread_window_child_safe C hev full hf hfs false alpha beta r0.2 ha hb hi0
          unfold thread_window_child at h
          rw [Eval_Type_in (-alpha) (by unfold INT32_MIN INT32_MAX; omega)] at h
          simp only [except_bind_ok] at h
          exact h
        · rw [if_neg hgt]; simp

theorem thread_pv_search_node_safe {Board : Type} (C : Chess Board)
    (hev : ∀ b, C.eval b ≤ Search_Thread.MAX_EVAL)
    (quiesce : Int → Int → Thread Board → Except Fault (Int × Thread Board))
    (scout : Int → Thread Board → Except Fault (Int × Thread Board))
    (full : Int → Int → Thread Board → Except Fault (Int × Thread Board))
    (hq : window_post (fun s : Thread Board => table_in_range s.tt) thread_in_range quiesce)
    (hs : scout_post (fun s : Thread Board => table_in_range s.tt) thread_in_range scout)
    (hf : window_post (fun s : Thread Board => table_in_range s.tt) thread_in_range full)
    (hqs : window_safe quiesce) (hss : scout_safe scout) (hfs : window_safe full)
    (depth : Nat) :
    window_safe (Search_Thread.pv_search_node C quiesce scout full depth) := by
  intro alpha beta s ha hb ht
  unfold Search_Thread.pv_search_node
  simp only []
  by_cases hcut : (s.toSearch_Thread.tt_probe C NO_MOVE alpha beta depth).cutoff = true
  · rw [if_pos hcut]; simp
  · rw [if_neg hcut]
    have hcut1 : (s.toSearch_Thread.tt_probe C NO_MOVE alpha beta depth).cutoff = false := by
      simpa using hcut
    obtain ⟨hpa, hpb⟩ :=
      thread_probe_in_range C s.toSearch_Thread NO_MOVE alpha beta depth ht ha hb hcut1
    apply thread_node_exit_safe
    exact thread_loop_safe C _ _ (fun s : Thread Board => table_in_range s.tt)
      thread_in_range thread_in_range
      (fun sfw a m s1 r1 hi hc =>
        thread_pv_child_post C _ _ (stable_in_range C hev) _ _ _ hq hs hf depth sfw a _ m s1 r1
          hi hc)
      (fun sfw a m s1 hpa1 hi =>
        thread_pv_child_safe C hev _ _ _ hq hs hf hqs hss hfs depth sfw a _ _ hpa1 hpb hi)
      (fun _ v _ hv _ _ => hv) _ _ _ _ _ _ hpa ht

theorem thread_nega_max_safe {Board : Type} (C : Chess Board)
    (hev : ∀ b, C.eval b ≤ Search_Thread.MAX_EVAL) (Q_SEARCH : Bool) (fuel : Nat) (d : Nat) :
    window_safe (Search_Thread.nega_max C Q_SEARCH fuel d) := by
  have hq := thread_q_search_post C _ _ (stable_in_range C hev) Q_SEARCH fuel
  have hqs := thread_q_search_safe C hev Q_SEARCH fuel
  rcases d with _ | d
  · exact thread_nega_max_node_safe C hev _ hq hqs 0
  · induction d with
    | zero => exact thread_nega_max_node_safe C hev _ hq hqs 1
    | succ d ih =>
      exact thread_nega_max_node_safe C hev _
        (thread_nega_max_post C _ _ (stable_in_range C hev) Q_SEARCH fuel (d + 1)) ih (d + 2)

theorem thread_null_window_search_safe {Board : Type} (C : Chess Board)
    (hev : ∀ b, C.eval b ≤ Search_Thread.MAX_EVAL) (Q_SEARCH : Bool) (fuel : Nat) (d : Nat) :
    scout_safe (Search_Thread.null_window_search C Q_SEARCH fuel d) := by
  have hq := thread_nw_q_search_post C _ _ (stable_in_range C hev) Q_SEARCH fuel
  have hqs := thread_nw_q_search_safe C hev Q_SEARCH fuel
  rcases d with _ | d
  · exact thread_null_window_search_node_safe C hev _ hq hqs 0
  · induction d with
    | zero => exact thread_null_window_search_node_safe C hev _ hq hqs 1
    | succ d ih =>
      exact thread_null_window_search_node_safe C hev _
        (thread_null_window_search_post C _ _ (stable_in_range C hev) Q_SEARCH fuel (d + 1)) ih
        (d + 2)

theorem thread_pv_search_safe {Board : Type} (C : Chess Board)
    (hev : ∀ b, C.eval b ≤ Search_Thread.MAX_EVAL) (Q_SEARCH : Bool) (fuel : Nat) (d : Nat) :
    window_safe (Search_Thread.pv_search C Q_SEARCH fuel d) := by
  have hq := thread_q_search_post C _ _ (stable_in_range C hev) Q_SEARCH fuel
  have hqs := thread_q_search_safe C hev Q_SEARCH fuel
  induction d with
  | zero =>
    exact thread_pv_search_node_safe C hev _ _ _ hq
      (fun _ _ _ _ h => absurd h (by simp)) (fun _ _ _ _ _ h => absurd h (by simp)) hqs
      (fun _ _ _ _ => by simp) (fun _ _ _ _ _ _ => by simp) 0
  | succ d ih =>
    exact thread_pv_search_node_safe C hev _ _ _ hq
      (thread_null_window_search_post C _ _ (stable_in_range C hev) Q_SEARCH fuel d)
      (thread_pv_search_post C _ _ (stable_in_range C hev) Q_SEARCH fuel d) hqs
      (thread_null_window_search_safe C hev Q_SEARCH fuel d) ih (d + 1)

/-! ### The root of `Search_Thread` -/

theorem thread_root_max_child_post {Board : Type} (C : Chess Board) (I : Thread Board → Prop)
    (V : Int → Prop) (hst : Stable C I V) (Q_SEARCH PV_Search : Bool) (fuel depth : Nat)
    (sfw : Bool) (alpha beta : Int) (m : Move) (s : Thread Board)
    (r : Int × Bool × Thread Board) (hI : I s)
    (h : Search_Thread.root_max_child C Q_SEARCH PV_Search fuel depth sfw alpha beta
      (s.make C m) = .ok r) :
    V r.1 ∧ I (r.2.2.unmake C m) := by
  unfold Search_Thread.root_max_child at h
  by_cases hd : depth = 1
  · rw [if_pos hd] at h
    exact thread_window_child_post C I V hst _ (thread_q_search_post C I V hst Q_SEARCH fuel)
      sfw alpha beta m s r hI h
  · rw [if_neg hd] at h
    by_cases hp : (!PV_Search) = true
    · rw [if_pos hp] at h
      exact thread_window_child_post C I V hst _
        (thread_nega_max_post C I V hst Q_SEARCH fuel (depth - 1)) sfw alpha beta m s r hI h
    · rw [if_neg hp] at h
      exact thread_pv_child_post C I V hst _ _ _ (thread_q_search_post C I V hst Q_SEARCH fuel)
        (thread_null_window_search_post C I V hst Q_SEARCH fuel (depth - 1))
        (thread_pv_search_post C I V hst Q_SEARCH fuel (depth - 1)) depth sfw alpha beta m s r
        hI h

/-- The move loop of `root_max` keeps the invariants, and it is left by
`if (finished) return` only with the flag set. -/
theorem thread_root_max_loop_post {Board : Type} (C : Chess Board) (I : Thread Board → Prop)
    (V : Int → Prop) (hst : Stable C I V) (Q_SEARCH PV_Search : Bool) (fuel depth : Nat)
    (beta : Int) (moves : List Move) (eval alpha : Int) (sfw : Bool) (best_move : Move)
    (s : Thread Board) (x : Root_Exit Board) (hI : I s) (hV : V eval)
    (h : Search_Thread.root_max_loop C
      (Search_Thread.root_max_child C Q_SEARCH PV_Search fuel depth) beta moves eval alpha sfw
      best_move s = .ok x) :
    V x.eval ∧ I x.state ∧ (x.stopped = true → x.state.finished = true) := by
  rw [thread_root_max_loop_eq C _ _ _ _ _ _ _ ⟨0, best_move, 0, UPPER_BOUND⟩ _ rfl] at h
  cases hl : Search_Thread.pv_search_loop C
      (Search_Thread.root_max_child C Q_SEARCH PV_Search fuel depth) beta moves eval alpha sfw
      ⟨0, best_move, 0, UPPER_BOUND⟩ s with
  | error e => rw [hl] at h; exact absurd h (by simp [Except.map])
  | ok y =>
    rw [hl] at h
    simp only [Except.map, Except.ok.injEq] at h
    subst h
    obtain ⟨hv, hi⟩ := thread_loop_post C _ beta I V
      (fun sfw1 a m s1 r1 hi hc =>
        thread_root_max_child_post C I V hst Q_SEARCH PV_Search fuel depth sfw1 a beta m s1 r1
          hi hc)
      _ _ _ _ _ _ y hI hV hl
    exact ⟨hv, hi, thread_loop_stopped C _ _ _ _ _ _ _ _ y hl⟩

theorem thread_root_max_eq {Board : Type} (C : Chess Board) (Q_SEARCH PV_Search : Bool)
    (fuel : Nat) (alpha0 beta0 : Int) (depth : Nat) (result : Search_Result) (total : Nat)
    (s : Thread Board)
    (hc : (({ s with nodes := 0 } : Thread Board).toSearch_Thread.tt_probe C NO_MOVE alpha0 beta0
      depth).cutoff = false) :
    Search_Thread.root_max C Q_SEARCH PV_Search fuel alpha0 beta0 depth result total s =
      (thread_root_moves C Q_SEARCH PV_Search fuel alpha0 beta0 depth s >>= fun x =>
        if x.stopped = true then
          (Except.ok (result, (total + x.state.nodes) % 2 ^ 64, x.state) : Except Fault _)
        else
          .ok (if (!(x.state.store C ⟨x.eval, x.best_move, to_int8 depth, EXACT⟩ depth).finished)
              = true then
              { result with move := x.best_move, eval := x.eval, depth := to_uint16 depth }
            else result,
            (total + (x.state.store C ⟨x.eval, x.best_move, to_int8 depth, EXACT⟩ depth).nodes)
              % 2 ^ 64,
            { x.state.store C ⟨x.eval, x.best_move, to_int8 depth, EXACT⟩ depth with
              finished := true })) := by
  unfold Search_Thread.root_max thread_root_moves
  simp only [hc, Bool.false_eq_true, if_false]


/-! ### The move order at the root of `Search_Thread` -/

theorem swap_perm (d : Move) (moves : List Move) :
    ∀ (i r : Nat), i ≤ r → r < moves.length →
      List.Perm ((moves.set r (moves.getD i d)).set i (moves.getD r d)) moves := by
  induction moves with
  | nil => intro i r _ h; simp at h
  | cons a rest ih =>
    intro i r hir hr
    cases i with
    | zero =>
      cases r with
      | zero => simp
      | succ r =>
        simp only [List.getD_cons_zero, List.getD_cons_succ, List.set_cons_succ,
          List.set_cons_zero]
        exact perm_set_getD rest r a d (by simpa using hr)
    | succ i =>
      cases r with
      | zero => omega
      | succ r =>
        simp only [List.getD_cons_succ, List.set_cons_succ]
        exact List.Perm.cons a (ih i r (by omega) (by simpa using hr))

theorem shuffle_from_perm :
    ∀ (n i : Nat) (moves : List Move) (mt : Nat → Nat), i + n ≤ moves.length →
      List.Perm (shuffle_from n i moves mt).1 moves := by
  intro n
  induction n with
  | zero => intro i moves mt _; exact List.Perm.refl _
  | succ n ih =>
    intro i moves mt h
    unfold shuffle_from
    simp only []
    have hlt : mt 0 % (moves.length - i) < moves.length - i := Nat.mod_lt _ (by omega)
    have hp := swap_perm NO_MOVE moves i (i + mt 0 % (moves.length - i)) (by omega) (by omega)
    refine (ih (i + 1) _ _ ?_).trans hp
    rw [hp.length_eq]
    omega

theorem Movelist_find_getD (moves : List Move) (m : Move) (h : m ∈ moves) :
    0 ≤ Movelist_find moves m ∧ moves.getD (Movelist_find moves m).toNat NO_MOVE = m := by
  induction moves with
  | nil => simp at h
  | cons x rest ih =>
    unfold Movelist_find
    by_cases hx : x = m
    · simp [hx]
    · have hm : m ∈ rest := by
        rcases List.mem_cons.mp h with h1 | h1
        · exact absurd h1.symm hx
        · exact h1
      obtain ⟨h0, hg⟩ := ih hm
      have hne : Movelist_find rest m ≠ -1 := by omega
      simp only [hx, hne, if_false]
      refine ⟨by omega, ?_⟩
      have : (Movelist_find rest m + 1).toNat = (Movelist_find rest m).toNat + 1 := by omega
      rw [this, List.getD_cons_succ]
      exact hg

theorem tt_move_first_head (moves : List Move) (tt_move : Move) (h : tt_move ∈ moves) :
    (tt_move_first moves tt_move).head? = some tt_move := by
  obtain ⟨h0, hg⟩ := Movelist_find_getD moves tt_move h
  unfold tt_move_first
  by_cases hpos : Movelist_find moves tt_move > 0
  · rw [if_pos hpos]
    unfold Movelist_swap
    rw [hg]
    cases moves with
    | nil => simp at h
    | cons a rest =>
      obtain ⟨k, hk⟩ : ∃ k, (Movelist_find (a :: rest) tt_move).toNat = k + 1 :=
        ⟨(Movelist_find (a :: rest) tt_move).toNat - 1, by omega⟩
      rw [hk]
      simp
  · rw [if_neg hpos]
    have hz : (Movelist_find moves tt_move).toNat = 0 := by omega
    rw [hz] at hg
    cases moves with
    | nil => simp at h
    | cons a rest =>
      simp only [List.getD_cons_zero] at hg
      simp [hg]

/-- C20: for every list of legal moves and every sequence of random numbers,
the list that `Search_Thread::root_max` iterates over, after
`generate_shuffled_moves` and the swap of the TT hint to the front, is a
permutation of the legal moves of the position; every swap index
`i + r mod (size - i)` with `i < size` lies in `[i, size)`; and whenever the
TT hint is one of the legal moves it is the first element of the list. -/
theorem root_move_ordering {Board : Type} (C : Chess Board) (s : Thread Board) (hint : Move) :
    List.Perm (tt_move_first (s.generate_shuffled_moves C).1 hint) (C.legalmoves_ALL s.board) ∧
      (∀ size i r : Nat, i < size → i ≤ i + r % (size - i) ∧ i + r % (size - i) < size) ∧
      (hint ∈ C.legalmoves_ALL s.board →
        (tt_move_first (s.generate_shuffled_moves C).1 hint).head? = some hint) := by
  have hp : List.Perm (s.generate_shuffled_moves C).1 (C.legalmoves_ALL s.board) := by
    unfold Thread.generate_shuffled_moves
    exact shuffle_from_perm _ 0 _ _ (by omega)
  refine ⟨(tt_move_first_perm _ hint).trans hp, ?_, ?_⟩
  · intro size i r hi
    have := Nat.mod_lt r (show size - i > 0 by omega)
    omega
  · intro hm
    exact tt_move_first_head _ hint (hp.mem_iff.mpr hm)

/-- Witness for C20: the moves 1 .. 5 with the random numbers 7, 1, 5, 3, 0
are shuffled to 3, 1, 5, 2, 4; with the TT hint 5 the root iterates over
5, 1, 3, 2, 4. -/
theorem root_move_ordering_witness :
    ((⟨⟨(), 0, Transposition_Table.new, false⟩, fun k => [7, 1, 5, 3, 0].getD k 0⟩ :
        Thread Unit).generate_shuffled_moves five_moves).1 = [3, 1, 5, 2, 4] ∧
      tt_move_first ((⟨⟨(), 0, Transposition_Table.new, false⟩,
        fun k => [7, 1, 5, 3, 0].getD k 0⟩ : Thread Unit).generate_shuffled_moves five_moves).1 5
        = [5, 1, 3, 2, 4] ∧
      (5 : Move) ∈ five_moves.legalmoves_ALL () ∧
      (tt_move_first ((⟨⟨(), 0, Transposition_Table.new, false⟩,
        fun k => [7, 1, 5, 3, 0].getD k 0⟩ : Thread Unit).generate_shuffled_moves five_moves).1
        5).head? = some 5 :=
  ⟨by decide, by decide, by decide,
    (root_move_ordering five_moves
      ⟨⟨(), 0, Transposition_Table.new, false⟩, fun k => [7, 1, 5, 3, 0].getD k 0⟩ 5).2.2
      (by decide)⟩


/-! ### The board after a search -/

/-- The generic loop leaves the board as it was, when every child step does
and `unmakeMove` undoes `makeMove` for the moves of the loop. -/
theorem pv_search_loop_board {Board : Type} (C : Chess Board)
    (child : Bool → Int → Int → Search Board → Option (Int × Bool × Search Board))
    (beta : Int) (b : Board) (rest : List Move)
    (hun : ∀ m ∈ rest, C.unmakeMove (C.makeMove b m) m = b)
    (hchild : ∀ sfw alpha s r, child sfw alpha beta s = some r → r.2.2.board = s.board) :
    ∀ (eval alpha : Int) (sfw : Bool) (entry : TT_Info) (s : Search Board)
      (out : Int × TT_Info × Search Board),
      s.board = b → pv_search_loop C child beta rest eval alpha sfw entry s = some out →
      out.2.2.board = b := by
  induction rest with
  | nil =>
    intro eval alpha sfw entry s out hb h
    simp only [pv_search_loop, Option.some.injEq] at h
    subst h
    exact hb
  | cons m rest ih =>
    intro eval alpha sfw entry s out hb h
    have ih := ih (fun x hx => hun x (List.mem_cons_of_mem _ hx))
    unfold pv_search_loop at h
    cases hc : child sfw alpha beta (s.make C m) with
    | none => rw [hc] at h; exact absurd h (by simp)
    | some r =>
      obtain ⟨inner, sfw1, s1⟩ := r
      have hb1 : (s1.unmake C m).board = b := by
        have h1 : s1.board = (s.make C m).board := hchild sfw alpha _ _ hc
        show C.unmakeMove s1.board m = b
        rw [h1]
        show C.unmakeMove (C.makeMove s.board m) m = b
        rw [hb]
        exact hun m (List.mem_cons_self _ _)
      rw [hc] at h
      simp only [] at h
      by_cases h1 : inner > eval
      · by_cases h2 : inner ≥ beta
        · simp only [h1, h2, if_true, Option.some.injEq] at h
          subst h
          exact hb1
        · by_cases h3 : inner > alpha
          · simp only [h1, h2, h3, if_true, if_false] at h
            exact ih _ _ _ _ _ _ hb1 h
          · simp only [h1, h2, h3, if_true, if_false] at h
            exact ih _ _ _ _ _ _ hb1 h
      · simp only [h1, if_false] at h
        exact ih _ _ _ _ _ _ hb1 h

theorem window_child_board {Board : Type}
    (child : Int → Int → Search Board → Option (Int × Search Board)) (hc : window_frame child)
    (sfw : Bool) (alpha beta : Int) (s : Search Board) (r : Int × Bool × Search Board)
    (h : window_child child sfw alpha beta s = some r) : r.2.2.board = s.board := by
  unfold window_child at h
  cases h1 : child (-beta) (-alpha) s with
  | none => rw [h1] at h; exact absurd h (by simp)
  | some r1 =>
    rw [h1] at h
    simp only [Option.some.injEq] at h
    subst h
    exact hc _ _ _ _ h1

theorem scout_child_board {Board : Type}
    (child : Int → Search Board → Option (Int × Search Board)) (hc : scout_frame child)
    (sfw : Bool) (alpha beta : Int) (s : Search Board) (r : Int × Bool × Search Board)
    (h : scout_child child sfw alpha beta s = some r) : r.2.2.board = s.board := by
  unfold scout_child at h
  cases h1 : child (-beta + 1) s with
  | none => rw [h1] at h; exact absurd h (by simp)
  | some r1 =>
    rw [h1] at h
    simp only [Option.some.injEq] at h
    subst h
    exact hc _ _ _ h1

theorem q_search_board {Board : Type} (C : Chess Board) (hr : Reversible C) (Q_SEARCH : Bool)
    (fuel : Nat) : window_frame (Search.q_search C Q_SEARCH fuel) := by
  induction fuel with
  | zero => intro alpha beta s r h; exact absurd h (by simp [Search.q_search])
  | succ fuel ih =>
    intro alpha beta s r h
    unfold Search.q_search at h
    simp only [] at h
    cases Q_SEARCH with
    | false =>
      simp only [Bool.not_false, if_true, Option.some.injEq] at h
      subst h; rfl
    | true =>
      simp only [Bool.not_true, Bool.false_eq_true, if_false] at h
      by_cases hb : C.eval s.board ≥ beta
      · simp only [hb, if_true, Option.some.injEq] at h
        subst h; rfl
      · simp only [hb, if_false] at h
        rw [q_search_loop_eq C _ _ true _ _ _ TT_Info.zero] at h
        cases hl : pv_search_loop C (window_child (Search.q_search C true fuel)) beta
            (C.legalmoves_CAPTURE s.board) (C.eval s.board)
            (if C.eval s.board > alpha then C.eval s.board else alpha) true TT_Info.zero
            { s with nodes := (s.nodes + 1) % 2 ^ 64 } with
        | none => rw [hl] at h; exact absurd h (by simp)
        | some out =>
          rw [hl] at h
          simp only [Option.map_some', Option.some.injEq] at h
          subst h
          exact pv_search_loop_board C _ beta s.board _ (hr.unmake_capture s.board)
            (fun sfw a s1 r1 hc => window_child_board _ ih sfw a beta s1 r1 hc)
            _ _ _ _ _ out (by rfl) hl

theorem nw_q_search_board {Board : Type} (C : Chess Board) (hr : Reversible C)
    (Q_SEARCH : Bool) (fuel : Nat) : scout_frame (Search.nw_q_search C Q_SEARCH fuel) := by
  induction fuel with
  | zero => intro beta s r h; exact absurd h (by simp [Search.nw_q_search])
  | succ fuel ih =>
    intro beta s r h
    unfold Search.nw_q_search at h
    simp only [] at h
    cases Q_SEARCH with
    | false =>
      simp only [Bool.not_false, if_true, Option.some.injEq] at h
      subst h; rfl
    | true =>
      simp only [Bool.not_true, Bool.false_eq_true, if_false] at h
      by_cases hb : C.eval s.board ≥ beta
      · simp only [hb, if_true, Option.some.injEq] at h
        subst h; rfl
      · simp only [hb, if_false] at h
        rw [nw_q_search_loop_eq C _ _ true _ _ TT_Info.zero] at h
        cases hl : pv_search_loop C (scout_child (Search.nw_q_search C true fuel)) beta
            (C.legalmoves_CAPTURE s.board) (C.eval s.board) (beta - 1) true TT_Info.zero
            { s with nodes := (s.nodes + 1) % 2 ^ 64 } with
        | none => rw [hl] at h; exact absurd h (by simp)
        | some out =>
          rw [hl] at h
          simp only [Option.map_some', Option.some.injEq] at h
          subst h
          exact pv_search_loop_board C _ beta s.board _ (hr.unmake_capture s.board)
            (fun sfw a s1 r1 hc => scout_child_board _ ih sfw a beta s1 r1 hc)
            _ _ _ _ _ out (by rfl) hl

theorem pv_child_board {Board : Type}
    (quiesce : Int → Int → Search Board → Option (Int × Search Board))
    (scout : Int → Search Board → Option (Int × Search Board))
    (full : Int → Int → Search Board → Option (Int × Search Board))
    (hq : window_frame quiesce) (hs : scout_frame scout) (hf : window_frame full)
    (depth : Nat) (sfw : Bool) (alpha beta : Int) (s : Search Board)
    (r : Int × Bool × Search Board)
    (h : pv_child quiesce scout full depth sfw alpha beta s = some r) :
    r.2.2.board = s.board := by
  unfold pv_child at h
  by_cases hd : depth = 1
  · rw [if_pos hd] at h
    exact window_child_board quiesce hq sfw alpha beta s r h
  · rw [if_neg hd] at h
    by_cases hw : sfw = true
    · rw [if_pos hw] at h
      exact window_child_board full hf false alpha beta s r h
    · rw [if_neg hw] at h
      cases h1 : scout (-alpha) s with
      | none => rw [h1] at h; exact absurd h (by simp)
      | some r0 =>
        rw [h1] at h
        simp only [] at h
        have hb0 := hs _ _ _ h1
        by_cases hgt : -r0.1 > alpha
        · rw [if_pos hgt] at h
          have := window_child_board full hf false alpha beta r0.2 r h
          rw [this, hb0]
        · rw [if_neg hgt] at h
          simp only [Option.some.injEq] at h
          subst h
          exact hb0

theorem nega_max_node_board {Board : Type} (C : Chess Board) (hr : Reversible C)
    (child : Int → Int → Search Board → Option (Int × Search Board)) (hc : window_frame child)
    (depth : Nat) : window_frame (nega_max_node C child depth) := by
  intro alpha beta s r h
  unfold nega_max_node at h
  simp only [] at h
  by_cases hcut : (s.tt_probe C NO_MOVE alpha beta depth).cutoff = true
  · rw [if_pos hcut] at h
    simp only [Option.some.injEq] at h
    subst h; rfl
  · rw [if_neg hcut, nega_max_loop_eq C _ _ true] at h
    split at h
    · exact absurd h (by simp)
    · rename_i eval entry1 s1 hl
      simp only [Option.some.injEq] at h
      subst h
      exact pv_search_loop_board C _ _ s.board _ (hr.unmake_all s.board)
        (fun sfw a s2 r2 hc2 => window_child_board _ hc sfw a _ s2 r2 hc2)
        _ _ _ _ _ (eval, entry1, s1) (by rfl) hl

theorem null_window_search_node_board {Board : Type} (C : Chess Board) (hr : Reversible C)
    (child : Int → Search Board → Option (Int × Search Board)) (hc : scout_frame child)
    (depth : Nat) : scout_frame (null_window_search_node C child depth) := by
  intro beta s r h
  unfold null_window_search_node at h
  simp only [] at h
  by_cases hcut : (s.tt_probe C NO_MOVE (beta - 1) beta depth).cutoff = true
  · rw [if_pos hcut] at h
    simp only [Option.some.injEq] at h
    subst h; rfl
  · rw [if_neg hcut, null_window_search_loop_eq C _ _ true] at h
    split at h
    · exact absurd h (by simp)
    · rename_i eval entry1 s1 hl
      simp only [Option.some.injEq] at h
      subst h
      exact pv_search_loop_board C _ _ s.board _
        (fun m hm => hr.unmake_all s.board m ((tt_move_first_mem _ _ m).mp hm))
        (fun sfw a s2 r2 hc2 => scout_child_board _ hc sfw a _ s2 r2 hc2)
        _ _ _ _ _ (eval, entry1, s1) (by rfl) hl

theorem pv_search_node_board {Board : Type} (C : Chess Board) (hr : Reversible C)
    (quiesce : Int → Int → Search Board → Option (Int × Search Board))
    (scout : Int → Search Board → Option (Int × Search Board))
    (full : Int → Int → Search Board → Option (Int × Search Board))
    (hq : window_frame quiesce) (hs : scout_frame scout) (hf : window_frame full)
    (depth : Nat) : window_frame (pv_search_node C quiesce scout full depth) := by
  intro alpha beta s r h
  unfold pv_search_node at h
  simp only [] at h
  by_cases hcut : (s.tt_probe C NO_MOVE alpha beta depth).cutoff = true
  · rw [if_pos hcut] at h
    simp only [Option.some.injEq] at h
    subst h; rfl
  · rw [if_neg hcut] at h
    split at h
    · exact absurd h (by simp)
    · rename_i eval entry1 s1 hl
      simp only [Option.some.injEq] at h
      subst h
      exact pv_search_loop_board C _ _ s.board _
        (fun m hm => hr.unmake_all s.board m ((tt_move_first_mem _ _ m).mp hm))
        (fun sfw a s2 r2 hc2 => pv_child_board _ _ _ hq hs hf depth sfw a _ s2 r2 hc2)
        _ _ _ _ _ (eval, entry1, s1) (by rfl) hl

theorem nega_max_board {Board : Type} (C : Chess Board) (hr : Reversible C) (Q_SEARCH : Bool)
    (fuel : Nat) (d : Nat) : window_frame (Search.nega_max C Q_SEARCH fuel d) := by
  have hq := q_search_board C hr Q_SEARCH fuel
  rcases d with _ | d
  · exact nega_max_node_board C hr _ hq 0
  · induction d with
    | zero => exact nega_max_node_board C hr _ hq 1
    | succ d ih => exact nega_max_node_board C hr _ ih (d + 2)

theorem null_window_search_board {Board : Type} (C : Chess Board) (hr : Reversible C)
    (Q_SEARCH : Bool) (fuel : Nat) (d : Nat) :
    scout_frame (Search.null_window_search C Q_SEARCH fuel d) := by
  have hq := nw_q_search_board C hr Q_SEARCH fuel
  rcases d with _ | d
  · exact null_window_search_node_board C hr _ hq 0
  · induction d with
    | zero => exact null_window_search_node_board C hr _ hq 1
    | succ d ih => exact null_window_search_node_board C hr _ ih (d + 2)

theorem pv_search_board {Board : Type} (C : Chess Board) (hr : Reversible C) (Q_SEARCH : Bool)
    (fuel : Nat) (d : Nat) : window_frame (Search.pv_search C Q_SEARCH fuel d) := by
  have hq := q_search_board C hr Q_SEARCH fuel
  induction d with
  | zero =>
    exact pv_search_node_board C hr _ _ _ hq (fun _ _ _ h => absurd h (by simp))
      (fun _ _ _ _ h => absurd h (by simp)) 0
  | succ d ih =>
    exact pv_search_node_board C hr _ _ _ hq (null_window_search_board C hr Q_SEARCH fuel d) ih
      (d + 1)

theorem root_max_child_board {Board : Type} (C : Chess Board) (hr : Reversible C)
    (Q_SEARCH PV_Search : Bool) (fuel depth : Nat) (sfw : Bool) (alpha beta : Int)
    (s : Search Board) (r : Int × Bool × Search Board)
    (h : root_max_child C Q_SEARCH PV_Search fuel depth sfw alpha beta s = some r) :
    r.2.2.board = s.board := by
  unfold root_max_child at h
  by_cases hd : depth = 1
  · rw [if_pos hd] at h
    exact window_child_board _ (q_search_board C hr Q_SEARCH fuel) sfw alpha beta s r h
  · rw [if_neg hd] at h
    by_cases hp : (!PV_Search) = true
    · rw [if_pos hp] at h
      exact window_child_board _ (nega_max_board C hr Q_SEARCH fuel (depth - 1)) sfw alpha beta
        s r h
    · rw [if_neg hp] at h
      exact pv_child_board _ _ _ (q_search_board C hr Q_SEARCH fuel)
        (null_window_search_board C hr Q_SEARCH fuel (depth - 1))
        (pv_search_board C hr Q_SEARCH fuel (depth - 1)) depth sfw alpha beta s r h

/-- With a reversible position facility, `Search::root_max` leaves the board
as it was. -/
theorem root_max_board {Board : Type} (C : Chess Board) (hr : Reversible C)
    (Q_SEARCH PV_Search : Bool) (fuel : Nat) (alpha beta : Int) (d : Nat)
    (result : Search_Result) (s : Search Board)
    (out : Search_Result × Search_Result × Search Board)
    (h : Search.root_max C Q_SEARCH PV_Search fuel alpha beta d result s = some out) :
    out.2.2.board = s.board := by
  unfold Search.root_max at h
  simp only [] at h
  by_cases hcut : (({ s with nodes := 0 } : Search Board).tt_probe C NO_MOVE alpha beta
      d).cutoff = true
  · rw [if_pos hcut] at h
    simp only [Option.some.injEq] at h
    subst h; rfl
  · rw [if_neg hcut, root_max_loop_eq C _ _ _ _ _ _ _ ⟨0, NO_MOVE, 0, UPPER_BOUND⟩ _ rfl] at h
    cases hl : pv_search_loop C (root_max_child C Q_SEARCH PV_Search fuel d)
        (({ s with nodes := 0 } : Search Board).tt_probe C NO_MOVE alpha beta d).beta
        (tt_move_first (C.legalmoves_ALL s.board)
          (({ s with nodes := 0 } : Search Board).tt_probe C NO_MOVE alpha beta d).move)
        MIN_EVAL (({ s with nodes := 0 } : Search Board).tt_probe C NO_MOVE alpha beta d).alpha
        true ⟨0, NO_MOVE, 0, UPPER_BOUND⟩ { s with nodes := 0 } with
    | none => rw [hl] at h; exact absurd h (by simp)
    | some x =>
      rw [hl] at h
      simp only [Option.map_some', Option.some.injEq] at h
      subst h
      exact pv_search_loop_board C _ _ s.board _
        (fun m hm => hr.unmake_all s.board m ((tt_move_first_mem _ _ m).mp hm))
        (fun sfw a s2 r2 hc2 =>
          root_max_child_board C hr Q_SEARCH PV_Search fuel d sfw a _ s2 r2 hc2)
        _ _ _ _ _ x (by rfl) hl

/-- The generic loop of `Search_Thread` leaves the board as it was, on every
way out. -/
theorem thread_loop_board {Board : Type} (C : Chess Board)
    (child : Bool → Int → Int → Thread Board → Except Fault (Int × Bool × Thread Board))
    (beta : Int) (b : Board) (rest : List Move)
    (hun : ∀ m ∈ rest, C.unmakeMove (C.makeMove b m) m = b)
    (hchild : ∀ sfw alpha s r, child sfw alpha beta s = .ok r → r.2.2.board = s.board) :
    ∀ (eval alpha : Int) (sfw : Bool) (entry : TT_Info) (s : Thread Board) (x : Loop_Exit Board),
      s.board = b →
      Search_Thread.pv_search_loop C child beta rest eval alpha sfw entry s = .ok x →
      x.state.board = b := by
  induction rest with
  | nil =>
    intro eval alpha sfw entry s x hb h
    simp only [Search_Thread.pv_search_loop, Except.ok.injEq] at h
    subst h
    exact hb
  | cons m rest ih =>
    intro eval alpha sfw entry s x hb h
    have ih := ih (fun y hy => hun y (List.mem_cons_of_mem _ hy))
    unfold Search_Thread.pv_search_loop at h
    cases hc : child sfw alpha beta (s.make C m) with
    | error e => rw [hc] at h; exact absurd h (by simp [except_bind_error])
    | ok r =>
      have hb1 : (r.2.2.unmake C m).board = b := by
        have h1 : r.2.2.board = (s.make C m).board := hchild sfw alpha _ _ hc
        show C.unmakeMove r.2.2.board m = b
        rw [h1]
        show C.unmakeMove (C.makeMove s.board m) m = b
        rw [hb]
        exact hun m (List.mem_cons_self _ _)
      rw [hc] at h
      simp only [except_bind_ok] at h
      by_cases h4 : (r.2.2.unmake C m).finished = true
      · by_cases h1 : r.1 > eval
        · by_cases h2 : r.1 ≥ beta
          · simp only [h1, h2, if_true, Except.ok.injEq] at h
            subst h; exact hb1
          · by_cases h3 : r.1 > alpha
            · simp only [h1, h2, h3, h4, if_true, if_false, Except.ok.injEq] at h
              subst h; exact hb1
            · simp only [h1, h2, h3, h4, if_true, if_false, Except.ok.injEq] at h
              subst h; exact hb1
        · simp only [h1, h4, if_true, if_false, Except.ok.injEq] at h
          subst h; exact hb1
      · by_cases h1 : r.1 > eval
        · by_cases h2 : r.1 ≥ beta
          · simp only [h1, h2, if_true, Except.ok.injEq] at h
            subst h; exact hb1
          · by_cases h3 : r.1 > alpha
            · simp only [h1, h2, h3, h4, if_true, if_false] at h
              exact ih _ _ _ _ _ _ hb1 h
            · simp only [h1, h2, h3, h4, if_true, if_false] at h
              exact ih _ _ _ _ _ _ hb1 h
        · simp only [h1, h4, if_true, if_false] at h
          exact ih _ _ _ _ _ _ hb1 h

theorem thread_window_child_board {Board : Type}
    (child : Int → Int → Thread Board → Except Fault (Int × Thread Board))
    (hc : thread_window_frame child) (sfw : Bool) (alpha beta : Int) (s : Thread Board)
    (r : Int × Bool × Thread Board) (h : thread_window_child child sfw alpha beta s = .ok r) :
    r.2.2.board = s.board := by
  unfold thread_window_child at h
  cases h1 : Eval_Type (-beta) with
  | error e => rw [h1] at h; exact absurd h (by simp [except_bind_error])
  | ok nb =>
    rw [h1] at h
    simp only [except_bind_ok] at h
    cases h2 : Eval_Type (-alpha) with
    | error e => rw [h2] at h; exact absurd h (by simp [except_bind_error])
    | ok na =>
      rw [h2] at h
      simp only [except_bind_ok] at h
      cases h3 : child nb na s with
      | error e => rw [h3] at h; exact absurd h (by simp [except_bind_error])
      | ok r1 =>
        rw [h3] at h
        simp only [except_bind_ok] at h
        cases h4 : Eval_Type (-r1.1) with
        | error e => rw [h4] at h; exact absurd h (by simp [except_bind_error])
        | ok inner =>
          rw [h4] at h
          simp only [except_bind_ok, Except.ok.injEq] at h
          subst h
          exact hc _ _ _ _ h3

theorem thread_scout_child_board {Board : Type}
    (child : Int → Thread Board → Except Fault (Int × Thread Board))
    (hc : thread_scout_frame child) (sfw : Bool) (alpha beta : Int) (s : Thread Board)
    (r : Int × Bool × Thread Board) (h : thread_scout_child child sfw alpha beta s = .ok r) :
    r.2.2.board = s.board := by
  unfold thread_scout_child at h
  cases h1 : Eval_Type (-beta) with
  | error e => rw [h1] at h; exact absurd h (by simp [except_bind_error])
  | ok nb =>
    rw [h1] at h
    simp only [except_bind_ok] at h
    cases h2 : Eval_Type (nb + 1) with
    | error e => rw [h2] at h; exact absurd h (by simp [except_bind_error])
    | ok nb1 =>
      rw [h2] at h
      simp only [except_bind_ok] at h
      cases h3 : child nb1 s with
      | error e => rw [h3] at h; exact absurd h (by simp [except_bind_error])
      | ok r1 =>
        rw [h3] at h
        simp only [except_bind_ok] at h
        cases h4 : Eval_Type (-r1.1) with
        | error e => rw [h4] at h; exact absurd h (by simp [except_bind_error])
        | ok inner =>
          rw [h4] at h
          simp only [except_bind_ok, Except.ok.injEq] at h
          subst h
          exact hc _ _ _ h3

theorem thread_q_search_board {Board : Type} (C : Chess Board) (hr : Reversible C)
    (Q_SEARCH : Bool) (fuel : Nat) :
    thread_window_frame (Search_Thread.q_search C Q_SEARCH fuel) := by
  induction fuel with
  | zero => intro alpha beta s r h; exact absurd h (by simp [Search_Thread.q_search])
  | succ fuel ih =>
    intro alpha beta s r h
    unfold Search_Thread.q_search at h
    simp only [] at h
    generalize (if C.eval s.board < Search_Thread.MIN_EVAL then Search_Thread.MIN_EVAL
      else C.eval s.board) = q at h
    cases Q_SEARCH with
    | false =>
      simp only [Bool.not_false, if_true, Except.ok.injEq] at h
      subst h; rfl
    | true =>
      simp only [Bool.not_true, Bool.false_eq_true, if_false] at h
      by_cases hb : q ≥ beta
      · simp only [hb, if_true, Except.ok.injEq] at h
        subst h; rfl
      · simp only [hb, if_false] at h
        rw [thread_q_search_loop_eq C _ _ true _ _ _ TT_Info.zero] at h
        cases hl : Search_Thread.pv_search_loop C
            (thread_window_child (Search_Thread.q_search C true fuel)) beta
            (C.legalmoves_CAPTURE s.board) q (if q > alpha then q else alpha) true TT_Info.zero
            { s with nodes := (s.nodes + 1) % 2 ^ 64 } with
        | error e => rw [hl] at h; exact absurd h (by simp [Except.map])
        | ok x =>
          rw [hl] at h
          simp only [Except.map, Except.ok.injEq] at h
          subst h
          exact thread_loop_board C _ beta s.board _ (hr.unmake_capture s.board)
            (fun sfw a s1 r1 hc => thread_window_child_board _ ih sfw a beta s1 r1 hc)
            _ _ _ _ _ x (by rfl) hl

theorem thread_nw_q_search_board {Board : Type} (C : Chess Board) (hr : Reversible C)
    (Q_SEARCH : Bool) (fuel : Nat) :
    thread_scout_frame (Search_Thread.nw_q_search C Q_SEARCH fuel) := by
  induction fuel with
  | zero => intro beta s r h; exact absurd h (by simp [Search_Thread.nw_q_search])
  | succ fuel ih =>
    intro beta s r h
    unfold Search_Thread.nw_q_search at h
    simp only [] at h
    generalize (if C.eval s.board < Search_Thread.MIN_EVAL then Search_Thread.MIN_EVAL
      else C.eval s.board) = q at h
    cases Q_SEARCH with
    | false =>
      simp only [Bool.not_false, if_true, Except.ok.injEq] at h
      subst h; rfl
    | true =>
      simp only [Bool.not_true, Bool.false_eq_true, if_false] at h
      by_cases hb : q ≥ beta
      · simp only [hb, if_true, Except.ok.injEq] at h
        subst h; rfl
      · simp only [hb, if_false] at h
        rw [thread_nw_q_search_loop_eq C _ _ true _ _ TT_Info.zero] at h
        cases hl : Search_Thread.pv_search_loop C
            (thread_scout_child (Search_Thread.nw_q_search C true fuel)) beta
            (C.legalmoves_CAPTURE s.board) q (beta - 1) true TT_Info.zero
            { s with nodes := (s.nodes + 1) % 2 ^ 64 } with
        | error e => rw [hl] at h; exact absurd h (by simp [Except.map])
        | ok x =>
          rw [hl] at h
          simp only [Except.map, Except.ok.injEq] at h
          subst h
          exact thread_loop_board C _ beta s.board _ (hr.unmake_capture s.board)
            (fun sfw a s1 r1 hc => thread_scout_child_board _ ih sfw a beta s1 r1 hc)
            _ _ _ _ _ x (by rfl) hl

theorem thread_pv_child_board {Board : Type}
    (quiesce : Int → Int → Thread Board → Except Fault (Int × Thread Board))
    (scout : Int → Thread Board → Except Fault (Int × Thread Board))
    (full : Int → Int → Thread Board → Except Fault (Int × Thread Board))
    (hq : thread_window_frame quiesce) (hs : thread_scout_frame scout)
    (hf : thread_window_frame full) (depth : Nat) (sfw : Bool) (alpha beta : Int)
    (s : Thread Board) (r : Int × Bool × Thread Board)
    (h : Search_Thread.pv_child quiesce scout full depth sfw alpha beta s = .ok r) :
    r.2.2.board = s.board := by
  unfold Search_Thread.pv_child at h
  by_cases hd : depth = 1
  · rw [if_pos hd] at h
    exact thread_window_child_board quiesce hq sfw alpha beta s r h
  · rw [if_neg hd] at h
    by_cases hw : sfw = true
    · rw [if_pos hw] at h
      exact thread_window_child_board full hf false alpha beta s r h
    · rw [if_neg hw] at h
      cases h1 : Eval_Type (-alpha) with
      | error e => rw [h1] at h; exact absurd h (by simp [except_bind_error])
      | ok na =>
        rw [h1] at h
        simp only [except_bind_ok] at h
        cases h2 : scout na s with
        | error e => rw [h2] at h; exact absurd h (by simp [except_bind_error])
        | ok r0 =>
          rw [h2] at h
          simp only [except_bind_ok] at h
          have hb0 := hs _ _ _ h2
          cases h3 : Eval_Type (-r0.1) with
          | error e => rw [h3] at h; exact absurd h (by simp [except_bind_error])
          | ok inner0 =>
            rw [h3] at h
            simp only [except_bind_ok] at h
            by_cases hgt : inner0 > alpha
            · rw [if_pos hgt] at h
              have h' : thread_window_child full false alpha beta r0.2 = .ok r := by
                unfold thread_window_child
                rw [h1]
                exact h
              have := thread_window_child_board full hf false alpha beta r0.2 r h'
              rw [this, hb0]
            · rw [if_neg hgt] at h
              simp only [Except.ok.injEq] at h
              subst h
              exact hb0

/-- What follows the move loop of a node does not move the board. -/
theorem thread_node_exit_board {Board : Type} (C : Chess Board) (depth : Nat)
    (x : Loop_Exit Board) (r : Int × Thread Board)
    (h : (if x.stopped = true then (Except.ok (x.eval, x.state) : Except Fault _)
      else .ok (x.eval, x.state.store C { x.entry with eval := x.eval } depth)) = .ok r) :
    r.2.board = x.state.board := by
  by_cases hs : x.stopped = true
  · rw [if_pos hs] at h
    simp only [Except.ok.injEq] at h
    subst h; rfl
  · rw [if_neg hs] at h
    simp only [Except.ok.injEq] at h
    subst h; rfl

theorem thread_generate_mem {Board : Type} (C : Chess Board) (s : Thread Board) (m : Move) :
    m ∈ (s.generate_shuffled_moves C).1 ↔ m ∈ C.legalmoves_ALL s.board := by
  unfold Thread.generate_shuffled_moves
  exact (shuffle_from_perm _ 0 _ _ (by omega)).mem_iff

theorem thread_nega_max_node_board {Board : Type} (C : Chess Board) (hr : Reversible C)
    (child : Int → Int → Thread Board → Except Fault (Int × Thread Board))
    (hc : thread_window_frame child) (depth : Nat) :
    thread_window_frame (Search_Thread.nega_max_node C child depth) := by
  intro alpha beta s r h
  unfold Search_Thread.nega_max_node at h
  simp only [] at h
  by_cases hcut : (s.toSearch_Thread.tt_probe C NO_MOVE alpha beta depth).cutoff = true
  · rw [if_pos hcut] at h
    simp only [Except.ok.injEq] at h
    subst h; rfl
  · rw [if_neg hcut, thread_nega_max_loop_eq C _ _ true] at h
    cases hl : Search_Thread.pv_search_loop C (thread_window_child child)
        (s.toSearch_Thread.tt_probe C NO_MOVE alpha beta depth).beta
        (s.generate_shuffled_moves C).1 Search_Thread.MIN_EVAL
        (s.toSearch_Thread.tt_probe C NO_MOVE alpha beta depth).alpha true
        ⟨Search_Thread.MIN_EVAL, (s.toSearch_Thread.tt_probe C NO_MOVE alpha beta depth).move,
          to_int8 depth, UPPER_BOUND⟩ (s.generate_shuffled_moves C).2 with
    | error e => rw [hl] at h; exact absurd h (by simp [except_bind_error])
    | ok x =>
      rw [hl] at h
      simp only [except_bind_ok] at h
      rw [thread_node_exit_board C depth x r h]
      exact thread_loop_board C _ _ s.board _
        (fun m hm => hr.unmake_all s.board m ((thread_generate_mem C s m).mp hm))
        (fun sfw a s2 r2 hc2 => thread_window_child_board _ hc sfw a _ s2 r2 hc2)
        _ _ _ _ _ x (by rfl) hl

theorem thread_null_window_search_node_board {Board : Type} (C : Chess Board)
    (hr : Reversible C) (child : Int → Thread Board → Except Fault (Int × Thread Board))
    (hc : thread_scout_frame child) (depth : Nat) :
    thread_scout_frame (Search_Thread.null_window_search_node C child depth) := by
  intro beta s r h
  unfold Search_Thread.null_window_search_node at h
  cases h0 : Eval_Type (beta - 1) with
  | error e => rw [h0] at h; exact absurd h (by simp [except_bind_error])
  | ok alpha =>
    rw [h0] at h
    simp only [except_bind_ok] at h
    by_cases hcut : (s.toSearch_Thread.tt_probe C NO_MOVE alpha beta depth).cutoff = true
    · rw [if_pos hcut] at h
      simp only [Except.ok.injEq] at h
      subst h; rfl
    · rw [if_neg hcut, thread_null_window_search_loop_eq C _ _ true] at h
      cases hl : Search_Thread.pv_search_loop C (thread_scout_child child)
          (s.toSearch_Thread.tt_probe C NO_MOVE alpha beta depth).beta
          (tt_move_first (s.generate_shuffled_moves C).1
            (s.toSearch_Thread.tt_probe C NO_MOVE alpha beta depth).move)
          Search_Thread.MIN_EVAL
          ((s.toSearch_Thread.tt_probe C NO_MOVE alpha beta depth).beta - 1) true
          ⟨Search_Thread.MIN_EVAL, (s.toSearch_Thread.tt_probe C NO_MOVE alpha beta depth).move,
            to_int8 depth, UPPER_BOUND⟩ (s.generate_shuffled_moves C).2 with
      | error e => rw [hl] at h; exact absurd h (by simp [except_bind_error])
      | ok x =>
        rw [hl] at h
        simp only [except_bind_ok] at h
        rw [thread_node_exit_board C depth x r h]
        exact thread_loop_board C _ _ s.board _
          (fun m hm => hr.unmake_all s.board m
            ((thread_generate_mem C s m).mp ((tt_move_first_mem _ _ m).mp hm)))
          (fun sfw a s2 r2 hc2 => thread_scout_child_board _ hc sfw a _ s2 r2 hc2)
          _ _ _ _ _ x (by rfl) hl

theorem thread_pv_search_node_board {Board : Type} (C : Chess Board) (hr : Reversible C)
    (quiesce : Int → Int → Thread Board → Except Fault (Int × Thread Board))
    (scout : Int → Thread Board → Except Fault (Int × Thread Board))
    (full : Int → Int → Thread Board → Except Fault (Int × Thread Board))
    (hq : thread_window_frame quiesce) (hs : thread_scout_frame scout)
    (hf : thread_window_frame full) (depth : Nat) :
    thread_window_frame (Search_Thread.pv_search_node C quiesce scout full depth) := by
  intro alpha beta s r h
  unfold Search_Thread.pv_search_node at h
  simp only [] at h
  by_cases hcut : (s.toSearch_Thread.tt_probe C NO_MOVE alpha beta depth).cutoff = true
  · rw [if_pos hcut] at h
    simp only [Except.ok.injEq] at h
    subst h; rfl
  · rw [if_neg hcut] at h
    cases hl : Search_Thread.pv_search_loop C (Search_Thread.pv_child quiesce scout full depth)
        (s.toSearch_Thread.tt_probe C NO_MOVE alpha beta depth).beta
        (tt_move_first (s.generate_shuffled_moves C).1
          (s.toSearch_Thread.tt_probe C NO_MOVE alpha beta depth).move)
        Search_Thread.MIN_EVAL
        (s.toSearch_Thread.tt_probe C NO_MOVE alpha beta depth).alpha true
        ⟨Search_Thread.MIN_EVAL, (s.toSearch_Thread.tt_probe C NO_MOVE alpha beta depth).move,
          to_int8 depth, UPPER_BOUND⟩ (s.generate_shuffled_moves C).2 with
    | error e => rw [hl] at h; exact absurd h (by simp [except_bind_error])
    | ok x =>
      rw [hl] at h
      simp only [except_bind_ok] at h
      rw [thread_node_exit_board C depth x r h]
      exact thread_loop_board C _ _ s.board _
        (fun m hm => hr.unmake_all s.board m
          ((thread_generate_mem C s m).mp ((tt_move_first_mem _ _ m).mp hm)))
        (fun sfw a s2 r2 hc2 => thread_pv_child_board _ _ _ hq hs hf depth sfw a _ s2 r2 hc2)
        _ _ _ _ _ x (by rfl) hl

theorem thread_nega_max_board {Board : Type} (C : Chess Board) (hr : Reversible C)
    (Q_SEARCH : Bool) (fuel : Nat) (d : Nat) :
    thread_window_frame (Search_Thread.nega_max C Q_SEARCH fuel d) := by
  have hq := thread_q_search_board C hr Q_SEARCH fuel
  rcases d with _ | d
  · exact thread_nega_max_node_board C hr _ hq 0
  · induction d with
    | zero => exact thread_nega_max_node_board C hr _ hq 1
    | succ d ih => exact thread_nega_max_node_board C hr _ ih (d + 2)

theorem thread_null_window_search_board {Board : Type} (C : Chess Board) (hr : Reversible C)
    (Q_SEARCH : Bool) (fuel : Nat) (d : Nat) :
    thread_scout_frame (Search_Thread.null_window_search C Q_SEARCH fuel d) := by
  have hq := thread_nw_q_search_board C hr Q_SEARCH fuel
  rcases d with _ | d
  · exact thread_null_window_search_node_board C hr _ hq 0
  · induction d with
    | zero => exact thread_null_window_search_node_board C hr _ hq 1
    | succ d ih => exact thread_null_window_search_node_board C hr _ ih (d + 2)

theorem thread_pv_search_board {Board : Type} (C : Chess Board) (hr : Reversible C)
    (Q_SEARCH : Bool) (fuel : Nat) (d : Nat) :
    thread_window_frame (Search_Thread.pv_search C Q_SEARCH fuel d) := by
  have hq := thread_q_search_board C hr Q_SEARCH fuel
  induction d with
  | zero =>
    exact thread_pv_search_node_board C hr _ _ _ hq (fun _ _ _ h => absurd h (by simp))
      (fun _ _ _ _ h => absurd h (by simp)) 0
  | succ d ih =>
    exact thread_pv_search_node_board C hr _ _ _ hq
      (thread_null_window_search_board C hr Q_SEARCH fuel d) ih (d + 1)

theorem thread_root_max_child_board {Board : Type} (C : Chess Board) (hr : Reversible C)
    (Q_SEARCH PV_Search : Bool) (fuel depth : Nat) (sfw : Bool) (alpha beta : Int)
    (s : Thread Board) (r : Int × Bool × Thread Board)
    (h : Search_Thread.root_max_child C Q_SEARCH PV_Search fuel depth sfw alpha beta s = .ok r) :
    r.2.2.board = s.board := by
  unfold Search_Thread.root_max_child at h
  by_cases hd : depth = 1
  · rw [if_pos hd] at h
    exact thread_window_child_board _ (thread_q_search_board C hr Q_SEARCH fuel) sfw alpha beta
      s r h
  · rw [if_neg hd] at h
    by_cases hp : (!PV_Search) = true
    · rw [if_pos hp] at h
      exact thread_window_child_board _ (thread_nega_max_board C hr Q_SEARCH fuel (depth - 1))
        sfw alpha beta s r h
    · rw [if_neg hp] at h
      exact thread_pv_child_board _ _ _ (thread_q_search_board C hr Q_SEARCH fuel)
        (thread_null_window_search_board C hr Q_SEARCH fuel (depth - 1))
        (thread_pv_search_board C hr Q_SEARCH fuel (depth - 1)) depth sfw alpha beta s r h

/-- With a reversible position facility, the move loop of
`Search_Thread::root_max` leaves the board as it was. -/
theorem thread_root_moves_board {Board : Type} (C : Chess Board) (hr : Reversible C)
    (Q_SEARCH PV_Search : Bool) (fuel : Nat) (alpha beta : Int) (d : Nat) (s : Thread Board)
    (x : Root_Exit Board)
    (h : thread_root_moves C Q_SEARCH PV_Search fuel alpha beta d s = .ok x) :
    x.state.board = s.board := by
  unfold thread_root_moves at h
  rw [thread_root_max_loop_eq C _ _ _ _ _ _ _ ⟨0, NO_MOVE, 0, UPPER_BOUND⟩ _ rfl] at h
  cases hl : Search_Thread.pv_search_loop C
      (Search_Thread.root_max_child C Q_SEARCH PV_Search fuel d)
      (({ s with nodes := 0 } : Thread Board).toSearch_Thread.tt_probe C NO_MOVE alpha beta
        d).beta
      (tt_move_first (({ s with nodes := 0 } : Thread Board).generate_shuffled_moves C).1
        (({ s with nodes := 0 } : Thread Board).toSearch_Thread.tt_probe C NO_MOVE alpha beta
          d).move)
      Search_Thread.MIN_EVAL
      (({ s with nodes := 0 } : Thread Board).toSearch_Thread.tt_probe C NO_MOVE alpha beta
        d).alpha
      true ⟨0, NO_MOVE, 0, UPPER_BOUND⟩
      (({ s with nodes := 0 } : Thread Board).generate_shuffled_moves C).2 with
  | error e => rw [hl] at h; exact absurd h (by simp [Except.map])
  | ok y =>
    rw [hl] at h
    simp only [Except.map, Except.ok.injEq] at h
    subst h
    exact thread_loop_board C _ _ s.board _
      (fun m hm => hr.unmake_all s.board m
        ((thread_generate_mem C { s with nodes := 0 } m).mp ((tt_move_first_mem _ _ m).mp hm)))
      (fun sfw a s2 r2 hc2 =>
        thread_root_max_child_board C hr Q_SEARCH PV_Search fuel d sfw a _ s2 r2 hc2)
      _ _ _ _ _ y (by rfl) hl


/-! ## The claims on `Search_Thread` -/

/-- C15: `Search_Thread::root_max` run as a single thread.  If the stop flag
is set on entry, a call that returns leaves the result record as it was.  If
the flag is clear on entry (and nobody else sets it) and the root is not cut
off by the TT, a call that returns has run its move loop to the end, to some
`best_move` and `eval`, has set the flag, and has written `best_move`, `eval`
and the depth (as `uint16_t`, which is `d` for `d < 65536`) to the result
record, leaving its other fields. -/
theorem first_finisher_writes_result {Board : Type} (C : Chess Board)
    (Q_SEARCH PV_Search : Bool) (fuel : Nat) (alpha beta : Int) (d : Nat)
    (result : Search_Result) (total : Nat) (s : Thread Board) :
    (s.finished = true →
      on_return (Search_Thread.root_max C Q_SEARCH PV_Search fuel alpha beta d result total s)
        (fun out => out.1 = result)) ∧
      (s.finished = false →
        (({ s with nodes := 0 } : Thread Board).toSearch_Thread.tt_probe C NO_MOVE alpha beta
          d).cutoff = false →
        on_return (Search_Thread.root_max C Q_SEARCH PV_Search fuel alpha beta d result total s)
          (fun out => out.2.2.finished = true ∧
            ∃ x, thread_root_moves C Q_SEARCH PV_Search fuel alpha beta d s = .ok x ∧
              x.stopped = false ∧
              out.1 = { result with move := x.best_move, eval := x.eval, depth := to_uint16 d } ∧
              (d < 65536 → out.1.depth = d))) := by
  suffices hmain : ∀ out,
      Search_Thread.root_max C Q_SEARCH PV_Search fuel alpha beta d result total s = .ok out →
      (s.finished = true → out.1 = result) ∧
        (s.finished = false →
          (({ s with nodes := 0 } : Thread Board).toSearch_Thread.tt_probe C NO_MOVE alpha beta
            d).cutoff = false →
          out.2.2.finished = true ∧
            ∃ x, thread_root_moves C Q_SEARCH PV_Search fuel alpha beta d s = .ok x ∧
              x.stopped = false ∧
              out.1 = { result with move := x.best_move, eval := x.eval, depth := to_uint16 d } ∧
              (d < 65536 → out.1.depth = d)) by
    cases hr : Search_Thread.root_max C Q_SEARCH PV_Search fuel alpha beta d result total s with
    | error e => exact ⟨fun _ => trivial, fun _ _ => trivial⟩
    | ok out => exact ⟨fun hf => (hmain out hr).1 hf, fun hf hc => (hmain out hr).2 hf hc⟩
  intro out h
  by_cases hc : (({ s with nodes := 0 } : Thread Board).toSearch_Thread.tt_probe C NO_MOVE alpha
      beta d).cutoff = true
  · refine ⟨fun _ => ?_, fun _ hn => absurd hc (by rw [hn]; simp)⟩
    unfold Search_Thread.root_max at h
    simp only [hc, if_true, Except.ok.injEq] at h
    rw [← h]
  · have hc1 : (({ s with nodes := 0 } : Thread Board).toSearch_Thread.tt_probe C NO_MOVE alpha
        beta d).cutoff = false := by simpa using hc
    rw [thread_root_max_eq C Q_SEARCH PV_Search fuel alpha beta d result total s hc1] at h
    cases hl : thread_root_moves C Q_SEARCH PV_Search fuel alpha beta d s with
    | error e => rw [hl] at h; exact absurd h (by simp [except_bind_error])
    | ok x =>
      rw [hl] at h
      simp only [except_bind_ok] at h
      have hpost := fun f (hf : s.finished = f) =>
        thread_root_max_loop_post C (fun s : Thread Board => s.finished = f) (fun _ => True)
          (stable_finished C f) Q_SEARCH PV_Search fuel d _ _ _ _ _ _ _ x
          (show (({ s with nodes := 0 } : Thread Board).generate_shuffled_moves C).2.finished = f
            from hf) trivial hl
      refine ⟨fun hf => ?_, fun hf _ => ?_⟩
      · obtain ⟨_, hfin, _⟩ := hpost true hf
        by_cases hs : x.stopped = true
        · simp only [hs, if_true, Except.ok.injEq] at h
          rw [← h]
        · have hfin' : (x.state.store C ⟨x.eval, x.best_move, to_int8 d, EXACT⟩ d).finished
              = true := hfin
          simp only [hs, hfin', Bool.false_eq_true, if_false, Bool.not_true,
            Except.ok.injEq] at h
          rw [← h]
      · obtain ⟨_, hfin, hstop⟩ := hpost false hf
        have hs : x.stopped = false := by
          cases hx : x.stopped
          · rfl
          · have := hstop hx
            rw [hfin] at this
            exact absurd this (by simp)
        have hfin' : (x.state.store C ⟨x.eval, x.best_move, to_int8 d, EXACT⟩ d).finished
            = false := hfin
        simp only [hs, hfin', Bool.false_eq_true, if_false, Bool.not_false, if_true,
          Except.ok.injEq] at h
        rw [← h]
        refine ⟨rfl, x, rfl, hs, rfl, ?_⟩
        intro hd
        show to_uint16 (d : Int) = d
        unfold to_uint16
        omega

/-- Witness for C15: `root_max` of `Search_Thread` at board 0 of `small_game`,
depth 1, full window, empty table.  With the flag set on entry the call
returns and the record stays `(move 9, eval 9, depth 9)`; with the flag clear
the call returns with the flag set and has written move 2, eval 3 and
depth 1. -/
theorem first_finisher_writes_result_witness :
    (thread_root_outcome (Search_Thread.root_max small_game true true 4 Search_Thread.MIN_EVAL
          Search_Thread.MAX_EVAL 1 ⟨0, 9, 9, 9⟩ 0
          ⟨⟨0, 0, Transposition_Table.new, true⟩, fun _ => 0⟩) = some (⟨0, 9, 9, 9⟩, 2, true) ∧
        on_return (Search_Thread.root_max small_game true true 4 Search_Thread.MIN_EVAL
          Search_Thread.MAX_EVAL 1 ⟨0, 9, 9, 9⟩ 0
          ⟨⟨0, 0, Transposition_Table.new, true⟩, fun _ => 0⟩)
          (fun out => out.1 = ⟨0, 9, 9, 9⟩)) ∧
      thread_root_outcome (Search_Thread.root_max small_game true true 4 Search_Thread.MIN_EVAL
          Search_Thread.MAX_EVAL 1 ⟨0, 9, 9, 9⟩ 0
          ⟨⟨0, 0, Transposition_Table.new, false⟩, fun _ => 0⟩) = some (⟨0, 2, 3, 1⟩, 3, true) ∧
        on_return (Search_Thread.root_max small_game true true 4 Search_Thread.MIN_EVAL
          Search_Thread.MAX_EVAL 1 ⟨0, 9, 9, 9⟩ 0
          ⟨⟨0, 0, Transposition_Table.new, false⟩, fun _ => 0⟩)
          (fun out => out.2.2.finished = true ∧
            ∃ x, thread_root_moves small_game true true 4 Search_Thread.MIN_EVAL
                Search_Thread.MAX_EVAL 1 ⟨⟨0, 0, Transposition_Table.new, false⟩, fun _ => 0⟩ =
                .ok x ∧
              x.stopped = false ∧
              out.1 = { (⟨0, 9, 9, 9⟩ : Search_Result) with
                move := x.best_move, eval := x.eval, depth := to_uint16 (1 : Nat) } ∧
              ((1 : Nat) < 65536 → out.1.depth = (1 : Nat))) :=
  ⟨⟨by decide,
      (first_finisher_writes_result small_game true true 4 Search_Thread.MIN_EVAL
        Search_Thread.MAX_EVAL 1 ⟨0, 9, 9, 9⟩ 0
        ⟨⟨0, 0, Transposition_Table.new, true⟩, fun _ => 0⟩).1 rfl⟩,
    by decide,
    (first_finisher_writes_result small_game true true 4 Search_Thread.MIN_EVAL
      Search_Thread.MAX_EVAL 1 ⟨0, 9, 9, 9⟩ 0
      ⟨⟨0, 0, Transposition_Table.new, false⟩, fun _ => 0⟩).2 rfl (by decide)⟩

/-! ### The store of the root -/

theorem emplace_found (t : Transposition_Table) (k : Nat) (d : Int) (info : TT_Info)
    (h : has_room t k info d) :
    (t.emplace k info d).contains k d = true ∧ (t.emplace k info d).at_ k d = info := by
  unfold Transposition_Table.at_ Transposition_Table.contains
  rw [emplace_same]
  unfold emplace_entries
  by_cases hc : contains_entries k (t.table (pos k d)).entries = true
  · obtain ⟨pre, e, post, _, h2, h3, h4⟩ := emplace_existing_some k info _ hc
    rw [h4]
    exact (at_entries_append k pre post ⟨e.key, info⟩ h2 h3).symm
  · have hc1 : contains_entries k (t.table (pos k d)).entries = false := by
      simpa using hc
    rw [(emplace_existing_none k info _).mpr hc1]
    rcases h with h | h
    · exact absurd h hc
    · exact (emplace_swap_at k info _ hc1 h).symm

/-- What `Search::root_max` returns when the probe does not cut off: the
record built from the outcome of the move loop, after the store of the EXACT
entry. -/
theorem root_max_returns {Board : Type} (C : Chess Board) (Q_SEARCH PV_Search : Bool)
    (fuel : Nat) (alpha beta : Int) (d : Nat) (result : Search_Result) (s : Search Board)
    (hc : (({ s with nodes := 0 } : Search Board).tt_probe C NO_MOVE alpha beta d).cutoff = false)
    (out : Search_Result × Search_Result × Search Board)
    (h : Search.root_max C Q_SEARCH PV_Search fuel alpha beta d result s = some out) :
    ∃ s1 : Search Board,
      out.2.2 = s1.store C ⟨out.1.eval, out.1.move, to_int8 d, EXACT⟩ d ∧ out.2.1 = out.1 := by
  unfold Search.root_max at h
  simp only [hc, Bool.false_eq_true, if_false] at h
  split at h
  · exact absurd h (by simp)
  · rename_i eval best_move s1 _
    simp only [Option.some.injEq] at h
    subst h
    exact ⟨s1, rfl, rfl⟩

/-- What `Search_Thread::root_max` returns when the flag is clear on entry
and the probe does not cut off: the move loop ran to its end, the EXACT entry
was stored, the flag was set and the record was written. -/
theorem thread_root_max_returns {Board : Type} (C : Chess Board) (Q_SEARCH PV_Search : Bool)
    (fuel : Nat) (alpha beta : Int) (d : Nat) (result : Search_Result) (total : Nat)
    (s : Thread Board) (hf : s.finished = false)
    (hc : (({ s with nodes := 0 } : Thread Board).toSearch_Thread.tt_probe C NO_MOVE alpha beta
      d).cutoff = false)
    (out : Search_Result × Nat × Thread Board)
    (h : Search_Thread.root_max C Q_SEARCH PV_Search fuel alpha beta d result total s = .ok out) :
    ∃ x, thread_root_moves C Q_SEARCH PV_Search fuel alpha beta d s = .ok x ∧
      x.stopped = false ∧
      out.1 = { result with move := x.best_move, eval := x.eval, depth := to_uint16 d } ∧
      out.2.2 = { x.state.store C ⟨x.eval, x.best_move, to_int8 d, EXACT⟩ d with
        finished := true } := by
  rw [thread_root_max_eq C Q_SEARCH PV_Search fuel alpha beta d result total s hc] at h
  cases hl : thread_root_moves C Q_SEARCH PV_Search fuel alpha beta d s with
  | error e => rw [hl] at h; exact absurd h (by simp [except_bind_error])
  | ok x =>
    rw [hl] at h
    simp only [except_bind_ok] at h
    obtain ⟨_, hfin, hstop⟩ :=
      thread_root_max_loop_post C (fun s : Thread Board => s.finished = false) (fun _ => True)
        (stable_finished C false) Q_SEARCH PV_Search fuel d _ _ _ _ _ _ _ x
        (show (({ s with nodes := 0 } : Thread Board).generate_shuffled_moves C).2.finished
          = false from hf) trivial hl
    have hs : x.stopped = false := by
      cases hx : x.stopped
      · rfl
      · have := hstop hx
        rw [hfin] at this
        exact absurd this (by simp)
    have hfin' : (x.state.store C ⟨x.eval, x.best_move, to_int8 d, EXACT⟩ d).finished
        = false := hfin
    simp only [hs, hfin', Bool.false_eq_true, if_false, Bool.not_false, if_true,
      Except.ok.injEq] at h
    rw [← h]
    exact ⟨x, rfl, hs, rfl, rfl⟩

/-- C14 (as stated) fails: `root_max` of the sequential searcher at board 0 of
`small_game` (hash key 1), depth 1, full window, on the table
`crowded_table`, whose bucket for key 1 at depth 1 is full of EXACT depth-1
entries of other keys.  The probe of the root finds nothing, the move loop
runs to its end and publishes move 2 with eval 3, but `emplace` drops the
entry: the probe of the root at depth 1 that follows finds nothing. -/
theorem root_stores_exact_counterexample :
    ¬ (∀ (d : Nat) (s : Search (Fin 4)), 1 ≤ d →
      (({ s with nodes := 0 } : Search (Fin 4)).tt_probe small_game NO_MOVE MIN_EVAL MAX_EVAL
        d).cutoff = false →
      on_some (Search.root_max small_game true true 4 MIN_EVAL MAX_EVAL d ⟨0, NO_MOVE, 0, 0⟩ s)
        (fun out => root_entry_found small_game d out.1 out.2.2.board out.2.2.tt)) := by
  intro h
  have h1 := h 1 ⟨0, 0, crowded_table⟩ (by decide) (by decide)
  revert h1
  decide

/-- C14 (amended): whenever `root_max` at depth `d` runs its move loop to
completion (no TT cutoff at the root; for `Search_Thread`, the stop flag
clear on entry and set by nobody else), it passes to `emplace`, for the
position on its board (the root position, when `unmakeMove` undoes
`makeMove`) and depth `d`, an entry of kind EXACT whose eval and move are the
eval and the move it publishes in the result record; a probe of that position
at depth `d` that follows returns this entry whenever the bucket had room for
it: it already held the key, or it held a slot whose info is less than the
new entry in the `TT_Info` ordering. -/
theorem root_stores_exact {Board : Type} (C : Chess Board) (Q_SEARCH PV_Search : Bool)
    (fuel : Nat) (alpha beta : Int) (d : Nat) (result : Search_Result) (total : Nat) :
    (∀ s : Search Board,
      (({ s with nodes := 0 } : Search Board).tt_probe C NO_MOVE alpha beta d).cutoff = false →
      on_some (Search.root_max C Q_SEARCH PV_Search fuel alpha beta d result s)
        (fun out => out.2.1 = out.1 ∧
          ∃ s1 : Search Board,
            out.2.2 = s1.store C ⟨out.1.eval, out.1.move, to_int8 d, EXACT⟩ d ∧
            (Reversible C → s1.board = s.board) ∧
            (has_room s1.tt (C.hashKey s1.board) ⟨out.1.eval, out.1.move, to_int8 d, EXACT⟩ d →
              root_entry_found C d out.1 out.2.2.board out.2.2.tt))) ∧
      ∀ s : Thread Board, s.finished = false →
        (({ s with nodes := 0 } : Thread Board).toSearch_Thread.tt_probe C NO_MOVE alpha beta
          d).cutoff = false →
        on_return (Search_Thread.root_max C Q_SEARCH PV_Search fuel alpha beta d result total s)
          (fun out =>
            ∃ x, thread_root_moves C Q_SEARCH PV_Search fuel alpha beta d s = .ok x ∧
              x.stopped = false ∧ out.1.eval = x.eval ∧ out.1.move = x.best_move ∧
              out.2.2 = { x.state.store C ⟨out.1.eval, out.1.move, to_int8 d, EXACT⟩ d with
                finished := true } ∧
              (Reversible C → x.state.board = s.board) ∧
              (has_room x.state.tt (C.hashKey x.state.board)
                  ⟨out.1.eval, out.1.move, to_int8 d, EXACT⟩ d →
                root_entry_found C d out.1 out.2.2.board out.2.2.tt)) := by
  refine ⟨?_, ?_⟩
  · intro s hc
    cases hr : Search.root_max C Q_SEARCH PV_Search fuel alpha beta d result s with
    | none => exact trivial
    | some out =>
      obtain ⟨s1, h1, h2⟩ :=
        root_max_returns C Q_SEARCH PV_Search fuel alpha beta d result s hc out hr
      refine ⟨h2, s1, h1, ?_, ?_⟩
      · intro hrev
        have hb := root_max_board C hrev Q_SEARCH PV_Search fuel alpha beta d result s out hr
        rw [h1] at hb
        exact hb
      · intro hroom
        rw [h1]
        exact emplace_found s1.tt (C.hashKey s1.board) d _ hroom
  · intro s hf hc
    cases hr : Search_Thread.root_max C Q_SEARCH PV_Search fuel alpha beta d result total s with
    | error e => exact trivial
    | ok out =>
      obtain ⟨x, h1, h2, h3, h4⟩ :=
        thread_root_max_returns C Q_SEARCH PV_Search fuel alpha beta d result total s hf hc out hr
      have he : out.1.eval = x.eval := by rw [h3]
      have hm : out.1.move = x.best_move := by rw [h3]
      refine ⟨x, h1, h2, he, hm, by rw [h4, he, hm], ?_, ?_⟩
      · intro hrev
        exact thread_root_moves_board C hrev Q_SEARCH PV_Search fuel alpha beta d s x h1
      · intro hroom
        rw [h4, ← he, ← hm]
        exact emplace_found x.state.tt (C.hashKey x.state.board) d _ hroom

/-- Witness for C14: `root_max` at board 0 of `small_game` (where `unmakeMove`
undoes `makeMove`), depth 1, full window, empty table, in the sequential
searcher and in `Search_Thread` with the stop flag clear: it returns,
publishes move 2 with eval 3, and the probe of board 0 at depth 1 that
follows returns the EXACT entry with eval 3 and move 2. -/
theorem root_stores_exact_witness :
    Reversible small_game ∧
      ((({ (⟨0, 0, Transposition_Table.new⟩ : Search (Fin 4)) with nodes := 0 } :
          Search (Fin 4)).tt_probe small_game NO_MOVE MIN_EVAL MAX_EVAL (1 : Nat)).cutoff = false ∧
        on_some (Search.root_max small_game true true 4 MIN_EVAL MAX_EVAL 1 ⟨0, NO_MOVE, 0, 0⟩
            ⟨0, 0, Transposition_Table.new⟩)
          (fun out => out.1.move = 2 ∧ out.1.eval = 3 ∧
            root_entry_found small_game 1 out.1 (0 : Fin 4) out.2.2.tt) ∧
        published_eval (Search.root_max small_game true true 4 MIN_EVAL MAX_EVAL 1
          ⟨0, NO_MOVE, 0, 0⟩ ⟨0, 0, Transposition_Table.new⟩) = some 3 ∧
        on_some (Search.root_max small_game true true 4 MIN_EVAL MAX_EVAL 1 ⟨0, NO_MOVE, 0, 0⟩
            ⟨0, 0, Transposition_Table.new⟩)
          (fun out => out.2.1 = out.1 ∧
            ∃ s1 : Search (Fin 4),
              out.2.2 = s1.store small_game ⟨out.1.eval, out.1.move, to_int8 (1 : Nat), EXACT⟩
                (1 : Nat) ∧
              (Reversible small_game →
                s1.board = (⟨0, 0, Transposition_Table.new⟩ : Search (Fin 4)).board) ∧
              (has_room s1.tt (small_game.hashKey s1.board)
                  ⟨out.1.eval, out.1.move, to_int8 (1 : Nat), EXACT⟩ (1 : Nat) →
                root_entry_found small_game 1 out.1 out.2.2.board out.2.2.tt))) ∧
      thread_root_outcome (Search_Thread.root_max small_game true true 4 Search_Thread.MIN_EVAL
          Search_Thread.MAX_EVAL 1 ⟨0, NO_MOVE, 0, 0⟩ 0
          ⟨⟨0, 0, Transposition_Table.new, false⟩, fun _ => 0⟩) = some (⟨0, 2, 3, 1⟩, 3, true) ∧
      root_entry_found small_game 1 ⟨0, 2, 3, 1⟩ (0 : Fin 4)
        (thread_root_table (Search_Thread.root_max small_game true true 4 Search_Thread.MIN_EVAL
          Search_Thread.MAX_EVAL 1 ⟨0, NO_MOVE, 0, 0⟩ 0
          ⟨⟨0, 0, Transposition_Table.new, false⟩, fun _ => 0⟩)) ∧
      on_return (Search_Thread.root_max small_game true true 4 Search_Thread.MIN_EVAL
          Search_Thread.MAX_EVAL 1 ⟨0, NO_MOVE, 0, 0⟩ 0
          ⟨⟨0, 0, Transposition_Table.new, false⟩, fun _ => 0⟩)
        (fun out =>
          ∃ x, thread_root_moves small_game true true 4 Search_Thread.MIN_EVAL
              Search_Thread.MAX_EVAL 1 ⟨⟨0, 0, Transposition_Table.new, false⟩, fun _ => 0⟩ =
              .ok x ∧
            x.stopped = false ∧ out.1.eval = x.eval ∧ out.1.move = x.best_move ∧
            out.2.2 = { x.state.store small_game
                ⟨out.1.eval, out.1.move, to_int8 (1 : Nat), EXACT⟩ (1 : Nat) with
              finished := true } ∧
            (Reversible small_game →
              x.state.board =
                (⟨⟨0, 0, Transposition_Table.new, false⟩, fun _ => 0⟩ : Thread (Fin 4)).board) ∧
            (has_room x.state.tt (small_game.hashKey x.state.board)
                ⟨out.1.eval, out.1.move, to_int8 (1 : Nat), EXACT⟩ (1 : Nat) →
              root_entry_found small_game 1 out.1 out.2.2.board out.2.2.tt)) :=
  ⟨⟨by decide, by decide⟩,
    ⟨by decide, by decide, by decide,
      (root_stores_exact small_game true true 4 MIN_EVAL MAX_EVAL 1 ⟨0, NO_MOVE, 0, 0⟩ 0).1
        ⟨0, 0, Transposition_Table.new⟩ (by decide)⟩,
    by decide, by decide,
    (root_stores_exact small_game true true 4 Search_Thread.MIN_EVAL Search_Thread.MAX_EVAL 1
      ⟨0, NO_MOVE, 0, 0⟩ 0).2 ⟨⟨0, 0, Transposition_Table.new, false⟩, fun _ => 0⟩ rfl
      (by decide)⟩

/-! ### Claims that the code fails -/

/-- C16 fails on the code.  In `cancel_game`, with the stop flag set for the
whole call and an empty table, `pv_search(-10, 0, 2)`, `nega_max(-10, 0, 2)`
and `null_window_search(0, 2)` at board 0 (hash key 1) each store an entry
for board 0 at depth 2: the search of board 1 is cancelled after its first
move and returns 0, the node takes `-0 >= beta` as a beta cutoff, leaves its
loop by `break` before `if (finished) return eval;` is reached, and calls
`emplace` with a LOWER_BOUND of eval 0, although the depth-2 value of board 0
is -50 (which the same call returns when the flag is clear).  A node without
legal move (board 2, at depth 1) never reaches the test of the flag either
and stores its UPPER_BOUND entry. -/
theorem cancelled_search_writes_table :
    Transposition_Table.new.contains (cancel_game.hashKey 0) 2 = false ∧
      negamax_value cancel_game true 2 2 (0 : Fin 4) = -50 ∧
      thread_value (Search_Thread.pv_search cancel_game true 2 2 (-10) 0
        ⟨⟨0, 0, Transposition_Table.new, false⟩, fun _ => 0⟩) = some (-50) ∧
      (thread_value (Search_Thread.pv_search cancel_game true 2 2 (-10) 0
          ⟨⟨0, 0, Transposition_Table.new, true⟩, fun _ => 0⟩) = some 0 ∧
        (thread_table (Search_Thread.pv_search cancel_game true 2 2 (-10) 0
          ⟨⟨0, 0, Transposition_Table.new, true⟩, fun _ => 0⟩)).contains
            (cancel_game.hashKey 0) 2 = true ∧
        (thread_table (Search_Thread.pv_search cancel_game true 2 2 (-10) 0
          ⟨⟨0, 0, Transposition_Table.new, true⟩, fun _ => 0⟩)).at_ (cancel_game.hashKey 0) 2 =
          ⟨0, 1, 2, LOWER_BOUND⟩) ∧
      (thread_table (Search_Thread.nega_max cancel_game true 2 2 (-10) 0
        ⟨⟨0, 0, Transposition_Table.new, true⟩, fun _ => 0⟩)).at_ (cancel_game.hashKey 0) 2 =
        ⟨0, 1, 2, LOWER_BOUND⟩ ∧
      (thread_table (Search_Thread.null_window_search cancel_game true 2 2 0
        ⟨⟨0, 0, Transposition_Table.new, true⟩, fun _ => 0⟩)).at_ (cancel_game.hashKey 0) 2 =
        ⟨0, 1, 2, LOWER_BOUND⟩ ∧
      cancel_game.legalmoves_ALL 2 = [] ∧
      (thread_table (Search_Thread.pv_search cancel_game true 2 1 (-10) 0
        ⟨⟨2, 0, Transposition_Table.new, true⟩, fun _ => 0⟩)).at_ (cancel_game.hashKey 2) 1 =
        ⟨Search_Thread.MIN_EVAL, NO_MOVE, 1, UPPER_BOUND⟩ := by
  decide

/-- C18 fails on the code.  In `mated_game` board 0 has the legal move 1, but
`root_max` at depth 3 with the full window on an empty table publishes
`NO_MOVE`, in the sequential searcher and in `Search_Thread` (stop flag
clear), with and without `PV_Search`: the only move leads to a position
whose reply leaves a position without legal move, so its score is
`MIN_EVAL`, which is not greater than the initial `eval = MIN_EVAL`, and
`best_move` keeps its initial value. -/
theorem root_publishes_no_move :
    mated_game.legalmoves_ALL 0 = [1] ∧
      Transposition_Table.new.contains (mated_game.hashKey 0) 3 = false ∧
      published (Search.root_max mated_game true true 2 MIN_EVAL MAX_EVAL 3 ⟨0, 9, 9, 9⟩
        ⟨0, 0, Transposition_Table.new⟩) = some ⟨0, NO_MOVE, MIN_EVAL, 3⟩ ∧
      published (Search.root_max mated_game true false 2 MIN_EVAL MAX_EVAL 3 ⟨0, 9, 9, 9⟩
        ⟨0, 0, Transposition_Table.new⟩) = some ⟨0, NO_MOVE, MIN_EVAL, 3⟩ ∧
      thread_root_outcome (Search_Thread.root_max mated_game true true 2 Search_Thread.MIN_EVAL
        Search_Thread.MAX_EVAL 3 ⟨0, 9, 9, 9⟩ 0
        ⟨⟨0, 0, Transposition_Table.new, false⟩, fun _ => 0⟩) =
        some (⟨0, NO_MOVE, Search_Thread.MIN_EVAL, 3⟩, 0, true) ∧
      thread_root_outcome (Search_Thread.root_max mated_game true false 2 Search_Thread.MIN_EVAL
        Search_Thread.MAX_EVAL 3 ⟨0, 9, 9, 9⟩ 0
        ⟨⟨0, 0, Transposition_Table.new, false⟩, fun _ => 0⟩) =
        some (⟨0, NO_MOVE, Search_Thread.MIN_EVAL, 3⟩, 0, true) := by
  decide

/-! ### Positions without legal moves -/

theorem new_contains (k : Nat) (d : Int) :
    Transposition_Table.new.contains k d = decide (0 = k) := by
  unfold Transposition_Table.contains Transposition_Table.new Bucket.zero entries_per_bucket
  simp only [List.replicate, contains_entries, Entry.zero]
  by_cases h : 0 = k <;> simp [h]

theorem new_at (k : Nat) (d : Int) : Transposition_Table.new.at_ k d = TT_Info.zero := by
  unfold Transposition_Table.at_ Transposition_Table.new Bucket.zero entries_per_bucket
  simp only [List.replicate, at_entries, Entry.zero]
  by_cases h : 0 = k <;> simp [h]

theorem tt_move_first_nil (m : Move) : tt_move_first [] m = [] := by
  unfold tt_move_first
  simp [Movelist_find]

/-- On the empty table the probe with the full window causes no cutoff. -/
theorem tt_probe_new_full_window {Board : Type} (C : Chess Board) (b : Board) (nodes : Nat)
    (depth : Int) :
    ((⟨b, nodes, Transposition_Table.new⟩ : Search Board).tt_probe C NO_MOVE MIN_EVAL MAX_EVAL
      depth).cutoff = false := by
  unfold Search.tt_probe
  simp only [new_at, new_contains]
  by_cases h : 0 = C.hashKey b
  · simp [h, TT_Info.zero, MIN_EVAL, MAX_EVAL]
  · simp [h]

/-- C17: for every position without legal move and every depth `d >= 1`,
`root_max` of the sequential searcher, called with the full window on an
empty table, returns and publishes eval `MIN_EVAL = INT32_MIN / 2` and move
`NO_MOVE`, whatever the static evaluation; `Search_Thread::root_max` with the
stop flag clear publishes its `MIN_EVAL` and `NO_MOVE`; and at such a node
(hash key not 0, the mark of an empty slot) `null_window_search`,
`pv_search` and `nega_max` return `MIN_EVAL` for every window, after storing
it as an UPPER_BOUND without move. -/
theorem no_legal_move_scores_minimum {Board : Type} (C : Chess Board)
    (Q_SEARCH PV_Search : Bool) (fuel : Nat) (d : Nat) (hd : 1 ≤ d) (b : Board)
    (hm : C.legalmoves_ALL b = []) (nodes : Nat) (result : Search_Result) :
    MIN_EVAL = INT32_MIN / 2 ∧
      Search.root_max C Q_SEARCH PV_Search fuel MIN_EVAL MAX_EVAL d result
          ⟨b, nodes, Transposition_Table.new⟩ =
        some (⟨0, NO_MOVE, MIN_EVAL, to_uint16 d⟩, ⟨0, NO_MOVE, MIN_EVAL, to_uint16 d⟩,
          (⟨b, 0, Transposition_Table.new⟩ : Search Board).store C
            ⟨MIN_EVAL, NO_MOVE, to_int8 d, EXACT⟩ d) ∧
      (∀ (total : Nat) (mt : Nat → Nat),
        thread_root_outcome (Search_Thread.root_max C Q_SEARCH PV_Search fuel
          Search_Thread.MIN_EVAL Search_Thread.MAX_EVAL d result total
          ⟨⟨b, nodes, Transposition_Table.new, false⟩, mt⟩) =
          some
            ({ result with
                move := NO_MOVE, eval := Search_Thread.MIN_EVAL, depth := to_uint16 d },
              total % 2 ^ 64, true)) ∧
      (C.hashKey b ≠ 0 → ∀ alpha beta : Int,
        Search.null_window_search C Q_SEARCH fuel d beta ⟨b, nodes, Transposition_Table.new⟩ =
            some (MIN_EVAL, (⟨b, nodes, Transposition_Table.new⟩ : Search Board).store C
              ⟨MIN_EVAL, NO_MOVE, to_int8 d, UPPER_BOUND⟩ d) ∧
          Search.pv_search C Q_SEARCH fuel d alpha beta ⟨b, nodes, Transposition_Table.new⟩ =
            some (MIN_EVAL, (⟨b, nodes, Transposition_Table.new⟩ : Search Board).store C
              ⟨MIN_EVAL, NO_MOVE, to_int8 d, UPPER_BOUND⟩ d) ∧
          Search.nega_max C Q_SEARCH fuel d alpha beta ⟨b, nodes, Transposition_Table.new⟩ =
            some (MIN_EVAL, (⟨b, nodes, Transposition_Table.new⟩ : Search Board).store C
              ⟨MIN_EVAL, NO_MOVE, to_int8 d, UPPER_BOUND⟩ d)) := by
  refine ⟨by decide, ?_, ?_, ?_⟩
  · unfold Search.root_max
    simp only [tt_probe_new_full_window C b 0 d, Bool.false_eq_true, if_false, hm,
      tt_move_first_nil, root_max_loop, Search.store]
  · intro total mt
    have hc : ((⟨⟨b, 0, Transposition_Table.new, false⟩, mt⟩ :
        Thread Board).toSearch_Thread.tt_probe C NO_MOVE Search_Thread.MIN_EVAL
        Search_Thread.MAX_EVAL d).cutoff = false := by
      rw [search_thread_tt_probe_eq]
      unfold Search.tt_probe
      simp only [new_at, new_contains]
      by_cases h : 0 = C.hashKey b
      · simp [h, TT_Info.zero, Search_Thread.MIN_EVAL, Search_Thread.MAX_EVAL]
      · simp [h]
    rw [thread_root_max_eq C Q_SEARCH PV_Search fuel _ _ d result total _ hc]
    unfold thread_root_moves Thread.generate_shuffled_moves
    simp only [hm, List.length_nil, shuffle_from, tt_move_first_nil,
      Search_Thread.root_max_loop, except_bind_ok]
    simp [thread_root_outcome, Thread.store]
  · intro hk alpha beta
    have hc : ∀ nodes : Nat, (⟨b, nodes, Transposition_Table.new⟩ : Search Board).tt.contains
        (C.hashKey (⟨b, nodes, Transposition_Table.new⟩ : Search Board).board) d = false := by
      intro n
      show Transposition_Table.new.contains (C.hashKey b) d = false
      rw [new_contains]
      simp [Ne.symm hk]
    refine ⟨?_, ?_, ?_⟩
    · rw [null_window_search_eq_node]
      unfold null_window_search_node
      simp only [tt_probe_miss C _ NO_MOVE _ _ d (hc nodes), Bool.false_eq_true, if_false, hm,
        tt_move_first_nil, null_window_search_loop]
    · obtain ⟨k, rfl⟩ : ∃ k, d = k + 1 := ⟨d - 1, by omega⟩
      rw [pv_search_succ]
      unfold pv_search_node
      simp only [tt_probe_miss C _ NO_MOVE _ _ _ (hc nodes), Bool.false_eq_true, if_false, hm,
        tt_move_first_nil, pv_search_loop]
    · rw [nega_max_eq_node]
      unfold nega_max_node
      simp only [tt_probe_miss C _ NO_MOVE _ _ d (hc nodes), Bool.false_eq_true, if_false, hm,
        nega_max_loop]

/-- Witness for C17: board 2 of `small_game` has no legal move, the static
evaluation -3 and the hash key 3; `root_max` at depth 3 publishes `MIN_EVAL`
and `NO_MOVE`, and `pv_search(-5, 5, 3)` returns `MIN_EVAL`. -/
theorem no_legal_move_scores_minimum_witness :
    (1 ≤ 3) ∧ small_game.legalmoves_ALL 2 = [] ∧ small_game.eval 2 = -3 ∧
      Search.root_max small_game true true 4 MIN_EVAL MAX_EVAL 3 ⟨0, 7, 7, 7⟩
          ⟨2, 5, Transposition_Table.new⟩ =
        some (⟨0, NO_MOVE, MIN_EVAL, to_uint16 (3 : Nat)⟩,
          ⟨0, NO_MOVE, MIN_EVAL, to_uint16 (3 : Nat)⟩,
          (⟨2, 0, Transposition_Table.new⟩ : Search (Fin 4)).store small_game
            ⟨MIN_EVAL, NO_MOVE, to_int8 (3 : Nat), EXACT⟩ (3 : Nat)) ∧
      small_game.hashKey 2 ≠ 0 ∧
      Search.pv_search small_game true 4 3 (-5) 5 ⟨2, 5, Transposition_Table.new⟩ =
        some (MIN_EVAL, (⟨2, 5, Transposition_Table.new⟩ : Search (Fin 4)).store small_game
          ⟨MIN_EVAL, NO_MOVE, to_int8 (3 : Nat), UPPER_BOUND⟩ (3 : Nat)) :=
  ⟨by decide, by decide, by decide,
    (no_legal_move_scores_minimum small_game true true 4 3 (by decide) 2 (by decide) 5
      ⟨0, 7, 7, 7⟩).2.1,
    by decide,
    ((no_legal_move_scores_minimum small_game true true 4 3 (by decide) 2 (by decide) 5
      ⟨0, 7, 7, 7⟩).2.2.2 (by decide) (-5) 5).2.1⟩

theorem in_range_outcome_window {Board : Type} (C : Chess Board)
    (hev : ∀ b, C.eval b ≤ Search_Thread.MAX_EVAL)
    (f : Int → Int → Thread Board → Except Fault (Int × Thread Board))
    (hp : window_post (fun s : Thread Board => table_in_range s.tt) thread_in_range f)
    (hs : window_safe f) (alpha beta : Int) (s : Thread Board) (ha : thread_in_range alpha)
    (hb : thread_in_range beta) (ht : table_in_range s.tt) : in_range_outcome (f alpha beta s) :=
  have _ := hev
  ⟨hs alpha beta s ha hb ht, fun r hr => hp alpha beta s r ht hr⟩

/-- C19: in `Search_Thread`, with `MAX_EVAL = INT32_MAX / 2` and
`MIN_EVAL = -MAX_EVAL`: if the static evaluator never returns more than
`MAX_EVAL`, every table entry has its eval in `[MIN_EVAL, MAX_EVAL]` and the
window passed in lies in `[MIN_EVAL, MAX_EVAL]`, then in `q_search`,
`nw_q_search`, `null_window_search`, `pv_search` and `nega_max` no negation
and no `+1` or `-1` of a score or bound leaves the signed 32-bit range
(whatever the quiescence fuel), every value returned lies in
`[MIN_EVAL, MAX_EVAL]`, and the evals of the table stay in that range. -/
theorem eval_range_overflow_freedom {Board : Type} (C : Chess Board) (Q_SEARCH : Bool)
    (fuel d : Nat) (hev : ∀ b, C.eval b ≤ Search_Thread.MAX_EVAL) (s : Thread Board)
    (ht : table_in_range s.tt) (alpha beta : Int) (ha : thread_in_range alpha)
    (hb : thread_in_range beta) :
    (Search_Thread.MAX_EVAL = INT32_MAX / 2 ∧
        Search_Thread.MIN_EVAL = -Search_Thread.MAX_EVAL) ∧
      in_range_outcome (Search_Thread.q_search C Q_SEARCH fuel alpha beta s) ∧
      in_range_outcome (Search_Thread.nw_q_search C Q_SEARCH fuel beta s) ∧
      in_range_outcome (Search_Thread.null_window_search C Q_SEARCH fuel d beta s) ∧
      in_range_outcome (Search_Thread.pv_search C Q_SEARCH fuel d alpha beta s) ∧
      in_range_outcome (Search_Thread.nega_max C Q_SEARCH fuel d alpha beta s) := by
  have hst := stable_in_range C hev
  have hbs : scout_range beta := by
    unfold thread_in_range at hb
    unfold scout_range
    omega
  refine ⟨by decide, ?_, ?_, ?_, ?_, ?_⟩
  · exact in_range_outcome_window C hev _ (thread_q_search_post C _ _ hst Q_SEARCH fuel)
      (thread_q_search_safe C hev Q_SEARCH fuel) alpha beta s ha hb ht
  · exact ⟨thread_nw_q_search_safe C hev Q_SEARCH fuel beta s hbs ht,
      fun r hr => thread_nw_q_search_post C _ _ hst Q_SEARCH fuel beta s r ht hr⟩
  · exact ⟨thread_null_window_search_safe C hev Q_SEARCH fuel d beta s hbs ht,
      fun r hr => thread_null_window_search_post C _ _ hst Q_SEARCH fuel d beta s r ht hr⟩
  · exact in_range_outcome_window C hev _ (thread_pv_search_post C _ _ hst Q_SEARCH fuel d)
      (thread_pv_search_safe C hev Q_SEARCH fuel d) alpha beta s ha hb ht
  · exact in_range_outcome_window C hev _ (thread_nega_max_post C _ _ hst Q_SEARCH fuel d)
      (thread_nega_max_safe C hev Q_SEARCH fuel d) alpha beta s ha hb ht

/-- Witness for C19: `small_game` (static evaluations 0, 5, -3, 7), board 0,
the empty table, the full window and depth 2; `pv_search` returns
`MAX_EVAL`, the score of the move to board 2, which has no legal move. -/
theorem eval_range_overflow_freedom_witness :
    (∀ b, small_game.eval b ≤ Search_Thread.MAX_EVAL) ∧
      thread_in_range Search_Thread.MIN_EVAL ∧ thread_in_range Search_Thread.MAX_EVAL ∧
      thread_value (Search_Thread.pv_search small_game true 4 2 Search_Thread.MIN_EVAL
        Search_Thread.MAX_EVAL ⟨⟨0, 0, Transposition_Table.new, false⟩, fun _ => 0⟩) =
        some Search_Thread.MAX_EVAL ∧
      in_range_outcome (Search_Thread.pv_search small_game true 4 2 Search_Thread.MIN_EVAL
        Search_Thread.MAX_EVAL ⟨⟨0, 0, Transposition_Table.new, false⟩, fun _ => 0⟩) :=
  ⟨by decide, by decide, by decide, by decide,
    (eval_range_overflow_freedom small_game true 4 2 (by decide)
      ⟨⟨0, 0, Transposition_Table.new, false⟩, fun _ => 0⟩ table_in_range_new
      Search_Thread.MIN_EVAL Search_Thread.MAX_EVAL (by decide) (by decide)).2.2.2.2.1⟩


/-! ## The null-window quiescence search and the unit window -/

/-- The capture loop of `q_search`, entered with `alpha = beta - 1`, runs as
the capture loop of `nw_q_search`, when the child searches agree on the unit
window. -/
theorem q_search_loop_unit_window {Board : Type} (C : Chess Board)
    (child : Int → Int → Search Board → Option (Int × Search Board))
    (scout : Int → Search Board → Option (Int × Search Board)) (beta : Int)
    (hc : ∀ s, scout (-beta + 1) s = child (-beta) (-(beta - 1)) s)
    (moves : List Move) (q_eval : Int) (s : Search Board) :
    nw_q_search_loop C scout beta moves q_eval s =
      q_search_loop C child beta moves q_eval (beta - 1) s := by
  induction moves generalizing q_eval s with
  | nil => rfl
  | cons capture rest ih =>
    unfold nw_q_search_loop q_search_loop
    rw [hc]
    cases child (-beta) (-(beta - 1)) (s.make C capture) with
    | none => rfl
    | some x =>
      obtain ⟨r, s1⟩ := x
      simp only []
      by_cases h1 : -r > q_eval
      · rw [if_pos h1, if_pos h1]
        by_cases h2 : -r ≥ beta
        · rw [if_pos h2, if_pos h2]
        · rw [if_neg h2, if_neg h2]
          have h3 : ¬ (-r > beta - 1) := by omega
          rw [if_neg h3]
          exact ih _ _
      · rw [if_neg h1, if_neg h1]
        exact ih _ _

/-- C24.  The null-window quiescence search is the quiescence search on the
unit window: for every position, searcher state and bound `beta`,
`nw_q_search(beta)` and `q_search(beta - 1, beta)` return the same value and
leave the same state, so the node counter has advanced by the same amount;
with a recursion bound that one of them exceeds, the other exceeds it too. -/
theorem nw_q_search_unit_window {Board : Type} (C : Chess Board) (Q_SEARCH : Bool)
    (fuel : Nat) (beta : Int) (s : Search Board) :
    Search.nw_q_search C Q_SEARCH fuel beta s =
      Search.q_search C Q_SEARCH fuel (beta - 1) beta s := by
  induction fuel generalizing beta s with
  | zero => rfl
  | succ fuel ih =>
    unfold Search.nw_q_search Search.q_search
    simp only []
    by_cases hq : (!Q_SEARCH) = true
    · rw [if_pos hq, if_pos hq]
    · rw [if_neg hq, if_neg hq]
      by_cases hb : C.eval s.board ≥ beta
      · rw [if_pos hb, if_pos hb]
      · rw [if_neg hb, if_neg hb]
        have ha : ¬ (C.eval s.board > beta - 1) := by omega
        rw [if_neg ha]
        apply q_search_loop_unit_window
        intro s1
        rw [ih (-beta + 1) s1]
        have e : -beta + 1 - 1 = -beta := by omega
        have e2 : -(beta - 1) = -beta + 1 := by omega
        rw [e, e2]

/-! ## A store for a key that the bucket does not hold -/

theorem emplace_swap_length (key : Nat) (value : TT_Info) (es : List Entry) :
    (emplace_swap key value es).length = es.length := by
  induction es generalizing key value with
  | nil => rfl
  | cons e rest ih =>
    unfold emplace_swap
    by_cases hl : e.value.lt value = true
    · simp only [hl, if_true, List.length_cons, ih]
    · simp only [hl, Bool.false_eq_true, if_false, List.length_cons, ih]

/-- The pair left in hand is the new pair exactly when no swap took place,
for a key that the bucket does not hold. -/
theorem emplace_pending_eq_new (key : Nat) (value : TT_Info) (es : List Entry)
    (hk : contains_entries key es = false) :
    emplace_pending key value es = ⟨key, value⟩ ↔ ∀ e ∈ es, e.value.lt value = false := by
  induction es with
  | nil => simp [emplace_pending]
  | cons e rest ih =>
    have hne : ∀ x ∈ e :: rest, x.key ≠ key := by
      intro x hx hxk
      have : contains_entries key (e :: rest) = true :=
        (contains_entries_iff key _).mpr ⟨x, hx, hxk⟩
      rw [hk] at this
      exact absurd this (by simp)
    have hrest : contains_entries key rest = false := by
      cases hc : contains_entries key rest with
      | false => rfl
      | true =>
        obtain ⟨x, hx, hxk⟩ := (contains_entries_iff key _).mp hc
        exact absurd hxk (hne x (List.mem_cons_of_mem _ hx))
    unfold emplace_pending
    by_cases hl : e.value.lt value = true
    · simp only [hl, if_true]
      constructor
      · intro h
        exfalso
        rcases emplace_pending_mem e.key e.value rest with h1 | h1
        · rw [h1] at h
          exact hne e (List.mem_cons_self _ _) (congrArg Entry.key h)
        · rw [h] at h1
          exact hne _ (List.mem_cons_of_mem _ h1) rfl
      · intro h
        have := h e (List.mem_cons_self _ _)
        rw [hl] at this
        exact absurd this (by simp)
    · simp only [hl, Bool.false_eq_true, if_false]
      rw [ih hrest]
      constructor
      · intro h x hx
        rcases List.mem_cons.mp hx with rfl | hx
        · simpa using hl
        · exact h x hx
      · intro h x hx
        exact h x (List.mem_cons_of_mem _ hx)

/-- C23.  A store for a key that the addressed bucket does not hold drops a
minimum: with `removed` the pair that the second loop of `emplace` is left
holding, `removed` is one of the old pairs of the bucket or the new pair, the
bucket keeps its number of slots, its pairs after the call are (as a
multiset) the old pairs plus the new pair with `removed` taken out once, none
of these five pairs is strictly less than `removed` under `TT_Info::operator<`,
and `removed` is the new pair exactly when no slot's info is strictly less
than the new info. -/
theorem cross_key_store_drops_minimum (t : Transposition_Table) (key : Nat) (value : TT_Info)
    (depth : Int) (hk : t.contains key depth = false) :
    emplace_pending key value (t.table (pos key depth)).entries ∈
        (⟨key, value⟩ :: (t.table (pos key depth)).entries : List Entry)
      ∧ (((t.emplace key value depth).table (pos key depth)).entries).length =
        ((t.table (pos key depth)).entries).length
      ∧ ((((t.emplace key value depth).table (pos key depth)).entries : List Entry) :
          Multiset Entry) =
        (((⟨key, value⟩ :: (t.table (pos key depth)).entries : List Entry) :
          Multiset Entry).erase (emplace_pending key value (t.table (pos key depth)).entries))
      ∧ (∀ y ∈ (⟨key, value⟩ :: (t.table (pos key depth)).entries : List Entry),
          y.value.lt (emplace_pending key value (t.table (pos key depth)).entries).value = false)
      ∧ (emplace_pending key value (t.table (pos key depth)).entries = ⟨key, value⟩ ↔
          ∀ e ∈ (t.table (pos key depth)).entries, e.value.lt value = false) := by
  have hk1 : contains_entries key (t.table (pos key depth)).entries = false := hk
  have he : ((t.emplace key value depth).table (pos key depth)).entries =
      emplace_swap key value (t.table (pos key depth)).entries := by
    rw [emplace_same]
    unfold emplace_entries
    rw [(emplace_existing_none key value _).mpr hk1]
  generalize (t.table (pos key depth)).entries = es at hk1 he
  rw [he]
  have hp := emplace_swap_perm key value es
  refine ⟨?_, emplace_swap_length key value es, ?_, ?_, emplace_pending_eq_new key value es hk1⟩
  · rcases emplace_pending_mem key value es with h | h
    · rw [h]; exact List.mem_cons_self _ _
    · exact List.mem_cons_of_mem _ h
  · have h1 : ((⟨key, value⟩ :: es : List Entry) : Multiset Entry) =
        ((emplace_pending key value es :: emplace_swap key value es : List Entry) :
          Multiset Entry) :=
      Quotient.sound (hp.symm.trans (List.perm_append_singleton _ _))
    rw [h1, ← Multiset.cons_coe, Multiset.erase_cons_head]
  · intro y hy
    have hy1 : y ∈ emplace_swap key value es ++ [emplace_pending key value es] :=
      hp.symm.subset hy
    rcases List.mem_append.mp hy1 with h | h
    · exact emplace_swap_minimal key value es y h
    · rw [List.mem_singleton.mp h]
      exact lt_irrefl _

/-- Witness for `cross_key_store_drops_minimum`: key 5 is stored into the
full bucket of `full_bucket_table`, which does not hold it. -/
theorem cross_key_store_drops_minimum_witness :
    full_bucket_table.contains 5 1 = false
      ∧ (emplace_pending 5 ⟨7, 9, 1, EXACT⟩ (full_bucket_table.table (pos 5 1)).entries ∈
          (⟨5, ⟨7, 9, 1, EXACT⟩⟩ :: (full_bucket_table.table (pos 5 1)).entries : List Entry)
        ∧ (((full_bucket_table.emplace 5 ⟨7, 9, 1, EXACT⟩ 1).table (pos 5 1)).entries).length =
          ((full_bucket_table.table (pos 5 1)).entries).length
        ∧ ((((full_bucket_table.emplace 5 ⟨7, 9, 1, EXACT⟩ 1).table (pos 5 1)).entries :
            List Entry) : Multiset Entry) =
          (((⟨5, ⟨7, 9, 1, EXACT⟩⟩ :: (full_bucket_table.table (pos 5 1)).entries : List Entry) :
            Multiset Entry).erase
              (emplace_pending 5 ⟨7, 9, 1, EXACT⟩ (full_bucket_table.table (pos 5 1)).entries))
        ∧ (∀ y ∈ (⟨5, ⟨7, 9, 1, EXACT⟩⟩ :: (full_bucket_table.table (pos 5 1)).entries :
              List Entry),
            y.value.lt (emplace_pending 5 ⟨7, 9, 1, EXACT⟩
              (full_bucket_table.table (pos 5 1)).entries).value = false)
        ∧ (emplace_pending 5 ⟨7, 9, 1, EXACT⟩ (full_bucket_table.table (pos 5 1)).entries =
            ⟨5, ⟨7, 9, 1, EXACT⟩⟩ ↔
            ∀ e ∈ (full_bucket_table.table (pos 5 1)).entries,
              e.value.lt ⟨7, 9, 1, EXACT⟩ = false)) :=
  ⟨by decide, cross_key_store_drops_minimum full_bucket_table 5 ⟨7, 9, 1, EXACT⟩ 1 (by decide)⟩

/-! ## Keys are unique within a bucket -/

theorem emplace_existing_keys (key : Nat) (value : TT_Info) (es es1 : List Entry)
    (h : emplace_existing key value es = some es1) :
    es1.map Entry.key = es.map Entry.key := by
  induction es generalizing es1 with
  | nil => exact absurd h (by simp [emplace_existing])
  | cons e rest ih =>
    unfold emplace_existing at h
    by_cases hk : e.key = key
    · rw [if_pos hk] at h
      simp only [Option.some.injEq] at h
      subst h
      rfl
    · rw [if_neg hk] at h
      cases hr : emplace_existing key value rest with
      | none => rw [hr] at h; exact absurd h (by simp)
      | some r =>
        rw [hr] at h
        simp only [Option.map_some', Option.some.injEq] at h
        subst h
        simp only [List.map_cons, ih r hr]

theorem distinct_keys_map (es : List Entry) :
    distinct_keys es ↔ List.Pairwise (fun a b : Nat => a = b → a = 0) (es.map Entry.key) := by
  unfold distinct_keys
  rw [List.pairwise_map]

/-- A call of `emplace` keeps the keys of a bucket distinct. -/
theorem distinct_keys_emplace (key : Nat) (value : TT_Info) (es : List Entry)
    (h : distinct_keys es) : distinct_keys (emplace_entries key value es) := by
  unfold emplace_entries
  cases he : emplace_existing key value es with
  | some es1 =>
    simp only []
    rw [distinct_keys_map, emplace_existing_keys key value es es1 he, ← distinct_keys_map]
    exact h
  | none =>
    simp only []
    have hc := (emplace_existing_none key value es).mp he
    have hne : ∀ x ∈ es, x.key ≠ key := by
      intro x hx hxk
      have : contains_entries key es = true := (contains_entries_iff key _).mpr ⟨x, hx, hxk⟩
      rw [hc] at this
      exact absurd this (by simp)
    have h1 : distinct_keys (⟨key, value⟩ :: es) := by
      unfold distinct_keys
      rw [List.pairwise_cons]
      exact ⟨fun x hx hk => absurd hk.symm (hne x hx), h⟩
    have h2 : distinct_keys (emplace_swap key value es ++ [emplace_pending key value es]) := by
      unfold distinct_keys at h1 ⊢
      refine ((emplace_swap_perm key value es).pairwise_iff ?_).mpr h1
      intro a b hab hba
      rw [hba]
      exact hab hba.symm
    unfold distinct_keys at h2 ⊢
    exact (List.pairwise_append.mp h2).1

theorem distinct_keys_run (calls : List Emplace_Call) :
    ∀ t : Transposition_Table, (∀ i, distinct_keys (t.table i).entries) →
      ∀ i, distinct_keys ((run_emplace t calls).table i).entries := by
  induction calls with
  | nil => intro t h; exact h
  | cons c rest ih =>
    intro t h
    apply ih
    intro i
    by_cases hi : i = pos c.key c.depth
    · subst hi
      rw [emplace_same]
      exact distinct_keys_emplace _ _ _ (h _)
    · rw [emplace_other _ _ _ _ _ hi]
      exact h i

theorem distinct_keys_new (i : Nat) : distinct_keys (Transposition_Table.new.table i).entries := by
  unfold distinct_keys
  simp [Transposition_Table.new, Bucket.zero, entries_per_bucket, Entry.zero, List.replicate]

theorem matching_slots_le_one (key : Nat) (hk : key ≠ 0) (es : List Entry)
    (h : distinct_keys es) : matching_slots key es ≤ 1 := by
  unfold matching_slots
  induction es with
  | nil => simp
  | cons e rest ih =>
    unfold distinct_keys at h
    rw [List.pairwise_cons] at h
    by_cases he : e.key = key
    · have h0 : List.countP (fun entry : Entry => decide (entry.key = key)) rest = 0 := by
        rw [List.countP_eq_zero]
        intro x hx hxk
        have hxk1 : x.key = key := by simpa using hxk
        have := h.1 x hx (by rw [he, hxk1])
        exact hk (he ▸ this)
      rw [List.countP_cons, h0]
      simp [he]
    · rw [List.countP_cons]
      have := ih h.2
      simp only [he, decide_False, Bool.false_eq_true, if_false]
      omega

/-- C25.  Keys are unique within a bucket: in every table reached from the
empty table by calls of `emplace`, no two slots of a bucket hold the same
non-zero key, so for every non-zero key at most one slot of a bucket passes
the test `entry.key == key` of `at` and `contains`. -/
theorem bucket_keys_unique (calls : List Emplace_Call) (i : Nat) :
    distinct_keys ((run_emplace Transposition_Table.new calls).table i).entries
      ∧ ∀ key : Nat, key ≠ 0 →
        matching_slots key ((run_emplace Transposition_Table.new calls).table i).entries ≤ 1 := by
  have h := distinct_keys_run calls Transposition_Table.new distinct_keys_new i
  exact ⟨h, fun key hk => matching_slots_le_one key hk _ h⟩

/-! ## Extraction of the principal variation -/

/-- C21.  `print_pv` terminates and writes the stored line: for every table,
position and depth (positive or not), as soon as the bound on the loop
exceeds `max(depth, 0)` the loop ends with a list of written moves; this list
has at most `max(depth, 0)` moves, its move number `i` (counted from 0) is
the move of the entry that `at` returns for the position reached by the moves
before it, probed at `depth - i`, where `contains` holds, and after the last
written move either `max(depth, 0)` moves are written or the probe of the
position reached at the remaining depth misses. -/
theorem print_pv_extraction {Board : Type} (C : Chess Board) (t : Transposition_Table)
    (fuel : Nat) (board : Board) (depth : Int) (hf : (max depth 0).toNat < fuel) :
    ∃ written : List Move,
      t.print_pv C fuel board depth = some written
        ∧ written.length ≤ (max depth 0).toNat
        ∧ (∀ i : Nat, i < written.length →
            t.contains (C.hashKey (pv_position C board written i)) (depth - i) = true
              ∧ written.get? i =
                some (t.at_ (C.hashKey (pv_position C board written i)) (depth - i)).move)
        ∧ (written.length = (max depth 0).toNat
            ∨ t.contains (C.hashKey (pv_position C board written written.length))
                (depth - written.length) = false) := by
  induction fuel generalizing board depth with
  | zero => exact absurd hf (Nat.not_lt_zero _)
  | succ fuel ih =>
    unfold Transposition_Table.print_pv
    by_cases hd : depth > 0
    · rw [if_pos hd]
      by_cases hc : t.contains (C.hashKey board) depth = true
      · rw [if_pos hc]
        have hf1 : (max (depth - 1) 0).toNat < fuel := by omega
        obtain ⟨l, hl, hlen, hidx, hstop⟩ :=
          ih (C.makeMove board (t.at_ (C.hashKey board) depth).move) (depth - 1) hf1
        refine ⟨(t.at_ (C.hashKey board) depth).move :: l, ?_, ?_, ?_, ?_⟩
        · simp only [hl, Option.map_some']
        · simp only [List.length_cons]
          omega
        · intro i hi
          cases i with
          | zero =>
            simp only [pv_position, List.take_zero, List.foldl_nil, Nat.cast_zero, sub_zero,
              List.get?_cons_zero]
            exact ⟨hc, trivial⟩
          | succ k =>
            have hk : k < l.length := by
              simp only [List.length_cons] at hi
              omega
            have e : depth - ((k + 1 : Nat) : Int) = depth - 1 - (k : Int) := by
              push_cast
              omega
            have := hidx k hk
            simp only [pv_position, List.take_succ_cons, List.foldl_cons, List.get?_cons_succ]
              at this ⊢
            rw [e]
            exact this
        · rcases hstop with h | h
          · left
            simp only [List.length_cons]
            omega
          · right
            have e : depth - ((l.length + 1 : Nat) : Int) = depth - 1 - (l.length : Int) := by
              push_cast
              omega
            simp only [pv_position, List.length_cons, List.take_succ_cons, List.foldl_cons]
              at h ⊢
            rw [e]
            exact h
      · rw [if_neg hc]
        refine ⟨[], rfl, Nat.zero_le _, ?_, ?_⟩
        · intro i hi
          exact absurd hi (Nat.not_lt_zero _)
        · right
          simp only [pv_position, List.length_nil, List.take_zero, List.foldl_nil, Nat.cast_zero,
            sub_zero]
          simpa using hc
    · rw [if_neg hd]
      refine ⟨[], rfl, Nat.zero_le _, ?_, ?_⟩
      · intro i hi
        exact absurd hi (Nat.not_lt_zero _)
      · left
        simp only [List.length_nil]
        omega

/-- Witness for `print_pv_extraction`: on `pv_table`, from board 0 of
`small_game` at depth 3, the loop writes the moves 1 and 17 and stops at the
probe of board 3 at depth 1, which misses. -/
theorem print_pv_extraction_witness :
    ((max (3 : Int) 0).toNat < 4 ∧ pv_table.print_pv small_game 4 0 3 = some [1, 17])
      ∧ ∃ written : List Move,
        pv_table.print_pv small_game 4 0 3 = some written
          ∧ written.length ≤ (max (3 : Int) 0).toNat
          ∧ (∀ i : Nat, i < written.length →
              pv_table.contains (small_game.hashKey (pv_position small_game 0 written i))
                  ((3 : Int) - i) = true
                ∧ written.get? i =
                  some (pv_table.at_ (small_game.hashKey (pv_position small_game 0 written i))
                    ((3 : Int) - i)).move)
          ∧ (written.length = (max (3 : Int) 0).toNat
              ∨ pv_table.contains
                  (small_game.hashKey (pv_position small_game 0 written written.length))
                  ((3 : Int) - written.length) = false) :=
  ⟨⟨by decide, by decide⟩, print_pv_extraction small_game pv_table 4 0 3 (by decide)⟩

/-! ## The board on exit -/

/-- With a reversible position facility, `Search_Thread::root_max` leaves the
board as it was: on the cutoff of the probe, on the stop flag and at the end
of the move loop. -/
theorem thread_root_max_board {Board : Type} (C : Chess Board) (hr : Reversible C)
    (Q_SEARCH PV_Search : Bool) (fuel : Nat) (alpha beta : Int) (d : Nat)
    (result : Search_Result) (total : Nat) (s : Thread Board)
    (out : Search_Result × Nat × Thread Board)
    (h : Search_Thread.root_max C Q_SEARCH PV_Search fuel alpha beta d result total s = .ok out) :
    out.2.2.board = s.board := by
  cases hc : (({ s with nodes := 0 } : Thread Board).toSearch_Thread.tt_probe C NO_MOVE alpha beta
      d).cutoff with
  | true =>
    unfold Search_Thread.root_max at h
    simp only [hc, if_true] at h
    have h1 : out = (result, total, ({ s with nodes := 0 } : Thread Board)) := by
      cases h; rfl
    rw [h1]
  | false =>
    rw [thread_root_max_eq C Q_SEARCH PV_Search fuel alpha beta d result total s hc] at h
    cases hl : thread_root_moves C Q_SEARCH PV_Search fuel alpha beta d s with
    | error e => rw [hl] at h; exact absurd h (by simp [except_bind_error])
    | ok x =>
      rw [hl] at h
      simp only [except_bind_ok] at h
      have hb := thread_root_moves_board C hr Q_SEARCH PV_Search fuel alpha beta d s x hl
      by_cases hs : x.stopped = true
      · rw [if_pos hs] at h
        cases h
        exact hb
      · rw [if_neg hs] at h
        cases h
        exact hb

/-- C26.  The board is restored on every exit.  If `unmakeMove` undoes
`makeMove` for the legal moves and the legal captures of every board, then
every call of `q_search`, `nw_q_search`, `null_window_search`, `pv_search`,
`nega_max` and `root_max` that returns leaves the board of the searcher as it
was on entry, in the sequential searcher and in `Search_Thread`, with the stop
flag set or clear, for every window, depth and table. -/
theorem board_restored_on_exit {Board : Type} (C : Chess Board) (hr : Reversible C)
    (Q_SEARCH PV_Search : Bool) (fuel depth : Nat) :
    (window_frame (Search.q_search C Q_SEARCH fuel)
        ∧ scout_frame (Search.nw_q_search C Q_SEARCH fuel)
        ∧ scout_frame (Search.null_window_search C Q_SEARCH fuel depth)
        ∧ window_frame (Search.pv_search C Q_SEARCH fuel depth)
        ∧ window_frame (Search.nega_max C Q_SEARCH fuel depth)
        ∧ ∀ (alpha beta : Int) (result : Search_Result) (s : Search Board),
            on_some (Search.root_max C Q_SEARCH PV_Search fuel alpha beta depth result s)
              (fun out => out.2.2.board = s.board))
      ∧ (thread_window_frame (Search_Thread.q_search C Q_SEARCH fuel)
        ∧ thread_scout_frame (Search_Thread.nw_q_search C Q_SEARCH fuel)
        ∧ thread_scout_frame (Search_Thread.null_window_search C Q_SEARCH fuel depth)
        ∧ thread_window_frame (Search_Thread.pv_search C Q_SEARCH fuel depth)
        ∧ thread_window_frame (Search_Thread.nega_max C Q_SEARCH fuel depth)
        ∧ ∀ (alpha beta : Int) (result : Search_Result) (total : Nat) (s : Thread Board),
            on_return
              (Search_Thread.root_max C Q_SEARCH PV_Search fuel alpha beta depth result total s)
              (fun out => out.2.2.board = s.board)) := by
  refine ⟨⟨q_search_board C hr Q_SEARCH fuel, nw_q_search_board C hr Q_SEARCH fuel,
      null_window_search_board C hr Q_SEARCH fuel depth, pv_search_board C hr Q_SEARCH fuel depth,
      nega_max_board C hr Q_SEARCH fuel depth, ?_⟩,
    ⟨thread_q_search_board C hr Q_SEARCH fuel, thread_nw_q_search_board C hr Q_SEARCH fuel,
      thread_null_window_search_board C hr Q_SEARCH fuel depth,
      thread_pv_search_board C hr Q_SEARCH fuel depth,
      thread_nega_max_board C hr Q_SEARCH fuel depth, ?_⟩⟩
  · intro alpha beta result s
    cases h : Search.root_max C Q_SEARCH PV_Search fuel alpha beta depth result s with
    | none => exact trivial
    | some out => exact root_max_board C hr Q_SEARCH PV_Search fuel alpha beta depth result s out h
  · intro alpha beta result total s
    cases h : Search_Thread.root_max C Q_SEARCH PV_Search fuel alpha beta depth result total s with
    | error e => exact trivial
    | ok out =>
      exact thread_root_max_board C hr Q_SEARCH PV_Search fuel alpha beta depth result total s
        out h

/-- Witness for `board_restored_on_exit`: `small_game` is reversible; from
board 0 the sequential `root_max` at depth 2 returns on board 0, a null-window
search that fails high returns on board 0, and `pv_search` of `Search_Thread`
at depth 2 returns on board 0 with the stop flag clear and with the stop flag
set. -/
theorem board_restored_on_exit_witness :
    (Reversible small_game
        ∧ (Search.root_max small_game true true 4 MIN_EVAL MAX_EVAL 2 ⟨0, 0, 0, 0⟩
            ⟨0, 0, Transposition_Table.new⟩).map (fun out => out.2.2.board) = some 0
        ∧ (Search.null_window_search small_game true 4 2 (-100)
            ⟨0, 0, Transposition_Table.new⟩).map (fun out => out.2.board) = some 0
        ∧ (Search_Thread.pv_search small_game true 4 2 Search_Thread.MIN_EVAL
            Search_Thread.MAX_EVAL ⟨⟨0, 0, Transposition_Table.new, false⟩, fun _ => 0⟩).toOption.map
              (fun out => out.2.board) = some 0
        ∧ (Search_Thread.pv_search small_game true 4 2 Search_Thread.MIN_EVAL
            Search_Thread.MAX_EVAL ⟨⟨0, 0, Transposition_Table.new, true⟩, fun _ => 0⟩).toOption.map
              (fun out => out.2.board) = some 0)
      ∧ ((window_frame (Search.q_search small_game true 4)
          ∧ scout_frame (Search.nw_q_search small_game true 4)
          ∧ scout_frame (Search.null_window_search small_game true 4 2)
          ∧ window_frame (Search.pv_search small_game true 4 2)
          ∧ window_frame (Search.nega_max small_game true 4 2)
          ∧ ∀ (alpha beta : Int) (result : Search_Result) (s : Search (Fin 4)),
              on_some (Search.root_max small_game true true 4 alpha beta 2 result s)
                (fun out => out.2.2.board = s.board))
        ∧ (thread_window_frame (Search_Thread.q_search small_game true 4)
          ∧ thread_scout_frame (Search_Thread.nw_q_search small_game true 4)
          ∧ thread_scout_frame (Search_Thread.null_window_search small_game true 4 2)
          ∧ thread_window_frame (Search_Thread.pv_search small_game true 4 2)
          ∧ thread_window_frame (Search_Thread.nega_max small_game true 4 2)
          ∧ ∀ (alpha beta : Int) (result : Search_Result) (total : Nat) (s : Thread (Fin 4)),
              on_return
                (Search_Thread.root_max small_game true true 4 alpha beta 2 result total s)
                (fun out => out.2.2.board = s.board))) :=
  ⟨⟨⟨by decide, by decide⟩, by decide, by decide, by decide, by decide⟩,
    board_restored_on_exit small_game ⟨by decide, by decide⟩ true true 4 2⟩


end GametreeSearch
